import Mathlib

/-!
# A shallow embedding of the `mmm` interpreter

The Go packages `token`, `lexer`, `ast`, `parser`, `entity` and `eval` are
translated function by function.

* A Go `string` is the list of its bytes; a byte is written as the `Char` with
  that code, so that byte literals of the source (`'='`, `'"'`, ...) stay
  readable.  `NUL` is the byte `0`.
* A Go run-time panic (index out of range, nil dereference, integer division
  by zero, comparison of uncomparable values) is the outcome `Res.panic`.
* Loops and recursion that Lean cannot see terminate carry a fuel counter;
  running out of it is the outcome `Res.outOfFuel`, never a silent result.
* `int64` values are `Int`s kept in range by `wrap64`.
* The `uint` positions of the lexer are natural numbers; `ulexer` is the lexer
  with the positions reduced modulo `2 ^ bits`, for the calls of `NextToken`
  far beyond the end of the input.
* The call `fmt.Sprintf(format)` without operands is the function
  `fmt.Sprintf` of the model; where the source passes operands to `%s` the
  message is written out.
* The maps behind `entity.Env` live in an explicit heap of stores, because
  they are shared by reference between environments and closures.
-/

namespace Mmm

/-- A Go string: its bytes in order. -/
abbrev Str := List Char

/-- The zero byte, which the lexer uses as its end-of-input marker. -/
def NUL : Char := '\x00'

/-- Outcome of running a piece of the program: a result, a Go run-time panic,
or exhaustion of the fuel of the model. -/
inductive Res (α : Type) where
  | ok (a : α)
  | panic
  | outOfFuel
  deriving DecidableEq, Repr

namespace Res

/-- Sequencing of outcomes: a panic or a fuel exhaustion stops the run. -/
def bind {α β : Type} (x : Res α) (f : α → Res β) : Res β :=
  match x with
  | ok a => f a
  | panic => panic
  | outOfFuel => outOfFuel

instance : Monad Res where
  pure := Res.ok
  bind := Res.bind

/-- The outcome is a result (neither a panic nor a fuel exhaustion). -/
def isOk {α : Type} : Res α → Bool
  | ok _ => true
  | _ => false

end Res

/-! ## package token -/

namespace token

/-- The Go type `token.Type` with its named constants. -/
inductive TokenType where
  | TypeIllegal
  | TypeEOF
  | TypeIdent
  | TypeInt
  | TypeAssign
  | TypePlus
  | TypeMinus
  | TypeStar
  | TypeSlash
  | TypeComma
  | TypeSemicolon
  | TypeLParen
  | TypeRParen
  | TypeLBrace
  | TypeRBrace
  | TypeFn
  | TypeLet
  | TypeBang
  | TypeLT
  | TypeGT
  | TypeIf
  | TypeElse
  | TypeBool
  | TypeEQ
  | TypeNotEQ
  | TypeReturn
  | TypeString
  | TypeLBrakt
  | TypeRBrakt
  | TypeLookup
  deriving DecidableEq, Repr

open TokenType

/-- The method `Type.String`: the entry of the table `types`.  `TypeLookup` is
255 and lies outside the table, so indexing panics. -/
def TokenType.String : TokenType → Res Str
  | TypeIllegal => .ok "Illegal".toList
  | TypeEOF => .ok "EOF".toList
  | TypeIdent => .ok "Ident".toList
  | TypeInt => .ok "Int".toList
  | TypeAssign => .ok "Assign".toList
  | TypePlus => .ok "Plus".toList
  | TypeMinus => .ok "Minus".toList
  | TypeStar => .ok "Star".toList
  | TypeSlash => .ok "Slash".toList
  | TypeComma => .ok "Comma".toList
  | TypeSemicolon => .ok "Semicolon".toList
  | TypeLParen => .ok "LParen".toList
  | TypeRParen => .ok "RParen".toList
  | TypeLBrace => .ok "LBrace".toList
  | TypeRBrace => .ok "RBrace".toList
  | TypeFn => .ok "Fn".toList
  | TypeLet => .ok "Let".toList
  | TypeBang => .ok "Bang".toList
  | TypeLT => .ok "LT".toList
  | TypeGT => .ok "GT".toList
  | TypeIf => .ok "If".toList
  | TypeElse => .ok "Else".toList
  | TypeBool => .ok "Bool".toList
  | TypeEQ => .ok "EQ".toList
  | TypeNotEQ => .ok "NotEQ".toList
  | TypeReturn => .ok "Return".toList
  | TypeString => .ok "String".toList
  | TypeLBrakt => .ok "LBrakt".toList
  | TypeRBrakt => .ok "RBrakt".toList
  | TypeLookup => .panic

/-- The Go struct `token.Token`. -/
structure Token where
  typ : TokenType
  lit : Str
  deriving DecidableEq, Repr

/-- The constructor `token.New`: with `TypeLookup` the literal is resolved
against the keywords, any other word becoming an identifier. -/
def New (t : TokenType) (literal : Str) : Token :=
  if t = TypeLookup then
    if literal = "let".toList then ⟨TypeLet, "let".toList⟩
    else if literal = "fn".toList then ⟨TypeFn, "fn".toList⟩
    else if literal = "return".toList then ⟨TypeReturn, "return".toList⟩
    else if literal = "if".toList then ⟨TypeIf, "if".toList⟩
    else if literal = "else".toList then ⟨TypeElse, "else".toList⟩
    else if literal = "true".toList then ⟨TypeBool, "true".toList⟩
    else if literal = "false".toList then ⟨TypeBool, "false".toList⟩
    else ⟨TypeIdent, literal⟩
  else ⟨t, literal⟩

/-- Method `Token.Type`. -/
def Token.Type (t : Token) : TokenType := t.typ

/-- Method `Token.Literal`. -/
def Token.Literal (t : Token) : Str := t.lit

end token

open token token.TokenType

/-! ## package lexer -/

namespace lexer

/-- The Go struct `lexer.Lexer`.  In the source the positions `cPos` and `nPos`
are `uint`, and `readChar` adds one to `nPos` on every call, also when the
input is at its end.  In this namespace the positions are natural numbers that
do not wrap around: its functions are those of the source for as long as
`nPos` stays below the size of `uint`.  The namespace `ulexer` has the same
functions with the sum reduced modulo `2 ^ bits`, and `ulexer_NextToken_eq`
states that the two agree on every call that leaves `nPos` below
`2 ^ bits`. -/
structure Lexer where
  input : Str
  cPos : Nat
  nPos : Nat
  ch : Char
  deriving DecidableEq, Repr

/-- Method `readChar`. -/
def Lexer.readChar (l : Lexer) : Lexer :=
  { l with
    ch := if l.nPos < l.input.length then l.input.getD l.nPos NUL else NUL
    cPos := l.nPos
    nPos := l.nPos + 1 }

/-- Constructor `lexer.New`: the zero lexer on `input` after one `readChar`. -/
def New (input : Str) : Lexer :=
  Lexer.readChar { input := input, cPos := 0, nPos := 0, ch := NUL }

/-- Method `peekChar`; the index expression panics beyond the input. -/
def Lexer.peekChar (l : Lexer) : Res Char :=
  if l.nPos = l.input.length then .ok NUL
  else if l.nPos < l.input.length then .ok (l.input.getD l.nPos NUL)
  else .panic

/-- The slice expression `s[lo:hi]` of Go, which panics unless
`lo ≤ hi ≤ len(s)`. -/
def sliceStr (s : Str) (lo hi : Nat) : Res Str :=
  if lo ≤ hi ∧ hi ≤ s.length then .ok ((s.drop lo).take (hi - lo)) else .panic

/-- Function `isLetter`. -/
def isLetter (ch : Char) : Bool :=
  ('a' ≤ ch && ch ≤ 'z') || ('A' ≤ ch && ch ≤ 'Z') || ch == '_'

/-- Function `isDigit`. -/
def isDigit (b : Char) : Bool := '0' ≤ b && b ≤ '9'

/-- The loop condition of `eatWhitespace`. -/
def isWhitespace (ch : Char) : Bool :=
  ch == ' ' || ch == '\t' || ch == '\n' || ch == '\r'

/-- The loop condition of `readString`. -/
def inString (ch : Char) : Bool := ch != '"' && ch != NUL

/-- The loop `for cond(l.ch) { l.readChar() }` shared by `eatWhitespace`,
`readIdentifier`, `readNumber` and `readString`, with a fuel counter. -/
def Lexer.readWhile (cond : Char → Bool) : Nat → Lexer → Res Lexer
  | 0, l => if cond l.ch then .outOfFuel else .ok l
  | n + 1, l => if cond l.ch then Lexer.readWhile cond n l.readChar else .ok l

/-- Fuel that lets every loop of the lexer run to its end: a loop reads at
most the bytes that are left and one end marker. -/
def Lexer.loopFuel (l : Lexer) : Nat := l.input.length + 1

/-- Method `eatWhitespace`. -/
def Lexer.eatWhitespace (l : Lexer) : Res Lexer :=
  l.readWhile isWhitespace l.loopFuel

/-- Method `readIdentifier`. -/
def Lexer.readIdentifier (l : Lexer) : Res (Str × Lexer) := do
  let position := l.cPos
  let l1 ← l.readWhile isLetter l.loopFuel
  let s ← sliceStr l1.input position l1.cPos
  pure (s, l1)

/-- Method `readNumber`. -/
def Lexer.readNumber (l : Lexer) : Res (Str × Lexer) := do
  let start := l.cPos
  let l1 ← l.readWhile isDigit l.loopFuel
  let s ← sliceStr l1.input start l1.cPos
  pure (s, l1)

/-- Method `readString`. -/
def Lexer.readString (l : Lexer) : Res (Str × Lexer) := do
  let l0 := l.readChar
  let start := l0.cPos
  let l1 ← l0.readWhile inString l0.loopFuel
  let s ← sliceStr l1.input start l1.cPos
  pure (s, l1)

/-- The conversion `string(l.ch)` of a byte to a string: Go converts the
integer as a code point, so a byte below `0x80` gives the one-byte string and a
byte from `0x80` on gives the two bytes of its UTF-8 encoding. -/
def byteString (b : Char) : Str :=
  if b.toNat < 128 then [b]
  else [Char.ofNat (192 + b.toNat / 64), Char.ofNat (128 + b.toNat % 64)]

/-- Method `NextToken`: the token at the current position and the lexer after
it. -/
def Lexer.NextToken (l0 : Lexer) : Res (Token × Lexer) := do
  let l ← l0.eatWhitespace
  if l.ch = '=' then
    let c ← l.peekChar
    if c = '=' then pure (token.New TypeEQ "==".toList, l.readChar.readChar)
    else pure (token.New TypeAssign (byteString l.ch), l.readChar)
  else if l.ch = '+' then pure (token.New TypePlus (byteString l.ch), l.readChar)
  else if l.ch = '-' then pure (token.New TypeMinus (byteString l.ch), l.readChar)
  else if l.ch = '*' then pure (token.New TypeStar (byteString l.ch), l.readChar)
  else if l.ch = '/' then pure (token.New TypeSlash (byteString l.ch), l.readChar)
  else if l.ch = '!' then
    let c ← l.peekChar
    if c = '=' then pure (token.New TypeNotEQ "!=".toList, l.readChar.readChar)
    else pure (token.New TypeBang (byteString l.ch), l.readChar)
  else if l.ch = '<' then pure (token.New TypeLT (byteString l.ch), l.readChar)
  else if l.ch = '>' then pure (token.New TypeGT (byteString l.ch), l.readChar)
  else if l.ch = ';' then pure (token.New TypeSemicolon (byteString l.ch), l.readChar)
  else if l.ch = '(' then pure (token.New TypeLParen (byteString l.ch), l.readChar)
  else if l.ch = ')' then pure (token.New TypeRParen (byteString l.ch), l.readChar)
  else if l.ch = ',' then pure (token.New TypeComma (byteString l.ch), l.readChar)
  else if l.ch = '{' then pure (token.New TypeLBrace (byteString l.ch), l.readChar)
  else if l.ch = '}' then pure (token.New TypeRBrace (byteString l.ch), l.readChar)
  else if l.ch = '[' then pure (token.New TypeLBrakt (byteString l.ch), l.readChar)
  else if l.ch = ']' then pure (token.New TypeRBrakt (byteString l.ch), l.readChar)
  else if l.ch = NUL then pure (token.New TypeEOF [], l.readChar)
  else if l.ch = '"' then
    let (s, l1) ← l.readString
    pure (token.New TypeString s, l1.readChar)
  else if isLetter l.ch then
    let (s, l1) ← l.readIdentifier
    pure (token.New TypeLookup s, l1)
  else if isDigit l.ch then
    let (s, l1) ← l.readNumber
    pure (token.New TypeInt s, l1)
  else pure (token.New TypeIllegal (byteString l.ch), l.readChar)

end lexer

open lexer

/-! ## package ast -/

namespace ast

mutual
/-- The Go interface `ast.Expr` with its implementations; `nil` is the absent
expression the parser leaves behind on an error path.  The token field `t` of
the Go structs is read only by `TokenLiteral` (and, for `Integer` and `Bool`,
holds the rendering of the value) and is not stored. -/
inductive Expr where
  | nil
  | Ident (value : Str)
  | Integer (value : Int)
  | PrefixExpr (op : Str) (right : Expr)
  | InfixExpr (left : Expr) (op : Str) (right : Expr)
  | BoolLit (value : Bool)
  | IfExpr (Condition : Expr) (Consequence : BlockStmt) (Alternative : BlockStmt)
  | Function (Params : List Str) (Body : BlockStmt)
  | CallExpr (Fn : Expr) (Args : List Expr)
  | StringLit (value : Str)
  | Slice (values : List Expr)
  | Index (left : Expr) (idx : Expr)
/-- The Go interface `ast.Statement` with its implementations. -/
inductive Statement where
  | LetStmt (name : Str) (value : Expr)
  | RetStmt (value : Expr)
  | ExprStmt (value : Expr)
  | Block (blk : BlockStmt)
/-- The Go struct `ast.BlockStmt`; the zero value has `valid = false`. -/
inductive BlockStmt where
  | mk (Statements : List Statement) (valid : Bool)
end

/-- The Go struct `ast.Program`. -/
structure Program where
  Statements : List Statement

/-- The Go interface `ast.Node` as far as `Eval` dispatches on it. -/
inductive Node where
  | nil
  | Program (p : Program)
  | Stmt (s : Statement)
  | Expr (e : Expr)

/-- Zero value of `ast.BlockStmt`. -/
def BlockStmt.zero : BlockStmt := .mk [] false

/-- Constructor `ast.NewBlockStmt`. -/
def NewBlockStmt (s : List Statement) : BlockStmt := .mk s true

/-- Constructor `ast.NewIfExpr`; the alternative is a pointer that may be nil. -/
def NewIfExpr (condition : Expr) (consequence : BlockStmt)
    (alternative : Option BlockStmt) : Expr :=
  match alternative with
  | some alt => .IfExpr condition consequence alt
  | none => .IfExpr condition consequence BlockStmt.zero

/-- Method `BlockStmt.OK`. -/
def BlockStmt.OK : BlockStmt → Bool
  | .mk _ valid => valid

/-- Field `BlockStmt.Statements`. -/
def BlockStmt.stmts : BlockStmt → List Statement
  | .mk ss _ => ss

/-- The function `strconv.Itoa`. -/
def itoa (v : Int) : Str :=
  if v < 0 then '-' :: Nat.toDigits 10 v.natAbs else Nat.toDigits 10 v.toNat

/-- The function `strconv.FormatBool`. -/
def formatBool (b : Bool) : Str := if b then "true".toList else "false".toList

/-- The function `strings.Join`. -/
def join (elems : List Str) (sep : Str) : Str := sep.intercalate elems

mutual
/-- Method `String` of the expression nodes.  Calling it on an absent
expression dereferences nil. -/
def Expr.String : Expr → Res Str
  | .nil => .panic
  | .Ident value => .ok value
  | .Integer value => .ok (itoa value)
  | .PrefixExpr op right => do
      let r ← right.String
      pure ("(".toList ++ op ++ r ++ ")".toList)
  | .InfixExpr left op right => do
      let l ← left.String
      let r ← right.String
      pure ("(".toList ++ l ++ (" ".toList ++ op ++ " ".toList) ++ r ++ ")".toList)
  | .BoolLit value => .ok (formatBool value)
  | .IfExpr cond consq alt => do
      let c ← cond.String
      let q ← consq.String
      if alt.OK then
        let a ← alt.String
        pure ("if".toList ++ c ++ " ".toList ++ q ++ "else ".toList ++ a)
      else pure ("if".toList ++ c ++ " ".toList ++ q)
  | .Function params body => do
      let b ← body.String
      pure ("fn".toList ++ "(".toList ++ join params ", ".toList ++ ") ".toList ++ b)
  | .CallExpr fn args => do
      let a ← Expr.Strings args
      let f ← fn.String
      pure (f ++ "(".toList ++ join a ", ".toList ++ ")".toList)
  | .StringLit value => .ok value
  | .Slice values => do
      let vs ← Expr.Strings values
      pure ("[".toList ++ join vs ", ".toList ++ "]".toList)
  | .Index left idx => do
      let l ← left.String
      let i ← idx.String
      pure ("(".toList ++ l ++ "[".toList ++ i ++ "])".toList)
/-- The renderings of a list of expressions, in order. -/
def Expr.Strings : List Expr → Res (List Str)
  | [] => .ok []
  | e :: es => do
      let s ← e.String
      let ss ← Expr.Strings es
      pure (s :: ss)
/-- Method `String` of the statement nodes. -/
def Statement.String : Statement → Res Str
  | .LetStmt name value =>
      match value with
      | .nil => .ok ("let".toList ++ " ".toList ++ name ++ " = ".toList ++ ";".toList)
      | v => do
          let s ← v.String
          pure ("let".toList ++ " ".toList ++ name ++ " = ".toList ++ s ++ ";".toList)
  | .RetStmt value =>
      match value with
      | .nil => .ok ("return".toList ++ " ".toList ++ ";".toList)
      | v => do
          let s ← v.String
          pure ("return".toList ++ " ".toList ++ s ++ ";".toList)
  | .ExprStmt value =>
      match value with
      | .nil => .ok []
      | v => v.String
  | .Block blk => blk.String
/-- Method `BlockStmt.String`. -/
def BlockStmt.String : BlockStmt → Res Str
  | .mk ss _ => Statement.Strings ss
/-- The concatenated renderings of a list of statements. -/
def Statement.Strings : List Statement → Res Str
  | [] => .ok []
  | s :: ss => do
      let a ← s.String
      let b ← Statement.Strings ss
      pure (a ++ b)
end

/-- Method `Program.String`. -/
def Program.String (p : Program) : Res Str := Statement.Strings p.Statements

end ast

open ast

/-! ## package parser -/

namespace parser

/-- The Go type `priority` (a `uint8`) and its constants, numbered by `iota`
from 1. -/
abbrev priority := Nat

/-- Constant `priorityLowest`. -/
def priorityLowest : priority := 1
/-- Constant `priorityEquals`, for `==` and `!=`. -/
def priorityEquals : priority := 2
/-- Constant `priorityLessGreater`, for `<` and `>`. -/
def priorityLessGreater : priority := 3
/-- Constant `prioritySum`, for `+` and `-`. -/
def prioritySum : priority := 4
/-- Constant `priorityProduct`, for `*` and `/`. -/
def priorityProduct : priority := 5
/-- Constant `priorityPrefix`, for `-x` and `!x`. -/
def priorityPrefix : priority := 6
/-- Constant `priorityCall`, for `f(x)`. -/
def priorityCall : priority := 7
/-- Constant `priorityIndex`, for `s[i]`. -/
def priorityIndex : priority := 8

/-- The values stored in `Parser.errs`: an `errors.New` message or a
`TokenError`. -/
inductive ParseError where
  | msg (text : Str)
  | TokenError (want got : TokenType)
  deriving DecidableEq, Repr

/-- Method `Error` of the stored errors. -/
def ParseError.Error : ParseError → Res Str
  | .msg text => .ok text
  | .TokenError want got => do
      let w ← want.String
      let g ← got.String
      pure ("expected next token to be ".toList ++ w ++ ", got ".toList ++ g)

/-- The Go struct `parser.Parser`; the three function fields are the
top-level functions `prefixes`, `infixes` and `priorities` below. -/
structure Parser where
  l : Lexer
  ctok : Token
  ntok : Token
  errs : List ParseError
  deriving DecidableEq, Repr

/-- The closures returned by `p.prefixes`, one name per `case`. -/
inductive prefixParseFunc where
  | ident
  | integer
  | operator
  | boolean
  | group
  | ifExpr
  | function
  | string
  | slice
  deriving DecidableEq, Repr

/-- The closures returned by `p.infixes`, one name per `case`. -/
inductive infixParseFunc where
  | binary
  | call
  | index
  deriving DecidableEq, Repr

/-- The selector `p.prefixes`; `none` is the nil function of the default
case. -/
def prefixes : TokenType → Option prefixParseFunc
  | TypeIdent => some .ident
  | TypeInt => some .integer
  | TypeBang => some .operator
  | TypeMinus => some .operator
  | TypeBool => some .boolean
  | TypeLParen => some .group
  | TypeIf => some .ifExpr
  | TypeFn => some .function
  | TypeString => some .string
  | TypeLBrakt => some .slice
  | _ => none

/-- The selector `p.infixes`. -/
def infixes : TokenType → Option infixParseFunc
  | TypeEQ => some .binary
  | TypeNotEQ => some .binary
  | TypeLT => some .binary
  | TypeGT => some .binary
  | TypePlus => some .binary
  | TypeMinus => some .binary
  | TypeSlash => some .binary
  | TypeStar => some .binary
  | TypeLParen => some .call
  | TypeLBrakt => some .index
  | _ => none

/-- The selector `p.priorities`. -/
def priorities : TokenType → priority
  | TypeEQ => priorityEquals
  | TypeNotEQ => priorityEquals
  | TypeLT => priorityLessGreater
  | TypeGT => priorityLessGreater
  | TypePlus => prioritySum
  | TypeMinus => prioritySum
  | TypeSlash => priorityProduct
  | TypeStar => priorityProduct
  | TypeLParen => priorityCall
  | TypeLBrakt => priorityIndex
  | _ => priorityLowest

/-- Digits of `s` read in `base`, most significant first, added to `acc`;
`none` when a byte is not a digit of that base. -/
def parseDigits (base : Nat) : Nat → Str → Option Nat
  | acc, [] => some acc
  | acc, c :: cs =>
      if isDigit c ∧ c.toNat - '0'.toNat < base then
        parseDigits base (acc * base + (c.toNat - '0'.toNat)) cs
      else none

/-- The call `strconv.ParseInt(s, 0, 64)` on the literal of an `Int` token;
`none` is a non-nil `err`.  With base 0 a leading `0` selects base 8 for the
rest of the digits.  An `Int` token always carries a run of decimal digits
(`readNumber`), so signs, underscores and the letter prefixes `0x`, `0o`, `0b`
are not modelled: they give `none` here. -/
def ParseInt (s : Str) : Option Int :=
  match s with
  | [] => none
  | '0' :: rest =>
      match parseDigits 8 0 rest with
      | some n => if n < 2 ^ 63 then some (n : Int) else none
      | none => none
  | _ =>
      match parseDigits 10 0 s with
      | some n => if n < 2 ^ 63 then some (n : Int) else none
      | none => none

/-- Method `nextToken`. -/
def Parser.nextToken (p : Parser) : Res Parser := do
  let (t, l1) ← p.l.NextToken
  pure { p with ctok := p.ntok, ntok := t, l := l1 }

/-- Method `peek`: advance when the next token has type `t`, else record a
`TokenError`. -/
def Parser.peek (p : Parser) (t : TokenType) : Res (Bool × Parser) :=
  if p.ntok.Type ≠ t then
    .ok (false, { p with errs := p.errs ++ [ParseError.TokenError t p.ntok.Type] })
  else do
    let p1 ← p.nextToken
    pure (true, p1)

/-- The statement `if p.ntok.Type() == token.TypeSemicolon { p.nextToken() }`. -/
def Parser.skipSemicolon (p : Parser) : Res Parser :=
  if p.ntok.Type = TypeSemicolon then p.nextToken else .ok p

/-- Method `parseStatement`; `pe` is `p.parseExpression`.  `none` is the nil
statement. -/
def parseStatement (pe : priority → Parser → Res (Expr × Parser)) (p : Parser) :
    Res (Option Statement × Parser) :=
  match p.ctok.Type with
  | TypeLet => do
      let (ok1, p1) ← p.peek TypeIdent
      if !ok1 then pure (none, p1) else
      let id := p1.ctok.Literal
      let (ok2, p2) ← p1.peek TypeAssign
      if !ok2 then pure (none, p2) else
      let p3 ← p2.nextToken
      let (expr, p4) ← pe priorityLowest p3
      let p5 ← p4.skipSemicolon
      pure (some (.LetStmt id expr), p5)
  | TypeReturn => do
      let p1 ← p.nextToken
      let (expr, p2) ← pe priorityLowest p1
      let p3 ← p2.skipSemicolon
      pure (some (.RetStmt expr), p3)
  | _ => do
      let (expr, p1) ← pe priorityLowest p
      let p2 ← p1.skipSemicolon
      pure (some (.ExprStmt expr), p2)

/-- The loop of `parseBlock`, collecting statements up to `}` or EOF. -/
def parseBlockLoop (pe : priority → Parser → Res (Expr × Parser)) :
    Nat → List Statement → Parser → Res (List Statement × Parser)
  | 0, ss, p =>
      if p.ctok.Type ≠ TypeRBrace ∧ p.ctok.Type ≠ TypeEOF then .outOfFuel else .ok (ss, p)
  | n + 1, ss, p =>
      if p.ctok.Type ≠ TypeRBrace ∧ p.ctok.Type ≠ TypeEOF then do
        let (s, p1) ← parseStatement pe p
        let ss1 := match s with
          | some st => ss ++ [st]
          | none => ss
        let p2 ← p1.nextToken
        parseBlockLoop pe n ss1 p2
      else .ok (ss, p)

/-- Method `parseBlock`; `n` is the fuel of its loop. -/
def parseBlock (pe : priority → Parser → Res (Expr × Parser)) (n : Nat) (p : Parser) :
    Res (BlockStmt × Parser) := do
  let p1 ← p.nextToken
  let (ss, p2) ← parseBlockLoop pe n [] p1
  pure (NewBlockStmt ss, p2)

/-- The loop of `parseFnParams` over `, name`. -/
def parseFnParamsLoop : Nat → List Str → Parser → Res (List Str × Parser)
  | 0, idents, p => if p.ntok.Type = TypeComma then .outOfFuel else .ok (idents, p)
  | n + 1, idents, p =>
      if p.ntok.Type = TypeComma then do
        let p1 ← p.nextToken
        let p2 ← p1.nextToken
        parseFnParamsLoop n (idents ++ [p2.ctok.Literal]) p2
      else .ok (idents, p)

/-- Method `parseFnParams`; every token in a parameter position is taken as
an identifier, whatever its type. -/
def parseFnParams (n : Nat) (p : Parser) : Res (List Str × Parser) :=
  if p.ntok.Type = TypeRParen then do
    let p1 ← p.nextToken
    pure ([], p1)
  else do
    let p1 ← p.nextToken
    let (idents, p2) ← parseFnParamsLoop n [p1.ctok.Literal] p1
    let (ok1, p3) ← p2.peek TypeRParen
    if !ok1 then pure ([], p3) else pure (idents, p3)

/-- The loop of `parseExprSlice` over `, expression`. -/
def parseExprSliceLoop (pe : priority → Parser → Res (Expr × Parser)) :
    Nat → List Expr → Parser → Res (List Expr × Parser)
  | 0, vals, p => if p.ntok.Type = TypeComma then .outOfFuel else .ok (vals, p)
  | n + 1, vals, p =>
      if p.ntok.Type = TypeComma then do
        let p1 ← p.nextToken
        let p2 ← p1.nextToken
        let (e, p3) ← pe priorityLowest p2
        parseExprSliceLoop pe n (vals ++ [e]) p3
      else .ok (vals, p)

/-- Method `parseExprSlice`; the empty-list test looks for `)` whatever the
terminator `end_` is. -/
def parseExprSlice (pe : priority → Parser → Res (Expr × Parser)) (n : Nat)
    (end_ : TokenType) (p : Parser) : Res (List Expr × Parser) :=
  if p.ntok.Type = TypeRParen then do
    let p1 ← p.nextToken
    pure ([], p1)
  else do
    let p1 ← p.nextToken
    let (e, p2) ← pe priorityLowest p1
    let (vals, p3) ← parseExprSliceLoop pe n [e] p2
    let (ok1, p4) ← p3.peek end_
    if !ok1 then pure ([], p4) else pure (vals, p4)

/-- The bodies of the closures returned by `p.prefixes`. -/
def runPrefix (pe : priority → Parser → Res (Expr × Parser)) (n : Nat) :
    prefixParseFunc → Parser → Res (Expr × Parser)
  | .ident, p => .ok (.Ident p.ctok.Literal, p)
  | .integer, p =>
      match ParseInt p.ctok.Literal with
      | none => do
          let s ← p.ctok.Type.String
          pure (.nil, { p with errs := p.errs ++
            [ParseError.msg ("could not parse ".toList ++ s ++ " as integer".toList)] })
      | some v => .ok (.Integer v, p)
  | .operator, p => do
      let t := p.ctok
      let p1 ← p.nextToken
      let (right, p2) ← pe priorityPrefix p1
      pure (.PrefixExpr t.Literal right, p2)
  | .boolean, p => .ok (.BoolLit (p.ctok.Literal = "true".toList), p)
  | .group, p => do
      let p1 ← p.nextToken
      let (expr, p2) ← pe priorityLowest p1
      let (ok1, p3) ← p2.peek TypeRParen
      if !ok1 then pure (.nil, p3) else pure (expr, p3)
  | .ifExpr, p => do
      let (ok1, p1) ← p.peek TypeLParen
      if !ok1 then pure (.nil, p1) else
      let p2 ← p1.nextToken
      let (cond, p3) ← pe priorityLowest p2
      let (ok2, p4) ← p3.peek TypeRParen
      if !ok2 then pure (.nil, p4) else
      let (ok3, p5) ← p4.peek TypeLBrace
      if !ok3 then pure (.nil, p5) else
      let (consq, p6) ← parseBlock pe n p5
      if p6.ntok.Type = TypeElse then
        let p7 ← p6.nextToken
        let (ok4, p8) ← p7.peek TypeLBrace
        if !ok4 then pure (.nil, p8) else
        let (blk, p9) ← parseBlock pe n p8
        pure (NewIfExpr cond consq (some blk), p9)
      else pure (NewIfExpr cond consq none, p6)
  | .function, p => do
      let (ok1, p1) ← p.peek TypeLParen
      if !ok1 then pure (.nil, p1) else
      let (params, p2) ← parseFnParams n p1
      let (ok2, p3) ← p2.peek TypeLBrace
      if !ok2 then pure (.nil, p3) else
      let (body, p4) ← parseBlock pe n p3
      pure (.Function params body, p4)
  | .string, p => .ok (.StringLit p.ctok.Literal, p)
  | .slice, p => do
      let (vals, p1) ← parseExprSlice pe n TypeRBrakt p
      pure (.Slice vals, p1)

/-- The bodies of the closures returned by `p.infixes`. -/
def runInfix (pe : priority → Parser → Res (Expr × Parser)) (n : Nat) :
    infixParseFunc → Expr → Parser → Res (Expr × Parser)
  | .binary, left, p => do
      let t := p.ctok
      let pri := priorities p.ctok.Type
      let p1 ← p.nextToken
      let (right, p2) ← pe pri p1
      pure (.InfixExpr left t.Literal right, p2)
  | .call, fn, p => do
      let (args, p1) ← parseExprSlice pe n TypeRParen p
      pure (.CallExpr fn args, p1)
  | .index, e, p => do
      let p1 ← p.nextToken
      let (idx, p2) ← pe priorityLowest p1
      let (ok1, p3) ← p2.peek TypeRBrakt
      if !ok1 then pure (.nil, p3) else pure (.Index e idx, p3)

/-- The loop of `parseExpression` that folds infix operators binding tighter
than `pr` into `left`. -/
def parseInfixLoop (pe : priority → Parser → Res (Expr × Parser)) (n : Nat)
    (pr : priority) : Nat → Expr → Parser → Res (Expr × Parser)
  | 0, left, p =>
      if p.ntok.Type ≠ TypeSemicolon ∧ pr < priorities p.ntok.Type then
        match infixes p.ntok.Type with
        | none => .ok (left, p)
        | some _ => .outOfFuel
      else .ok (left, p)
  | k + 1, left, p =>
      if p.ntok.Type ≠ TypeSemicolon ∧ pr < priorities p.ntok.Type then
        match infixes p.ntok.Type with
        | none => .ok (left, p)
        | some f => do
            let p1 ← p.nextToken
            let (left1, p2) ← runInfix pe n f left p1
            parseInfixLoop pe n pr k left1 p2
      else .ok (left, p)

/-- Method `parseExpression`, the Pratt parser; the first argument is the
fuel for the nesting depth and for the loops inside. -/
def parseExpression : Nat → priority → Parser → Res (Expr × Parser)
  | 0, _, _ => .outOfFuel
  | fuel + 1, pr, p =>
      match prefixes p.ctok.Type with
      | none => do
          let s ← p.ctok.Type.String
          pure (.nil, { p with errs := p.errs ++
            [ParseError.msg ("no prefix parse function for ".toList ++ s ++ " found".toList)] })
      | some f => do
          let (left, p1) ← runPrefix (parseExpression fuel) fuel f p
          parseInfixLoop (parseExpression fuel) fuel pr fuel left p1

/-- Constructor `parser.New`: both token slots are primed. -/
def New (l : Lexer) : Res Parser := do
  let p : Parser := { l := l, ctok := ⟨TypeIllegal, []⟩, ntok := ⟨TypeIllegal, []⟩, errs := [] }
  let p1 ← p.nextToken
  p1.nextToken

/-- The loop of `Parse`, collecting statements up to EOF. -/
def parseLoop (pe : priority → Parser → Res (Expr × Parser)) :
    Nat → List Statement → Parser → Res (List Statement × Parser)
  | 0, ss, p => if p.ctok.Type ≠ TypeEOF then .outOfFuel else .ok (ss, p)
  | n + 1, ss, p =>
      if p.ctok.Type ≠ TypeEOF then do
        let (s, p1) ← parseStatement pe p
        let ss1 := match s with
          | some st => ss ++ [st]
          | none => ss
        let p2 ← p1.nextToken
        parseLoop pe n ss1 p2
      else .ok (ss, p)

/-- Method `Parse` with fuel `fuel`. -/
def Parser.Parse (fuel : Nat) (p : Parser) : Res (Program × Parser) := do
  let (ss, p1) ← parseLoop (parseExpression fuel) fuel [] p
  pure (⟨ss⟩, p1)

/-- The loop of `Errors`: the `Error()` string of every stored error. -/
def errorStrings : List ParseError → Res (List Str)
  | [] => .ok []
  | e :: es => do
      let s ← e.Error
      let ss ← errorStrings es
      pure (s :: ss)

/-- Method `Errors`. -/
def Parser.Errors (p : Parser) : Res (List Str) := errorStrings p.errs

/-- Fuel for parsing `input`: every level of nesting and every turn of a loop
of the parser consumes a token, and a token is at least one byte. -/
def parseFuel (input : Str) : Nat := 2 * input.length + 4

/-- The pipeline `p := parser.New(lexer.New(input)); prog := p.Parse()`,
giving the program and the parser with its recorded errors. -/
def parseInput (input : Str) : Res (Program × Parser) := do
  let p ← New (lexer.New input)
  p.Parse (parseFuel input)

/-- The program and the error strings of `parseInput`. -/
def parseSource (input : Str) : Res (Program × List Str) := do
  let (prog, p) ← parseInput input
  let errs ← p.Errors
  pure (prog, errs)

/-- The canonical string of the parsed program together with the parser's
error strings: `program.String()` and `p.Errors()` after `Parse`. -/
def parseToString (input : Str) : Res (Str × List Str) := do
  let (prog, errs) ← parseSource input
  let s ← prog.String
  pure (s, errs)

end parser

open parser

/-! ## package entity -/

namespace entity

/-- The Go type `entity.Type` with its constants. -/
inductive EntityType where
  | TypeError
  | TypeNull
  | TypeInt
  | TypeBool
  | TypeReturn
  | TypeFn
  | TypeString
  | TypeBuiltin
  | TypeSlice
  deriving DecidableEq, Repr

open EntityType

/-- Method `Type.String` of `entity.Type`. -/
def EntityType.String : EntityType → Str
  | TypeError => "Error".toList
  | TypeNull => "Null".toList
  | TypeInt => "Int".toList
  | TypeBool => "Bool".toList
  | TypeReturn => "Return".toList
  | TypeFn => "Fn".toList
  | TypeString => "String".toList
  | TypeBuiltin => "Builtin".toList
  | TypeSlice => "Slice".toList

/-- The Go struct `entity.Env`.  The field `store` is a Go map, a reference:
here it is the address of the map in the heap.  `parent` is a pointer to an
`Env` that is never written after its creation. -/
inductive Env where
  | mk (parent : Option Env) (store : Nat)

/-- Field `store` of an environment. -/
def Env.store : Env → Nat
  | .mk _ store => store

/-- Field `parent` of an environment. -/
def Env.parent : Env → Option Env
  | .mk parent _ => parent

/-- The functions stored in the table `builtins`. -/
inductive BuiltinFn where
  | len
  deriving DecidableEq, Repr

/-- The Go interface `entity.E` with its implementations; `nil` is the nil
interface value, which `Eval` returns for a `let` statement, for an empty
block and for an absent node. -/
inductive E where
  | nil
  | Int (value : Int)
  | Bool (value : Bool)
  | Null
  | Return (value : E)
  | Error (message : Str)
  | Fn (params : List Str) (body : BlockStmt) (env : Env)
  | String (value : Str)
  | Builtin (fn : BuiltinFn)
  | Slice (values : List E)

/-- A Go `map[string]E`: the bindings, the latest first; a name is looked up
at its first occurrence. -/
abbrev Store := List (Str × E)

/-- The maps allocated so far, by address. -/
abbrev Heap := List Store

/-- The map read `v, ok := store[name]`; the zero value of `E` is nil. -/
def Store.get : Store → Str → E × Bool
  | [], _ => (E.nil, false)
  | (k, v) :: rest, name => if k = name then (v, true) else Store.get rest name

/-- The map at an address; an address that was never allocated behaves as the
nil map, which reads as empty. -/
def Heap.store (h : Heap) (addr : Nat) : Store := h.getD addr []

/-- Constructor `entity.NewEnv`: a fresh empty map and no parent. -/
def NewEnv (h : Heap) : Env × Heap := (Env.mk none h.length, h ++ [[]])

/-- Constructor `entity.NewEnvWith`: a fresh empty map and the given parent. -/
def NewEnvWith (parent : Env) (h : Heap) : Env × Heap :=
  (Env.mk (some parent) h.length, h ++ [[]])

/-- Method `Env.Get`: the own store first, then the parent chain. -/
def Env.Get (h : Heap) : Env → Str → E × Bool
  | .mk none store, name => Store.get (h.store store) name
  | .mk (some parent) store, name =>
      match Store.get (h.store store) name with
      | (v, true) => (v, true)
      | (_, false) => Env.Get h parent name

/-- Method `Env.Set`: the write `e.store[name] = val`, which panics on a nil
map. -/
def Env.Set (h : Heap) (e : Env) (name : Str) (val : E) : Res (E × Heap) :=
  if e.store < h.length then
    .ok (val, h.set e.store ((name, val) :: h.store e.store))
  else .panic

/-- Method `Type` of the entities; calling it on the nil interface panics. -/
def TypeOf : E → Res EntityType
  | .nil => .panic
  | .Int _ => .ok TypeInt
  | .Bool _ => .ok TypeBool
  | .Null => .ok TypeNull
  | .Return _ => .ok TypeReturn
  | .Error _ => .ok TypeError
  | .Fn _ _ _ => .ok TypeFn
  | .String _ => .ok TypeString
  | .Builtin _ => .ok TypeBuiltin
  | .Slice _ => .ok TypeSlice

end entity

open entity entity.EntityType

/-! ## package fmt: `Sprintf` in a call without operands -/

namespace fmt

/-- The flag bytes that `doPrintf` reads after a `%`. -/
def isFlag (c : Char) : Bool := c == '#' || c == '0' || c == '+' || c == '-' || c == ' '

/-- Function `tooLarge`: the bound on a width, a precision and an argument
index. -/
def tooLarge (x : Nat) : Bool := decide (1000000 < x)

/-- Function `parsenum` on the bytes between `start` and `end`: whether a
number was read, and the bytes that are left; when the number grows too large
no number is read and the position is moved to `end`. -/
def parsenum : Str → Nat → Bool → Bool × Str
  | [], _, isnum => (isnum, [])
  | c :: cs, num, isnum =>
      if '0' ≤ c ∧ c ≤ '9' then
        if tooLarge num then (false, [])
        else parsenum cs (num * 10 + (c.toNat - '0'.toNat)) true
      else (isnum, c :: cs)

/-- Function `parseArgNumber` on the bytes from a `[` on: the number of bytes
that the index takes, and whether it is of the form `[n]`. -/
def parseArgNumber (format : Str) : Nat × Bool :=
  if format.length < 3 then (1, false)
  else
    match (format.drop 1).indexOf? ']' with
    | none => (1, false)
    | some j =>
        let r := parsenum ((format.drop 1).take j) 0 false
        (j + 2, r.1 && r.2.isEmpty)

/-- What `doPrintf` keeps while it reads one verb: the bytes written for the
verb so far, the bytes of the format that are left, and the flags `afterIndex`
and `goodArgNum`. -/
structure VerbState where
  out : Str
  rest : Str
  afterIndex : Bool
  goodArgNum : Bool

/-- Method `argNumber` in a call without operands: no index is in range, so
an index, well formed or not, clears `goodArgNum`. -/
def argNumber (st : VerbState) : VerbState :=
  match st.rest with
  | '[' :: _ =>
      let r := parseArgNumber st.rest
      { st with rest := st.rest.drop r.1, afterIndex := r.2, goodArgNum := false }
  | _ => { st with afterIndex := false }

/-- The width of a verb: a `*` finds no operand and writes `%!(BADWIDTH)`. -/
def readWidth (st : VerbState) : VerbState :=
  match st.rest with
  | '*' :: r => { st with out := st.out ++ "%!(BADWIDTH)".toList, rest := r, afterIndex := false }
  | r =>
      let n := parsenum r 0 false
      { st with rest := n.2, goodArgNum := st.goodArgNum && !(st.afterIndex && n.1) }

/-- The precision of a verb: a `*` finds no operand and writes
`%!(BADPREC)`. -/
def readPrecision (st : VerbState) : VerbState :=
  match st.rest with
  | '.' :: r =>
      let st1 := argNumber { st with rest := r, goodArgNum := st.goodArgNum && !st.afterIndex }
      match st1.rest with
      | '*' :: r2 =>
          { st1 with out := st1.out ++ "%!(BADPREC)".toList, rest := r2, afterIndex := false }
      | r2 => { st1 with rest := (parsenum r2 0 false).2 }
  | _ => st

/-- The bytes that `writeRune(verb)` writes for the verb at the head of `s`,
and the number of bytes of `s` that the verb takes: a byte below `0x80` is the
verb itself; from `0x80` on the verb is the UTF-8 sequence that
`DecodeRuneInString` reads, and a sequence that is not well formed is one byte,
read as `U+FFFD`. -/
def verbBytes (s : Str) : Str × Nat :=
  let bad : Str × Nat := ([Char.ofNat 0xEF, Char.ofNat 0xBF, Char.ofNat 0xBD], 1)
  let cont (c : Char) : Bool := decide (0x80 ≤ c.toNat ∧ c.toNat ≤ 0xBF)
  match s with
  | [] => ([], 0)
  | s0 :: t =>
      let b := s0.toNat
      if b < 0x80 then ([s0], 1)
      else if b < 0xC2 then bad
      else if b < 0xE0 then
        match t with
        | s1 :: _ => if cont s1 then ([s0, s1], 2) else bad
        | _ => bad
      else if b < 0xF0 then
        let lo := if b = 0xE0 then 0xA0 else 0x80
        let hi := if b = 0xED then 0x9F else 0xBF
        match t with
        | s1 :: s2 :: _ =>
            if lo ≤ s1.toNat ∧ s1.toNat ≤ hi ∧ cont s2 then ([s0, s1, s2], 3) else bad
        | _ => bad
      else if b < 0xF5 then
        let lo := if b = 0xF0 then 0x90 else 0x80
        let hi := if b = 0xF4 then 0x8F else 0xBF
        match t with
        | s1 :: s2 :: s3 :: _ =>
            if lo ≤ s1.toNat ∧ s1.toNat ≤ hi ∧ cont s2 ∧ cont s3 then ([s0, s1, s2, s3], 4)
            else bad
        | _ => bad
      else bad

/-- One verb of `doPrintf` in a call without operands, on the bytes after the
`%`: the flags, an argument index, the width, the precision, an argument index
again and the verb.  The result is what is written and the bytes that are left;
no bytes are left when the format ends before the verb (`%!(NOVERB)`).  The
verb `%` writes a `%`; any other verb finds no operand and writes
`%!verb(MISSING)`, or `%!verb(BADINDEX)` after an argument index. -/
def doVerb (r0 : Str) : Str × Option Str :=
  let st0 := argNumber ⟨[], r0.dropWhile isFlag, false, true⟩
  let st1 := readPrecision (readWidth st0)
  let st2 := if st1.afterIndex then st1 else argNumber st1
  match st2.rest with
  | [] => (st2.out ++ "%!(NOVERB)".toList, none)
  | c :: r =>
      if c = '%' then (st2.out ++ ['%'], some r)
      else
        (st2.out ++ "%!".toList ++ (verbBytes (c :: r)).1 ++
            (if st2.goodArgNum then "(MISSING)".toList else "(BADINDEX)".toList),
          some ((c :: r).drop (verbBytes (c :: r)).2))

/-- The loop of `doPrintf` in a call without operands, with a fuel counter:
the bytes up to the next `%` are copied, then one verb is processed. -/
def doPrintf : Nat → Str → Res Str
  | 0, _ => .outOfFuel
  | fuel + 1, format =>
      match format.dropWhile (fun c => c != '%') with
      | [] => .ok format
      | _ :: r0 =>
          match (doVerb r0).2 with
          | none => .ok (format.takeWhile (fun c => c != '%') ++ (doVerb r0).1)
          | some r => do
              let s ← doPrintf fuel r
              pure (format.takeWhile (fun c => c != '%') ++ (doVerb r0).1 ++ s)

/-- The call `fmt.Sprintf(format)` without operands.  Every verb takes at
least the byte `%`, so the loop runs at most once per byte. -/
def Sprintf (format : Str) : Res Str := doPrintf (format.length + 1) format

end fmt

/-! ## package eval -/

namespace eval

/-- Reduction of an integer into the range of `int64`, as Go arithmetic does
on overflow. -/
def wrap64 (x : Int) : Int := (x + 2 ^ 63) % 2 ^ 64 - 2 ^ 63

/-- Function `newErr` on the formatted message.  Where the source passes
operands, the format is a constant whose verbs are `%s` and the operands are
strings, and the message is written out at the call.  The one call that builds
its format from a name, in the case `ast.Ident` of `Eval`, goes through
`fmt.Sprintf`. -/
def newErr (message : Str) : E := .Error message

/-- The rendering of `e.Type()` by the verb `%s`. -/
def typeName (e : E) : Res Str := do
  let t ← TypeOf e
  pure t.String

/-- The builtin `len`. -/
def builtinLen (e : List E) : Res E :=
  match e with
  | [v] =>
      match v with
      | .String value => .ok (.Int value.length)
      | .Slice values => .ok (.Int values.length)
      | _ => do
          let t ← typeName v
          pure (newErr ("argument to `len` not supported, got ".toList ++ t))
  | _ => .ok (newErr "len only accepts one argument.".toList)

/-- The call `fn.Fn(args...)` of a builtin. -/
def callBuiltin : BuiltinFn → List E → Res E
  | .len, args => builtinLen args

/-- The table `builtins`. -/
def builtins (name : Str) : Option E :=
  if name = "len".toList then some (.Builtin .len) else none

/-- Function `staticBool`. -/
def staticBool (isTrue : Bool) : E := .Bool isTrue

/-- Function `isErr`. -/
def isErr : E → Bool
  | .Error _ => true
  | _ => false

/-- Function `isTruthy`. -/
def isTruthy : E → Bool
  | .Null => false
  | .Bool true => true
  | .Bool false => false
  | _ => true

/-- The Go comparison `left == right` of two interface values: false when the
dynamic types differ, the comparison of the struct fields when they agree, and
a panic when that common type is not comparable (`Slice`, `Fn`, `Builtin`). -/
def ifaceEq : E → E → Res Bool
  | .nil, .nil => .ok true
  | .Int a, .Int b => .ok (a = b)
  | .Bool a, .Bool b => .ok (a = b)
  | .Null, .Null => .ok true
  | .Return a, .Return b => ifaceEq a b
  | .Error a, .Error b => .ok (a = b)
  | .Fn _ _ _, .Fn _ _ _ => .panic
  | .String a, .String b => .ok (a = b)
  | .Builtin _, .Builtin _ => .panic
  | .Slice _, .Slice _ => .panic
  | _, _ => .ok false

/-- Function `evalPrefix`. -/
def evalPrefix (op : Str) (right : E) : Res E :=
  if op = "!".toList then
    match right with
    | .Bool true => .ok (.Bool false)
    | .Bool false => .ok (.Bool true)
    | .Null => .ok (.Bool true)
    | _ => .ok (.Bool false)
  else if op = "-".toList then do
    let t ← TypeOf right
    if t ≠ EntityType.TypeInt then pure (newErr ("unknown operator: -".toList ++ t.String))
    else
      match right with
      | .Int value => pure (.Int (wrap64 (-value)))
      | _ => .panic
  else do
    let t ← typeName right
    pure (newErr ("unknown operator: ".toList ++ op ++ t))

/-- Function `evalIntInfix`; the type assertions `left.(entity.Int)` and
`right.(entity.Int)` panic on other entities, and so does a division by
zero. -/
def evalIntInfix (left : E) (op : Str) (right : E) : Res E :=
  match left, right with
  | .Int lval, .Int rval =>
      if op = "+".toList then .ok (.Int (wrap64 (lval + rval)))
      else if op = "-".toList then .ok (.Int (wrap64 (lval - rval)))
      else if op = "/".toList then
        if rval = 0 then .panic else .ok (.Int (wrap64 (Int.tdiv lval rval)))
      else if op = "*".toList then .ok (.Int (wrap64 (lval * rval)))
      else if op = "<".toList then .ok (staticBool (lval < rval))
      else if op = ">".toList then .ok (staticBool (lval > rval))
      else if op = "==".toList then .ok (staticBool (lval = rval))
      else if op = "!=".toList then .ok (staticBool (lval ≠ rval))
      else do
        let lt ← typeName left
        let rt ← typeName right
        pure (newErr ("unknown operator: ".toList ++ lt ++ " ".toList ++ op ++ " ".toList ++ rt))
  | _, _ => .panic

/-- Function `evalInfix`. -/
def evalInfix (left : E) (op : Str) (right : E) : Res E := do
  let lt ← TypeOf left
  let rt ← TypeOf right
  if lt ≠ rt then
    pure (newErr ("type mismatch: ".toList ++ lt.String ++ " ".toList ++ op ++ " ".toList ++
      rt.String))
  else if lt = EntityType.TypeInt ∧ rt = EntityType.TypeInt then evalIntInfix left op right
  else if lt = EntityType.TypeString ∧ rt = EntityType.TypeString then
    if op ≠ "+".toList then
      pure (newErr ("unknown operator: ".toList ++ lt.String ++ " ".toList ++ op ++
        " ".toList ++ rt.String))
    else
      match left, right with
      | .String l, .String r => pure (.String (l ++ r))
      | _, _ => .panic
  else if op = "==".toList then do
    let b ← ifaceEq left right
    pure (staticBool b)
  else if op = "!=".toList then do
    let b ← ifaceEq left right
    pure (staticBool (!b))
  else
    pure (newErr ("unknown operator: ".toList ++ lt.String ++ " ".toList ++ op ++
      " ".toList ++ rt.String))

/-- Function `evalIndex`. -/
def evalIndex (left idx : E) : Res E := do
  let lt ← TypeOf left
  match left with
  | .Slice values => do
      let _ ← TypeOf idx
      match idx with
      | .Int i =>
          if i < 0 ∨ i > (values.length : Int) - 1 then pure .Null
          else
            match values[i.toNat]? with
            | some v => pure v
            | none => .panic
      | _ => pure .Null
  | _ => pure (newErr ("index operator not supported for ".toList ++ lt.String))

/-- The recursive calls `Eval(node, env)` available to the helpers. -/
abbrev Evaluator := Node → Env → Heap → Res (E × Heap)

/-- Function `evalProgram`; `res` is the variable of that name, nil at the
start. -/
def evalProgram (ev : Evaluator) : List Statement → E → Env → Heap → Res (E × Heap)
  | [], res, _, h => .ok (res, h)
  | s :: ss, _, env, h => do
      let (res, h1) ← ev (.Stmt s) env h
      match res with
      | .Return value => pure (value, h1)
      | .Error message => pure (.Error message, h1)
      | _ => evalProgram ev ss res env h1

/-- The loop of `evalBlock` over the statements of the block; `res` is the
variable of that name, nil at the start. -/
def evalBlockLoop (ev : Evaluator) : List Statement → E → Env → Heap → Res (E × Heap)
  | [], res, _, h => .ok (res, h)
  | s :: ss, _, env, h => do
      let (res, h1) ← ev (.Stmt s) env h
      match res with
      | .Return value => pure (.Return value, h1)
      | .Error message => pure (.Error message, h1)
      | _ => evalBlockLoop ev ss res env h1

/-- Function `evalBlock`. -/
def evalBlock (ev : Evaluator) (blk : BlockStmt) (env : Env) (h : Heap) : Res (E × Heap) :=
  evalBlockLoop ev blk.stmts .nil env h

/-- Function `evalIf`. -/
def evalIf (ev : Evaluator) (cond : Expr) (consq alt : BlockStmt) (env : Env) (h : Heap) :
    Res (E × Heap) := do
  let (c, h1) ← ev (.Expr cond) env h
  if isErr c then pure (c, h1)
  else if isTruthy c then ev (.Stmt (.Block consq)) env h1
  else if alt.OK then ev (.Stmt (.Block alt)) env h1
  else pure (.Null, h1)

/-- Function `evalExpressions`; `res` is the slice built so far. -/
def evalExpressions (ev : Evaluator) : List Expr → List E → Env → Heap → Res (List E × Heap)
  | [], res, _, h => .ok (res, h)
  | e :: es, res, env, h => do
      let (val, h1) ← ev (.Expr e) env h
      if isErr val then pure ([val], h1)
      else evalExpressions ev es (res ++ [val]) env h1

/-- The loop `for i, p := range fn.Params { env.Set(p.String(), args[i]) }`
of `evalFn`, from index `i` on; `args[i]` panics beyond the arguments. -/
def bindParams (env : Env) : List Str → List E → Nat → Heap → Res Heap
  | [], _, _, h => .ok h
  | p :: ps, args, i, h =>
      match args[i]? with
      | none => .panic
      | some a => do
          let (_, h1) ← env.Set h p a
          bindParams env ps args (i + 1) h1

/-- Function `evalFn`. -/
def evalFn (ev : Evaluator) (fn : E) (args : List E) (h : Heap) : Res (E × Heap) :=
  match fn with
  | .Fn params body fenv => do
      let (env, h1) := NewEnvWith fenv h
      let h2 ← bindParams env params args 0 h1
      let (val, h3) ← ev (.Stmt (.Block body)) env h2
      match val with
      | .Return value => pure (value, h3)
      | _ => pure (val, h3)
  | .Builtin f => do
      let r ← callBuiltin f args
      pure (r, h)
  | _ => do
      let t ← typeName fn
      pure (newErr ("not a function: ".toList ++ t), h)

/-- The test `len(args) == 1 && isErr(args[0])` of the call and slice cases. -/
def singleErr : List E → Option E
  | [v] => if isErr v then some v else none
  | _ => none

/-- Function `Eval`; the first argument bounds the depth of the recursion. -/
def Eval : Nat → Node → Env → Heap → Res (E × Heap)
  | 0, _, _, _ => .outOfFuel
  | fuel + 1, node, env, h =>
      match node with
      | .Program p => evalProgram (Eval fuel) p.Statements .nil env h
      | .Stmt (.ExprStmt e) => Eval fuel (.Expr e) env h
      | .Stmt (.Block blk) => evalBlock (Eval fuel) blk env h
      | .Stmt (.RetStmt e) => do
          let (v, h1) ← Eval fuel (.Expr e) env h
          if isErr v then pure (v, h1) else pure (.Return v, h1)
      | .Stmt (.LetStmt name e) => do
          let (val, h1) ← Eval fuel (.Expr e) env h
          if isErr val then pure (val, h1)
          else do
            let (_, h2) ← env.Set h1 name val
            pure (.nil, h2)
      | .Expr (.BoolLit value) => .ok (staticBool value, h)
      | .Expr (.Integer value) => .ok (.Int value, h)
      | .Expr (.PrefixExpr op right) => do
          let (v, h1) ← Eval fuel (.Expr right) env h
          if isErr v then pure (v, h1)
          else do
            let r ← evalPrefix op v
            pure (r, h1)
      | .Expr (.InfixExpr left op right) => do
          let (l, h1) ← Eval fuel (.Expr left) env h
          if isErr l then pure (l, h1)
          else do
            let (r, h2) ← Eval fuel (.Expr right) env h1
            if isErr r then pure (r, h2)
            else do
              let v ← evalInfix l op r
              pure (v, h2)
      | .Expr (.IfExpr cond consq alt) => evalIf (Eval fuel) cond consq alt env h
      | .Expr (.Ident name) =>
          match env.Get h name with
          | (val, true) => .ok (val, h)
          | (_, false) =>
              match builtins name with
              | some b => .ok (b, h)
              | none => do
                  let message ← fmt.Sprintf ("identifier not found: ".toList ++ name)
                  pure (newErr message, h)
      | .Expr (.Function params body) => .ok (.Fn params body env, h)
      | .Expr (.CallExpr fn args) => do
          let (f, h1) ← Eval fuel (.Expr fn) env h
          if isErr f then pure (f, h1)
          else do
            let (as, h2) ← evalExpressions (Eval fuel) args [] env h1
            match singleErr as with
            | some err => pure (err, h2)
            | none => evalFn (Eval fuel) f as h2
      | .Expr (.StringLit value) => .ok (.String value, h)
      | .Expr (.Slice values) => do
          let (vals, h1) ← evalExpressions (Eval fuel) values [] env h
          match singleErr vals with
          | some err => pure (err, h1)
          | none => pure (.Slice vals, h1)
      | .Expr (.Index left idx) => do
          let (l, h1) ← Eval fuel (.Expr left) env h
          if isErr l then pure (l, h1)
          else do
            let (i, h2) ← Eval fuel (.Expr idx) env h1
            if isErr i then pure (i, h2)
            else do
              let v ← evalIndex l i
              pure (v, h2)
      | .Expr .nil => .ok (.nil, h)
      | .nil => .ok (.nil, h)

/-- The helper `setup` of the tests with the parser's errors kept:
`Eval(parser.New(lexer.New(input)).Parse(), entity.NewEnv())`. -/
def run (fuel : Nat) (input : Str) : Res (E × List Str) := do
  let (prog, errs) ← parseSource input
  let (env, h) := NewEnv []
  let (v, _) ← Eval fuel (.Program prog) env h
  pure (v, errs)

end eval

open eval

/-! ## Decidable equality of the syntax trees and of the entities

The types are nested through `List` and `Option`, so the comparisons are
written out by recursion on the two values. -/

mutual
/-- Equality of two expressions is decidable. -/
def ast.Expr.decEq : (a b : Expr) → Decidable (a = b)
  | .nil => fun b =>
      match b with
      | .nil => isTrue rfl
      | .Ident _ => isFalse (by intro h; cases h)
      | .Integer _ => isFalse (by intro h; cases h)
      | .PrefixExpr _ _ => isFalse (by intro h; cases h)
      | .InfixExpr _ _ _ => isFalse (by intro h; cases h)
      | .BoolLit _ => isFalse (by intro h; cases h)
      | .IfExpr _ _ _ => isFalse (by intro h; cases h)
      | .Function _ _ => isFalse (by intro h; cases h)
      | .CallExpr _ _ => isFalse (by intro h; cases h)
      | .StringLit _ => isFalse (by intro h; cases h)
      | .Slice _ => isFalse (by intro h; cases h)
      | .Index _ _ => isFalse (by intro h; cases h)
  | .Ident a0 => fun b =>
      match b with
      | .nil => isFalse (by intro h; cases h)
      | .Ident b0 =>
          match (inferInstance : Decidable (a0 = b0)) with
          | isTrue h0 => isTrue (by rw [h0])
          | isFalse h0 => isFalse (by intro h; cases h; exact h0 rfl)
      | .Integer _ => isFalse (by intro h; cases h)
      | .PrefixExpr _ _ => isFalse (by intro h; cases h)
      | .InfixExpr _ _ _ => isFalse (by intro h; cases h)
      | .BoolLit _ => isFalse (by intro h; cases h)
      | .IfExpr _ _ _ => isFalse (by intro h; cases h)
      | .Function _ _ => isFalse (by intro h; cases h)
      | .CallExpr _ _ => isFalse (by intro h; cases h)
      | .StringLit _ => isFalse (by intro h; cases h)
      | .Slice _ => isFalse (by intro h; cases h)
      | .Index _ _ => isFalse (by intro h; cases h)
  | .Integer a0 => fun b =>
      match b with
      | .nil => isFalse (by intro h; cases h)
      | .Ident _ => isFalse (by intro h; cases h)
      | .Integer b0 =>
          match (inferInstance : Decidable (a0 = b0)) with
          | isTrue h0 => isTrue (by rw [h0])
          | isFalse h0 => isFalse (by intro h; cases h; exact h0 rfl)
      | .PrefixExpr _ _ => isFalse (by intro h; cases h)
      | .InfixExpr _ _ _ => isFalse (by intro h; cases h)
      | .BoolLit _ => isFalse (by intro h; cases h)
      | .IfExpr _ _ _ => isFalse (by intro h; cases h)
      | .Function _ _ => isFalse (by intro h; cases h)
      | .CallExpr _ _ => isFalse (by intro h; cases h)
      | .StringLit _ => isFalse (by intro h; cases h)
      | .Slice _ => isFalse (by intro h; cases h)
      | .Index _ _ => isFalse (by intro h; cases h)
  | .PrefixExpr a0 a1 => fun b =>
      match b with
      | .nil => isFalse (by intro h; cases h)
      | .Ident _ => isFalse (by intro h; cases h)
      | .Integer _ => isFalse (by intro h; cases h)
      | .PrefixExpr b0 b1 =>
          match (inferInstance : Decidable (a0 = b0)), ast.Expr.decEq a1 b1 with
          | isTrue h0, isTrue h1 => isTrue (by rw [h0, h1])
          | isFalse h0, _ => isFalse (by intro h; cases h; exact h0 rfl)
          | _, isFalse h1 => isFalse (by intro h; cases h; exact h1 rfl)
      | .InfixExpr _ _ _ => isFalse (by intro h; cases h)
      | .BoolLit _ => isFalse (by intro h; cases h)
      | .IfExpr _ _ _ => isFalse (by intro h; cases h)
      | .Function _ _ => isFalse (by intro h; cases h)
      | .CallExpr _ _ => isFalse (by intro h; cases h)
      | .StringLit _ => isFalse (by intro h; cases h)
      | .Slice _ => isFalse (by intro h; cases h)
      | .Index _ _ => isFalse (by intro h; cases h)
  | .InfixExpr a0 a1 a2 => fun b =>
      match b with
      | .nil => isFalse (by intro h; cases h)
      | .Ident _ => isFalse (by intro h; cases h)
      | .Integer _ => isFalse (by intro h; cases h)
      | .PrefixExpr _ _ => isFalse (by intro h; cases h)
      | .InfixExpr b0 b1 b2 =>
          match ast.Expr.decEq a0 b0, (inferInstance : Decidable (a1 = b1)), ast.Expr.decEq a2 b2 with
          | isTrue h0, isTrue h1, isTrue h2 => isTrue (by rw [h0, h1, h2])
          | isFalse h0, _, _ => isFalse (by intro h; cases h; exact h0 rfl)
          | _, isFalse h1, _ => isFalse (by intro h; cases h; exact h1 rfl)
          | _, _, isFalse h2 => isFalse (by intro h; cases h; exact h2 rfl)
      | .BoolLit _ => isFalse (by intro h; cases h)
      | .IfExpr _ _ _ => isFalse (by intro h; cases h)
      | .Function _ _ => isFalse (by intro h; cases h)
      | .CallExpr _ _ => isFalse (by intro h; cases h)
      | .StringLit _ => isFalse (by intro h; cases h)
      | .Slice _ => isFalse (by intro h; cases h)
      | .Index _ _ => isFalse (by intro h; cases h)
  | .BoolLit a0 => fun b =>
      match b with
      | .nil => isFalse (by intro h; cases h)
      | .Ident _ => isFalse (by intro h; cases h)
      | .Integer _ => isFalse (by intro h; cases h)
      | .PrefixExpr _ _ => isFalse (by intro h; cases h)
      | .InfixExpr _ _ _ => isFalse (by intro h; cases h)
      | .BoolLit b0 =>
          match (inferInstance : Decidable (a0 = b0)) with
          | isTrue h0 => isTrue (by rw [h0])
          | isFalse h0 => isFalse (by intro h; cases h; exact h0 rfl)
      | .IfExpr _ _ _ => isFalse (by intro h; cases h)
      | .Function _ _ => isFalse (by intro h; cases h)
      | .CallExpr _ _ => isFalse (by intro h; cases h)
      | .StringLit _ => isFalse (by intro h; cases h)
      | .Slice _ => isFalse (by intro h; cases h)
      | .Index _ _ => isFalse (by intro h; cases h)
  | .IfExpr a0 a1 a2 => fun b =>
      match b with
      | .nil => isFalse (by intro h; cases h)
      | .Ident _ => isFalse (by intro h; cases h)
      | .Integer _ => isFalse (by intro h; cases h)
      | .PrefixExpr _ _ => isFalse (by intro h; cases h)
      | .InfixExpr _ _ _ => isFalse (by intro h; cases h)
      | .BoolLit _ => isFalse (by intro h; cases h)
      | .IfExpr b0 b1 b2 =>
          match ast.Expr.decEq a0 b0, ast.BlockStmt.decEq a1 b1, ast.BlockStmt.decEq a2 b2 with
          | isTrue h0, isTrue h1, isTrue h2 => isTrue (by rw [h0, h1, h2])
          | isFalse h0, _, _ => isFalse (by intro h; cases h; exact h0 rfl)
          | _, isFalse h1, _ => isFalse (by intro h; cases h; exact h1 rfl)
          | _, _, isFalse h2 => isFalse (by intro h; cases h; exact h2 rfl)
      | .Function _ _ => isFalse (by intro h; cases h)
      | .CallExpr _ _ => isFalse (by intro h; cases h)
      | .StringLit _ => isFalse (by intro h; cases h)
      | .Slice _ => isFalse (by intro h; cases h)
      | .Index _ _ => isFalse (by intro h; cases h)
  | .Function a0 a1 => fun b =>
      match b with
      | .nil => isFalse (by intro h; cases h)
      | .Ident _ => isFalse (by intro h; cases h)
      | .Integer _ => isFalse (by intro h; cases h)
      | .PrefixExpr _ _ => isFalse (by intro h; cases h)
      | .InfixExpr _ _ _ => isFalse (by intro h; cases h)
      | .BoolLit _ => isFalse (by intro h; cases h)
      | .IfExpr _ _ _ => isFalse (by intro h; cases h)
      | .Function b0 b1 =>
          match (inferInstance : Decidable (a0 = b0)), ast.BlockStmt.decEq a1 b1 with
          | isTrue h0, isTrue h1 => isTrue (by rw [h0, h1])
          | isFalse h0, _ => isFalse (by intro h; cases h; exact h0 rfl)
          | _, isFalse h1 => isFalse (by intro h; cases h; exact h1 rfl)
      | .CallExpr _ _ => isFalse (by intro h; cases h)
      | .StringLit _ => isFalse (by intro h; cases h)
      | .Slice _ => isFalse (by intro h; cases h)
      | .Index _ _ => isFalse (by intro h; cases h)
  | .CallExpr a0 a1 => fun b =>
      match b with
      | .nil => isFalse (by intro h; cases h)
      | .Ident _ => isFalse (by intro h; cases h)
      | .Integer _ => isFalse (by intro h; cases h)
      | .PrefixExpr _ _ => isFalse (by intro h; cases h)
      | .InfixExpr _ _ _ => isFalse (by intro h; cases h)
      | .BoolLit _ => isFalse (by intro h; cases h)
      | .IfExpr _ _ _ => isFalse (by intro h; cases h)
      | .Function _ _ => isFalse (by intro h; cases h)
      | .CallExpr b0 b1 =>
          match ast.Expr.decEq a0 b0, ast.Expr.decEqList a1 b1 with
          | isTrue h0, isTrue h1 => isTrue (by rw [h0, h1])
          | isFalse h0, _ => isFalse (by intro h; cases h; exact h0 rfl)
          | _, isFalse h1 => isFalse (by intro h; cases h; exact h1 rfl)
      | .StringLit _ => isFalse (by intro h; cases h)
      | .Slice _ => isFalse (by intro h; cases h)
      | .Index _ _ => isFalse (by intro h; cases h)
  | .StringLit a0 => fun b =>
      match b with
      | .nil => isFalse (by intro h; cases h)
      | .Ident _ => isFalse (by intro h; cases h)
      | .Integer _ => isFalse (by intro h; cases h)
      | .PrefixExpr _ _ => isFalse (by intro h; cases h)
      | .InfixExpr _ _ _ => isFalse (by intro h; cases h)
      | .BoolLit _ => isFalse (by intro h; cases h)
      | .IfExpr _ _ _ => isFalse (by intro h; cases h)
      | .Function _ _ => isFalse (by intro h; cases h)
      | .CallExpr _ _ => isFalse (by intro h; cases h)
      | .StringLit b0 =>
          match (inferInstance : Decidable (a0 = b0)) with
          | isTrue h0 => isTrue (by rw [h0])
          | isFalse h0 => isFalse (by intro h; cases h; exact h0 rfl)
      | .Slice _ => isFalse (by intro h; cases h)
      | .Index _ _ => isFalse (by intro h; cases h)
  | .Slice a0 => fun b =>
      match b with
      | .nil => isFalse (by intro h; cases h)
      | .Ident _ => isFalse (by intro h; cases h)
      | .Integer _ => isFalse (by intro h; cases h)
      | .PrefixExpr _ _ => isFalse (by intro h; cases h)
      | .InfixExpr _ _ _ => isFalse (by intro h; cases h)
      | .BoolLit _ => isFalse (by intro h; cases h)
      | .IfExpr _ _ _ => isFalse (by intro h; cases h)
      | .Function _ _ => isFalse (by intro h; cases h)
      | .CallExpr _ _ => isFalse (by intro h; cases h)
      | .StringLit _ => isFalse (by intro h; cases h)
      | .Slice b0 =>
          match ast.Expr.decEqList a0 b0 with
          | isTrue h0 => isTrue (by rw [h0])
          | isFalse h0 => isFalse (by intro h; cases h; exact h0 rfl)
      | .Index _ _ => isFalse (by intro h; cases h)
  | .Index a0 a1 => fun b =>
      match b with
      | .nil => isFalse (by intro h; cases h)
      | .Ident _ => isFalse (by intro h; cases h)
      | .Integer _ => isFalse (by intro h; cases h)
      | .PrefixExpr _ _ => isFalse (by intro h; cases h)
      | .InfixExpr _ _ _ => isFalse (by intro h; cases h)
      | .BoolLit _ => isFalse (by intro h; cases h)
      | .IfExpr _ _ _ => isFalse (by intro h; cases h)
      | .Function _ _ => isFalse (by intro h; cases h)
      | .CallExpr _ _ => isFalse (by intro h; cases h)
      | .StringLit _ => isFalse (by intro h; cases h)
      | .Slice _ => isFalse (by intro h; cases h)
      | .Index b0 b1 =>
          match ast.Expr.decEq a0 b0, ast.Expr.decEq a1 b1 with
          | isTrue h0, isTrue h1 => isTrue (by rw [h0, h1])
          | isFalse h0, _ => isFalse (by intro h; cases h; exact h0 rfl)
          | _, isFalse h1 => isFalse (by intro h; cases h; exact h1 rfl)
/-- Equality of two lists of expressions is decidable. -/
def ast.Expr.decEqList : (a b : List Expr) → Decidable (a = b)
  | [] => fun b =>
      match b with
      | [] => isTrue rfl
      | _ :: _ => isFalse (by intro h; cases h)
  | x :: xs => fun b =>
      match b with
      | [] => isFalse (by intro h; cases h)
      | y :: ys =>
          match ast.Expr.decEq x y, ast.Expr.decEqList xs ys with
          | isTrue h0, isTrue h1 => isTrue (by rw [h0, h1])
          | isFalse h0, _ => isFalse (by intro h; cases h; exact h0 rfl)
          | _, isFalse h1 => isFalse (by intro h; cases h; exact h1 rfl)
/-- Equality of two statements is decidable. -/
def ast.Statement.decEq : (a b : Statement) → Decidable (a = b)
  | .LetStmt a0 a1 => fun b =>
      match b with
      | .LetStmt b0 b1 =>
          match (inferInstance : Decidable (a0 = b0)), ast.Expr.decEq a1 b1 with
          | isTrue h0, isTrue h1 => isTrue (by rw [h0, h1])
          | isFalse h0, _ => isFalse (by intro h; cases h; exact h0 rfl)
          | _, isFalse h1 => isFalse (by intro h; cases h; exact h1 rfl)
      | .RetStmt _ => isFalse (by intro h; cases h)
      | .ExprStmt _ => isFalse (by intro h; cases h)
      | .Block _ => isFalse (by intro h; cases h)
  | .RetStmt a0 => fun b =>
      match b with
      | .LetStmt _ _ => isFalse (by intro h; cases h)
      | .RetStmt b0 =>
          match ast.Expr.decEq a0 b0 with
          | isTrue h0 => isTrue (by rw [h0])
          | isFalse h0 => isFalse (by intro h; cases h; exact h0 rfl)
      | .ExprStmt _ => isFalse (by intro h; cases h)
      | .Block _ => isFalse (by intro h; cases h)
  | .ExprStmt a0 => fun b =>
      match b with
      | .LetStmt _ _ => isFalse (by intro h; cases h)
      | .RetStmt _ => isFalse (by intro h; cases h)
      | .ExprStmt b0 =>
          match ast.Expr.decEq a0 b0 with
          | isTrue h0 => isTrue (by rw [h0])
          | isFalse h0 => isFalse (by intro h; cases h; exact h0 rfl)
      | .Block _ => isFalse (by intro h; cases h)
  | .Block a0 => fun b =>
      match b with
      | .LetStmt _ _ => isFalse (by intro h; cases h)
      | .RetStmt _ => isFalse (by intro h; cases h)
      | .ExprStmt _ => isFalse (by intro h; cases h)
      | .Block b0 =>
          match ast.BlockStmt.decEq a0 b0 with
          | isTrue h0 => isTrue (by rw [h0])
          | isFalse h0 => isFalse (by intro h; cases h; exact h0 rfl)
/-- Equality of two lists of statements is decidable. -/
def ast.Statement.decEqList : (a b : List Statement) → Decidable (a = b)
  | [] => fun b =>
      match b with
      | [] => isTrue rfl
      | _ :: _ => isFalse (by intro h; cases h)
  | x :: xs => fun b =>
      match b with
      | [] => isFalse (by intro h; cases h)
      | y :: ys =>
          match ast.Statement.decEq x y, ast.Statement.decEqList xs ys with
          | isTrue h0, isTrue h1 => isTrue (by rw [h0, h1])
          | isFalse h0, _ => isFalse (by intro h; cases h; exact h0 rfl)
          | _, isFalse h1 => isFalse (by intro h; cases h; exact h1 rfl)
/-- Equality of two blocks is decidable. -/
def ast.BlockStmt.decEq : (a b : BlockStmt) → Decidable (a = b)
  | .mk a0 a1 => fun b =>
      match b with
      | .mk b0 b1 =>
          match ast.Statement.decEqList a0 b0, (inferInstance : Decidable (a1 = b1)) with
          | isTrue h0, isTrue h1 => isTrue (by rw [h0, h1])
          | isFalse h0, _ => isFalse (by intro h; cases h; exact h0 rfl)
          | _, isFalse h1 => isFalse (by intro h; cases h; exact h1 rfl)
end

instance : DecidableEq Expr := ast.Expr.decEq

instance : DecidableEq Statement := ast.Statement.decEq

instance : DecidableEq BlockStmt := ast.BlockStmt.decEq

instance : DecidableEq Program := fun a b =>
  match a, b with
  | ⟨x⟩, ⟨y⟩ =>
      if h : x = y then isTrue (by rw [h]) else isFalse (by intro h1; cases h1; exact h rfl)

mutual
/-- Equality of two environments is decidable. -/
def entity.Env.decEq : (a b : Env) → Decidable (a = b)
  | .mk a0 a1 => fun b =>
      match b with
      | .mk b0 b1 =>
          match entity.Env.decEqOpt a0 b0, (inferInstance : Decidable (a1 = b1)) with
          | isTrue h0, isTrue h1 => isTrue (by rw [h0, h1])
          | isFalse h0, _ => isFalse (by intro h; cases h; exact h0 rfl)
          | _, isFalse h1 => isFalse (by intro h; cases h; exact h1 rfl)
/-- Equality of two optional parents is decidable. -/
def entity.Env.decEqOpt : (a b : Option Env) → Decidable (a = b)
  | none => fun b =>
      match b with
      | none => isTrue rfl
      | some _ => isFalse (by intro h; cases h)
  | some x => fun b =>
      match b with
      | none => isFalse (by intro h; cases h)
      | some y =>
          match entity.Env.decEq x y with
          | isTrue h0 => isTrue (by rw [h0])
          | isFalse h0 => isFalse (by intro h; cases h; exact h0 rfl)
end

instance : DecidableEq Env := entity.Env.decEq

mutual
/-- Equality of two entities is decidable. -/
def entity.E.decEq : (a b : E) → Decidable (a = b)
  | .nil => fun b =>
      match b with
      | .nil => isTrue rfl
      | .Int _ => isFalse (by intro h; cases h)
      | .Bool _ => isFalse (by intro h; cases h)
      | .Null => isFalse (by intro h; cases h)
      | .Return _ => isFalse (by intro h; cases h)
      | .Error _ => isFalse (by intro h; cases h)
      | .Fn _ _ _ => isFalse (by intro h; cases h)
      | .String _ => isFalse (by intro h; cases h)
      | .Builtin _ => isFalse (by intro h; cases h)
      | .Slice _ => isFalse (by intro h; cases h)
  | .Int a0 => fun b =>
      match b with
      | .nil => isFalse (by intro h; cases h)
      | .Int b0 =>
          match (inferInstance : Decidable (a0 = b0)) with
          | isTrue h0 => isTrue (by rw [h0])
          | isFalse h0 => isFalse (by intro h; cases h; exact h0 rfl)
      | .Bool _ => isFalse (by intro h; cases h)
      | .Null => isFalse (by intro h; cases h)
      | .Return _ => isFalse (by intro h; cases h)
      | .Error _ => isFalse (by intro h; cases h)
      | .Fn _ _ _ => isFalse (by intro h; cases h)
      | .String _ => isFalse (by intro h; cases h)
      | .Builtin _ => isFalse (by intro h; cases h)
      | .Slice _ => isFalse (by intro h; cases h)
  | .Bool a0 => fun b =>
      match b with
      | .nil => isFalse (by intro h; cases h)
      | .Int _ => isFalse (by intro h; cases h)
      | .Bool b0 =>
          match (inferInstance : Decidable (a0 = b0)) with
          | isTrue h0 => isTrue (by rw [h0])
          | isFalse h0 => isFalse (by intro h; cases h; exact h0 rfl)
      | .Null => isFalse (by intro h; cases h)
      | .Return _ => isFalse (by intro h; cases h)
      | .Error _ => isFalse (by intro h; cases h)
      | .Fn _ _ _ => isFalse (by intro h; cases h)
      | .String _ => isFalse (by intro h; cases h)
      | .Builtin _ => isFalse (by intro h; cases h)
      | .Slice _ => isFalse (by intro h; cases h)
  | .Null => fun b =>
      match b with
      | .nil => isFalse (by intro h; cases h)
      | .Int _ => isFalse (by intro h; cases h)
      | .Bool _ => isFalse (by intro h; cases h)
      | .Null => isTrue rfl
      | .Return _ => isFalse (by intro h; cases h)
      | .Error _ => isFalse (by intro h; cases h)
      | .Fn _ _ _ => isFalse (by intro h; cases h)
      | .String _ => isFalse (by intro h; cases h)
      | .Builtin _ => isFalse (by intro h; cases h)
      | .Slice _ => isFalse (by intro h; cases h)
  | .Return a0 => fun b =>
      match b with
      | .nil => isFalse (by intro h; cases h)
      | .Int _ => isFalse (by intro h; cases h)
      | .Bool _ => isFalse (by intro h; cases h)
      | .Null => isFalse (by intro h; cases h)
      | .Return b0 =>
          match entity.E.decEq a0 b0 with
          | isTrue h0 => isTrue (by rw [h0])
          | isFalse h0 => isFalse (by intro h; cases h; exact h0 rfl)
      | .Error _ => isFalse (by intro h; cases h)
      | .Fn _ _ _ => isFalse (by intro h; cases h)
      | .String _ => isFalse (by intro h; cases h)
      | .Builtin _ => isFalse (by intro h; cases h)
      | .Slice _ => isFalse (by intro h; cases h)
  | .Error a0 => fun b =>
      match b with
      | .nil => isFalse (by intro h; cases h)
      | .Int _ => isFalse (by intro h; cases h)
      | .Bool _ => isFalse (by intro h; cases h)
      | .Null => isFalse (by intro h; cases h)
      | .Return _ => isFalse (by intro h; cases h)
      | .Error b0 =>
          match (inferInstance : Decidable (a0 = b0)) with
          | isTrue h0 => isTrue (by rw [h0])
          | isFalse h0 => isFalse (by intro h; cases h; exact h0 rfl)
      | .Fn _ _ _ => isFalse (by intro h; cases h)
      | .String _ => isFalse (by intro h; cases h)
      | .Builtin _ => isFalse (by intro h; cases h)
      | .Slice _ => isFalse (by intro h; cases h)
  | .Fn a0 a1 a2 => fun b =>
      match b with
      | .nil => isFalse (by intro h; cases h)
      | .Int _ => isFalse (by intro h; cases h)
      | .Bool _ => isFalse (by intro h; cases h)
      | .Null => isFalse (by intro h; cases h)
      | .Return _ => isFalse (by intro h; cases h)
      | .Error _ => isFalse (by intro h; cases h)
      | .Fn b0 b1 b2 =>
          match (inferInstance : Decidable (a0 = b0)), (inferInstance : Decidable (a1 = b1)), (inferInstance : Decidable (a2 = b2)) with
          | isTrue h0, isTrue h1, isTrue h2 => isTrue (by rw [h0, h1, h2])
          | isFalse h0, _, _ => isFalse (by intro h; cases h; exact h0 rfl)
          | _, isFalse h1, _ => isFalse (by intro h; cases h; exact h1 rfl)
          | _, _, isFalse h2 => isFalse (by intro h; cases h; exact h2 rfl)
      | .String _ => isFalse (by intro h; cases h)
      | .Builtin _ => isFalse (by intro h; cases h)
      | .Slice _ => isFalse (by intro h; cases h)
  | .String a0 => fun b =>
      match b with
      | .nil => isFalse (by intro h; cases h)
      | .Int _ => isFalse (by intro h; cases h)
      | .Bool _ => isFalse (by intro h; cases h)
      | .Null => isFalse (by intro h; cases h)
      | .Return _ => isFalse (by intro h; cases h)
      | .Error _ => isFalse (by intro h; cases h)
      | .Fn _ _ _ => isFalse (by intro h; cases h)
      | .String b0 =>
          match (inferInstance : Decidable (a0 = b0)) with
          | isTrue h0 => isTrue (by rw [h0])
          | isFalse h0 => isFalse (by intro h; cases h; exact h0 rfl)
      | .Builtin _ => isFalse (by intro h; cases h)
      | .Slice _ => isFalse (by intro h; cases h)
  | .Builtin a0 => fun b =>
      match b with
      | .nil => isFalse (by intro h; cases h)
      | .Int _ => isFalse (by intro h; cases h)
      | .Bool _ => isFalse (by intro h; cases h)
      | .Null => isFalse (by intro h; cases h)
      | .Return _ => isFalse (by intro h; cases h)
      | .Error _ => isFalse (by intro h; cases h)
      | .Fn _ _ _ => isFalse (by intro h; cases h)
      | .String _ => isFalse (by intro h; cases h)
      | .Builtin b0 =>
          match (inferInstance : Decidable (a0 = b0)) with
          | isTrue h0 => isTrue (by rw [h0])
          | isFalse h0 => isFalse (by intro h; cases h; exact h0 rfl)
      | .Slice _ => isFalse (by intro h; cases h)
  | .Slice a0 => fun b =>
      match b with
      | .nil => isFalse (by intro h; cases h)
      | .Int _ => isFalse (by intro h; cases h)
      | .Bool _ => isFalse (by intro h; cases h)
      | .Null => isFalse (by intro h; cases h)
      | .Return _ => isFalse (by intro h; cases h)
      | .Error _ => isFalse (by intro h; cases h)
      | .Fn _ _ _ => isFalse (by intro h; cases h)
      | .String _ => isFalse (by intro h; cases h)
      | .Builtin _ => isFalse (by intro h; cases h)
      | .Slice b0 =>
          match entity.E.decEqList a0 b0 with
          | isTrue h0 => isTrue (by rw [h0])
          | isFalse h0 => isFalse (by intro h; cases h; exact h0 rfl)
/-- Equality of two lists of entities is decidable. -/
def entity.E.decEqList : (a b : List E) → Decidable (a = b)
  | [] => fun b =>
      match b with
      | [] => isTrue rfl
      | _ :: _ => isFalse (by intro h; cases h)
  | x :: xs => fun b =>
      match b with
      | [] => isFalse (by intro h; cases h)
      | y :: ys =>
          match entity.E.decEq x y, entity.E.decEqList xs ys with
          | isTrue h0, isTrue h1 => isTrue (by rw [h0, h1])
          | isFalse h0, _ => isFalse (by intro h; cases h; exact h0 rfl)
          | _, isFalse h1 => isFalse (by intro h; cases h; exact h1 rfl)
end

instance : DecidableEq E := entity.E.decEq


/-! ## The lexer on the bytes that remain -/

namespace lexer

/-- The lexer on `input` whose current byte is the one at `pos`: the state
`readChar` leaves behind when it has just read that byte. -/
def lexAt (input : Str) (pos : Nat) : Lexer :=
  { input := input, cPos := pos, nPos := pos + 1, ch := (input.drop pos).headD NUL }

/-- The token that starts at the head of `t` (bytes with no blank in front)
and the number of bytes it takes, as the `switch` of `NextToken` decides
them; the end of the input counts as one byte. -/
def scanToken (t : Str) : Token × Nat :=
  let c := t.headD NUL
  if c = '=' then
    if (t.drop 1).headD NUL = '=' then (token.New TypeEQ "==".toList, 2)
    else (token.New TypeAssign (byteString c), 1)
  else if c = '+' then (token.New TypePlus (byteString c), 1)
  else if c = '-' then (token.New TypeMinus (byteString c), 1)
  else if c = '*' then (token.New TypeStar (byteString c), 1)
  else if c = '/' then (token.New TypeSlash (byteString c), 1)
  else if c = '!' then
    if (t.drop 1).headD NUL = '=' then (token.New TypeNotEQ "!=".toList, 2)
    else (token.New TypeBang (byteString c), 1)
  else if c = '<' then (token.New TypeLT (byteString c), 1)
  else if c = '>' then (token.New TypeGT (byteString c), 1)
  else if c = ';' then (token.New TypeSemicolon (byteString c), 1)
  else if c = '(' then (token.New TypeLParen (byteString c), 1)
  else if c = ')' then (token.New TypeRParen (byteString c), 1)
  else if c = ',' then (token.New TypeComma (byteString c), 1)
  else if c = '{' then (token.New TypeLBrace (byteString c), 1)
  else if c = '}' then (token.New TypeRBrace (byteString c), 1)
  else if c = '[' then (token.New TypeLBrakt (byteString c), 1)
  else if c = ']' then (token.New TypeRBrakt (byteString c), 1)
  else if c = NUL then (token.New TypeEOF [], 1)
  else if c = '"' then
    (token.New TypeString ((t.drop 1).takeWhile inString),
      ((t.drop 1).takeWhile inString).length + 2)
  else if isLetter c then
    (token.New TypeLookup (t.takeWhile isLetter), (t.takeWhile isLetter).length)
  else if isDigit c then
    (token.New TypeInt (t.takeWhile isDigit), (t.takeWhile isDigit).length)
  else (token.New TypeIllegal (byteString c), 1)

/-- The next token of the remaining bytes `s` and the number of bytes that
`NextToken` moves forward: the blanks in front and the token. -/
def lexSpec (s : Str) : Token × Nat :=
  ((scanToken (s.dropWhile isWhitespace)).1,
    (s.takeWhile isWhitespace).length + (scanToken (s.dropWhile isWhitespace)).2)

end lexer

/-! ## Vocabulary of the operator-precedence property -/

namespace parser

/-- The reserved words of the keyword resolution in `token.New`. -/
def keywords : List Str :=
  ["let".toList, "fn".toList, "return".toList, "if".toList, "else".toList, "true".toList,
    "false".toList]

/-- A word the lexer reads as one identifier: a non-empty run of letters and
underscores that is not a reserved word. -/
def isIdentifier (a : Str) : Bool :=
  !a.isEmpty && a.all isLetter && !keywords.contains a

/-- The binary operators `==`, `!=`, `<`, `>`, `+`, `-`, `*`, `/`. -/
def binaryOperators : List Str :=
  ["==".toList, "!=".toList, "<".toList, ">".toList, "+".toList, "-".toList, "*".toList,
    "/".toList]

/-- The precedence level of a binary operator as the specification orders
them: Equals (1) below LessGreater (2) below Sum (3) below Product (4). -/
def precedence (op : Str) : Nat :=
  if op = "==".toList ∨ op = "!=".toList then 1
  else if op = "<".toList ∨ op = ">".toList then 2
  else if op = "+".toList ∨ op = "-".toList then 3
  else if op = "*".toList ∨ op = "/".toList then 4
  else 0

/-- The token type the lexer gives to a binary operator. -/
def operatorType (op : Str) : TokenType :=
  if op = "==".toList then TypeEQ
  else if op = "!=".toList then TypeNotEQ
  else if op = "<".toList then TypeLT
  else if op = ">".toList then TypeGT
  else if op = "+".toList then TypePlus
  else if op = "-".toList then TypeMinus
  else if op = "*".toList then TypeStar
  else if op = "/".toList then TypeSlash
  else TypeIllegal

/-- The source text `a op1 b op2 c`, the five words separated by one blank. -/
def binarySource (a op1 b op2 c : Str) : Str :=
  a ++ ' ' :: (op1 ++ ' ' :: (b ++ ' ' :: (op2 ++ ' ' :: c)))

end parser

/-! ## Helpers for stating the properties -/

namespace eval

/-- The value of an outcome of `Eval`, without the heap. -/
def valueOf (r : Res (E × Heap)) : Res E :=
  match r with
  | .ok (v, _) => .ok v
  | .panic => .panic
  | .outOfFuel => .outOfFuel

/-- The entity is one of the two sentinels, a `Return` or an `Error`. -/
def isSentinel : E → Bool
  | .Return _ => true
  | .Error _ => true
  | _ => false

/-- Every statement of the list evaluated in order, whatever the results are:
the results in order and the heap at the end. -/
def evalAll (ev : Evaluator) : List Statement → Env → Heap → Res (List E × Heap)
  | [], _, h => .ok ([], h)
  | s :: ss, env, h => do
      let (r, h1) ← ev (.Stmt s) env h
      let (rs, h2) ← evalAll ev ss env h1
      pure (r :: rs, h2)

/-- The evaluator `ev2` agrees with `ev1` wherever `ev1` does not run out of
fuel. -/
def EvLe (ev1 ev2 : Evaluator) : Prop :=
  ∀ node env h, ev1 node env h ≠ .outOfFuel → ev2 node env h = ev1 node env h

/-- The program evaluated in a fresh environment, as the tests do after
parsing: `Eval(program, entity.NewEnv())`. -/
def runProgram (fuel : Nat) (prog : Program) : Res E :=
  valueOf (Eval fuel (.Program prog) (NewEnv []).1 (NewEnv []).2)

end eval

namespace entity

/-- The addresses of the maps on the parent chain of an environment, its own
first. -/
def Env.addrs : Env → List Nat
  | .mk none store => [store]
  | .mk (some parent) store => store :: Env.addrs parent

end entity

namespace eval

/-- The syntax tree of
`let newAdder = fn(x) { return fn(y) { return x + y; }; }; let add = newAdder(a); add(b);`. -/
def adderProgram (a b : Int) : Program :=
  ⟨[.LetStmt "newAdder".toList (.Function ["x".toList] (.mk [.RetStmt (.Function ["y".toList]
      (.mk [.RetStmt (.InfixExpr (.Ident "x".toList) "+".toList (.Ident "y".toList))] true))]
      true)),
    .LetStmt "add".toList (.CallExpr (.Ident "newAdder".toList) [.Integer a]),
    .ExprStmt (.CallExpr (.Ident "add".toList) [.Integer b])]⟩

/-- The syntax tree of `let id = fn(x) { return x; }; id(n);`. -/
def idProgram (n : Int) : Program :=
  ⟨[.LetStmt "id".toList (.Function ["x".toList] (.mk [.RetStmt (.Ident "x".toList)] true)),
    .ExprStmt (.CallExpr (.Ident "id".toList) [.Integer n])]⟩

/-- The syntax tree of `let f = fn() { x }; let x = n; f()`. -/
def lateLetProgram (n : Int) : Program :=
  ⟨[.LetStmt "f".toList (.Function [] (.mk [.ExprStmt (.Ident "x".toList)] true)),
    .LetStmt "x".toList (.Integer n),
    .ExprStmt (.CallExpr (.Ident "f".toList) [])]⟩

end eval

/-- The operators that `evalIntInfix` has a case for. -/
def intOperators : List Str :=
  ["+".toList, "-".toList, "/".toList, "*".toList, "<".toList, ">".toList, "==".toList,
    "!=".toList]

/-- Every expression of the list evaluated in order, whatever the results are:
the values in order and the heap at the end. -/
def evalEach (ev : Evaluator) : List Expr → Env → Heap → Res (List E × Heap)
  | [], _, h => .ok ([], h)
  | e :: es, env, h => do
      let (v, h1) ← ev (.Expr e) env h
      let (vs, h2) ← evalEach ev es env h1
      pure (v :: vs, h2)

/-- The first `n` tokens that `NextToken` returns from the lexer `l` on. -/
def lexN : Nat → Lexer → Res (List Token)
  | 0, _ => .ok []
  | n + 1, l => do
      let (t, l1) ← l.NextToken
      let ts ← lexN n l1
      pure (t :: ts)

/-- The first `n` tokens of `input`: `lexer.New` and `n` calls of
`NextToken`. -/
def lexTokens (input : Str) (n : Nat) : Res (List Token) := lexN n (lexer.New input)

/-- A non-empty run of decimal digits, as `readNumber` returns it. -/
def isDigitRun (s : Str) : Bool := !s.isEmpty && s.all isDigit

/-- The number that the digits of `s` denote in base `base`, the most
significant digit first. -/
def digitsValue (base : Nat) (s : Str) : Nat :=
  s.foldl (fun acc c => acc * base + (c.toNat - '0'.toNat)) 0

/-- A digit below 8. -/
def isOctalDigit (c : Char) : Bool := '0' ≤ c && c ≤ '7'

namespace parser

/-- The position of the lexer on `input` after `i` calls of `NextToken`. -/
def tokenPos (input : Str) : Nat → Nat
  | 0 => 0
  | i + 1 => tokenPos input i + (lexSpec (input.drop (tokenPos input i))).2

/-- The bytes of `input` that remain after `i` tokens. -/
def restAfter (input : Str) (i : Nat) : Str := input.drop (tokenPos input i)

/-- The token number `i` of `input`, counted from 0; past the end it is
`EOF`. -/
def tokenAt (input : Str) (i : Nat) : Token := (lexSpec (restAfter input i)).1

/-- The parser on `input` whose current token is the token number `i`: the
next token is the one after it and the lexer stands behind that one. -/
def parserAt (input : Str) (i : Nat) (errs : List ParseError) : Parser :=
  { l := lexAt input (tokenPos input (i + 2)), ctok := tokenAt input i,
    ntok := tokenAt input (i + 1), errs := errs }

/-- The prefix operators `!` and `-`. -/
def prefixOperators : List Str := ["!".toList, "-".toList]

/-- The token type the lexer gives to a prefix operator. -/
def prefixType (p : Str) : TokenType := if p = "!".toList then TypeBang else TypeMinus

end parser

namespace parser

/-- The text of a slice literal after its first element: `, e` for each
further element and the closing bracket. -/
def sliceTail : List Str → Str
  | [] => [']']
  | l :: ls => ',' :: ' ' :: (l ++ sliceTail ls)

/-- The slice literal `[e1, ..., en]` with the given element texts. -/
def sliceSource (lits : List Str) : Str := '[' :: (join lits ", ".toList ++ "]".toList)

end parser

namespace ast

mutual
/-- The number of nodes of an expression, each element of an argument list
or of a slice literal counted once more. -/
def Expr.nodes : Expr → Nat
  | .nil => 1
  | .Ident _ => 1
  | .Integer _ => 1
  | .PrefixExpr _ right => right.nodes + 1
  | .InfixExpr left _ right => left.nodes + right.nodes + 1
  | .BoolLit _ => 1
  | .IfExpr _ _ _ => 1
  | .Function _ _ => 1
  | .CallExpr fn args => fn.nodes + Expr.nodesAll args + 1
  | .StringLit _ => 1
  | .Slice values => Expr.nodesAll values + 1
  | .Index left idx => left.nodes + idx.nodes + 1
/-- The nodes of a list of expressions. -/
def Expr.nodesAll : List Expr → Nat
  | [] => 0
  | e :: es => e.nodes + Expr.nodesAll es + 1
end

mutual
/-- The expressions whose rendering is read back by the parser: built from
identifiers that are no keywords, integer literals of the `int64` range that
are not negative, booleans, the prefix operators, the binary operators, calls,
slice literals with an element, and indexes. -/
def Expr.plain : Expr → Bool
  | .nil => false
  | .Ident value => parser.isIdentifier value
  | .Integer value => decide (0 ≤ value ∧ value < 2 ^ 63)
  | .PrefixExpr op right => parser.prefixOperators.contains op && right.plain
  | .InfixExpr left op right =>
      parser.binaryOperators.contains op && left.plain && right.plain
  | .BoolLit _ => true
  | .IfExpr _ _ _ => false
  | .Function _ _ => false
  | .CallExpr fn args => fn.plain && Expr.plainAll args
  | .StringLit _ => false
  | .Slice values => !values.isEmpty && Expr.plainAll values
  | .Index left idx => left.plain && idx.plain
/-- Every expression of the list is of that kind. -/
def Expr.plainAll : List Expr → Bool
  | [] => true
  | e :: es => e.plain && Expr.plainAll es
end

end ast

namespace parser

/-- The bytes that remain after `i` tokens, without the blanks in front. -/
def trimmed (input : Str) (i : Nat) : Str := (restAfter input i).dropWhile isWhitespace

/-- The text of a list after its first element: `, e` for each further
element, the closing byte and what follows. -/
def listTail (close : Char) (rest : Str) : List Str → Str
  | [] => close :: rest
  | l :: ls => ',' :: ' ' :: (l ++ listTail close rest ls)

/-- A byte that may follow the rendering of an expression: neither a letter
nor a digit. -/
def Clean (rest : Str) : Prop := ∀ c r, rest = c :: r → isLetter c = false ∧ isDigit c = false

/-- The bytes `rest` may follow the text `s` without running into its last
word: after a letter comes no letter, and after a digit no digit. -/
def Follows (s rest : Str) : Prop :=
  ∀ c r, rest = c :: r →
    (isLetter (s.getLastD NUL) = true → isLetter c = false) ∧
    (isDigit (s.getLastD NUL) = true → isDigit c = false)

/-- A byte that starts the rendering of an expression. -/
def startsExpr (c : Char) : Prop := isLetter c = true ∨ isDigit c = true ∨ c = '(' ∨ c = '['

end parser

namespace parser

/-- The rendering of `t` is read back as `t`: it starts with a byte that
starts an expression and has at least as many bytes as `t` has nodes; and
wherever it stands in an input, followed by bytes that do not run into its last
word, the parser with enough fuel reads it as `t` and then goes on in the loop of
`parseExpression` with `t` as the left operand, the parser standing on the last
token of the rendering. -/
def ParsesBack (t : Expr) : Prop :=
  ∀ s, Expr.String t = .ok s →
    (∃ c r, s = c :: r ∧ startsExpr c) ∧ t.nodes ≤ s.length ∧
    ∀ (input : Str) (i : Nat) (e : List ParseError) (rest : Str) (f : Nat) (pr : priority),
      trimmed input i = s ++ rest → Follows s rest → 2 * t.nodes ≤ f → pr ≤ priorityPrefix →
      (tokenAt input i).typ ∈ [TypeIdent, TypeInt, TypeBool, TypeLParen, TypeLBrakt] ∧
      ∃ k m, parseExpression (f + 1) pr (parserAt input i e) =
          parseInfixLoop (parseExpression f) f pr m t (parserAt input k e) ∧
        f ≤ m + t.nodes ∧ restAfter input (k + 1) = rest

end parser

/-- The first `n` tokens of the remaining bytes `r`, as `lexSpec` reads them
one after the other. -/
def specTokens : Nat → Str → List Token
  | 0, _ => []
  | n + 1, r => (lexSpec r).1 :: specTokens n (r.drop (lexSpec r).2)

namespace ast

mutual
/-- No node of the expression is the absent expression. -/
def Expr.present : Expr → Bool
  | .nil => false
  | .Ident _ => true
  | .Integer _ => true
  | .PrefixExpr _ right => right.present
  | .InfixExpr left _ right => left.present && right.present
  | .BoolLit _ => true
  | .IfExpr cond consq alt => cond.present && consq.present && alt.present
  | .Function _ body => body.present
  | .CallExpr fn args => fn.present && Expr.presentAll args
  | .StringLit _ => true
  | .Slice values => Expr.presentAll values
  | .Index left idx => left.present && idx.present
/-- No node of the expressions of the list is absent. -/
def Expr.presentAll : List Expr → Bool
  | [] => true
  | e :: es => e.present && Expr.presentAll es
/-- No node of the statement is the absent expression. -/
def Statement.present : Statement → Bool
  | .LetStmt _ value => value.present
  | .RetStmt value => value.present
  | .ExprStmt value => value.present
  | .Block blk => blk.present
/-- No node of the block is the absent expression. -/
def BlockStmt.present : BlockStmt → Bool
  | .mk ss _ => Statement.presentAll ss
/-- No node of the statements of the list is absent. -/
def Statement.presentAll : List Statement → Bool
  | [] => true
  | s :: ss => s.present && Statement.presentAll ss
end

end ast

namespace parser

/-- The states `P j e` are those of a parser that reads a token sequence of
`len` tokens before the end: `P j e` stands at token `j` with the errors `e`
recorded, `nextToken` leads from `P j e` to `P (j + 1) e`, the next token of
`P j e` is the current one of `P (j + 1) e`, from token `len` on the current
token is `EOF`, and no token has the type `TypeLookup`. -/
structure IsCursor (P : Nat → List ParseError → Parser) (len : Nat) : Prop where
  next : ∀ j e, (P j e).nextToken = .ok (P (j + 1) e)
  errs : ∀ j e, (P j e).errs = e
  set : ∀ j e e2, { P j e with errs := e2 } = P j e2
  ntok : ∀ j e, (P j e).ntok = (P (j + 1) e).ctok
  eof : ∀ j e, len ≤ j → (P j e).ctok.Type = TypeEOF
  typ : ∀ j e, (P j e).ctok.Type ≠ TypeLookup

/-- The outcome `r` of a piece of the parser that started in the state `P i e`
is a result `x` in a state `P j (e ++ es)` that stands at the same token or
further on and has the errors `es` recorded in addition; and when no error was
added, `Q x` holds. -/
def Reads {α : Type} (P : Nat → List ParseError → Parser) (Q : α → Prop) (i : Nat)
    (e : List ParseError) (r : Res (α × Parser)) : Prop :=
  ∃ x j es, r = .ok (x, P j (e ++ es)) ∧ i ≤ j ∧ (es = [] → Q x)

/-- The expression parser `pe` reads from every state at token `i0` or further
on, and its result has no absent node when it records no error. -/
def ReadsExpr (P : Nat → List ParseError → Parser) (i0 : Nat)
    (pe : priority → Parser → Res (Expr × Parser)) : Prop :=
  ∀ i, i0 ≤ i → ∀ pr e, Reads P (fun x => Expr.present x = true) i e (pe pr (P i e))

end parser

/-! ## package lexer with the positions in `uint` -/

namespace ulexer

/-- Method `readChar` with `l.nPos++` computed in `uint`, an unsigned integer
of `bits` bits: the sum is reduced modulo `2 ^ bits`. -/
def readChar (bits : Nat) (l : Lexer) : Lexer :=
  { l with
    ch := if l.nPos < l.input.length then l.input.getD l.nPos NUL else NUL
    cPos := l.nPos
    nPos := (l.nPos + 1) % 2 ^ bits }

/-- Constructor `lexer.New`. -/
def New (bits : Nat) (input : Str) : Lexer :=
  readChar bits { input := input, cPos := 0, nPos := 0, ch := NUL }

/-- The loop `for cond(l.ch) { l.readChar() }`, with a fuel counter. -/
def readWhile (bits : Nat) (cond : Char → Bool) : Nat → Lexer → Res Lexer
  | 0, l => if cond l.ch then .outOfFuel else .ok l
  | n + 1, l => if cond l.ch then readWhile bits cond n (readChar bits l) else .ok l

/-- Method `eatWhitespace`. -/
def eatWhitespace (bits : Nat) (l : Lexer) : Res Lexer :=
  readWhile bits isWhitespace l.loopFuel l

/-- Method `readIdentifier`. -/
def readIdentifier (bits : Nat) (l : Lexer) : Res (Str × Lexer) := do
  let position := l.cPos
  let l1 ← readWhile bits isLetter l.loopFuel l
  let s ← sliceStr l1.input position l1.cPos
  pure (s, l1)

/-- Method `readNumber`. -/
def readNumber (bits : Nat) (l : Lexer) : Res (Str × Lexer) := do
  let start := l.cPos
  let l1 ← readWhile bits isDigit l.loopFuel l
  let s ← sliceStr l1.input start l1.cPos
  pure (s, l1)

/-- Method `readString`. -/
def readString (bits : Nat) (l : Lexer) : Res (Str × Lexer) := do
  let l0 := readChar bits l
  let start := l0.cPos
  let l1 ← readWhile bits inString l0.loopFuel l0
  let s ← sliceStr l1.input start l1.cPos
  pure (s, l1)

/-- Method `NextToken`. -/
def NextToken (bits : Nat) (l0 : Lexer) : Res (Token × Lexer) := do
  let l ← eatWhitespace bits l0
  if l.ch = '=' then
    let c ← l.peekChar
    if c = '=' then pure (token.New TypeEQ "==".toList, readChar bits (readChar bits l))
    else pure (token.New TypeAssign (byteString l.ch), readChar bits l)
  else if l.ch = '+' then pure (token.New TypePlus (byteString l.ch), readChar bits l)
  else if l.ch = '-' then pure (token.New TypeMinus (byteString l.ch), readChar bits l)
  else if l.ch = '*' then pure (token.New TypeStar (byteString l.ch), readChar bits l)
  else if l.ch = '/' then pure (token.New TypeSlash (byteString l.ch), readChar bits l)
  else if l.ch = '!' then
    let c ← l.peekChar
    if c = '=' then pure (token.New TypeNotEQ "!=".toList, readChar bits (readChar bits l))
    else pure (token.New TypeBang (byteString l.ch), readChar bits l)
  else if l.ch = '<' then pure (token.New TypeLT (byteString l.ch), readChar bits l)
  else if l.ch = '>' then pure (token.New TypeGT (byteString l.ch), readChar bits l)
  else if l.ch = ';' then pure (token.New TypeSemicolon (byteString l.ch), readChar bits l)
  else if l.ch = '(' then pure (token.New TypeLParen (byteString l.ch), readChar bits l)
  else if l.ch = ')' then pure (token.New TypeRParen (byteString l.ch), readChar bits l)
  else if l.ch = ',' then pure (token.New TypeComma (byteString l.ch), readChar bits l)
  else if l.ch = '{' then pure (token.New TypeLBrace (byteString l.ch), readChar bits l)
  else if l.ch = '}' then pure (token.New TypeRBrace (byteString l.ch), readChar bits l)
  else if l.ch = '[' then pure (token.New TypeLBrakt (byteString l.ch), readChar bits l)
  else if l.ch = ']' then pure (token.New TypeRBrakt (byteString l.ch), readChar bits l)
  else if l.ch = NUL then pure (token.New TypeEOF [], readChar bits l)
  else if l.ch = '"' then
    let (s, l1) ← readString bits l
    pure (token.New TypeString s, readChar bits l1)
  else if isLetter l.ch then
    let (s, l1) ← readIdentifier bits l
    pure (token.New TypeLookup s, l1)
  else if isDigit l.ch then
    let (s, l1) ← readNumber bits l
    pure (token.New TypeInt s, l1)
  else pure (token.New TypeIllegal (byteString l.ch), readChar bits l)

/-- The first `n` tokens that `NextToken` returns from the lexer `l` on, and
the lexer after them. -/
def lexN (bits : Nat) : Nat → Lexer → Res (List Token × Lexer)
  | 0, l => .ok ([], l)
  | n + 1, l => do
      let (t, l1) ← NextToken bits l
      let (ts, l2) ← lexN bits n l1
      pure (t :: ts, l2)

/-- The first `n` tokens of `input`: `lexer.New` and `n` calls of
`NextToken`. -/
def lexTokens (bits : Nat) (input : Str) (n : Nat) : Res (List Token) := do
  let (ts, _) ← lexN bits n (New bits input)
  pure ts

end ulexer

/-- The source text of the adder program with the integer literals `a` and
`b` in decimal. -/
def adderSource (a b : Int) : Str :=
  "let newAdder = fn(x) \x7b return fn(y) \x7b return x + y; \x7d; \x7d; let add = newAdder(".toList ++
    (itoa a ++ ("); add(".toList ++ (itoa b ++ ");".toList)))

namespace ast

/-- The statements whose rendering is read back by the parser: a `let` with a
name that is an identifier and no keyword, a `return` and an expression
statement, each over an expression of the kind `Expr.plain`. -/
def Statement.plain : Statement → Bool
  | .LetStmt name value => parser.isIdentifier name && value.plain
  | .RetStmt value => value.plain
  | .ExprStmt value => value.plain
  | .Block _ => false

end ast

namespace parser

/-- The text `b` may stand right behind the rendering `a` of an expression
statement, with nothing in between: `b` is empty, or it starts with a letter
and `a` does not end in one, or it starts with a digit and `a` does not end in
one.  (A `(` or `[` at the start of `b` would continue the expression.) -/
def separate (a b : Str) : Bool :=
  match b with
  | [] => true
  | c :: _ =>
      (isLetter c && !isLetter (a.getLastD NUL)) || (isDigit c && !isDigit (a.getLastD NUL))

/-- The statement lists whose rendering is read back as the same list: every
statement is of the kind `Statement.plain`, and the rendering of an expression
statement does not run into the rendering of the statements after it.  A `let`
and a `return` end in a semicolon, after which any statement may follow. -/
def readable : List Statement → Bool
  | [] => true
  | s :: ss =>
      s.plain && readable ss &&
        match s with
        | .ExprStmt e =>
            match e.String, Statement.Strings ss with
            | .ok a, .ok b => separate a b
            | _, _ => false
        | _ => true

end parser

namespace eval

/-- An integer argument as the parser reads its decimal text: a literal, or
the prefix operator `-` before the literal of the absolute value. -/
def intArg (a : Int) : Expr :=
  if a < 0 then .PrefixExpr "-".toList (.Integer (-a)) else .Integer a

/-- The syntax tree of
`let newAdder = fn(x) { return fn(y) { return x + y; }; }; let add = newAdder(A); add(B);`
with the argument expressions `A` and `B`. -/
def adderTree (A B : Expr) : Program :=
  ⟨[.LetStmt "newAdder".toList (.Function ["x".toList] (.mk [.RetStmt (.Function ["y".toList]
      (.mk [.RetStmt (.InfixExpr (.Ident "x".toList) "+".toList (.Ident "y".toList))] true))]
      true)),
    .LetStmt "add".toList (.CallExpr (.Ident "newAdder".toList) [A]),
    .ExprStmt (.CallExpr (.Ident "add".toList) [B])]⟩

end eval

/-! # Properties -/

/-! ## Outcomes -/

@[simp] theorem Res.ok_bind {α β : Type} (a : α) (f : α → Res β) :
    (Res.ok a >>= f) = f a := rfl

@[simp] theorem Res.panic_bind {α β : Type} (f : α → Res β) :
    ((Res.panic : Res α) >>= f) = Res.panic := rfl

@[simp] theorem Res.outOfFuel_bind {α β : Type} (f : α → Res β) :
    ((Res.outOfFuel : Res α) >>= f) = Res.outOfFuel := rfl

@[simp] theorem Res.pure_eq {α : Type} (a : α) : (pure a : Res α) = Res.ok a := rfl

/-! ## The lexer reads the remaining bytes as `lexSpec` says -/

theorem headD_drop (s : Str) (n : Nat) : (s.drop n).headD NUL = s.getD n NUL := by
  induction s generalizing n with
  | nil => simp
  | cons c cs ih =>
    cases n with
    | zero => simp
    | succ m => simp [ih m]

theorem New_eq_lexAt (input : Str) : lexer.New input = lexAt input 0 := by
  simp only [lexer.New, Lexer.readChar, lexAt, List.drop_zero, zero_add]
  cases input <;> simp

theorem readChar_lexAt (input : Str) (pos : Nat) :
    (lexAt input pos).readChar = lexAt input (pos + 1) := by
  simp only [Lexer.readChar, lexAt, headD_drop]
  by_cases h : pos + 1 < input.length
  · simp [h]
  · have h2 : input.length ≤ pos + 1 := Nat.le_of_not_lt h
    simp [h, List.getElem?_eq_none h2]

theorem drop_succ_of_drop_cons {s : Str} {pos : Nat} {c : Char} {rest : Str}
    (h : s.drop pos = c :: rest) : s.drop (pos + 1) = rest := by
  have : s.drop (pos + 1) = (s.drop pos).drop 1 := by simp [List.drop_drop, Nat.add_comm]
  rw [this, h]; rfl

theorem readWhile_lexAt (cond : Char → Bool) (hnul : cond NUL = false) (input : Str) :
    ∀ (n pos : Nat), ((input.drop pos).takeWhile cond).length ≤ n →
      Lexer.readWhile cond n (lexAt input pos) =
        .ok (lexAt input (pos + ((input.drop pos).takeWhile cond).length)) := by
  intro n
  induction n with
  | zero =>
    intro pos hle
    have h0 : (input.drop pos).takeWhile cond = [] := List.length_eq_zero.mp (Nat.le_zero.mp hle)
    simp only [Lexer.readWhile, h0, List.length_nil, Nat.add_zero]
    cases hd : input.drop pos with
    | nil => simp [lexAt, hd, hnul]
    | cons c rest =>
      have hc : cond c = false := by
        rw [hd] at h0
        cases hcc : cond c with
        | false => rfl
        | true => simp [List.takeWhile, hcc] at h0
      simp [lexAt, hd, hc]
  | succ m ih =>
    intro pos hle
    cases hd : input.drop pos with
    | nil => simp [Lexer.readWhile, lexAt, hd, hnul]
    | cons c rest =>
      by_cases hc : cond c = true
      · have hrest := drop_succ_of_drop_cons hd
        rw [hd] at hle
        simp only [List.takeWhile, hc, List.length_cons] at hle
        have hch : (lexAt input pos).ch = c := by simp [lexAt, hd]
        simp only [Lexer.readWhile, hch, hc, if_true, readChar_lexAt]
        rw [ih (pos + 1) (by rw [hrest]; omega), hrest]
        simp only [List.takeWhile, hc, List.length_cons]
        congr 2
        omega
      · have hc2 : cond c = false := by simpa using hc
        have hch : (lexAt input pos).ch = c := by simp [lexAt, hd]
        simp [Lexer.readWhile, hch, hc2, List.takeWhile]

theorem takeWhile_length_le_succ (cond : Char → Bool) (input : Str) (pos : Nat) :
    ((input.drop pos).takeWhile cond).length ≤ input.length + 1 := by
  have h1 : ((input.drop pos).takeWhile cond).length ≤ (input.drop pos).length :=
    (List.takeWhile_sublist _).length_le
  have h2 : (input.drop pos).length ≤ input.length := by simp
  omega

theorem sliceStr_takeWhile (cond : Char → Bool) (input : Str) (pos : Nat)
    (hpos : pos ≤ input.length) :
    sliceStr input pos (pos + ((input.drop pos).takeWhile cond).length) =
      .ok ((input.drop pos).takeWhile cond) := by
  have h1 : ((input.drop pos).takeWhile cond).length ≤ (input.drop pos).length :=
    (List.takeWhile_sublist _).length_le
  have h2 : (input.drop pos).length = input.length - pos := by simp
  have hle : pos ≤ pos + ((input.drop pos).takeWhile cond).length ∧
      pos + ((input.drop pos).takeWhile cond).length ≤ input.length := by omega
  simp only [sliceStr, hle, and_self, if_true, Nat.add_sub_cancel_left]
  congr 1
  exact (List.prefix_iff_eq_take.mp (List.takeWhile_prefix cond)).symm

theorem drop_ne_nil_of_headD {s : Str} {pos : Nat} (h : (s.drop pos).headD NUL ≠ NUL) :
    pos < s.length := by
  by_contra hcon
  have : s.drop pos = [] := List.drop_eq_nil_of_le (Nat.le_of_not_lt hcon)
  simp [this] at h

theorem peekChar_lexAt (input : Str) (pos : Nat) (h : (input.drop pos).headD NUL ≠ NUL) :
    (lexAt input pos).peekChar = .ok (((input.drop pos).drop 1).headD NUL) := by
  have hlt := drop_ne_nil_of_headD h
  have hd : (input.drop pos).drop 1 = input.drop (pos + 1) := by
    simp [List.drop_drop, Nat.add_comm]
  rw [hd, headD_drop]
  simp only [Lexer.peekChar, lexAt]
  by_cases he : pos + 1 = input.length
  · simp [he]
  · have : pos + 1 < input.length := by omega
    simp [he, this]

theorem readIdentifier_lexAt (input : Str) (pos : Nat) (hpos : pos ≤ input.length) :
    (lexAt input pos).readIdentifier =
      .ok ((input.drop pos).takeWhile isLetter,
        lexAt input (pos + ((input.drop pos).takeWhile isLetter).length)) := by
  simp only [Lexer.readIdentifier, Lexer.loopFuel]
  rw [show (lexAt input pos).input = input from rfl,
    readWhile_lexAt isLetter (by decide) input _ pos (takeWhile_length_le_succ _ _ _)]
  simp only [Res.ok_bind]
  rw [show (lexAt input pos).cPos = pos from rfl, show (lexAt input _).input = input from rfl,
    show (lexAt input (pos + ((input.drop pos).takeWhile isLetter).length)).cPos =
      pos + ((input.drop pos).takeWhile isLetter).length from rfl,
    sliceStr_takeWhile isLetter input pos hpos]
  rfl

theorem readNumber_lexAt (input : Str) (pos : Nat) (hpos : pos ≤ input.length) :
    (lexAt input pos).readNumber =
      .ok ((input.drop pos).takeWhile isDigit,
        lexAt input (pos + ((input.drop pos).takeWhile isDigit).length)) := by
  simp only [Lexer.readNumber, Lexer.loopFuel]
  rw [show (lexAt input pos).input = input from rfl,
    readWhile_lexAt isDigit (by decide) input _ pos (takeWhile_length_le_succ _ _ _)]
  simp only [Res.ok_bind]
  rw [show (lexAt input pos).cPos = pos from rfl, show (lexAt input _).input = input from rfl,
    show (lexAt input (pos + ((input.drop pos).takeWhile isDigit).length)).cPos =
      pos + ((input.drop pos).takeWhile isDigit).length from rfl,
    sliceStr_takeWhile isDigit input pos hpos]
  rfl

theorem readString_lexAt (input : Str) (pos : Nat) (hpos : pos < input.length) :
    (lexAt input pos).readString =
      .ok (((input.drop pos).drop 1).takeWhile inString,
        lexAt input (pos + 1 + (((input.drop pos).drop 1).takeWhile inString).length)) := by
  have hd : (input.drop pos).drop 1 = input.drop (pos + 1) := by
    simp [List.drop_drop, Nat.add_comm]
  simp only [Lexer.readString, Lexer.loopFuel, readChar_lexAt, hd]
  rw [show (lexAt input (pos + 1)).input = input from rfl,
    readWhile_lexAt inString (by decide) input _ (pos + 1) (takeWhile_length_le_succ _ _ _)]
  simp only [Res.ok_bind]
  rw [show (lexAt input (pos + 1)).cPos = pos + 1 from rfl,
    show (lexAt input _).input = input from rfl,
    show (lexAt input (pos + 1 + ((input.drop (pos + 1)).takeWhile inString).length)).cPos =
      pos + 1 + ((input.drop (pos + 1)).takeWhile inString).length from rfl,
    sliceStr_takeWhile inString input (pos + 1) hpos]
  rfl

theorem drop_add_takeWhile (cond : Char → Bool) (s : Str) (pos : Nat) :
    s.drop (pos + ((s.drop pos).takeWhile cond).length) = (s.drop pos).dropWhile cond := by
  rw [← List.drop_drop]
  generalize s.drop pos = t
  induction t with
  | nil => simp
  | cons c cs ih =>
    by_cases hc : cond c = true
    · simp [List.takeWhile, List.dropWhile, hc, ih]
    · simp [List.takeWhile, List.dropWhile, hc]

theorem NextToken_lexAt (input : Str) (pos : Nat) :
    (lexAt input pos).NextToken =
      .ok ((lexSpec (input.drop pos)).1, lexAt input (pos + (lexSpec (input.drop pos)).2)) := by
  have hws : (lexAt input pos).eatWhitespace =
      .ok (lexAt input (pos + ((input.drop pos).takeWhile isWhitespace).length)) := by
    simp only [Lexer.eatWhitespace, Lexer.loopFuel]
    exact readWhile_lexAt isWhitespace (by decide) input _ pos (takeWhile_length_le_succ _ _ _)
  have hdrop := drop_add_takeWhile isWhitespace input pos
  generalize hp : pos + ((input.drop pos).takeWhile isWhitespace).length = p at hws hdrop
  have hch : (lexAt input p).ch = (input.drop p).headD NUL := rfl
  simp only [Lexer.NextToken, hws, Res.ok_bind, lexSpec, scanToken, ← hdrop, hch, ← hp,
    ← Nat.add_assoc]
  rw [hp]
  generalize hc : (input.drop p).headD NUL = c
  simp only [hch, hc]
  have hlt : c ≠ NUL → p < input.length := fun h => drop_ne_nil_of_headD (by rw [hc]; exact h)
  have hpeek : c ≠ NUL →
      (lexAt input p).peekChar = .ok ((List.drop 1 (List.drop p input)).headD NUL) :=
    fun h => peekChar_lexAt input p (by rw [hc]; exact h)
  by_cases hpun : c = '+' ∨ c = '-' ∨ c = '*' ∨ c = '/' ∨ c = '<' ∨ c = '>' ∨ c = ';' ∨
      c = '(' ∨ c = ')' ∨ c = ',' ∨ c = '{' ∨ c = '}' ∨ c = '[' ∨ c = ']'
  · rcases hpun with h | h | h | h | h | h | h | h | h | h | h | h | h | h <;> subst h <;>
      simp [NUL, byteString, readChar_lexAt, Nat.add_assoc]
  simp only [not_or] at hpun
  obtain ⟨n1, n2, n3, n4, n5, n6, n7, n8, n9, n10, n11, n12, n13, n14⟩ := hpun
  by_cases h1 : c = '='
  · have hn : c ≠ NUL := by rw [h1]; decide
    simp only [h1, if_true, hpeek hn, Res.ok_bind]
    split_ifs <;> simp [readChar_lexAt, Nat.add_assoc]
  by_cases h2 : c = '!'
  · have hn : c ≠ NUL := by rw [h2]; decide
    have hpk := hpeek hn
    subst h2
    simp only [hpk, Res.ok_bind]
    split_ifs <;> simp_all [readChar_lexAt, Nat.add_assoc]
  by_cases h3 : c = '"'
  · have hn : c ≠ NUL := by rw [h3]; decide
    have hrs := readString_lexAt input p (hlt hn)
    subst h3
    simp [hn, hrs, readChar_lexAt, Nat.add_assoc]
    congr 1
    omega
  by_cases h4 : c = NUL
  · subst h4
    simp [NUL, readChar_lexAt, Nat.add_assoc]
  simp only [h1, h2, h3, h4, n1, n2, n3, n4, n5, n6, n7, n8, n9, n10, n11, n12, n13, n14,
    if_false]
  by_cases h5 : isLetter c = true
  · have hri := readIdentifier_lexAt input p (Nat.le_of_lt (hlt h4))
    simp [h5, hri]
  by_cases h6 : isDigit c = true
  · have hrn := readNumber_lexAt input p (Nat.le_of_lt (hlt h4))
    simp [h5, h6, hrn]
  simp [h5, h6, readChar_lexAt]

/-! ## One step of `Eval` per node kind -/

section EvalSteps

variable (k : Nat) (env : Env) (h : Heap)

theorem Eval_Program (p : Program) :
    Eval (k + 1) (.Program p) env h = evalProgram (Eval k) p.Statements .nil env h := rfl

theorem Eval_ExprStmt (e : Expr) :
    Eval (k + 1) (.Stmt (.ExprStmt e)) env h = Eval k (.Expr e) env h := rfl

theorem Eval_Block (blk : BlockStmt) :
    Eval (k + 1) (.Stmt (.Block blk)) env h = evalBlock (Eval k) blk env h := rfl

theorem Eval_RetStmt (e : Expr) :
    Eval (k + 1) (.Stmt (.RetStmt e)) env h =
      (Eval k (.Expr e) env h >>= fun r =>
        if isErr r.1 then Res.ok (r.1, r.2) else Res.ok (E.Return r.1, r.2)) := rfl

theorem Eval_LetStmt (name : Str) (e : Expr) :
    Eval (k + 1) (.Stmt (.LetStmt name e)) env h =
      (Eval k (.Expr e) env h >>= fun r =>
        if isErr r.1 then Res.ok (r.1, r.2)
        else env.Set r.2 name r.1 >>= fun s => Res.ok (E.nil, s.2)) := rfl

theorem Eval_BoolLit (value : Bool) :
    Eval (k + 1) (.Expr (.BoolLit value)) env h = .ok (E.Bool value, h) := rfl

theorem Eval_Integer (value : Int) :
    Eval (k + 1) (.Expr (.Integer value)) env h = .ok (E.Int value, h) := rfl

theorem Eval_StringLit (value : Str) :
    Eval (k + 1) (.Expr (.StringLit value)) env h = .ok (E.String value, h) := rfl

theorem Eval_Function (params : List Str) (body : BlockStmt) :
    Eval (k + 1) (.Expr (.Function params body)) env h = .ok (E.Fn params body env, h) := rfl

theorem Eval_PrefixExpr (op : Str) (right : Expr) :
    Eval (k + 1) (.Expr (.PrefixExpr op right)) env h =
      (Eval k (.Expr right) env h >>= fun r =>
        if isErr r.1 then Res.ok (r.1, r.2)
        else evalPrefix op r.1 >>= fun v => Res.ok (v, r.2)) := rfl

theorem Eval_InfixExpr (left : Expr) (op : Str) (right : Expr) :
    Eval (k + 1) (.Expr (.InfixExpr left op right)) env h =
      (Eval k (.Expr left) env h >>= fun l =>
        if isErr l.1 then Res.ok (l.1, l.2)
        else Eval k (.Expr right) env l.2 >>= fun r =>
          if isErr r.1 then Res.ok (r.1, r.2)
          else evalInfix l.1 op r.1 >>= fun v => Res.ok (v, r.2)) := rfl

theorem Eval_IfExpr (cond : Expr) (consq alt : BlockStmt) :
    Eval (k + 1) (.Expr (.IfExpr cond consq alt)) env h =
      evalIf (Eval k) cond consq alt env h := rfl

theorem Eval_Ident (name : Str) :
    Eval (k + 1) (.Expr (.Ident name)) env h =
      (if (env.Get h name).2 = true then Res.ok ((env.Get h name).1, h)
       else match builtins name with
        | some b => Res.ok (b, h)
        | none => do
            let message ← fmt.Sprintf ("identifier not found: ".toList ++ name)
            pure (newErr message, h)) := by
  simp only [Eval]
  rcases hg : env.Get h name with ⟨v, _ | _⟩
  · simp only [Bool.false_eq_true, if_false]
  · simp

theorem Eval_CallExpr (fn : Expr) (args : List Expr) :
    Eval (k + 1) (.Expr (.CallExpr fn args)) env h =
      (Eval k (.Expr fn) env h >>= fun f =>
        if isErr f.1 then Res.ok (f.1, f.2)
        else evalExpressions (Eval k) args [] env f.2 >>= fun as =>
          match singleErr as.1 with
          | some err => Res.ok (err, as.2)
          | none => evalFn (Eval k) f.1 as.1 as.2) := rfl

theorem Eval_Slice (values : List Expr) :
    Eval (k + 1) (.Expr (.Slice values)) env h =
      (evalExpressions (Eval k) values [] env h >>= fun vals =>
        match singleErr vals.1 with
        | some err => Res.ok (err, vals.2)
        | none => Res.ok (E.Slice vals.1, vals.2)) := rfl

theorem Eval_Index (left idx : Expr) :
    Eval (k + 1) (.Expr (.Index left idx)) env h =
      (Eval k (.Expr left) env h >>= fun l =>
        if isErr l.1 then Res.ok (l.1, l.2)
        else Eval k (.Expr idx) env l.2 >>= fun i =>
          if isErr i.1 then Res.ok (i.1, i.2)
          else evalIndex l.1 i.1 >>= fun v => Res.ok (v, i.2)) := rfl

theorem Eval_nilExpr : Eval (k + 1) (.Expr .nil) env h = .ok (E.nil, h) := rfl

theorem Eval_nilNode : Eval (k + 1) .nil env h = .ok (E.nil, h) := rfl

end EvalSteps

/-! ## More fuel does not change an outcome other than `outOfFuel` -/

theorem evalProgram_mono {ev1 ev2 : Evaluator} (hle : EvLe ev1 ev2) :
    ∀ (ss : List Statement) (res : E) (env : Env) (h : Heap),
      evalProgram ev1 ss res env h ≠ .outOfFuel →
      evalProgram ev2 ss res env h = evalProgram ev1 ss res env h := by
  intro ss
  induction ss with
  | nil => intro res env h _; rfl
  | cons s ss ih =>
    intro res env h hne
    simp only [evalProgram] at hne ⊢
    cases hx : ev1 (.Stmt s) env h with
    | outOfFuel => simp [hx] at hne
    | panic => simp only [hle _ _ _ (by rw [hx]; simp), hx, Res.panic_bind]
    | ok p =>
      obtain ⟨r, h1⟩ := p
      rw [hle _ _ _ (by rw [hx]; simp), hx]
      simp only [hx, Res.ok_bind] at hne ⊢
      cases r <;> first | rfl | exact ih _ _ _ hne

theorem evalBlockLoop_mono {ev1 ev2 : Evaluator} (hle : EvLe ev1 ev2) :
    ∀ (ss : List Statement) (res : E) (env : Env) (h : Heap),
      evalBlockLoop ev1 ss res env h ≠ .outOfFuel →
      evalBlockLoop ev2 ss res env h = evalBlockLoop ev1 ss res env h := by
  intro ss
  induction ss with
  | nil => intro res env h _; rfl
  | cons s ss ih =>
    intro res env h hne
    simp only [evalBlockLoop] at hne ⊢
    cases hx : ev1 (.Stmt s) env h with
    | outOfFuel => simp [hx] at hne
    | panic => simp only [hle _ _ _ (by rw [hx]; simp), hx, Res.panic_bind]
    | ok p =>
      obtain ⟨r, h1⟩ := p
      rw [hle _ _ _ (by rw [hx]; simp), hx]
      simp only [hx, Res.ok_bind] at hne ⊢
      cases r <;> first | rfl | exact ih _ _ _ hne

theorem evalExpressions_mono {ev1 ev2 : Evaluator} (hle : EvLe ev1 ev2) :
    ∀ (es : List Expr) (res : List E) (env : Env) (h : Heap),
      evalExpressions ev1 es res env h ≠ .outOfFuel →
      evalExpressions ev2 es res env h = evalExpressions ev1 es res env h := by
  intro es
  induction es with
  | nil => intro res env h _; rfl
  | cons e es ih =>
    intro res env h hne
    simp only [evalExpressions] at hne ⊢
    cases hx : ev1 (.Expr e) env h with
    | outOfFuel => simp [hx] at hne
    | panic => simp only [hle _ _ _ (by rw [hx]; simp), hx, Res.panic_bind]
    | ok p =>
      obtain ⟨r, h1⟩ := p
      rw [hle _ _ _ (by rw [hx]; simp), hx]
      simp only [hx, Res.ok_bind] at hne ⊢
      by_cases he : isErr r = true
      · simp [he]
      · simp only [he, Bool.false_eq_true, if_false] at hne ⊢
        exact ih _ _ _ hne

theorem evalIf_mono {ev1 ev2 : Evaluator} (hle : EvLe ev1 ev2) (cond : Expr)
    (consq alt : BlockStmt) (env : Env) (h : Heap)
    (hne : evalIf ev1 cond consq alt env h ≠ .outOfFuel) :
    evalIf ev2 cond consq alt env h = evalIf ev1 cond consq alt env h := by
  simp only [evalIf] at hne ⊢
  cases hx : ev1 (.Expr cond) env h with
  | outOfFuel => simp [hx] at hne
  | panic => simp only [hle _ _ _ (by rw [hx]; simp), hx, Res.panic_bind]
  | ok p =>
    obtain ⟨c, h1⟩ := p
    rw [hle _ _ _ (by rw [hx]; simp), hx]
    simp only [hx, Res.ok_bind] at hne ⊢
    by_cases he : isErr c = true
    · simp [he]
    · simp only [he, Bool.false_eq_true, if_false] at hne ⊢
      by_cases ht : isTruthy c = true
      · simp only [ht, if_true] at hne ⊢
        exact hle _ _ _ hne
      · simp only [ht, Bool.false_eq_true, if_false] at hne ⊢
        by_cases ha : alt.OK = true
        · simp only [ha, if_true] at hne ⊢
          exact hle _ _ _ hne
        · simp [ha]

theorem evalFn_mono {ev1 ev2 : Evaluator} (hle : EvLe ev1 ev2) (fn : E) (args : List E)
    (h : Heap) (hne : evalFn ev1 fn args h ≠ .outOfFuel) :
    evalFn ev2 fn args h = evalFn ev1 fn args h := by
  cases fn with
  | Fn params body fenv =>
    simp only [evalFn] at hne ⊢
    cases hb : bindParams (NewEnvWith fenv h).1 params args 0 (NewEnvWith fenv h).2 with
    | outOfFuel => simp [hb]
    | panic => simp [hb]
    | ok h2 =>
      simp only [hb, Res.ok_bind] at hne ⊢
      cases hx : ev1 (.Stmt (.Block body)) (NewEnvWith fenv h).1 h2 with
      | outOfFuel => simp [hx] at hne
      | panic => simp only [hle _ _ _ (by rw [hx]; simp), hx, Res.panic_bind]
      | ok p => rw [hle _ _ _ (by rw [hx]; simp), hx]
  | _ => rfl

theorem Eval_succ_of_ne : ∀ (n : Nat) (node : Node) (env : Env) (h : Heap),
    Eval n node env h ≠ .outOfFuel → Eval (n + 1) node env h = Eval n node env h := by
  intro n
  induction n with
  | zero => intro node env h hne; simp [Eval] at hne
  | succ n ih =>
    have hle : EvLe (Eval n) (Eval (n + 1)) := ih
    intro node env h hne
    cases node with
    | nil => rfl
    | Program p =>
      rw [Eval_Program] at hne
      rw [Eval_Program (n + 1), Eval_Program n]
      exact evalProgram_mono hle _ _ _ _ hne
    | Stmt s =>
      cases s with
      | ExprStmt e =>
        rw [Eval_ExprStmt] at hne
        rw [Eval_ExprStmt (n + 1), Eval_ExprStmt n]
        exact ih _ _ _ hne
      | Block blk =>
        rw [Eval_Block] at hne
        rw [Eval_Block (n + 1), Eval_Block n]
        exact evalBlockLoop_mono hle _ _ _ _ hne
      | RetStmt e =>
        rw [Eval_RetStmt] at hne
        rw [Eval_RetStmt (n + 1), Eval_RetStmt n]
        cases hx : Eval n (.Expr e) env h with
        | outOfFuel => simp [hx] at hne
        | panic => simp only [ih _ _ _ (by rw [hx]; simp), hx, Res.panic_bind]
        | ok p => rw [ih _ _ _ (by rw [hx]; simp), hx]
      | LetStmt name e =>
        rw [Eval_LetStmt] at hne
        rw [Eval_LetStmt (n + 1), Eval_LetStmt n]
        cases hx : Eval n (.Expr e) env h with
        | outOfFuel => simp [hx] at hne
        | panic => simp only [ih _ _ _ (by rw [hx]; simp), hx, Res.panic_bind]
        | ok p => rw [ih _ _ _ (by rw [hx]; simp), hx]
    | Expr e =>
      cases e with
      | nil => rfl
      | Ident name => rw [Eval_Ident, Eval_Ident]
      | Integer v => rfl
      | BoolLit v => rfl
      | StringLit v => rfl
      | Function ps body => rfl
      | PrefixExpr op right =>
        rw [Eval_PrefixExpr] at hne
        rw [Eval_PrefixExpr (n + 1), Eval_PrefixExpr n]
        cases hx : Eval n (.Expr right) env h with
        | outOfFuel => simp [hx] at hne
        | panic => simp only [ih _ _ _ (by rw [hx]; simp), hx, Res.panic_bind]
        | ok p => rw [ih _ _ _ (by rw [hx]; simp), hx]
      | InfixExpr left op right =>
        rw [Eval_InfixExpr] at hne
        rw [Eval_InfixExpr (n + 1), Eval_InfixExpr n]
        cases hx : Eval n (.Expr left) env h with
        | outOfFuel => simp [hx] at hne
        | panic => simp only [ih _ _ _ (by rw [hx]; simp), hx, Res.panic_bind]
        | ok p =>
          rw [ih _ _ _ (by rw [hx]; simp), hx]
          simp only [hx, Res.ok_bind] at hne ⊢
          by_cases he : isErr p.1 = true
          · simp [he]
          · simp only [he, Bool.false_eq_true, if_false] at hne ⊢
            cases hy : Eval n (.Expr right) env p.2 with
            | outOfFuel => simp [hy] at hne
            | panic => simp only [ih _ _ _ (by rw [hy]; simp), hy, Res.panic_bind]
            | ok q => rw [ih _ _ _ (by rw [hy]; simp), hy]
      | Index left idx =>
        rw [Eval_Index] at hne
        rw [Eval_Index (n + 1), Eval_Index n]
        cases hx : Eval n (.Expr left) env h with
        | outOfFuel => simp [hx] at hne
        | panic => simp only [ih _ _ _ (by rw [hx]; simp), hx, Res.panic_bind]
        | ok p =>
          rw [ih _ _ _ (by rw [hx]; simp), hx]
          simp only [hx, Res.ok_bind] at hne ⊢
          by_cases he : isErr p.1 = true
          · simp [he]
          · simp only [he, Bool.false_eq_true, if_false] at hne ⊢
            cases hy : Eval n (.Expr idx) env p.2 with
            | outOfFuel => simp [hy] at hne
            | panic => simp only [ih _ _ _ (by rw [hy]; simp), hy, Res.panic_bind]
            | ok q => rw [ih _ _ _ (by rw [hy]; simp), hy]
      | IfExpr cond consq alt =>
        rw [Eval_IfExpr] at hne
        rw [Eval_IfExpr (n + 1), Eval_IfExpr n]
        exact evalIf_mono hle _ _ _ _ _ hne
      | CallExpr fn args =>
        rw [Eval_CallExpr] at hne
        rw [Eval_CallExpr (n + 1), Eval_CallExpr n]
        cases hx : Eval n (.Expr fn) env h with
        | outOfFuel => simp [hx] at hne
        | panic => simp only [ih _ _ _ (by rw [hx]; simp), hx, Res.panic_bind]
        | ok p =>
          rw [ih _ _ _ (by rw [hx]; simp), hx]
          simp only [hx, Res.ok_bind] at hne ⊢
          by_cases he : isErr p.1 = true
          · simp [he]
          · simp only [he, Bool.false_eq_true, if_false] at hne ⊢
            cases hy : evalExpressions (Eval n) args [] env p.2 with
            | outOfFuel => simp [hy] at hne
            | panic => simp only [evalExpressions_mono hle _ _ _ _ (by rw [hy]; simp), hy, Res.panic_bind]
            | ok q =>
              rw [evalExpressions_mono hle _ _ _ _ (by rw [hy]; simp), hy]
              simp only [hy, Res.ok_bind] at hne ⊢
              cases hs : singleErr q.1 with
              | some err => rfl
              | none =>
                simp only [hs] at hne ⊢
                exact evalFn_mono hle _ _ _ hne
      | Slice values =>
        rw [Eval_Slice] at hne
        rw [Eval_Slice (n + 1), Eval_Slice n]
        cases hy : evalExpressions (Eval n) values [] env h with
        | outOfFuel => simp [hy] at hne
        | panic => simp only [evalExpressions_mono hle _ _ _ _ (by rw [hy]; simp), hy, Res.panic_bind]
        | ok q => rw [evalExpressions_mono hle _ _ _ _ (by rw [hy]; simp), hy]

theorem Eval_add_of_ne (n k : Nat) (node : Node) (env : Env) (h : Heap)
    (hne : Eval n node env h ≠ .outOfFuel) : Eval (n + k) node env h = Eval n node env h := by
  induction k with
  | zero => rfl
  | succ k ih =>
    rw [← Nat.add_assoc, Eval_succ_of_ne (n + k) node env h (by rw [ih]; exact hne), ih]

theorem run_add_of_ok (n k : Nat) (input : Str) (r : E × List Str)
    (hr : run n input = .ok r) : run (n + k) input = .ok r := by
  simp only [run] at hr ⊢
  cases hp : parseSource input with
  | outOfFuel => simp [hp] at hr
  | panic => simp [hp] at hr
  | ok p =>
    simp only [hp, Res.ok_bind] at hr ⊢
    cases hx : Eval n (.Program p.1) (NewEnv []).1 (NewEnv []).2 with
    | outOfFuel => simp [hx] at hr
    | panic => simp [hx] at hr
    | ok q =>
      rw [Eval_add_of_ne n k _ _ _ (by rw [hx]; simp), hx]
      simpa [hx] using hr

theorem runProgram_add_of_ok (n k : Nat) (prog : Program) (r : E)
    (hr : runProgram n prog = .ok r) : runProgram (n + k) prog = .ok r := by
  simp only [runProgram] at hr ⊢
  cases hx : Eval n (.Program prog) (NewEnv []).1 (NewEnv []).2 with
  | outOfFuel => simp [hx, valueOf] at hr
  | panic => simp [hx, valueOf] at hr
  | ok q =>
    rw [Eval_add_of_ne n k _ _ _ (by rw [hx]; simp), hx]
    simpa [hx] using hr

theorem run_fuel (n k : Nat) (input : Str) (r : E × List Str)
    (hr : run n input = .ok r) : run (k + n) input = .ok r := by
  rw [Nat.add_comm]
  exact run_add_of_ok n k input r hr

theorem runProgram_fuel (n k : Nat) (prog : Program) (r : E)
    (hr : runProgram n prog = .ok r) : runProgram (k + n) prog = .ok r := by
  rw [Nat.add_comm]
  exact runProgram_add_of_ok n k prog r hr

/-! ## Environments and the heap -/

theorem Heap.store_set_self (h : Heap) (a : Nat) (s : Store) (ha : a < h.length) :
    Heap.store (h.set a s) a = s := by
  simp [Heap.store, List.getD, ha]

theorem Heap.store_set_other (h : Heap) (a b : Nat) (s : Store) (hab : b ≠ a) :
    Heap.store (h.set a s) b = Heap.store h b := by
  simp [Heap.store, List.getD, List.getElem?_set_ne (Ne.symm hab)]

theorem Heap.store_append_left (h : Heap) (x : Store) (b : Nat) (hb : b < h.length) :
    Heap.store (h ++ [x]) b = Heap.store h b := by
  simp [Heap.store, List.getD, List.getElem?_append_left hb]

theorem Heap.store_append_new (h : Heap) (x : Store) :
    Heap.store (h ++ [x]) h.length = x := by
  simp [Heap.store, List.getD]

theorem Store.get_false (s : Store) (n : Str) (x : E) (hx : Store.get s n = (x, false)) :
    x = E.nil := by
  induction s with
  | nil => simp [Store.get] at hx; exact hx.symm
  | cons kv rest ih =>
    obtain ⟨k, w⟩ := kv
    by_cases hk : k = n
    · simp [Store.get, hk] at hx
    · simp only [Store.get, hk, if_false] at hx
      exact ih hx

theorem Env.Get_of_own (h : Heap) (e : Env) (n : Str) (x : E)
    (hx : Store.get (h.store e.store) n = (x, true)) : e.Get h n = (x, true) := by
  cases e with
  | mk parent store =>
    cases parent with
    | none => simpa [Env.Get, Env.store] using hx
    | some p =>
      simp only [Env.store] at hx
      simp [Env.Get, hx]

theorem Env.Get_of_parent (h : Heap) (p : Env) (store : Nat) (n : Str) (x : E)
    (hx : Store.get (h.store store) n = (x, false)) :
    (Env.mk (some p) store).Get h n = p.Get h n := by
  simp [Env.Get, hx]

theorem Env.Get_congr (h1 h2 : Heap) (n : Str) :
    ∀ e : Env, (∀ a ∈ e.addrs, h1.store a = h2.store a) → e.Get h1 n = e.Get h2 n
  | .mk none store, hs => by
      have := hs store (by simp [Env.addrs])
      simp [Env.Get, this]
  | .mk (some p) store, hs => by
      have h0 := hs store (by simp [Env.addrs])
      have ih := Env.Get_congr h1 h2 n p (fun a ha => hs a (by simp [Env.addrs, ha]))
      simp [Env.Get, h0, ih]

theorem bindParams_frame (env : Env) :
    ∀ (ps : List Str) (args : List E) (i : Nat) (h h2 : Heap),
      bindParams env ps args i h = .ok h2 →
      h2.length = h.length ∧ (∀ b, b ≠ env.store → h2.store b = h.store b) ∧
      (∀ name, name ∉ ps →
        Store.get (h2.store env.store) name = Store.get (h.store env.store) name) := by
  intro ps
  induction ps with
  | nil =>
    intro args i h h2 hb
    simp only [bindParams, Res.ok.injEq] at hb
    subst hb
    simp
  | cons p ps ih =>
    intro args i h h2 hb
    simp only [bindParams] at hb
    cases ha : args[i]? with
    | none => simp [ha] at hb
    | some a =>
      simp only [ha, Env.Set] at hb
      by_cases hlt : env.store < h.length
      · simp only [hlt, if_true, Res.ok_bind] at hb
        obtain ⟨hl, ho, hn⟩ := ih args (i + 1) _ h2 hb
        refine ⟨by simpa using hl, ?_, ?_⟩
        · intro b hbne
          rw [ho b hbne, Heap.store_set_other _ _ _ _ hbne]
        · intro name hname
          have hne : p ≠ name := fun hp => hname (by simp [hp])
          have hnot : name ∉ ps := fun hin => hname (by simp [hin])
          rw [hn name hnot, Heap.store_set_self _ _ _ hlt]
          simp [Store.get, hne]
      · simp [hlt] at hb

theorem frame_free_variable (fenv : Env) (ps : List Str) (args : List E) (h h2 : Heap)
    (name : Str) (hvalid : ∀ a ∈ fenv.addrs, a < h.length) (hfree : name ∉ ps)
    (hbind : bindParams (NewEnvWith fenv h).1 ps args 0 (NewEnvWith fenv h).2 = .ok h2) :
    (NewEnvWith fenv h).1.Get h2 name = fenv.Get h name := by
  obtain ⟨_, ho, hn⟩ := bindParams_frame _ ps args 0 _ h2 hbind
  simp only [NewEnvWith, Env.store] at ho hn ⊢
  have hown : Store.get (h2.store h.length) name = (E.nil, false) := by
    rw [hn name hfree, Heap.store_append_new]
    rfl
  rw [Env.Get_of_parent h2 fenv h.length name E.nil hown]
  apply Env.Get_congr
  intro a ha
  have hlt := hvalid a ha
  rw [ho a (Nat.ne_of_lt hlt), Heap.store_append_left _ _ _ hlt]

theorem wrap64_of_range (x : Int) (hlo : -2 ^ 63 ≤ x) (hhi : x < 2 ^ 63) : wrap64 x = x := by
  simp only [wrap64]
  omega

theorem wrap64_range (x : Int) : -2 ^ 63 ≤ wrap64 x ∧ wrap64 x < 2 ^ 63 := by
  simp only [wrap64]
  omega

theorem wrap64_congr (x : Int) : (wrap64 x - x) % 2 ^ 64 = 0 := by
  simp only [wrap64]
  omega

theorem tdiv_range (l r : Int) (hl : -2 ^ 63 ≤ l) (hh : l < 2 ^ 63)
    (hr : r ≠ 0) (hne : ¬ (l = -2 ^ 63 ∧ r = -1)) :
    -2 ^ 63 ≤ Int.tdiv l r ∧ Int.tdiv l r < 2 ^ 63 := by
  have hab : (Int.tdiv l r).natAbs = l.natAbs / r.natAbs := Int.natAbs_tdiv l r
  have hle : l.natAbs / r.natAbs ≤ l.natAbs := Nat.div_le_self _ _
  have hr1 : 1 ≤ r.natAbs := by omega
  by_cases h2 : 2 ≤ r.natAbs
  · have : l.natAbs / r.natAbs ≤ l.natAbs / 2 := Nat.div_le_div_left h2 (by decide)
    omega
  · have h1 : r.natAbs = 1 := by omega
    rw [h1, Nat.div_one] at hab
    rcases Int.natAbs_eq r with h | h
    · rw [h1] at h
      subst h
      simp at hab ⊢
      omega
    · rw [h1] at h
      have hr' : r = -1 := by simpa using h
      subst hr'
      simp only [Int.tdiv_neg, Int.tdiv_one]
      omega

/-! ## Statement lists -/

theorem getLast_getD_cons (r d : E) (rs : List E) :
    ((r :: rs).getLast?.getD d) = rs.getLast?.getD r := by
  cases rs with
  | nil => simp
  | cons x xs => simp [List.getLast?_cons_cons, List.getLast?_eq_getLast (x :: xs) (by simp)]

theorem evalProgram_append (ev : Evaluator) (env : Env) (post : List Statement) :
    ∀ (pre : List Statement) (res0 : E) (h h1 : Heap) (rs : List E),
      evalAll ev pre env h = .ok (rs, h1) → (∀ r ∈ rs, isSentinel r = false) →
      evalProgram ev (pre ++ post) res0 env h =
        evalProgram ev post (rs.getLast?.getD res0) env h1 := by
  intro pre
  induction pre with
  | nil =>
    intro res0 h h1 rs hall _
    simp [evalAll] at hall
    obtain ⟨rfl, rfl⟩ := hall
    simp
  | cons s ss ih =>
    intro res0 h h1 rs hall hclean
    simp only [evalAll] at hall
    cases hs : ev (.Stmt s) env h with
    | panic => simp [hs] at hall
    | outOfFuel => simp [hs] at hall
    | ok p =>
      obtain ⟨r, h2⟩ := p
      simp only [hs, Res.ok_bind] at hall
      cases hss : evalAll ev ss env h2 with
      | panic => simp [hss] at hall
      | outOfFuel => simp [hss] at hall
      | ok q =>
        obtain ⟨rs1, h3⟩ := q
        simp only [hss, Res.ok_bind, Res.pure_eq, Res.ok.injEq, Prod.mk.injEq] at hall
        obtain ⟨rfl, rfl⟩ := hall
        have hr : isSentinel r = false := hclean r (by simp)
        have hrest : ∀ x ∈ rs1, isSentinel x = false := fun x hx => hclean x (by simp [hx])
        have key := ih r h2 h3 rs1 hss hrest
        rw [getLast_getD_cons, ← key]
        simp only [List.cons_append, evalProgram, hs, Res.ok_bind]
        cases r with
        | Return v => simp [isSentinel] at hr
        | Error m => simp [isSentinel] at hr
        | _ => rfl

theorem evalBlockLoop_append (ev : Evaluator) (env : Env) (post : List Statement) :
    ∀ (pre : List Statement) (res0 : E) (h h1 : Heap) (rs : List E),
      evalAll ev pre env h = .ok (rs, h1) → (∀ r ∈ rs, isSentinel r = false) →
      evalBlockLoop ev (pre ++ post) res0 env h =
        evalBlockLoop ev post (rs.getLast?.getD res0) env h1 := by
  intro pre
  induction pre with
  | nil =>
    intro res0 h h1 rs hall _
    simp [evalAll] at hall
    obtain ⟨rfl, rfl⟩ := hall
    simp
  | cons s ss ih =>
    intro res0 h h1 rs hall hclean
    simp only [evalAll] at hall
    cases hs : ev (.Stmt s) env h with
    | panic => simp [hs] at hall
    | outOfFuel => simp [hs] at hall
    | ok p =>
      obtain ⟨r, h2⟩ := p
      simp only [hs, Res.ok_bind] at hall
      cases hss : evalAll ev ss env h2 with
      | panic => simp [hss] at hall
      | outOfFuel => simp [hss] at hall
      | ok q =>
        obtain ⟨rs1, h3⟩ := q
        simp only [hss, Res.ok_bind, Res.pure_eq, Res.ok.injEq, Prod.mk.injEq] at hall
        obtain ⟨rfl, rfl⟩ := hall
        have hr : isSentinel r = false := hclean r (by simp)
        have hrest : ∀ x ∈ rs1, isSentinel x = false := fun x hx => hclean x (by simp [hx])
        have key := ih r h2 h3 rs1 hss hrest
        rw [getLast_getD_cons, ← key]
        simp only [List.cons_append, evalBlockLoop, hs, Res.ok_bind]
        cases r with
        | Return v => simp [isSentinel] at hr
        | Error m => simp [isSentinel] at hr
        | _ => rfl

theorem letter_facts (c : Char) (h : isLetter c = true) :
    isWhitespace c = false ∧ c ≠ '=' ∧ c ≠ '+' ∧ c ≠ '-' ∧ c ≠ '*' ∧ c ≠ '/' ∧ c ≠ '!' ∧
    c ≠ '<' ∧ c ≠ '>' ∧ c ≠ ';' ∧ c ≠ '(' ∧ c ≠ ')' ∧ c ≠ ',' ∧ c ≠ '{' ∧ c ≠ '}' ∧
    c ≠ '[' ∧ c ≠ ']' ∧ c ≠ NUL ∧ c ≠ '"' := by
  have key : ∀ d : Char, isLetter d = false → c ≠ d := by
    intro d hd hcd
    rw [hcd, hd] at h
    exact Bool.noConfusion h
  refine ⟨?_, key _ (by decide), key _ (by decide), key _ (by decide), key _ (by decide),
    key _ (by decide), key _ (by decide), key _ (by decide), key _ (by decide),
    key _ (by decide), key _ (by decide), key _ (by decide), key _ (by decide),
    key _ (by decide), key _ (by decide), key _ (by decide), key _ (by decide),
    key _ (by decide), key _ (by decide)⟩
  have h1 := key ' ' (by decide)
  have h2 := key '\t' (by decide)
  have h3 := key '\n' (by decide)
  have h4 := key '\r' (by decide)
  simp [isWhitespace, h1, h2, h3, h4]

theorem takeWhile_letters (a rest : Str) (ha : a.all isLetter = true)
    (hrest : ∀ c r, rest = c :: r → isLetter c = false) :
    (a ++ rest).takeWhile isLetter = a := by
  induction a with
  | nil =>
    cases rest with
    | nil => rfl
    | cons c r => simp [List.takeWhile, hrest c r rfl]
  | cons x xs ih =>
    simp only [List.all_cons, Bool.and_eq_true] at ha
    simp [List.takeWhile, ha.1, ih ha.2]

theorem scanToken_identifier (a rest : Str) (ha : isIdentifier a = true)
    (hrest : ∀ c r, rest = c :: r → isLetter c = false) :
    scanToken (a ++ rest) = (⟨TypeIdent, a⟩, a.length) := by
  simp only [isIdentifier, Bool.and_eq_true, Bool.not_eq_true', List.isEmpty_eq_false,
    ] at ha
  obtain ⟨⟨hne, hall⟩, hkw⟩ := ha
  have htw := takeWhile_letters a rest hall hrest
  cases a with
  | nil => simp at hne
  | cons x xs =>
    have hx : isLetter x = true := by
      simp only [List.all_cons, Bool.and_eq_true] at hall
      exact hall.1
    obtain ⟨_, f1, f2, f3, f4, f5, f6, f7, f8, f9, f10, f11, f12, f13, f14, f15, f16, f17, f18⟩ :=
      letter_facts x hx
    have hnew : token.New TypeLookup (x :: xs) = ⟨TypeIdent, x :: xs⟩ := by
      simp only [keywords, List.contains_eq_any_beq, List.any_cons, List.any_nil, Bool.or_false,
        Bool.or_eq_false_iff, beq_eq_false_iff_ne, ne_eq] at hkw
      obtain ⟨k1, k2, k3, k4, k5, k6, k7⟩ := hkw
      simp only [token.New, if_true]
      simp only [k1, k2, k3, k4, k5, k6, k7, if_false]
    simp only [scanToken, List.cons_append, List.headD_cons, f1, f2, f3, f4, f5, f6, f7, f8, f9,
      f10, f11, f12, f13, f14, f15, f16, f17, f18, if_false, hx, if_true]
    rw [← List.cons_append, htw, hnew]

theorem lexSpec_identifier (a rest : Str) (ha : isIdentifier a = true)
    (hrest : ∀ c r, rest = c :: r → isLetter c = false) :
    lexSpec (a ++ rest) = (⟨TypeIdent, a⟩, a.length) := by
  have hs := scanToken_identifier a rest ha hrest
  simp only [isIdentifier, Bool.and_eq_true, Bool.not_eq_true', List.isEmpty_eq_false] at ha
  obtain ⟨⟨hne, hall⟩, _⟩ := ha
  cases a with
  | nil => simp at hne
  | cons x xs =>
    have hx : isLetter x = true := by
      simp only [List.all_cons, Bool.and_eq_true] at hall
      exact hall.1
    have hw := (letter_facts x hx).1
    have hd : (x :: xs ++ rest).dropWhile isWhitespace = x :: xs ++ rest := by
      simp [List.dropWhile, hw]
    have ht : (x :: xs ++ rest).takeWhile isWhitespace = [] := by
      simp [List.takeWhile, hw]
    simp only [lexSpec, hd, ht, hs, List.length_nil, Nat.zero_add]

theorem lexSpec_blank (s : Str) :
    lexSpec (' ' :: s) = ((lexSpec s).1, (lexSpec s).2 + 1) := by
  simp [lexSpec, List.dropWhile, List.takeWhile, isWhitespace]
  omega

theorem lexSpec_operator (op rest : Str) (hop : op ∈ binaryOperators) :
    lexSpec (op ++ ' ' :: rest) = (⟨operatorType op, op⟩, op.length) := by
  simp only [binaryOperators, List.mem_cons, List.mem_singleton, List.not_mem_nil, or_false] at hop
  rcases hop with h | h | h | h | h | h | h | h <;> subst h <;>
    simp [lexSpec, scanToken, List.dropWhile, List.takeWhile, isWhitespace, token.New,
      operatorType, NUL, byteString]

theorem operator_facts (op : Str) (hop : op ∈ binaryOperators) :
    infixes (operatorType op) = some .binary ∧ priorities (operatorType op) = precedence op + 1 := by
  simp only [binaryOperators, List.mem_cons, List.mem_singleton, List.not_mem_nil, or_false] at hop
  rcases hop with h | h | h | h | h | h | h | h <;> subst h <;>
    simp [operatorType, infixes, priorities, precedence, priorityEquals, priorityLessGreater,
      prioritySum, priorityProduct]

theorem lexSpec_nil : lexSpec [] = (⟨TypeEOF, []⟩, 1) := by
  simp [lexSpec, scanToken, token.New, NUL]

theorem NextToken_at (input pre rest : Str) (tok : Token) (n : Nat) (hin : input = pre ++ rest)
    (hspec : lexSpec rest = (tok, n)) :
    (lexAt input pre.length).NextToken = .ok (tok, lexAt input (pre.length + n)) := by
  rw [NextToken_lexAt, hin, List.drop_left, hspec]

theorem NextToken_end (input : Str) (n : Nat) (hn : input.length ≤ n) :
    (lexAt input n).NextToken = .ok (⟨TypeEOF, []⟩, lexAt input (n + 1)) := by
  rw [NextToken_lexAt, List.drop_eq_nil_of_le hn, lexSpec_nil]

/-! ## Parsing `a op1 b op2 c` -/

theorem binary_facts (t : TokenType) (h : infixes t = some .binary) :
    t ≠ TypeSemicolon ∧ priorityLowest < priorities t := by
  cases t <;> simp [infixes, priorities, priorityLowest, priorityEquals, priorityLessGreater,
    prioritySum, priorityProduct] at h ⊢

theorem nextToken_eq (l l1 : Lexer) (c n t : Token) (e : List ParseError)
    (h : l.NextToken = .ok (t, l1)) :
    Parser.nextToken { l := l, ctok := c, ntok := n, errs := e } =
      .ok { l := l1, ctok := n, ntok := t, errs := e } := by
  simp [Parser.nextToken, h]

theorem parseExpression_ident (f : Nat) (pr : priority) (l : Lexer) (x : Str) (n : Token)
    (e : List ParseError) :
    parseExpression (f + 1) pr { l := l, ctok := ⟨TypeIdent, x⟩, ntok := n, errs := e } =
      parseInfixLoop (parseExpression f) f pr f (.Ident x)
        { l := l, ctok := ⟨TypeIdent, x⟩, ntok := n, errs := e } := by
  simp [parseExpression, prefixes, runPrefix, Token.Type, Token.Literal]

theorem parseInfixLoop_stop (pe : priority → Parser → Res (Expr × Parser)) (m : Nat)
    (pr : priority) (f : Nat) (left : Expr) (p : Parser)
    (h : ¬ (p.ntok.Type ≠ TypeSemicolon ∧ pr < priorities p.ntok.Type)) :
    parseInfixLoop pe m pr f left p = .ok (left, p) := by
  cases f <;> simp only [parseInfixLoop, h, if_false]

theorem parseInfixLoop_binary (pe : priority → Parser → Res (Expr × Parser)) (m : Nat)
    (pr : priority) (f : Nat) (left right : Expr) (l l1 l2 : Lexer) (c t x y : Token)
    (e : List ParseError) (p3 : Parser)
    (hb : infixes t.typ = some .binary) (hpr : pr < priorities t.typ)
    (hn1 : l.NextToken = .ok (x, l1)) (hn2 : l1.NextToken = .ok (y, l2))
    (hpe : pe (priorities t.typ) { l := l2, ctok := x, ntok := y, errs := e } =
      .ok (right, p3)) :
    parseInfixLoop pe m pr (f + 1) left { l := l, ctok := c, ntok := t, errs := e } =
      parseInfixLoop pe m pr f (.InfixExpr left t.lit right) p3 := by
  have hs := (binary_facts _ hb).1
  simp [parseInfixLoop, Token.Type, Token.Literal, hs, hpr, hb, runInfix,
    nextToken_eq _ _ _ _ _ _ hn1, nextToken_eq _ _ _ _ _ _ hn2, hpe]

theorem parseInfixLoop_eof (pe : priority → Parser → Res (Expr × Parser)) (m : Nat)
    (pr : priority) (f : Nat) (left : Expr) (l : Lexer) (x : Token) (e : List ParseError)
    (hpr : priorityLowest ≤ pr) :
    parseInfixLoop pe m pr f left { l := l, ctok := x, ntok := ⟨TypeEOF, []⟩, errs := e } =
      .ok (left, { l := l, ctok := x, ntok := ⟨TypeEOF, []⟩, errs := e }) := by
  apply parseInfixLoop_stop
  intro hcon
  have h := hcon.2
  exact absurd h (Nat.not_lt.mpr hpr)

theorem parseExpression_last (f : Nat) (pr : priority) (l : Lexer) (x : Str)
    (e : List ParseError) (hpr : priorityLowest ≤ pr) :
    parseExpression (f + 1) pr { l := l, ctok := ⟨TypeIdent, x⟩, ntok := ⟨TypeEOF, []⟩, errs := e } =
      .ok (.Ident x, { l := l, ctok := ⟨TypeIdent, x⟩, ntok := ⟨TypeEOF, []⟩, errs := e }) := by
  rw [parseExpression_ident, parseInfixLoop_eof _ _ _ _ _ _ _ _ hpr]

theorem parse_three (k : Nat) (l0 l1 l2 l3 l4 l5 l6 l7 : Lexer) (a b c : Str) (t1 t2 : Token)
    (h0 : l0.NextToken = .ok (⟨TypeIdent, a⟩, l1))
    (h1 : l1.NextToken = .ok (t1, l2))
    (h2 : l2.NextToken = .ok (⟨TypeIdent, b⟩, l3))
    (h3 : l3.NextToken = .ok (t2, l4))
    (h4 : l4.NextToken = .ok (⟨TypeIdent, c⟩, l5))
    (h5 : l5.NextToken = .ok (⟨TypeEOF, []⟩, l6))
    (h6 : l6.NextToken = .ok (⟨TypeEOF, []⟩, l7))
    (hb1 : infixes t1.typ = some .binary) (hb2 : infixes t2.typ = some .binary) :
    (parser.New l0 >>= Parser.Parse (k + 4)) =
      .ok (⟨[.ExprStmt (if priorities t1.typ < priorities t2.typ
              then .InfixExpr (.Ident a) t1.lit (.InfixExpr (.Ident b) t2.lit (.Ident c))
              else .InfixExpr (.InfixExpr (.Ident a) t1.lit (.Ident b)) t2.lit (.Ident c))]⟩,
        { l := l7, ctok := ⟨TypeEOF, []⟩, ntok := ⟨TypeEOF, []⟩, errs := [] }) := by
  obtain ⟨hs1, hp1⟩ := binary_facts _ hb1
  obtain ⟨hs2, hp2⟩ := binary_facts _ hb2
  have hnew : parser.New l0 =
      .ok { l := l2, ctok := ⟨TypeIdent, a⟩, ntok := t1, errs := [] } := by
    simp [parser.New, nextToken_eq _ _ _ _ _ _ h0, nextToken_eq _ _ _ _ _ _ h1]
  -- the expression that starts at `a`
  have hexpr : parseExpression (k + 4) priorityLowest
      { l := l2, ctok := ⟨TypeIdent, a⟩, ntok := t1, errs := [] } =
      .ok (if priorities t1.typ < priorities t2.typ
              then .InfixExpr (.Ident a) t1.lit (.InfixExpr (.Ident b) t2.lit (.Ident c))
              else .InfixExpr (.InfixExpr (.Ident a) t1.lit (.Ident b)) t2.lit (.Ident c),
        { l := l6, ctok := ⟨TypeIdent, c⟩, ntok := ⟨TypeEOF, []⟩, errs := [] }) := by
    rw [parseExpression_ident]
    by_cases hlt : priorities t1.typ < priorities t2.typ
    · have hinner : parseExpression (k + 3) (priorities t1.typ)
          { l := l4, ctok := ⟨TypeIdent, b⟩, ntok := t2, errs := [] } =
          .ok (.InfixExpr (.Ident b) t2.lit (.Ident c),
            { l := l6, ctok := ⟨TypeIdent, c⟩, ntok := ⟨TypeEOF, []⟩, errs := [] }) := by
        rw [parseExpression_ident,
          parseInfixLoop_binary _ _ _ _ _ (.Ident c) _ _ _ _ _ _ _ _ _ hb2 hlt h4 h5
            (parseExpression_last _ _ _ _ _ (Nat.le_of_lt hp2))]
        exact parseInfixLoop_eof _ _ _ _ _ _ _ _ (Nat.le_of_lt hp1)
      rw [parseInfixLoop_binary _ _ _ _ _ _ _ _ _ _ _ _ _ _ _ hb1 hp1 h2 h3 hinner]
      simp only [hlt, if_true]
      exact parseInfixLoop_eof _ _ _ _ _ _ _ _ (Nat.le_refl _)
    · have hinner : parseExpression (k + 3) (priorities t1.typ)
          { l := l4, ctok := ⟨TypeIdent, b⟩, ntok := t2, errs := [] } =
          .ok (.Ident b, { l := l4, ctok := ⟨TypeIdent, b⟩, ntok := t2, errs := [] }) := by
        rw [parseExpression_ident]
        exact parseInfixLoop_stop _ _ _ _ _ _ (fun hcon => hlt hcon.2)
      rw [parseInfixLoop_binary _ _ _ _ _ _ _ _ _ _ _ _ _ _ _ hb1 hp1 h2 h3 hinner,
        parseInfixLoop_binary _ _ _ _ _ (.Ident c) _ _ _ _ _ _ _ _ _ hb2 hp2 h4 h5
          (parseExpression_last _ _ _ _ _ (Nat.le_of_lt hp2))]
      simp only [hlt, if_false]
      exact parseInfixLoop_eof _ _ _ _ _ _ _ _ (Nat.le_refl _)
  simp [hnew, Parser.Parse, parseLoop, parseStatement, Token.Type, hexpr, Parser.skipSemicolon,
    nextToken_eq _ _ _ _ _ _ h6]

theorem NextToken_at' (input pre rest : Str) (tok : Token) (n p q : Nat)
    (hin : input = pre ++ rest) (hspec : lexSpec rest = (tok, n)) (hp : p = pre.length)
    (hq : q = p + n) : (lexAt input p).NextToken = .ok (tok, lexAt input q) := by
  rw [hq, hp]
  exact NextToken_at input pre rest tok n hin hspec

theorem blank_not_letter (s : Str) : ∀ c r, ' ' :: s = c :: r → isLetter c = false := by
  intro c r h
  have : c = ' ' := by simpa using (List.cons.inj h).1.symm
  rw [this]; decide

theorem nil_not_letter : ∀ c r, ([] : Str) = c :: r → isLetter c = false := by
  intro c r h
  simp at h

/-- The program and the final parser state for the source `a op1 b op2 c`. -/
theorem parseInput_binarySource (a op1 b op2 c : Str)
    (ha : isIdentifier a = true) (hb : isIdentifier b = true) (hc : isIdentifier c = true)
    (h1 : op1 ∈ binaryOperators) (h2 : op2 ∈ binaryOperators) :
    ∃ p : Parser, p.errs = [] ∧ parseInput (binarySource a op1 b op2 c) =
      .ok (⟨[.ExprStmt (if precedence op1 < precedence op2
              then .InfixExpr (.Ident a) op1 (.InfixExpr (.Ident b) op2 (.Ident c))
              else .InfixExpr (.InfixExpr (.Ident a) op1 (.Ident b)) op2 (.Ident c))]⟩, p) := by
  obtain ⟨hi1, hp1⟩ := operator_facts op1 h1
  obtain ⟨hi2, hp2⟩ := operator_facts op2 h2
  set input := binarySource a op1 b op2 c with hinput
  have e0 := NextToken_at' input [] input ⟨TypeIdent, a⟩ a.length 0 a.length (by simp)
    (by rw [hinput, binarySource]; exact lexSpec_identifier a _ ha (blank_not_letter _))
    rfl (by simp)
  have e1 := NextToken_at' input a (' ' :: (op1 ++ ' ' :: (b ++ ' ' :: (op2 ++ ' ' :: c))))
    ⟨operatorType op1, op1⟩ (op1.length + 1) a.length (a.length + (op1.length + 1))
    (by rw [hinput, binarySource])
    (by rw [lexSpec_blank, lexSpec_operator op1 _ h1])
    rfl rfl
  have e2 := NextToken_at' input (a ++ ' ' :: op1) (' ' :: (b ++ ' ' :: (op2 ++ ' ' :: c)))
    ⟨TypeIdent, b⟩ (b.length + 1) (a.length + (op1.length + 1))
    (a.length + (op1.length + 1) + (b.length + 1))
    (by rw [hinput, binarySource]; simp)
    (by rw [lexSpec_blank, lexSpec_identifier b _ hb (blank_not_letter _)])
    (by simp) rfl
  have e3 := NextToken_at' input (a ++ ' ' :: (op1 ++ ' ' :: b)) (' ' :: (op2 ++ ' ' :: c))
    ⟨operatorType op2, op2⟩ (op2.length + 1) (a.length + (op1.length + 1) + (b.length + 1))
    (a.length + (op1.length + 1) + (b.length + 1) + (op2.length + 1))
    (by rw [hinput, binarySource]; simp)
    (by rw [lexSpec_blank, lexSpec_operator op2 _ h2])
    (by simp; omega) rfl
  have e4 := NextToken_at' input (a ++ ' ' :: (op1 ++ ' ' :: (b ++ ' ' :: op2))) (' ' :: (c ++ []))
    ⟨TypeIdent, c⟩ (c.length + 1) (a.length + (op1.length + 1) + (b.length + 1) + (op2.length + 1))
    (a.length + (op1.length + 1) + (b.length + 1) + (op2.length + 1) + (c.length + 1))
    (by rw [hinput, binarySource]; simp)
    (by rw [lexSpec_blank, lexSpec_identifier c _ hc nil_not_letter])
    (by simp; omega) rfl
  have hlen : input.length ≤
      a.length + (op1.length + 1) + (b.length + 1) + (op2.length + 1) + (c.length + 1) := by
    rw [hinput, binarySource]; simp; omega
  have e5 := NextToken_end input _ hlen
  have e6 := NextToken_end input _ (Nat.le_succ_of_le hlen)
  have key := parse_three (2 * input.length) _ _ _ _ _ _ _ _ a b c
    ⟨operatorType op1, op1⟩ ⟨operatorType op2, op2⟩ e0 e1 e2 e3 e4 e5 e6 hi1 hi2
  simp only [hp1, hp2, Nat.add_lt_add_iff_right] at key
  exact ⟨_, rfl, by simp only [parseInput, parseFuel, New_eq_lexAt]; exact key⟩

theorem binary_String (a op1 b op2 c : Str) :
    Program.String ⟨[.ExprStmt (if precedence op1 < precedence op2
              then .InfixExpr (.Ident a) op1 (.InfixExpr (.Ident b) op2 (.Ident c))
              else .InfixExpr (.InfixExpr (.Ident a) op1 (.Ident b)) op2 (.Ident c))]⟩ =
      .ok (if precedence op2 ≤ precedence op1
        then "((".toList ++ a ++ " ".toList ++ op1 ++ " ".toList ++ b ++ ") ".toList ++ op2 ++
          " ".toList ++ c ++ ")".toList
        else "(".toList ++ a ++ " ".toList ++ op1 ++ " (".toList ++ b ++ " ".toList ++ op2 ++
          " ".toList ++ c ++ "))".toList) := by
  by_cases h : precedence op1 < precedence op2
  · have h2 : ¬ precedence op2 ≤ precedence op1 := Nat.not_le.mpr h
    rw [if_pos h, if_neg h2]
    simp [Program.String, Statement.Strings, Statement.String, Expr.String]
  · have h2 : precedence op2 ≤ precedence op1 := Nat.not_lt.mp h
    rw [if_neg h, if_pos h2]
    simp [Program.String, Statement.Strings, Statement.String, Expr.String]

/-! ## Operators -/

theorem run_fuel_panic (n k : Nat) (input : Str)
    (hr : run n input = .panic) : run (k + n) input = .panic := by
  rw [Nat.add_comm]
  simp only [run] at hr ⊢
  cases hp : parseSource input with
  | outOfFuel => simp [hp] at hr
  | panic => simp
  | ok p =>
    simp only [hp, Res.ok_bind] at hr ⊢
    cases hx : Eval n (.Program p.1) (NewEnv []).1 (NewEnv []).2 with
    | outOfFuel => simp [hx] at hr
    | panic =>
      rw [Eval_add_of_ne n k _ _ _ (by rw [hx]; simp), hx]
      simp
    | ok q => simp [hx] at hr

theorem TypeOf_Int (l : E) (h : TypeOf l = .ok EntityType.TypeInt) : ∃ a, l = E.Int a := by
  cases l <;> simp [TypeOf] at h ⊢

theorem TypeOf_String (l : E) (h : TypeOf l = .ok EntityType.TypeString) :
    ∃ a, l = E.String a := by
  cases l <;> simp [TypeOf] at h ⊢

theorem evalIntInfix_unknown (a b : Int) (op : Str) (h : op ∉ intOperators) :
    evalIntInfix (E.Int a) op (E.Int b) =
      .ok (E.Error ("unknown operator: Int ".toList ++ op ++ " Int".toList)) := by
  simp only [intOperators, List.mem_cons, List.mem_singleton, not_or, List.not_mem_nil,
    or_false] at h
  obtain ⟨h1, h2, h3, h4, h5, h6, h7, h8⟩ := h
  simp only [evalIntInfix]
  rw [if_neg h1, if_neg h2, if_neg h3, if_neg h4, if_neg h5, if_neg h6, if_neg h7, if_neg h8]
  simp [typeName, TypeOf, newErr, EntityType.String]

theorem evalIntInfix_known (a b : Int) (op : Str) (h : op ∈ intOperators) (m : Str) :
    evalIntInfix (E.Int a) op (E.Int b) ≠ .ok (E.Error m) := by
  simp only [intOperators, List.mem_cons, List.mem_singleton, List.not_mem_nil,
    or_false] at h
  rcases h with rfl | rfl | rfl | rfl | rfl | rfl | rfl | rfl
  · simp [evalIntInfix]
  · simp [evalIntInfix]
  · by_cases hb : b = 0 <;> simp [evalIntInfix, hb]
  · simp [evalIntInfix]
  · simp [evalIntInfix, staticBool]
  · simp [evalIntInfix, staticBool]
  · simp [evalIntInfix, staticBool]
  · simp [evalIntInfix, staticBool]

theorem evalInfix_same_Int (l r : E) (op : Str) (hl : TypeOf l = .ok EntityType.TypeInt)
    (hr : TypeOf r = .ok EntityType.TypeInt) : evalInfix l op r = evalIntInfix l op r := by
  simp [evalInfix, hl, hr]

theorem evalInfix_same_String (a b : Str) (op : Str) :
    evalInfix (E.String a) op (E.String b) =
      if op ≠ "+".toList then
        .ok (E.Error ("unknown operator: String ".toList ++ op ++ " String".toList))
      else .ok (E.String (a ++ b)) := by
  by_cases h : op = "+".toList <;> simp [evalInfix, TypeOf, h, newErr, EntityType.String]

theorem evalInfix_same_other (l r : E) (op : Str) (T : EntityType)
    (hl : TypeOf l = .ok T) (hr : TypeOf r = .ok T) (h1 : T ≠ EntityType.TypeInt)
    (h2 : T ≠ EntityType.TypeString) :
    evalInfix l op r =
      if op = "==".toList then ifaceEq l r >>= fun b => .ok (staticBool b)
      else if op = "!=".toList then ifaceEq l r >>= fun b => .ok (staticBool (!b))
      else .ok (E.Error ("unknown operator: ".toList ++ T.String ++ " ".toList ++ op ++
        " ".toList ++ T.String)) := by
  simp only [evalInfix, hl, hr, Res.ok_bind, ne_eq, not_true_eq_false, if_false, h1, h2,
    and_self, newErr, Res.pure_eq]

/-! ## Expression lists -/

theorem evalEach_length (ev : Evaluator) (env : Env) :
    ∀ (es : List Expr) (h : Heap) (vs : List E) (h1 : Heap),
      evalEach ev es env h = .ok (vs, h1) → vs.length = es.length := by
  intro es
  induction es with
  | nil =>
    intro h vs h1 he
    simp only [evalEach, Res.ok.injEq, Prod.mk.injEq] at he
    rw [← he.1]
    rfl
  | cons e es ih =>
    intro h vs h1 he
    simp only [evalEach] at he
    cases hx : ev (.Expr e) env h with
    | outOfFuel => simp [hx] at he
    | panic => simp [hx] at he
    | ok r =>
      simp only [hx, Res.ok_bind] at he
      cases hy : evalEach ev es env r.2 with
      | outOfFuel => simp [hy] at he
      | panic => simp [hy] at he
      | ok q =>
        simp only [hy, Res.ok_bind, Res.pure_eq, Res.ok.injEq, Prod.mk.injEq] at he
        rw [← he.1, List.length_cons, ih r.2 q.1 q.2 hy]
        rfl

theorem evalExpressions_all (ev : Evaluator) (env : Env) :
    ∀ (es : List Expr) (h : Heap) (vs : List E) (h1 : Heap) (res : List E),
      evalEach ev es env h = .ok (vs, h1) → (∀ v ∈ vs, isErr v = false) →
      evalExpressions ev es res env h = .ok (res ++ vs, h1) := by
  intro es
  induction es with
  | nil =>
    intro h vs h1 res he _
    simp only [evalEach, Res.ok.injEq, Prod.mk.injEq] at he
    simp [evalExpressions, ← he.1, ← he.2]
  | cons e es ih =>
    intro h vs h1 res he hv
    simp only [evalEach] at he
    cases hx : ev (.Expr e) env h with
    | outOfFuel => simp [hx] at he
    | panic => simp [hx] at he
    | ok r =>
      simp only [hx, Res.ok_bind] at he
      cases hy : evalEach ev es env r.2 with
      | outOfFuel => simp [hy] at he
      | panic => simp [hy] at he
      | ok q =>
        simp only [hy, Res.ok_bind, Res.pure_eq, Res.ok.injEq, Prod.mk.injEq] at he
        obtain ⟨h3, h4⟩ := he
        subst h3
        subst h4
        have hr : isErr r.1 = false := hv r.1 (List.mem_cons_self _ _)
        have hq : ∀ v ∈ q.1, isErr v = false := fun v hm => hv v (List.mem_cons_of_mem _ hm)
        simp only [evalExpressions, hx, Res.ok_bind, hr, Bool.false_eq_true, if_false]
        rw [ih r.2 q.1 q.2 (res ++ [r.1]) hy hq]
        simp

theorem evalExpressions_first_error (ev : Evaluator) (env : Env) (e : Expr)
    (post : List Expr) (m : Str) (h2 : Heap) :
    ∀ (pre : List Expr) (h : Heap) (vs : List E) (h1 : Heap) (res : List E),
      evalEach ev pre env h = .ok (vs, h1) → (∀ v ∈ vs, isErr v = false) →
      ev (.Expr e) env h1 = .ok (E.Error m, h2) →
      evalExpressions ev (pre ++ e :: post) res env h = .ok ([E.Error m], h2) := by
  intro pre
  induction pre with
  | nil =>
    intro h vs h1 res he _ hm
    simp only [evalEach, Res.ok.injEq, Prod.mk.injEq] at he
    rw [← he.2] at hm
    simp [evalExpressions, hm, isErr]
  | cons p pre ih =>
    intro h vs h1 res he hv hm
    simp only [evalEach] at he
    cases hx : ev (.Expr p) env h with
    | outOfFuel => simp [hx] at he
    | panic => simp [hx] at he
    | ok r =>
      simp only [hx, Res.ok_bind] at he
      cases hy : evalEach ev pre env r.2 with
      | outOfFuel => simp [hy] at he
      | panic => simp [hy] at he
      | ok q =>
        simp only [hy, Res.ok_bind, Res.pure_eq, Res.ok.injEq, Prod.mk.injEq] at he
        obtain ⟨h3, h4⟩ := he
        subst h3
        subst h4
        have hr : isErr r.1 = false := hv r.1 (List.mem_cons_self _ _)
        have hq : ∀ v ∈ q.1, isErr v = false := fun v hm => hv v (List.mem_cons_of_mem _ hm)
        simp only [List.cons_append, evalExpressions, hx, Res.ok_bind, hr, Bool.false_eq_true,
          if_false]
        exact ih r.2 q.1 q.2 (res ++ [r.1]) hy hq hm

theorem singleErr_of_clean (vs : List E) (hv : ∀ v ∈ vs, isErr v = false) :
    singleErr vs = none := by
  match vs, hv with
  | [], _ => rfl
  | [v], hv => simp [singleErr, hv v (List.mem_singleton_self v)]
  | _ :: _ :: _, _ => rfl

/-! ## Tokens -/

theorem headD_of_ch (input : Str) (pos : Nat) (c : Char) (hc : (lexAt input pos).ch = c)
    (hne : c ≠ NUL) : ∃ rest, input.drop pos = c :: rest := by
  simp only [lexAt] at hc
  cases hd : input.drop pos with
  | nil =>
    rw [hd] at hc
    exact absurd hc.symm hne
  | cons x rest =>
    rw [hd] at hc
    simp only [List.headD_cons] at hc
    exact ⟨rest, by rw [hc]⟩

theorem ch_succ (input : Str) (pos : Nat) (c : Char) (rest : Str)
    (h : input.drop pos = c :: rest) : (lexAt input (pos + 1)).ch = rest.headD NUL := by
  simp only [lexAt]
  rw [drop_succ_of_drop_cons h]

theorem digit_facts (c : Char) (h : isDigit c = true) :
    isWhitespace c = false ∧ c ≠ '=' ∧ c ≠ '+' ∧ c ≠ '-' ∧ c ≠ '*' ∧ c ≠ '/' ∧ c ≠ '!' ∧
    c ≠ '<' ∧ c ≠ '>' ∧ c ≠ ';' ∧ c ≠ '(' ∧ c ≠ ')' ∧ c ≠ ',' ∧ c ≠ '{' ∧ c ≠ '}' ∧
    c ≠ '[' ∧ c ≠ ']' ∧ c ≠ NUL ∧ c ≠ '"' ∧ isLetter c = false := by
  have key : ∀ d : Char, isDigit d = false → c ≠ d := by
    intro d hd hcd
    rw [hcd, hd] at h
    exact Bool.noConfusion h
  refine ⟨?_, key _ (by decide), key _ (by decide), key _ (by decide), key _ (by decide),
    key _ (by decide), key _ (by decide), key _ (by decide), key _ (by decide),
    key _ (by decide), key _ (by decide), key _ (by decide), key _ (by decide),
    key _ (by decide), key _ (by decide), key _ (by decide), key _ (by decide),
    key _ (by decide), key _ (by decide), ?_⟩
  · simp only [isWhitespace, Bool.or_eq_false_iff, beq_eq_false_iff_ne, ne_eq]
    exact ⟨⟨⟨key _ (by decide), key _ (by decide)⟩, key _ (by decide)⟩, key _ (by decide)⟩
  · simp only [isDigit, Bool.and_eq_true, decide_eq_true_eq] at h
    simp only [isLetter, Bool.or_eq_false_iff, Bool.and_eq_false_iff, decide_eq_false_iff_not,
      beq_eq_false_iff_ne, ne_eq]
    have h1 : c.toNat ≤ 57 := h.2
    have h0 : 48 ≤ c.toNat := h.1
    refine ⟨⟨Or.inl ?_, Or.inl ?_⟩, key _ (by decide)⟩
    · intro hc
      have : 97 ≤ c.toNat := hc
      omega
    · intro hc
      have : 65 ≤ c.toNat := hc
      omega

theorem lexSpec_letter (s : Str) (h : isLetter (s.headD NUL) = true) :
    lexSpec s = (token.New TypeLookup (s.takeWhile isLetter), (s.takeWhile isLetter).length) := by
  cases s with
  | nil => exact absurd h (by decide)
  | cons x xs =>
    have hx : isLetter x = true := h
    obtain ⟨hw, f1, f2, f3, f4, f5, f6, f7, f8, f9, f10, f11, f12, f13, f14, f15, f16, f17,
      f18⟩ := letter_facts x hx
    have hd : (x :: xs).dropWhile isWhitespace = x :: xs := by
      simp [List.dropWhile, hw]
    have ht : (x :: xs).takeWhile isWhitespace = [] := by
      simp [List.takeWhile, hw]
    simp only [lexSpec, hd, ht, scanToken, List.headD_cons, f1, f2, f3, f4, f5, f6, f7, f8, f9,
      f10, f11, f12, f13, f14, f15, f16, f17, f18, if_false, hx, if_true, List.length_nil,
      Nat.zero_add]

theorem lexSpec_digit (s : Str) (h : isDigit (s.headD NUL) = true) :
    lexSpec s = (token.New TypeInt (s.takeWhile isDigit), (s.takeWhile isDigit).length) := by
  cases s with
  | nil => exact absurd h (by decide)
  | cons x xs =>
    have hx : isDigit x = true := h
    obtain ⟨hw, f1, f2, f3, f4, f5, f6, f7, f8, f9, f10, f11, f12, f13, f14, f15, f16, f17,
      f18, hl⟩ := digit_facts x hx
    have hd : (x :: xs).dropWhile isWhitespace = x :: xs := by
      simp [List.dropWhile, hw]
    have ht : (x :: xs).takeWhile isWhitespace = [] := by
      simp [List.takeWhile, hw]
    simp only [lexSpec, hd, ht, scanToken, List.headD_cons, f1, f2, f3, f4, f5, f6, f7, f8, f9,
      f10, f11, f12, f13, f14, f15, f16, f17, f18, if_false, hx, hl, if_true, List.length_nil,
      Nat.zero_add, Bool.false_eq_true]

theorem lexSpec_equals (rest : Str) :
    lexSpec ('=' :: rest) =
      if rest.headD NUL = '=' then (⟨TypeEQ, "==".toList⟩, 2) else (⟨TypeAssign, "=".toList⟩, 1) := by
  by_cases h : rest.headD NUL = '=' <;>
    simp [lexSpec, scanToken, List.dropWhile, List.takeWhile, isWhitespace, token.New, h,
      byteString]

theorem lexSpec_bang (rest : Str) :
    lexSpec ('!' :: rest) =
      if rest.headD NUL = '=' then (⟨TypeNotEQ, "!=".toList⟩, 2)
      else (⟨TypeBang, "!".toList⟩, 1) := by
  by_cases h : rest.headD NUL = '=' <;>
    simp [lexSpec, scanToken, List.dropWhile, List.takeWhile, isWhitespace, token.New, h,
      byteString]

theorem takeWhile_maximal (cond : Char → Bool) (hn : cond NUL = false) (input : Str)
    (pos : Nat) :
    cond (lexAt input (pos + ((input.drop pos).takeWhile cond).length)).ch = false := by
  simp only [lexAt]
  rw [drop_add_takeWhile]
  generalize input.drop pos = t
  induction t with
  | nil => simpa using hn
  | cons c cs ih =>
    by_cases hc : cond c = true
    · simpa [List.dropWhile, hc] using ih
    · simp [List.dropWhile, hc]

/-! ## Integer literals -/

theorem parseDigits_all (base : Nat) :
    ∀ (s : Str) (acc : Nat), (∀ c ∈ s, isDigit c = true ∧ c.toNat - '0'.toNat < base) →
      parseDigits base acc s =
        some (s.foldl (fun a c => a * base + (c.toNat - '0'.toNat)) acc) := by
  intro s
  induction s with
  | nil => intro acc _; rfl
  | cons c cs ih =>
    intro acc h
    have hc := h c (List.mem_cons_self _ _)
    simp only [parseDigits, hc.1, hc.2, and_self, if_true, List.foldl_cons]
    exact ih _ (fun d hd => h d (List.mem_cons_of_mem _ hd))

theorem parseDigits_bad (base : Nat) :
    ∀ (s : Str) (acc : Nat), (∃ c ∈ s, ¬ (isDigit c = true ∧ c.toNat - '0'.toNat < base)) →
      parseDigits base acc s = none := by
  intro s
  induction s with
  | nil =>
    intro acc h
    obtain ⟨c, hc, _⟩ := h
    simp at hc
  | cons c cs ih =>
    intro acc h
    by_cases hc : isDigit c = true ∧ c.toNat - '0'.toNat < base
    · simp only [parseDigits, hc, and_self, if_true]
      apply ih
      obtain ⟨d, hd, hbad⟩ := h
      rcases List.mem_cons.mp hd with rfl | hd2
      · exact absurd hc hbad
      · exact ⟨d, hd2, hbad⟩
    · simp only [parseDigits, hc, if_false]

theorem digit_lt_ten (c : Char) (h : isDigit c = true) : c.toNat - '0'.toNat < 10 := by
  simp only [isDigit, Bool.and_eq_true, decide_eq_true_eq] at h
  have h1 : c.toNat ≤ 57 := h.2
  have h2 : ('0' : Char).toNat = 48 := by decide
  omega

theorem octal_lt_eight (c : Char) (h : isOctalDigit c = true) :
    isDigit c = true ∧ c.toNat - '0'.toNat < 8 := by
  simp only [isOctalDigit, Bool.and_eq_true, decide_eq_true_eq] at h
  have h0 : 48 ≤ c.toNat := h.1
  have h1 : c.toNat ≤ 55 := h.2
  have h2 : ('0' : Char).toNat = 48 := by decide
  refine ⟨?_, by omega⟩
  simp only [isDigit, Bool.and_eq_true, decide_eq_true_eq]
  refine ⟨h.1, ?_⟩
  show c.toNat ≤ 57
  omega

theorem not_octal (c : Char) (hd : isDigit c = true) (h : isOctalDigit c = false) :
    ¬ (isDigit c = true ∧ c.toNat - '0'.toNat < 8) := by
  intro hc
  simp only [isDigit, Bool.and_eq_true, decide_eq_true_eq] at hd
  have h0 : 48 ≤ c.toNat := hd.1
  have h2 : ('0' : Char).toNat = 48 := by decide
  have h3 : c.toNat ≤ 55 := by omega
  have : isOctalDigit c = true := by
    simp only [isOctalDigit, Bool.and_eq_true, decide_eq_true_eq]
    exact ⟨hd.1, h3⟩
  rw [this] at h
  exact Bool.noConfusion h

theorem ParseInt_decimal (s : Str) (hd : isDigitRun s = true) (hz : s.head? ≠ some '0') :
    ParseInt s = if digitsValue 10 s < 2 ^ 63 then some (digitsValue 10 s : Int) else none := by
  simp only [isDigitRun, Bool.and_eq_true, Bool.not_eq_true', List.isEmpty_eq_false,
    List.all_eq_true] at hd
  have hp := parseDigits_all 10 s 0 (fun c hc => ⟨hd.2 c hc, digit_lt_ten c (hd.2 c hc)⟩)
  cases s with
  | nil => exact absurd rfl hd.1
  | cons c cs =>
    have hc : c ≠ '0' := by
      intro h
      rw [h] at hz
      exact hz rfl
    unfold ParseInt
    split
    · rename_i heq
      exact absurd heq (by simp)
    · rename_i rest heq
      exact absurd (List.cons.inj heq).1 hc
    · rw [hp]
      rfl

theorem ParseInt_octal (r : Str) (hr : r.all isOctalDigit = true) :
    ParseInt ('0' :: r) =
      if digitsValue 8 r < 2 ^ 63 then some (digitsValue 8 r : Int) else none := by
  simp only [List.all_eq_true] at hr
  have hp := parseDigits_all 8 r 0 (fun c hc => octal_lt_eight c (hr c hc))
  simp only [ParseInt, hp]
  rfl

theorem ParseInt_not_octal (r : Str) (hd : r.all isDigit = true)
    (hr : r.all isOctalDigit = false) : ParseInt ('0' :: r) = none := by
  simp only [List.all_eq_true] at hd
  have hex : ∃ c ∈ r, isOctalDigit c = false := by
    by_contra hcon
    have : r.all isOctalDigit = true := by
      simp only [List.all_eq_true]
      intro c hc
      by_contra h2
      exact hcon ⟨c, hc, by simpa using h2⟩
    rw [this] at hr
    exact Bool.noConfusion hr
  obtain ⟨c, hc, hbad⟩ := hex
  have hp := parseDigits_bad 8 r 0 ⟨c, hc, not_octal c (hd c hc) hbad⟩
  simp only [ParseInt, hp]

/-! ## The parser on the token sequence of its input -/

theorem restAfter_zero (input : Str) : restAfter input 0 = input := rfl

theorem restAfter_succ (input : Str) (i : Nat) :
    restAfter input (i + 1) = (restAfter input i).drop (lexSpec (restAfter input i)).2 := by
  simp only [restAfter, tokenPos, List.drop_drop]

theorem token_step (input : Str) (i : Nat) (s : Str) (tok : Token) (n : Nat)
    (hs : restAfter input i = s) (hl : lexSpec s = (tok, n)) :
    tokenAt input i = tok ∧ restAfter input (i + 1) = s.drop n := by
  rw [restAfter_succ, tokenAt, hs, hl]
  exact ⟨rfl, rfl⟩

theorem NextToken_tokenPos (input : Str) (i : Nat) :
    (lexAt input (tokenPos input i)).NextToken =
      .ok (tokenAt input i, lexAt input (tokenPos input (i + 1))) := by
  rw [NextToken_lexAt]
  rfl

theorem parserAt_nextToken (input : Str) (i : Nat) (e : List ParseError) :
    (parserAt input i e).nextToken = .ok (parserAt input (i + 1) e) := by
  simp only [parserAt, Parser.nextToken, NextToken_tokenPos, Res.ok_bind, Res.pure_eq]

theorem New_parserAt (input : Str) : parser.New (lexer.New input) = .ok (parserAt input 0 []) := by
  have h0 := NextToken_tokenPos input 0
  have h1 := NextToken_tokenPos input 1
  rw [show tokenPos input 0 = 0 from rfl] at h0
  simp only [parser.New, New_eq_lexAt, Parser.nextToken, h0, h1, Res.ok_bind, Res.pure_eq,
    parserAt]

theorem parserAt_peek (input : Str) (i : Nat) (e : List ParseError) (t : TokenType)
    (h : (tokenAt input (i + 1)).typ = t) :
    (parserAt input i e).peek t = .ok (true, parserAt input (i + 1) e) := by
  have hn : (parserAt input i e).ntok.Type = t := h
  simp only [Parser.peek, hn, ne_eq, not_true_eq_false, if_false, parserAt_nextToken, Res.ok_bind,
    Res.pure_eq]

theorem parserAt_skip (input : Str) (i : Nat) (e : List ParseError)
    (h : (tokenAt input (i + 1)).typ ≠ TypeSemicolon) :
    (parserAt input i e).skipSemicolon = .ok (parserAt input i e) := by
  have hn : (parserAt input i e).ntok.Type ≠ TypeSemicolon := h
  simp only [Parser.skipSemicolon, hn, if_false]

theorem parseAt_ident (input : Str) (i : Nat) (e : List ParseError) (f : Nat) (pr : priority)
    (x : Str) (h : tokenAt input i = ⟨TypeIdent, x⟩) :
    parseExpression (f + 1) pr (parserAt input i e) =
      parseInfixLoop (parseExpression f) f pr f (.Ident x) (parserAt input i e) := by
  have hc : (parserAt input i e).ctok = ⟨TypeIdent, x⟩ := h
  simp [parseExpression, prefixes, runPrefix, Token.Type, Token.Literal, hc]

theorem parseAt_integer (input : Str) (i : Nat) (e : List ParseError) (f : Nat) (pr : priority)
    (s : Str) (v : Int) (h : tokenAt input i = ⟨TypeInt, s⟩) (hv : ParseInt s = some v) :
    parseExpression (f + 1) pr (parserAt input i e) =
      parseInfixLoop (parseExpression f) f pr f (.Integer v) (parserAt input i e) := by
  have hc : (parserAt input i e).ctok = ⟨TypeInt, s⟩ := h
  simp [parseExpression, prefixes, runPrefix, Token.Type, Token.Literal, hc, hv]

theorem parseAt_bool (input : Str) (i : Nat) (e : List ParseError) (f : Nat) (pr : priority)
    (s : Str) (h : tokenAt input i = ⟨TypeBool, s⟩) :
    parseExpression (f + 1) pr (parserAt input i e) =
      parseInfixLoop (parseExpression f) f pr f (.BoolLit (s = "true".toList))
        (parserAt input i e) := by
  have hc : (parserAt input i e).ctok = ⟨TypeBool, s⟩ := h
  simp [parseExpression, prefixes, runPrefix, Token.Type, Token.Literal, hc]

theorem Res.bind_bind {α β γ : Type} (x : Res α) (f : α → Res β) (g : β → Res γ) :
    (x >>= f) >>= g = x >>= fun a => f a >>= g := by
  cases x <;> rfl

theorem parseAt_operator (input : Str) (i : Nat) (e : List ParseError) (f : Nat) (pr : priority)
    (t : Token) (h : tokenAt input i = t) (ht : t.typ = TypeBang ∨ t.typ = TypeMinus) :
    parseExpression (f + 1) pr (parserAt input i e) =
      (parseExpression f priorityPrefix (parserAt input (i + 1) e) >>= fun r =>
        parseInfixLoop (parseExpression f) f pr f (.PrefixExpr t.lit r.1) r.2) := by
  have hc : (parserAt input i e).ctok = t := h
  rcases ht with ht | ht <;>
    simp [parseExpression, prefixes, runPrefix, Token.Type, Token.Literal, hc, ht,
      parserAt_nextToken, Res.bind_bind]

theorem parseAt_group (input : Str) (i : Nat) (e : List ParseError) (f : Nat) (pr : priority)
    (h : (tokenAt input i).typ = TypeLParen) :
    parseExpression (f + 1) pr (parserAt input i e) =
      (parseExpression f priorityLowest (parserAt input (i + 1) e) >>= fun r =>
        r.2.peek TypeRParen >>= fun q =>
          parseInfixLoop (parseExpression f) f pr f (if q.1 then r.1 else .nil) q.2) := by
  have hc : (parserAt input i e).ctok.typ = TypeLParen := h
  simp only [parseExpression, Token.Type, hc, prefixes, runPrefix, parserAt_nextToken,
    Res.ok_bind, Res.bind_bind]
  congr 1
  funext r
  congr 1
  funext q
  cases q.1 <;> simp

theorem parseAt_slice (input : Str) (i : Nat) (e : List ParseError) (f : Nat) (pr : priority)
    (h : (tokenAt input i).typ = TypeLBrakt) :
    parseExpression (f + 1) pr (parserAt input i e) =
      (parseExprSlice (parseExpression f) f TypeRBrakt (parserAt input i e) >>= fun r =>
        parseInfixLoop (parseExpression f) f pr f (.Slice r.1) r.2) := by
  have hc : (parserAt input i e).ctok.typ = TypeLBrakt := h
  simp only [parseExpression, Token.Type, hc, prefixes, runPrefix, Res.ok_bind, Res.bind_bind,
    Res.pure_eq]

theorem loopAt_stop (pe : priority → Parser → Res (Expr × Parser)) (m : Nat) (pr : priority)
    (f : Nat) (left : Expr) (input : Str) (i : Nat) (e : List ParseError)
    (h : (tokenAt input (i + 1)).typ = TypeSemicolon ∨ priorities (tokenAt input (i + 1)).typ ≤ pr) :
    parseInfixLoop pe m pr f left (parserAt input i e) = .ok (left, parserAt input i e) := by
  apply parseInfixLoop_stop
  intro hcon
  rcases h with h | h
  · exact hcon.1 h
  · exact absurd hcon.2 (Nat.not_lt.mpr h)

theorem parseInfixLoop_binary_bind (pe : priority → Parser → Res (Expr × Parser)) (m : Nat)
    (pr : priority) (f : Nat) (left : Expr) (l l1 l2 : Lexer) (c t x y : Token)
    (e : List ParseError)
    (hb : infixes t.typ = some .binary) (hpr : pr < priorities t.typ)
    (hn1 : l.NextToken = .ok (x, l1)) (hn2 : l1.NextToken = .ok (y, l2)) :
    parseInfixLoop pe m pr (f + 1) left { l := l, ctok := c, ntok := t, errs := e } =
      (pe (priorities t.typ) { l := l2, ctok := x, ntok := y, errs := e } >>= fun r =>
        parseInfixLoop pe m pr f (.InfixExpr left t.lit r.1) r.2) := by
  have hs := (binary_facts _ hb).1
  simp [parseInfixLoop, Token.Type, Token.Literal, hs, hpr, hb, runInfix,
    nextToken_eq _ _ _ _ _ _ hn1, nextToken_eq _ _ _ _ _ _ hn2, Res.bind_bind]

theorem loopAt_binary (pe : priority → Parser → Res (Expr × Parser)) (m : Nat) (pr : priority)
    (f : Nat) (left : Expr) (input : Str) (i : Nat) (e : List ParseError) (t : Token)
    (ht : tokenAt input (i + 1) = t) (hb : infixes t.typ = some .binary)
    (hpr : pr < priorities t.typ) :
    parseInfixLoop pe m pr (f + 1) left (parserAt input i e) =
      (pe (priorities t.typ) (parserAt input (i + 2) e) >>= fun r =>
        parseInfixLoop pe m pr f (.InfixExpr left t.lit r.1) r.2) := by
  subst ht
  exact parseInfixLoop_binary_bind pe m pr f left _ _ _ _ _ _ _ e hb hpr
    (NextToken_tokenPos input (i + 2)) (NextToken_tokenPos input (i + 3))

theorem parseInfixLoop_call_bind (pe : priority → Parser → Res (Expr × Parser)) (m : Nat)
    (pr : priority) (f : Nat) (left : Expr) (l l1 : Lexer) (c t x : Token)
    (e : List ParseError) (ht : t.typ = TypeLParen) (hpr : pr < priorityCall)
    (hn1 : l.NextToken = .ok (x, l1)) :
    parseInfixLoop pe m pr (f + 1) left { l := l, ctok := c, ntok := t, errs := e } =
      (parseExprSlice pe m TypeRParen { l := l1, ctok := t, ntok := x, errs := e } >>= fun r =>
        parseInfixLoop pe m pr f (.CallExpr left r.1) r.2) := by
  simp [parseInfixLoop, Token.Type, ht, hpr, priorities, infixes, runInfix,
    nextToken_eq _ _ _ _ _ _ hn1, Res.bind_bind]

theorem loopAt_call (pe : priority → Parser → Res (Expr × Parser)) (m : Nat) (pr : priority)
    (f : Nat) (left : Expr) (input : Str) (i : Nat) (e : List ParseError)
    (ht : (tokenAt input (i + 1)).typ = TypeLParen) (hpr : pr < priorityCall) :
    parseInfixLoop pe m pr (f + 1) left (parserAt input i e) =
      (parseExprSlice pe m TypeRParen (parserAt input (i + 1) e) >>= fun r =>
        parseInfixLoop pe m pr f (.CallExpr left r.1) r.2) :=
  parseInfixLoop_call_bind pe m pr f left _ _ _ _ _ e ht hpr (NextToken_tokenPos input (i + 2))

theorem parseInfixLoop_index_bind (pe : priority → Parser → Res (Expr × Parser)) (m : Nat)
    (pr : priority) (f : Nat) (left : Expr) (l l1 l2 : Lexer) (c t x y : Token)
    (e : List ParseError) (ht : t.typ = TypeLBrakt) (hpr : pr < priorityIndex)
    (hn1 : l.NextToken = .ok (x, l1)) (hn2 : l1.NextToken = .ok (y, l2)) :
    parseInfixLoop pe m pr (f + 1) left { l := l, ctok := c, ntok := t, errs := e } =
      (pe priorityLowest { l := l2, ctok := x, ntok := y, errs := e } >>= fun r =>
        r.2.peek TypeRBrakt >>= fun q =>
          parseInfixLoop pe m pr f (if q.1 then .Index left r.1 else .nil) q.2) := by
  simp only [parseInfixLoop, Token.Type, ht, ne_eq, not_false_eq_true, priorities, hpr, and_self,
    if_true, infixes, nextToken_eq _ _ _ _ _ _ hn1, nextToken_eq _ _ _ _ _ _ hn2, Res.ok_bind,
    runInfix, Res.bind_bind, Res.pure_eq, reduceCtorEq]
  congr 1
  funext r
  congr 1
  funext q
  cases q.1 <;> simp

theorem loopAt_index (pe : priority → Parser → Res (Expr × Parser)) (m : Nat) (pr : priority)
    (f : Nat) (left : Expr) (input : Str) (i : Nat) (e : List ParseError)
    (ht : (tokenAt input (i + 1)).typ = TypeLBrakt) (hpr : pr < priorityIndex) :
    parseInfixLoop pe m pr (f + 1) left (parserAt input i e) =
      (pe priorityLowest (parserAt input (i + 2) e) >>= fun r =>
        r.2.peek TypeRBrakt >>= fun q =>
          parseInfixLoop pe m pr f (if q.1 then .Index left r.1 else .nil) q.2) :=
  parseInfixLoop_index_bind pe m pr f left _ _ _ _ _ _ _ e ht hpr
    (NextToken_tokenPos input (i + 2)) (NextToken_tokenPos input (i + 3))

theorem token_ident (input : Str) (i : Nat) (a rest : Str)
    (hs : restAfter input i = a ++ rest) (ha : isIdentifier a = true)
    (hr : ∀ c r, rest = c :: r → isLetter c = false) :
    tokenAt input i = ⟨TypeIdent, a⟩ ∧ restAfter input (i + 1) = rest := by
  have h := token_step input i _ _ _ hs (lexSpec_identifier a rest ha hr)
  rw [List.drop_left] at h
  exact h

theorem token_blank (input : Str) (i : Nat) (s : Str) (tok : Token) (n : Nat)
    (hs : restAfter input i = ' ' :: s) (hl : lexSpec s = (tok, n)) :
    tokenAt input i = tok ∧ restAfter input (i + 1) = s.drop n := by
  have h := token_step input i _ tok (n + 1) hs (by rw [lexSpec_blank, hl])
  simpa using h

theorem token_end (input : Str) (i : Nat) (hs : restAfter input i = []) :
    tokenAt input i = ⟨TypeEOF, []⟩ ∧ restAfter input (i + 1) = [] := by
  have h := token_step input i _ _ _ hs lexSpec_nil
  simpa using h

theorem lexSpec_prefixOp (p rest : Str) (hp : p ∈ prefixOperators)
    (hr : rest.headD NUL ≠ '=') : lexSpec (p ++ rest) = (⟨prefixType p, p⟩, 1) := by
  simp only [prefixOperators, List.mem_cons, List.mem_singleton, List.not_mem_nil,
    or_false] at hp
  rcases hp with rfl | rfl
  · have hr2 : ¬ (List.head? rest).getD NUL = '=' := by
      cases rest <;> simpa using hr
    simp [lexSpec, scanToken, List.dropWhile, List.takeWhile, isWhitespace, token.New, hr2,
      byteString, prefixType]
  · simp [lexSpec, scanToken, List.dropWhile, List.takeWhile, isWhitespace, token.New,
      byteString, prefixType]

theorem token_prefixOp (input : Str) (i : Nat) (p rest : Str)
    (hs : restAfter input i = p ++ rest) (hp : p ∈ prefixOperators)
    (hr : rest.headD NUL ≠ '=') :
    tokenAt input i = ⟨prefixType p, p⟩ ∧ restAfter input (i + 1) = rest := by
  have h := token_step input i _ _ _ hs (lexSpec_prefixOp p rest hp hr)
  have hl : (p ++ rest).drop 1 = rest := by
    simp only [prefixOperators, List.mem_cons, List.mem_singleton, List.not_mem_nil,
      or_false] at hp
    rcases hp with rfl | rfl <;> rfl
  rw [hl] at h
  exact h

theorem lexSpec_punct (c : Char) (t : TokenType) (rest : Str)
    (h : (c, t) ∈ [('(', TypeLParen), (')', TypeRParen), ('[', TypeLBrakt), (']', TypeRBrakt),
      (',', TypeComma), (';', TypeSemicolon)]) :
    lexSpec (c :: rest) = (⟨t, [c]⟩, 1) := by
  simp only [List.mem_cons, Prod.mk.injEq, List.mem_singleton, List.not_mem_nil, or_false] at h
  rcases h with ⟨rfl, rfl⟩ | ⟨rfl, rfl⟩ | ⟨rfl, rfl⟩ | ⟨rfl, rfl⟩ | ⟨rfl, rfl⟩ | ⟨rfl, rfl⟩ <;>
    simp [lexSpec, scanToken, List.dropWhile, List.takeWhile, isWhitespace, token.New,
      byteString]

theorem token_punct (input : Str) (i : Nat) (c : Char) (t : TokenType) (rest : Str)
    (hs : restAfter input i = c :: rest)
    (h : (c, t) ∈ [('(', TypeLParen), (')', TypeRParen), ('[', TypeLBrakt), (']', TypeRBrakt),
      (',', TypeComma), (';', TypeSemicolon)]) :
    tokenAt input i = ⟨t, [c]⟩ ∧ restAfter input (i + 1) = rest := by
  have h := token_step input i _ _ _ hs (lexSpec_punct c t rest h)
  simpa using h

theorem token_blank_operator (input : Str) (i : Nat) (op rest : Str)
    (hs : restAfter input i = ' ' :: (op ++ ' ' :: rest)) (hop : op ∈ binaryOperators) :
    tokenAt input i = ⟨operatorType op, op⟩ ∧ restAfter input (i + 1) = ' ' :: rest := by
  have h := token_blank input i _ _ _ hs (lexSpec_operator op rest hop)
  rw [List.drop_left] at h
  exact h

theorem token_blank_ident (input : Str) (i : Nat) (a rest : Str)
    (hs : restAfter input i = ' ' :: (a ++ rest)) (ha : isIdentifier a = true)
    (hr : ∀ c r, rest = c :: r → isLetter c = false) :
    tokenAt input i = ⟨TypeIdent, a⟩ ∧ restAfter input (i + 1) = rest := by
  have h := token_blank input i _ _ _ hs (lexSpec_identifier a rest ha hr)
  rw [List.drop_left] at h
  exact h

theorem identifier_head (a rest : Str) (ha : isIdentifier a = true) :
    isLetter ((a ++ rest).headD NUL) = true := by
  simp only [isIdentifier, Bool.and_eq_true, Bool.not_eq_true', List.isEmpty_eq_false] at ha
  obtain ⟨⟨hne, hall⟩, _⟩ := ha
  cases a with
  | nil => simp at hne
  | cons x xs =>
    simp only [List.all_cons, Bool.and_eq_true] at hall
    simpa using hall.1

theorem identifier_head_ne (a rest : Str) (ha : isIdentifier a = true) :
    (a ++ rest).headD NUL ≠ '=' := by
  intro h
  have := identifier_head a rest ha
  rw [h] at this
  exact absurd this (by decide)

theorem not_letter_cons (c : Char) (s : Str) (hc : isLetter c = false) :
    ∀ d r, c :: s = d :: r → isLetter d = false := by
  intro d r h
  rw [← (List.cons.inj h).1]
  exact hc

/-- A source that is one expression followed by the end of the input parses
to one expression statement. -/
theorem parse_single (input : Str) (f : Nat) (t : Expr) (k : Nat)
    (h1 : (tokenAt input 0).typ ≠ TypeLet) (h2 : (tokenAt input 0).typ ≠ TypeReturn)
    (h3 : (tokenAt input 0).typ ≠ TypeEOF)
    (hp : parseExpression (f + 1) priorityLowest (parserAt input 0 []) =
      .ok (t, parserAt input k []))
    (hk : (tokenAt input (k + 1)).typ = TypeEOF) :
    (parser.New (lexer.New input) >>= Parser.Parse (f + 1)) =
      .ok (⟨[.ExprStmt t]⟩, parserAt input (k + 1) []) := by
  have hc : (parserAt input 0 []).ctok.Type = (tokenAt input 0).typ := rfl
  have hst : parseStatement (parseExpression (f + 1)) (parserAt input 0 []) =
      .ok (some (.ExprStmt t), parserAt input k []) := by
    unfold parseStatement
    rw [hc]
    split
    · rename_i heq
      exact absurd heq h1
    · rename_i heq
      exact absurd heq h2
    · rw [hp]
      simp only [Res.ok_bind, parserAt_skip input k [] (by rw [hk]; decide), Res.pure_eq]
  have hc2 : (parserAt input (k + 1) []).ctok.Type = TypeEOF := hk
  rw [New_parserAt]
  simp only [Res.ok_bind, Parser.Parse, parseLoop, hc, ne_eq, h3, not_false_eq_true, if_true, hst,
    parserAt_nextToken, List.nil_append, Res.pure_eq]
  cases f with
  | zero => simp [parseLoop, hc2]
  | succ g => simp [parseLoop, hc2]

theorem parseToString_single (input : Str) (t : Expr) (k : Nat) (s : Str)
    (h1 : (tokenAt input 0).typ ≠ TypeLet) (h2 : (tokenAt input 0).typ ≠ TypeReturn)
    (h3 : (tokenAt input 0).typ ≠ TypeEOF)
    (hp : parseExpression (2 * input.length + 4) priorityLowest (parserAt input 0 []) =
      .ok (t, parserAt input k []))
    (hk : (tokenAt input (k + 1)).typ = TypeEOF) (hs : Expr.String t = .ok s) :
    parseSource input = .ok (⟨[.ExprStmt t]⟩, []) ∧ parseToString input = .ok (s, []) := by
  have hparse : parseInput input = .ok (⟨[.ExprStmt t]⟩, parserAt input (k + 1) []) := by
    simp only [parseInput, parseFuel]
    exact parse_single input (2 * input.length + 3) t k h1 h2 h3 hp hk
  have hsrc : parseSource input = .ok (⟨[.ExprStmt t]⟩, []) := by
    simp [parseSource, hparse, Parser.Errors, parserAt, errorStrings]
  refine ⟨hsrc, ?_⟩
  have hstr : Program.String ⟨[.ExprStmt t]⟩ = .ok s := by
    cases t with
    | nil => simp [Expr.String] at hs
    | _ => simp [Program.String, Statement.Strings, Statement.String, hs]
  simp only [parseToString, hsrc, Res.ok_bind, hstr, Res.pure_eq]

/-! ## Prefix operators, calls and indexes -/

theorem prefixType_cases (p : Str) : prefixType p = TypeBang ∨ prefixType p = TypeMinus := by
  unfold prefixType
  split_ifs
  · exact Or.inl rfl
  · exact Or.inr rfl

theorem prefix_head_ne (p rest : Str) (hp : p ∈ prefixOperators) :
    (p ++ rest).headD NUL ≠ '=' := by
  simp only [prefixOperators, List.mem_cons, List.mem_singleton, List.not_mem_nil,
    or_false] at hp
  rcases hp with rfl | rfl <;> simp

theorem precedence_le (op : Str) : precedence op + 1 < priorityPrefix := by
  unfold precedence priorityPrefix
  split_ifs <;> omega

theorem parseAt_ident_stop (input : Str) (i : Nat) (e : List ParseError) (f : Nat)
    (pr : priority) (x : Str) (h : tokenAt input i = ⟨TypeIdent, x⟩)
    (hs : (tokenAt input (i + 1)).typ = TypeSemicolon ∨
      priorities (tokenAt input (i + 1)).typ ≤ pr) :
    parseExpression (f + 1) pr (parserAt input i e) = .ok (.Ident x, parserAt input i e) := by
  rw [parseAt_ident input i e f pr x h, loopAt_stop _ _ _ _ _ _ _ _ hs]

theorem sliceAt_one (pe : priority → Parser → Res (Expr × Parser)) (n : Nat) (end_ : TokenType)
    (input : Str) (i j : Nat) (e : List ParseError) (x : Expr)
    (h1 : (tokenAt input (i + 1)).typ ≠ TypeRParen)
    (hx : pe priorityLowest (parserAt input (i + 1) e) = .ok (x, parserAt input j e))
    (h2 : (tokenAt input (j + 1)).typ = end_) (h3 : end_ ≠ TypeComma) :
    parseExprSlice pe n end_ (parserAt input i e) = .ok ([x], parserAt input (j + 1) e) := by
  have hn : (parserAt input i e).ntok.Type ≠ TypeRParen := h1
  have hc : ¬ (parserAt input j e).ntok.Type = TypeComma := by
    show ¬ (tokenAt input (j + 1)).typ = TypeComma
    rw [h2]
    exact h3
  have hloop : parseExprSliceLoop pe n [x] (parserAt input j e) =
      .ok ([x], parserAt input j e) := by
    cases n <;> simp only [parseExprSliceLoop, hc, if_false]
  simp only [parseExprSlice, hn, if_false, parserAt_nextToken, Res.ok_bind, hx, hloop,
    parserAt_peek input j e end_ h2, Bool.not_true, Bool.false_eq_true, Res.pure_eq]

theorem prefix_binary (p a op b : Str) (hp : p ∈ prefixOperators) (ha : isIdentifier a = true)
    (hop : op ∈ binaryOperators) (hb : isIdentifier b = true) :
    parseSource (p ++ (a ++ ' ' :: (op ++ ' ' :: b))) =
      .ok (⟨[.ExprStmt (.InfixExpr (.PrefixExpr p (.Ident a)) op (.Ident b))]⟩, []) ∧
    parseToString (p ++ (a ++ ' ' :: (op ++ ' ' :: b))) =
      .ok ("((".toList ++ p ++ a ++ ") ".toList ++ op ++ " ".toList ++ b ++ ")".toList, []) := by
  obtain ⟨hi, hpri⟩ := operator_facts op hop
  have hlow := (binary_facts _ hi).2
  have hpre := precedence_le op
  set input := p ++ (a ++ ' ' :: (op ++ ' ' :: b)) with hinput
  obtain ⟨t0, r1⟩ := token_prefixOp input 0 p _ (restAfter_zero input) hp
    (identifier_head_ne a _ ha)
  obtain ⟨t1, r2⟩ := token_ident input 1 a _ r1 ha (blank_not_letter _)
  obtain ⟨t2, r3⟩ := token_blank_operator input 2 op b r2 hop
  obtain ⟨t3, r4⟩ := token_blank_ident input 3 b [] (by rw [r3, List.append_nil]) hb
    nil_not_letter
  obtain ⟨t4, _⟩ := token_end input 4 r4
  have hF : 2 * input.length + 4 = (2 * input.length + 2) + 1 + 1 := by omega
  have hparse : parseExpression (2 * input.length + 4) priorityLowest (parserAt input 0 []) =
      .ok (.InfixExpr (.PrefixExpr p (.Ident a)) op (.Ident b), parserAt input 3 []) := by
    rw [hF, parseAt_operator input 0 [] _ _ _ t0 (prefixType_cases p),
      parseAt_ident_stop input 1 [] _ _ a t1 (Or.inr (by rw [t2, hpri]; exact Nat.le_of_lt hpre))]
    simp only [Res.ok_bind]
    rw [loopAt_binary _ _ _ _ _ input 1 [] _ t2 hi hlow,
      parseAt_ident_stop input 3 [] _ _ b t3 (Or.inr (by rw [t4, hpri]; simp [priorities, priorityLowest]))]
    simp only [Res.ok_bind]
    rw [loopAt_stop _ _ _ _ _ input 3 [] (Or.inr (by rw [t4]; decide))]
  have h0 : (tokenAt input 0).typ = prefixType p := by rw [t0]
  refine parseToString_single input _ 3 _ ?_ ?_ ?_ hparse (by rw [t4]) ?_
  · rw [h0]; rcases prefixType_cases p with h | h <;> rw [h] <;> decide
  · rw [h0]; rcases prefixType_cases p with h | h <;> rw [h] <;> decide
  · rw [h0]; rcases prefixType_cases p with h | h <;> rw [h] <;> decide
  · simp [Expr.String]

theorem prefix_prefix (p q a : Str) (hp : p ∈ prefixOperators) (hq : q ∈ prefixOperators)
    (ha : isIdentifier a = true) :
    parseSource (p ++ (q ++ a)) =
      .ok (⟨[.ExprStmt (.PrefixExpr p (.PrefixExpr q (.Ident a)))]⟩, []) ∧
    parseToString (p ++ (q ++ a)) =
      .ok ("(".toList ++ p ++ "(".toList ++ q ++ a ++ "))".toList, []) := by
  set input := p ++ (q ++ a) with hinput
  obtain ⟨t0, r1⟩ := token_prefixOp input 0 p _ (restAfter_zero input) hp (prefix_head_ne q _ hq)
  obtain ⟨t1, r2⟩ := token_prefixOp input 1 q (a ++ []) (by rw [r1, List.append_nil]) hq
    (identifier_head_ne a _ ha)
  obtain ⟨t2, r3⟩ := token_ident input 2 a [] r2 ha nil_not_letter
  obtain ⟨t3, _⟩ := token_end input 3 r3
  have hF : 2 * input.length + 4 = (2 * input.length + 1) + 1 + 1 + 1 := by omega
  have hparse : parseExpression (2 * input.length + 4) priorityLowest (parserAt input 0 []) =
      .ok (.PrefixExpr p (.PrefixExpr q (.Ident a)), parserAt input 2 []) := by
    rw [hF, parseAt_operator input 0 [] _ _ _ t0 (prefixType_cases p),
      parseAt_operator input 1 [] _ _ _ t1 (prefixType_cases q),
      parseAt_ident_stop input 2 [] _ _ a t2 (Or.inr (by rw [t3]; decide))]
    simp only [Res.ok_bind]
    rw [loopAt_stop _ _ _ _ _ input 2 [] (Or.inr (by rw [t3]; decide))]
    simp only [Res.ok_bind]
    rw [loopAt_stop _ _ _ _ _ input 2 [] (Or.inr (by rw [t3]; decide))]
  have h0 : (tokenAt input 0).typ = prefixType p := by rw [t0]
  refine parseToString_single input _ 2 _ ?_ ?_ ?_ hparse (by rw [t3]) ?_
  · rw [h0]; rcases prefixType_cases p with h | h <;> rw [h] <;> decide
  · rw [h0]; rcases prefixType_cases p with h | h <;> rw [h] <;> decide
  · rw [h0]; rcases prefixType_cases p with h | h <;> rw [h] <;> decide
  · simp [Expr.String]

theorem prefix_call (p a b : Str) (hp : p ∈ prefixOperators) (ha : isIdentifier a = true)
    (hb : isIdentifier b = true) :
    parseSource (p ++ (a ++ '(' :: (b ++ [')']))) =
      .ok (⟨[.ExprStmt (.PrefixExpr p (.CallExpr (.Ident a) [.Ident b]))]⟩, []) ∧
    parseToString (p ++ (a ++ '(' :: (b ++ [')']))) =
      .ok ("(".toList ++ p ++ a ++ "(".toList ++ b ++ "))".toList, []) := by
  set input := p ++ (a ++ '(' :: (b ++ [')'])) with hinput
  obtain ⟨t0, r1⟩ := token_prefixOp input 0 p _ (restAfter_zero input) hp
    (identifier_head_ne a _ ha)
  obtain ⟨t1, r2⟩ := token_ident input 1 a _ r1 ha (not_letter_cons _ _ (by decide))
  obtain ⟨t2, r3⟩ := token_punct input 2 '(' TypeLParen _ r2 (by simp)
  obtain ⟨t3, r4⟩ := token_ident input 3 b _ r3 hb (not_letter_cons _ _ (by decide))
  obtain ⟨t4, r5⟩ := token_punct input 4 ')' TypeRParen _ r4 (by simp)
  obtain ⟨t5, _⟩ := token_end input 5 r5
  have hF : 2 * input.length + 4 = (2 * input.length + 1) + 1 + 1 + 1 := by omega
  have harg : parseExprSlice (parseExpression (2 * input.length + 1 + 1)) (2 * input.length + 1 + 1)
      TypeRParen (parserAt input 2 []) = .ok ([.Ident b], parserAt input 4 []) :=
    sliceAt_one _ _ _ input 2 3 [] _ (by rw [t3]; simp)
      (parseAt_ident_stop input 3 [] _ _ b t3 (Or.inr (by rw [t4]; decide)))
      (by rw [t4]) (by decide)
  have hparse : parseExpression (2 * input.length + 4) priorityLowest (parserAt input 0 []) =
      .ok (.PrefixExpr p (.CallExpr (.Ident a) [.Ident b]), parserAt input 4 []) := by
    rw [hF, parseAt_operator input 0 [] _ _ _ t0 (prefixType_cases p),
      parseAt_ident input 1 [] _ _ a t1,
      loopAt_call _ _ _ _ _ input 1 [] (by rw [t2]) (by decide), harg]
    simp only [Res.ok_bind]
    rw [loopAt_stop _ _ _ _ _ input 4 [] (Or.inr (by rw [t5]; decide))]
    simp only [Res.ok_bind]
    rw [loopAt_stop _ _ _ _ _ input 4 [] (Or.inr (by rw [t5]; decide))]
  have h0 : (tokenAt input 0).typ = prefixType p := by rw [t0]
  refine parseToString_single input _ 4 _ ?_ ?_ ?_ hparse (by rw [t5]) ?_
  · rw [h0]; rcases prefixType_cases p with h | h <;> rw [h] <;> decide
  · rw [h0]; rcases prefixType_cases p with h | h <;> rw [h] <;> decide
  · rw [h0]; rcases prefixType_cases p with h | h <;> rw [h] <;> decide
  · simp [Expr.String, Expr.Strings, join, List.intercalate]

theorem prefix_index (p a b : Str) (hp : p ∈ prefixOperators) (ha : isIdentifier a = true)
    (hb : isIdentifier b = true) :
    parseSource (p ++ (a ++ '[' :: (b ++ [']']))) =
      .ok (⟨[.ExprStmt (.PrefixExpr p (.Index (.Ident a) (.Ident b)))]⟩, []) ∧
    parseToString (p ++ (a ++ '[' :: (b ++ [']']))) =
      .ok ("(".toList ++ p ++ "(".toList ++ a ++ "[".toList ++ b ++ "]))".toList, []) := by
  set input := p ++ (a ++ '[' :: (b ++ [']'])) with hinput
  obtain ⟨t0, r1⟩ := token_prefixOp input 0 p _ (restAfter_zero input) hp
    (identifier_head_ne a _ ha)
  obtain ⟨t1, r2⟩ := token_ident input 1 a _ r1 ha (not_letter_cons _ _ (by decide))
  obtain ⟨t2, r3⟩ := token_punct input 2 '[' TypeLBrakt _ r2 (by simp)
  obtain ⟨t3, r4⟩ := token_ident input 3 b _ r3 hb (not_letter_cons _ _ (by decide))
  obtain ⟨t4, r5⟩ := token_punct input 4 ']' TypeRBrakt _ r4 (by simp)
  obtain ⟨t5, _⟩ := token_end input 5 r5
  have hF : 2 * input.length + 4 = (2 * input.length + 1) + 1 + 1 + 1 := by omega
  have hparse : parseExpression (2 * input.length + 4) priorityLowest (parserAt input 0 []) =
      .ok (.PrefixExpr p (.Index (.Ident a) (.Ident b)), parserAt input 4 []) := by
    rw [hF, parseAt_operator input 0 [] _ _ _ t0 (prefixType_cases p),
      parseAt_ident input 1 [] _ _ a t1,
      loopAt_index _ _ _ _ _ input 1 [] (by rw [t2]) (by decide),
      parseAt_ident_stop input 3 [] _ _ b t3 (Or.inr (by rw [t4]; decide))]
    simp only [Res.ok_bind, parserAt_peek input 3 [] TypeRBrakt (by rw [t4]), if_true]
    rw [loopAt_stop _ _ _ _ _ input 4 [] (Or.inr (by rw [t5]; decide))]
    simp only [Res.ok_bind]
    rw [loopAt_stop _ _ _ _ _ input 4 [] (Or.inr (by rw [t5]; decide))]
  have h0 : (tokenAt input 0).typ = prefixType p := by rw [t0]
  refine parseToString_single input _ 4 _ ?_ ?_ ?_ hparse (by rw [t5]) ?_
  · rw [h0]; rcases prefixType_cases p with h | h <;> rw [h] <;> decide
  · rw [h0]; rcases prefixType_cases p with h | h <;> rw [h] <;> decide
  · rw [h0]; rcases prefixType_cases p with h | h <;> rw [h] <;> decide
  · simp [Expr.String]

theorem binary_index (a op b c : Str) (ha : isIdentifier a = true) (hop : op ∈ binaryOperators)
    (hb : isIdentifier b = true) (hc : isIdentifier c = true) :
    parseSource (a ++ ' ' :: (op ++ ' ' :: (b ++ '[' :: (c ++ [']'])))) =
      .ok (⟨[.ExprStmt (.InfixExpr (.Ident a) op (.Index (.Ident b) (.Ident c)))]⟩, []) ∧
    parseToString (a ++ ' ' :: (op ++ ' ' :: (b ++ '[' :: (c ++ [']'])))) =
      .ok ("(".toList ++ a ++ " ".toList ++ op ++ " (".toList ++ b ++ "[".toList ++ c ++
        "]))".toList, []) := by
  obtain ⟨hi, hpri⟩ := operator_facts op hop
  have hlow := (binary_facts _ hi).2
  have hpre := precedence_le op
  set input := a ++ ' ' :: (op ++ ' ' :: (b ++ '[' :: (c ++ [']']))) with hinput
  obtain ⟨t0, r1⟩ := token_ident input 0 a _ (restAfter_zero input) ha (blank_not_letter _)
  obtain ⟨t1, r2⟩ := token_blank_operator input 1 op _ r1 hop
  obtain ⟨t2, r3⟩ := token_blank_ident input 2 b _ r2 hb (not_letter_cons _ _ (by decide))
  obtain ⟨t3, r4⟩ := token_punct input 3 '[' TypeLBrakt _ r3 (by simp)
  obtain ⟨t4, r5⟩ := token_ident input 4 c _ r4 hc (not_letter_cons _ _ (by decide))
  obtain ⟨t5, r6⟩ := token_punct input 5 ']' TypeRBrakt _ r5 (by simp)
  obtain ⟨t6, _⟩ := token_end input 6 r6
  have hF : 2 * input.length + 4 = (2 * input.length + 1) + 1 + 1 + 1 := by omega
  have hidx : priorities (operatorType op) < priorityIndex := by
    rw [hpri]
    exact Nat.lt_trans hpre (by decide)
  have hparse : parseExpression (2 * input.length + 4) priorityLowest (parserAt input 0 []) =
      .ok (.InfixExpr (.Ident a) op (.Index (.Ident b) (.Ident c)), parserAt input 5 []) := by
    rw [hF, parseAt_ident input 0 [] _ _ a t0,
      loopAt_binary _ _ _ _ _ input 0 [] _ t1 hi hlow,
      parseAt_ident input 2 [] _ _ b t2,
      loopAt_index _ _ _ _ _ input 2 [] (by rw [t3]) hidx,
      parseAt_ident_stop input 4 [] _ _ c t4 (Or.inr (by rw [t5]; decide))]
    simp only [Res.ok_bind, parserAt_peek input 4 [] TypeRBrakt (by rw [t5]), if_true]
    rw [loopAt_stop _ _ _ _ _ input 5 [] (Or.inr (by rw [t6, hpri]; simp [priorities, priorityLowest]))]
    simp only [Res.ok_bind]
    rw [loopAt_stop _ _ _ _ _ input 5 [] (Or.inr (by rw [t6]; decide))]
  refine parseToString_single input _ 5 _ ?_ ?_ ?_ hparse (by rw [t6]) ?_
  · rw [t0]; simp
  · rw [t0]; simp
  · rw [t0]; simp
  · simp [Expr.String]

/-! ## Slice literals -/

theorem sliceSource_cons (l : Str) (ls : List Str) :
    sliceSource (l :: ls) = '[' :: (l ++ sliceTail ls) := by
  simp only [sliceSource, join, List.cons.injEq, true_and]
  induction ls generalizing l with
  | nil => simp [List.intercalate, sliceTail]
  | cons m ms ih =>
    have h := ih m
    simp only [List.intercalate, List.intersperse, List.flatten_cons, List.append_assoc,
      sliceTail] at h ⊢
    rw [h]
    simp

theorem sliceTail_length (ls : List Str) : ls.length ≤ (sliceTail ls).length := by
  induction ls with
  | nil => simp [sliceTail]
  | cons l ls ih =>
    simp only [sliceTail, List.length_cons, List.length_append]
    omega

theorem sliceTail_not_digit (ls : List Str) :
    ∀ c r, sliceTail ls = c :: r → isDigit c = false := by
  intro c r h
  cases ls with
  | nil =>
    simp only [sliceTail, List.cons.injEq] at h
    rw [← h.1]
    decide
  | cons l ls =>
    simp only [sliceTail, List.cons.injEq] at h
    rw [← h.1]
    decide

theorem takeWhile_digits (d rest : Str) (hd : d.all isDigit = true)
    (hrest : ∀ c r, rest = c :: r → isDigit c = false) :
    (d ++ rest).takeWhile isDigit = d := by
  induction d with
  | nil =>
    cases rest with
    | nil => rfl
    | cons c r => simp [List.takeWhile, hrest c r rfl]
  | cons x xs ih =>
    simp only [List.all_cons, Bool.and_eq_true] at hd
    simp [List.takeWhile, hd.1, ih hd.2]

theorem lexSpec_int (d rest : Str) (hd : isDigitRun d = true)
    (hrest : ∀ c r, rest = c :: r → isDigit c = false) :
    lexSpec (d ++ rest) = (⟨TypeInt, d⟩, d.length) := by
  simp only [isDigitRun, Bool.and_eq_true, Bool.not_eq_true', List.isEmpty_eq_false] at hd
  have hhead : isDigit ((d ++ rest).headD NUL) = true := by
    cases d with
    | nil => exact absurd rfl hd.1
    | cons x xs =>
      have := hd.2
      simp only [List.all_cons, Bool.and_eq_true] at this
      simpa using this.1
  rw [lexSpec_digit _ hhead, takeWhile_digits d rest hd.2 hrest]
  rfl

theorem token_int (input : Str) (i : Nat) (d rest : Str)
    (hs : restAfter input i = d ++ rest) (hd : isDigitRun d = true)
    (hr : ∀ c r, rest = c :: r → isDigit c = false) :
    tokenAt input i = ⟨TypeInt, d⟩ ∧ restAfter input (i + 1) = rest := by
  have h := token_step input i _ _ _ hs (lexSpec_int d rest hd hr)
  rw [List.drop_left] at h
  exact h

theorem token_blank_int (input : Str) (i : Nat) (d rest : Str)
    (hs : restAfter input i = ' ' :: (d ++ rest)) (hd : isDigitRun d = true)
    (hr : ∀ c r, rest = c :: r → isDigit c = false) :
    tokenAt input i = ⟨TypeInt, d⟩ ∧ restAfter input (i + 1) = rest := by
  have h := token_blank input i _ _ _ hs (lexSpec_int d rest hd hr)
  rw [List.drop_left] at h
  exact h

theorem sliceTail_token (input : Str) (i : Nat) (ls : List Str)
    (hs : restAfter input i = sliceTail ls) :
    (tokenAt input i).typ = TypeComma ∨ (tokenAt input i).typ = TypeRBrakt := by
  cases ls with
  | nil =>
    have h := (token_punct input i ']' TypeRBrakt [] hs (by simp)).1
    exact Or.inr (by rw [h])
  | cons l ls =>
    have h := (token_punct input i ',' TypeComma _ hs (by simp)).1
    exact Or.inl (by rw [h])

theorem parseAt_integer_stop (input : Str) (i : Nat) (e : List ParseError) (f : Nat)
    (pr : priority) (s : Str) (v : Int) (h : tokenAt input i = ⟨TypeInt, s⟩)
    (hv : ParseInt s = some v)
    (hs : (tokenAt input (i + 1)).typ = TypeSemicolon ∨
      priorities (tokenAt input (i + 1)).typ ≤ pr) :
    parseExpression (f + 1) pr (parserAt input i e) = .ok (.Integer v, parserAt input i e) := by
  rw [parseAt_integer input i e f pr s v h hv, loopAt_stop _ _ _ _ _ _ _ _ hs]

theorem sliceLoop_ints (input : Str) (e : List ParseError) (f : Nat) :
    ∀ (ls : List (Str × Int)) (i : Nat) (vals : List Expr) (n : Nat), ls.length ≤ n →
      restAfter input (i + 1) = sliceTail (ls.map Prod.fst) →
      (∀ x ∈ ls, isDigitRun x.1 = true ∧ ParseInt x.1 = some x.2) →
      parseExprSliceLoop (parseExpression (f + 1)) n vals (parserAt input i e) =
        .ok (vals ++ ls.map (fun x => Expr.Integer x.2), parserAt input (i + 2 * ls.length) e) ∧
      restAfter input (i + 2 * ls.length + 1) = [']'] := by
  intro ls
  induction ls with
  | nil =>
    intro i vals n _ hs _
    have ht := (token_punct input i.succ ']' TypeRBrakt [] hs (by simp)).1
    have hc : ¬ (parserAt input i e).ntok.Type = TypeComma := by
      show ¬ (tokenAt input (i + 1)).typ = TypeComma
      rw [ht]
      decide
    refine ⟨?_, hs⟩
    cases n <;> simp [parseExprSliceLoop, hc]
  | cons x ls ih =>
    intro i vals n hn hs hx
    obtain ⟨hd, hv⟩ := hx x (List.mem_cons_self _ _)
    simp only [List.map_cons, sliceTail] at hs
    obtain ⟨t1, r2⟩ := token_punct input (i + 1) ',' TypeComma _ hs (by simp)
    obtain ⟨t2, r3⟩ := token_blank_int input (i + 2) x.1 _ r2 hd (sliceTail_not_digit _)
    have hstop : priorities (tokenAt input (i + 2 + 1)).typ ≤ priorityLowest := by
      rcases sliceTail_token input (i + 3) _ r3 with h | h <;> rw [h] <;> decide
    have hc : (parserAt input i e).ntok.Type = TypeComma := by
      show (tokenAt input (i + 1)).typ = TypeComma
      rw [t1]
    cases n with
    | zero => simp at hn
    | succ m =>
      have hm : ls.length ≤ m := by
        simp only [List.length_cons] at hn
        omega
      have hrec := ih (i + 2) (vals ++ [.Integer x.2]) m hm r3
        (fun y hy => hx y (List.mem_cons_of_mem _ hy))
      simp only [parseExprSliceLoop, hc, if_true, parserAt_nextToken, Res.ok_bind,
        parseAt_integer_stop input (i + 2) e f priorityLowest x.1 x.2 t2 hv (Or.inr hstop)]
      rw [hrec.1]
      refine ⟨?_, ?_⟩
      · simp only [List.length_cons, List.map_cons, List.append_assoc, List.singleton_append]
        rw [show i + 2 + 2 * ls.length = i + 2 * (ls.length + 1) by omega]
      · have h2 := hrec.2
        rw [show i + 2 + 2 * ls.length + 1 = i + 2 * (x :: ls).length + 1 by
          simp only [List.length_cons]; omega] at h2
        exact h2

/-- A slice literal of one or more integer literals parses to the slice node
of their values. -/
theorem parse_slice_ints (x : Str × Int) (ls : List (Str × Int))
    (hx : ∀ y ∈ x :: ls, isDigitRun y.1 = true ∧ ParseInt y.1 = some y.2) :
    parseSource (sliceSource ((x :: ls).map Prod.fst)) =
      .ok (⟨[.ExprStmt (.Slice ((x :: ls).map (fun y => Expr.Integer y.2)))]⟩, []) := by
  obtain ⟨hd, hv⟩ := hx x (List.mem_cons_self _ _)
  simp only [List.map_cons, sliceSource_cons]
  set input := '[' :: (x.1 ++ sliceTail (ls.map Prod.fst)) with hinput
  obtain ⟨t0, r1⟩ := token_punct input 0 '[' TypeLBrakt _ (restAfter_zero input) (by simp)
  obtain ⟨t1, r2⟩ := token_int input 1 x.1 _ r1 hd (sliceTail_not_digit _)
  have hstop : priorities (tokenAt input (1 + 1)).typ ≤ priorityLowest := by
    rcases sliceTail_token input 2 _ r2 with h | h <;> rw [h] <;> decide
  have hlen : ls.length ≤ 2 * input.length + 3 := by
    have := sliceTail_length (ls.map Prod.fst)
    simp only [List.length_map] at this
    simp only [hinput, List.length_cons, List.length_append]
    omega
  obtain ⟨hloop, r3⟩ := sliceLoop_ints input [] (2 * input.length + 2) ls 1
    [.Integer x.2] (2 * input.length + 3) hlen r2 (fun y hy => hx y (List.mem_cons_of_mem _ hy))
  obtain ⟨t3, r4⟩ := token_punct input (1 + 2 * ls.length + 1) ']' TypeRBrakt [] r3 (by simp)
  obtain ⟨t4, _⟩ := token_end input (1 + 2 * ls.length + 1 + 1) r4
  have hn : (parserAt input 0 []).ntok.Type ≠ TypeRParen := by
    show (tokenAt input 1).typ ≠ TypeRParen
    rw [t1]
    simp
  have hslice : parseExprSlice (parseExpression (2 * input.length + 3)) (2 * input.length + 3)
      TypeRBrakt (parserAt input 0 []) =
      .ok (.Integer x.2 :: ls.map (fun y => Expr.Integer y.2),
        parserAt input (1 + 2 * ls.length + 1) []) := by
    simp only [parseExprSlice, hn, if_false, parserAt_nextToken, Res.ok_bind,
      parseAt_integer_stop input 1 [] (2 * input.length + 2) priorityLowest x.1 x.2 t1 hv
        (Or.inr hstop), hloop,
      parserAt_peek input (1 + 2 * ls.length) [] TypeRBrakt (by rw [t3]), Bool.not_true,
      Bool.false_eq_true, if_false, Res.pure_eq, List.singleton_append]
  have hparse : parseExpression (2 * input.length + 4) priorityLowest (parserAt input 0 []) =
      .ok (.Slice (.Integer x.2 :: ls.map (fun y => Expr.Integer y.2)),
        parserAt input (1 + 2 * ls.length + 1) []) := by
    rw [show 2 * input.length + 4 = (2 * input.length + 3) + 1 by omega,
      parseAt_slice input 0 [] _ _ (by rw [t0]), hslice]
    simp only [Res.ok_bind]
    rw [loopAt_stop _ _ _ _ _ input _ [] (Or.inr (by rw [t4]; decide))]
  have hparse2 : parseInput input =
      .ok (⟨[.ExprStmt (.Slice (.Integer x.2 :: ls.map (fun y => Expr.Integer y.2)))]⟩,
        parserAt input (1 + 2 * ls.length + 1 + 1) []) := by
    simp only [parseInput, parseFuel]
    exact parse_single input (2 * input.length + 3) _ _ (by rw [t0]; decide) (by rw [t0]; decide)
      (by rw [t0]; decide) hparse (by rw [t4])
  simp [parseSource, hparse2, Parser.Errors, parserAt, errorStrings]

/-! ## The decimal rendering of an integer is read back -/

theorem digitChar_value (m : Nat) (h : m < 10) :
    isDigit (Nat.digitChar m) = true ∧ (Nat.digitChar m).toNat - '0'.toNat = m ∧
      (0 < m → Nat.digitChar m ≠ '0') := by
  interval_cases m <;> decide

theorem toDigitsCore_value :
    ∀ (fuel n : Nat) (ds : Str), n < fuel →
      (Nat.toDigitsCore 10 fuel n ds).foldl (fun acc c => acc * 10 + (c.toNat - '0'.toNat)) 0 =
        ds.foldl (fun acc c => acc * 10 + (c.toNat - '0'.toNat)) n := by
  intro fuel
  induction fuel with
  | zero => intro n ds h; omega
  | succ fuel ih =>
    intro n ds h
    have hd := digitChar_value (n % 10) (Nat.mod_lt _ (by decide))
    simp only [Nat.toDigitsCore]
    by_cases h0 : n / 10 = 0
    · have hn : n % 10 = n := by omega
      rw [hn] at hd
      simp only [h0, if_true, List.foldl_cons, hn, hd.2.1, Nat.zero_mul, Nat.zero_add]
    · simp only [h0, if_false]
      rw [ih (n / 10) _ (by omega)]
      simp only [List.foldl_cons, hd.2.1]
      congr 1
      omega

theorem toDigitsCore_all :
    ∀ (fuel n : Nat) (ds : Str), ds.all isDigit = true →
      (Nat.toDigitsCore 10 fuel n ds).all isDigit = true := by
  intro fuel
  induction fuel with
  | zero => intro n ds h; exact h
  | succ fuel ih =>
    intro n ds h
    have hd := digitChar_value (n % 10) (Nat.mod_lt _ (by decide))
    simp only [Nat.toDigitsCore]
    by_cases h0 : n / 10 = 0
    · simp only [h0, if_true, List.all_cons, hd.1, h, Bool.and_self]
    · simp only [h0, if_false]
      exact ih _ _ (by simp only [List.all_cons, hd.1, h, Bool.and_self])

theorem toDigitsCore_head :
    ∀ (fuel n : Nat) (ds : Str), n < fuel → 0 < n →
      (Nat.toDigitsCore 10 fuel n ds).head? ≠ some '0' ∧ Nat.toDigitsCore 10 fuel n ds ≠ [] := by
  intro fuel
  induction fuel with
  | zero => intro n ds h; omega
  | succ fuel ih =>
    intro n ds h hn
    have hd := digitChar_value (n % 10) (Nat.mod_lt _ (by decide))
    simp only [Nat.toDigitsCore]
    by_cases h0 : n / 10 = 0
    · have hm : 0 < n % 10 := by omega
      simp only [h0, if_true, List.head?_cons, ne_eq, Option.some.injEq, reduceCtorEq,
        not_false_eq_true, and_true]
      exact hd.2.2 hm
    · simp only [h0, if_false]
      exact ih _ _ (by omega) (by omega)

theorem ParseInt_itoa (v : Int) (h0 : 0 ≤ v) (h1 : v < 2 ^ 63) :
    ParseInt (itoa v) = some v ∧ isDigitRun (itoa v) = true := by
  have hneg : ¬ v < 0 := by omega
  simp only [itoa, hneg, if_false, Nat.toDigits]
  by_cases hz : v = 0
  · subst hz
    exact ⟨by decide, by decide⟩
  · have hpos : 0 < v.toNat := by omega
    have hall := toDigitsCore_all (v.toNat + 1) v.toNat [] rfl
    have hhead := toDigitsCore_head (v.toNat + 1) v.toNat [] (by omega) hpos
    have hval := toDigitsCore_value (v.toNat + 1) v.toNat [] (by omega)
    have hrun : isDigitRun (Nat.toDigitsCore 10 (v.toNat + 1) v.toNat []) = true := by
      simp only [isDigitRun, Bool.and_eq_true, Bool.not_eq_true', List.isEmpty_eq_false]
      exact ⟨hhead.2, hall⟩
    refine ⟨?_, hrun⟩
    rw [ParseInt_decimal _ hrun hhead.1]
    simp only [digitsValue, hval, List.foldl_nil]
    have hlt : v.toNat < 2 ^ 63 := by omega
    rw [if_pos hlt]
    congr 1
    omega

/-! ## Tokens of a canonical rendering -/

theorem dropWhile_dropWhile (p : Char → Bool) (x : Str) :
    (x.dropWhile p).dropWhile p = x.dropWhile p ∧ (x.dropWhile p).takeWhile p = [] := by
  induction x with
  | nil => simp
  | cons c cs ih =>
    by_cases hc : p c = true
    · simpa [List.dropWhile, hc] using ih
    · simp [List.dropWhile, List.takeWhile, hc]

theorem take_length_drop (p : Char → Bool) (x : Str) :
    x.drop (x.takeWhile p).length = x.dropWhile p := by
  induction x with
  | nil => simp
  | cons c cs ih =>
    by_cases hc : p c = true
    · simp [List.dropWhile, List.takeWhile, hc, ih]
    · simp [List.dropWhile, List.takeWhile, hc]

theorem token_trim (input : Str) (i : Nat) (s : Str) (tok : Token) (n : Nat)
    (hs : trimmed input i = s) (hl : lexSpec s = (tok, n)) :
    tokenAt input i = tok ∧ restAfter input (i + 1) = s.drop n := by
  have hd := dropWhile_dropWhile isWhitespace (restAfter input i)
  simp only [trimmed] at hs
  rw [hs] at hd
  have h1 : (scanToken s).1 = tok := by
    have := congrArg Prod.fst hl
    simpa [lexSpec, hd.1] using this
  have h2 : (scanToken s).2 = n := by
    have := congrArg Prod.snd hl
    simpa [lexSpec, hd.1, hd.2] using this
  constructor
  · simp only [tokenAt, lexSpec, hs, h1]
  · rw [restAfter_succ]
    simp only [lexSpec, hs, h2]
    rw [← List.drop_drop, take_length_drop, hs]

theorem trim_of_head (x : Str) (h : isWhitespace (x.headD NUL) = false) :
    x.dropWhile isWhitespace = x := by
  cases x with
  | nil => rfl
  | cons c cs =>
    have hc : isWhitespace c = false := h
    simp [List.dropWhile, hc]

theorem startsExpr_facts (c : Char) (h : startsExpr c) :
    isWhitespace c = false ∧ c ≠ '=' ∧ c ≠ NUL := by
  rcases h with h | h | h | h
  · exact ⟨(letter_facts c h).1, (letter_facts c h).2.1,
      (letter_facts c h).2.2.2.2.2.2.2.2.2.2.2.2.2.2.2.2.2.1⟩
  · exact ⟨(digit_facts c h).1, (digit_facts c h).2.1,
      (digit_facts c h).2.2.2.2.2.2.2.2.2.2.2.2.2.2.2.2.2.1⟩
  · subst h
    exact ⟨by decide, by decide, by decide⟩
  · subst h
    exact ⟨by decide, by decide, by decide⟩

theorem trimmed_of_rest (input : Str) (i : Nat) (c : Char) (x : Str)
    (hs : restAfter input i = c :: x) (hc : isWhitespace c = false) :
    trimmed input i = c :: x := by
  simp only [trimmed, hs]
  exact trim_of_head _ hc

theorem trimmed_of_blank (input : Str) (i : Nat) (c : Char) (x : Str)
    (hs : restAfter input i = ' ' :: c :: x) (hc : isWhitespace c = false) :
    trimmed input i = c :: x := by
  simp only [trimmed, hs]
  have : (' ' :: c :: x).dropWhile isWhitespace = (c :: x).dropWhile isWhitespace := by
    simp [List.dropWhile, isWhitespace]
  rw [this]
  exact trim_of_head _ hc

theorem tokenT_ident (input : Str) (i : Nat) (a rest : Str)
    (hs : trimmed input i = a ++ rest) (ha : isIdentifier a = true)
    (hr : ∀ c r, rest = c :: r → isLetter c = false) :
    tokenAt input i = ⟨TypeIdent, a⟩ ∧ restAfter input (i + 1) = rest := by
  have h := token_trim input i _ _ _ hs (lexSpec_identifier a rest ha hr)
  rw [List.drop_left] at h
  exact h

theorem tokenT_int (input : Str) (i : Nat) (d rest : Str)
    (hs : trimmed input i = d ++ rest) (hd : isDigitRun d = true)
    (hr : ∀ c r, rest = c :: r → isDigit c = false) :
    tokenAt input i = ⟨TypeInt, d⟩ ∧ restAfter input (i + 1) = rest := by
  have h := token_trim input i _ _ _ hs (lexSpec_int d rest hd hr)
  rw [List.drop_left] at h
  exact h

theorem tokenT_punct (input : Str) (i : Nat) (c : Char) (t : TokenType) (rest : Str)
    (hs : trimmed input i = c :: rest)
    (h : (c, t) ∈ [('(', TypeLParen), (')', TypeRParen), ('[', TypeLBrakt), (']', TypeRBrakt),
      (',', TypeComma), (';', TypeSemicolon)]) :
    tokenAt input i = ⟨t, [c]⟩ ∧ restAfter input (i + 1) = rest := by
  have h := token_trim input i _ _ _ hs (lexSpec_punct c t rest h)
  simpa using h

theorem tokenT_bool (input : Str) (i : Nat) (b : Bool) (rest : Str)
    (hs : trimmed input i = formatBool b ++ rest)
    (hr : ∀ c r, rest = c :: r → isLetter c = false) :
    tokenAt input i = ⟨TypeBool, formatBool b⟩ ∧ restAfter input (i + 1) = rest := by
  have hall : (formatBool b).all isLetter = true := by cases b <;> decide
  have hhead : isLetter ((formatBool b ++ rest).headD NUL) = true := by cases b <;> rfl
  have hl : lexSpec (formatBool b ++ rest) = (⟨TypeBool, formatBool b⟩, (formatBool b).length) := by
    rw [lexSpec_letter _ hhead, takeWhile_letters _ _ hall hr]
    cases b <;> rfl
  have h := token_trim input i _ _ _ hs hl
  rw [List.drop_left] at h
  exact h

theorem join_cons_tail (close : Char) (rest : Str) (l : Str) (ls : List Str) :
    join (l :: ls) ", ".toList ++ close :: rest = l ++ listTail close rest ls := by
  simp only [join]
  induction ls generalizing l with
  | nil => simp [List.intercalate, listTail]
  | cons m ms ih =>
    have h := ih m
    simp only [List.intercalate, List.intersperse, List.flatten_cons, List.append_assoc,
      listTail] at h ⊢
    rw [h]
    simp

theorem listTail_clean (close : Char) (rest : Str) (ls : List Str)
    (hc : isLetter close = false ∧ isDigit close = false) : Clean (listTail close rest ls) := by
  intro c r h
  cases ls with
  | nil =>
    simp only [listTail, List.cons.injEq] at h
    rw [← h.1]
    exact hc
  | cons l ls =>
    simp only [listTail, List.cons.injEq] at h
    rw [← h.1]
    exact ⟨by decide, by decide⟩

theorem clean_cons (c : Char) (x : Str) (hc : isLetter c = false ∧ isDigit c = false) :
    Clean (c :: x) := by
  intro d r h
  rw [← (List.cons.inj h).1]
  exact hc

theorem clean_nil : Clean [] := by
  intro c r h
  simp at h

theorem follows_of_clean (s rest : Str) (h : Clean rest) : Follows s rest :=
  fun c r hr => ⟨fun _ => (h c r hr).1, fun _ => (h c r hr).2⟩

theorem follows_nil (s : Str) : Follows s [] := by
  intro c r h
  cases h

theorem getLastD_mem (c : Char) (x : Str) : (c :: x).getLastD NUL ∈ c :: x := by
  induction x generalizing c with
  | nil => simp
  | cons d ds ih =>
    have := ih d
    simp only [List.getLastD_cons] at this ⊢
    exact List.mem_cons_of_mem _ (by simpa using this)

theorem identifier_last (x : Str) (hx : isIdentifier x = true) :
    isLetter (x.getLastD NUL) = true := by
  simp only [isIdentifier, Bool.and_eq_true, Bool.not_eq_true', List.isEmpty_eq_false,
    List.all_eq_true] at hx
  obtain ⟨⟨hne, hall⟩, _⟩ := hx
  cases x with
  | nil => exact absurd rfl hne
  | cons c r => exact hall _ (getLastD_mem c r)

theorem digitRun_last (x : Str) (hx : isDigitRun x = true) :
    isDigit (x.getLastD NUL) = true := by
  simp only [isDigitRun, Bool.and_eq_true, Bool.not_eq_true', List.isEmpty_eq_false,
    List.all_eq_true] at hx
  obtain ⟨hne, hall⟩ := hx
  cases x with
  | nil => exact absurd rfl hne
  | cons c r => exact hall _ (getLastD_mem c r)

theorem nodes_pos (t : Expr) : 0 < t.nodes := by
  cases t <;> simp [Expr.nodes]

theorem nodes_mem (a : Expr) (as : List Expr) (h : a ∈ as) :
    a.nodes + 1 ≤ Expr.nodesAll as := by
  induction as with
  | nil => simp at h
  | cons b bs ih =>
    simp only [Expr.nodesAll]
    rcases List.mem_cons.mp h with rfl | h2
    · omega
    · have := ih h2
      omega

theorem nodesAll_length (as : List Expr) : as.length ≤ Expr.nodesAll as := by
  induction as with
  | nil => simp
  | cons b bs ih =>
    simp only [Expr.nodesAll, List.length_cons]
    omega

theorem plain_mem (a : Expr) (as : List Expr) (h : a ∈ as)
    (hall : Expr.plainAll as = true) : a.plain = true := by
  induction as with
  | nil => simp at h
  | cons b bs ih =>
    simp only [Expr.plainAll, Bool.and_eq_true] at hall
    rcases List.mem_cons.mp h with rfl | h2
    · exact hall.1
    · exact ih h2 hall.2

/-! ## The parser reads a canonical rendering back -/

theorem tokenAt_of_rest (input : Str) (i : Nat) (rest : Str) (h : restAfter input i = rest) :
    tokenAt input i = (lexSpec rest).1 := by
  rw [tokenAt, h]

theorem parsesBack_complete (t : Expr) (h : ParsesBack t) (s : Str) (hs : Expr.String t = .ok s)
    (input : Str) (i : Nat) (e : List ParseError) (rest : Str) (f : Nat) (pr : priority)
    (htrim : trimmed input i = s ++ rest) (hclean : Follows s rest) (hf : 2 * t.nodes ≤ f)
    (hpr : pr ≤ priorityPrefix)
    (hstop : (lexSpec rest).1.typ = TypeSemicolon ∨ priorities (lexSpec rest).1.typ ≤ pr) :
    ∃ k, parseExpression (f + 1) pr (parserAt input i e) = .ok (t, parserAt input k e) ∧
      restAfter input (k + 1) = rest := by
  obtain ⟨k, m, hp, _, hr⟩ := ((h s hs).2.2 input i e rest f pr htrim hclean hf hpr).2
  refine ⟨k, ?_, hr⟩
  rw [hp]
  apply loopAt_stop
  rw [tokenAt_of_rest input (k + 1) rest hr]
  exact hstop

theorem identifier_start (x : Str) (hx : isIdentifier x = true) :
    ∃ c r, x = c :: r ∧ startsExpr c := by
  have h := identifier_head x [] hx
  cases x with
  | nil => exact absurd h (by decide)
  | cons c r => exact ⟨c, r, rfl, Or.inl (by simpa using h)⟩

theorem digitRun_start (x : Str) (hx : isDigitRun x = true) :
    ∃ c r, x = c :: r ∧ startsExpr c := by
  simp only [isDigitRun, Bool.and_eq_true, Bool.not_eq_true', List.isEmpty_eq_false] at hx
  cases x with
  | nil => exact absurd rfl hx.1
  | cons c r =>
    have := hx.2
    simp only [List.all_cons, Bool.and_eq_true] at this
    exact ⟨c, r, rfl, Or.inr (Or.inl this.1)⟩

theorem parsesBack_ident (x : Str) (hx : isIdentifier x = true) : ParsesBack (.Ident x) := by
  intro s hs
  simp only [Expr.String, Res.ok.injEq] at hs
  subst hs
  obtain ⟨c, r, hcr, hc⟩ := identifier_start x hx
  refine ⟨⟨c, r, hcr, hc⟩, by rw [hcr]; simp [Expr.nodes], ?_⟩
  intro input i e rest f pr htrim hclean _ _
  obtain ⟨t0, r1⟩ := tokenT_ident input i x rest htrim hx
    (fun c r h => (hclean c r h).1 (identifier_last x hx))
  refine ⟨by rw [t0]; simp, i, f, parseAt_ident input i e f pr x t0, by omega, r1⟩

theorem parsesBack_integer (v : Int) (h0 : 0 ≤ v) (h1 : v < 2 ^ 63) :
    ParsesBack (.Integer v) := by
  intro s hs
  simp only [Expr.String, Res.ok.injEq] at hs
  subst hs
  obtain ⟨hv, hrun⟩ := ParseInt_itoa v h0 h1
  obtain ⟨c, r, hcr, hc⟩ := digitRun_start _ hrun
  refine ⟨⟨c, r, hcr, hc⟩, by rw [hcr]; simp [Expr.nodes], ?_⟩
  intro input i e rest f pr htrim hclean _ _
  obtain ⟨t0, r1⟩ := tokenT_int input i _ rest htrim hrun
    (fun c r h => (hclean c r h).2 (digitRun_last _ hrun))
  refine ⟨by rw [t0]; simp, i, f, parseAt_integer input i e f pr _ v t0 hv, by omega, r1⟩

theorem parsesBack_bool (b : Bool) : ParsesBack (.BoolLit b) := by
  intro s hs
  simp only [Expr.String, Res.ok.injEq] at hs
  subst hs
  refine ⟨by cases b <;> exact ⟨_, _, rfl, Or.inl (by decide)⟩,
    by cases b <;> simp [Expr.nodes, formatBool], ?_⟩
  intro input i e rest f pr htrim hclean _ _
  obtain ⟨t0, r1⟩ := tokenT_bool input i b rest htrim
    (fun c r h => (hclean c r h).1 (by cases b <;> decide))
  refine ⟨by rw [t0]; simp, i, f, ?_, by omega, r1⟩
  rw [parseAt_bool input i e f pr _ t0]
  cases b <;> simp [formatBool]

theorem prefix_inv (op : Str) (r : Expr) (s : Str)
    (hs : Expr.String (.PrefixExpr op r) = .ok s) :
    ∃ sr, Expr.String r = .ok sr ∧ s = '(' :: (op ++ (sr ++ [')'])) := by
  cases hr : Expr.String r with
  | ok sr =>
    simp only [Expr.String, hr, Res.ok_bind, Res.pure_eq, Res.ok.injEq] at hs
    exact ⟨sr, rfl, by rw [← hs]; simp⟩
  | panic => simp [Expr.String, hr] at hs
  | outOfFuel => simp [Expr.String, hr] at hs

theorem rparen_stop (rest : Str) (pr : priority) (hpr : priorityLowest ≤ pr) :
    (lexSpec (')' :: rest)).1.typ = TypeSemicolon ∨
      priorities (lexSpec (')' :: rest)).1.typ ≤ pr := by
  rw [lexSpec_punct ')' TypeRParen rest (by simp)]
  exact Or.inr hpr

theorem parsesBack_prefixOp (op : Str) (r : Expr) (hop : op ∈ prefixOperators)
    (hr : ParsesBack r) : ParsesBack (.PrefixExpr op r) := by
  intro s hs
  obtain ⟨sr, hsr, hseq⟩ := prefix_inv op r s hs
  subst hseq
  obtain ⟨⟨c, cr, hcr, hc⟩, hlen, _⟩ := hr sr hsr
  refine ⟨⟨_, _, rfl, Or.inr (Or.inr (Or.inl rfl))⟩, ?_, ?_⟩
  · simp only [Expr.nodes, List.length_cons, List.length_append, List.length_nil]
    omega
  intro input i e rest f pr htrim hclean hf hpr
  simp only [Expr.nodes] at hf
  obtain ⟨f2, rfl⟩ : ∃ f2, f = f2 + 1 + 1 := ⟨f - 2, by omega⟩
  obtain ⟨t0, r1⟩ := tokenT_punct input i '(' TypeLParen _ htrim (by simp)
  have r1' : restAfter input (i + 1) = op ++ (sr ++ ')' :: rest) := by
    rw [r1]; simp
  obtain ⟨t1, r2⟩ := token_prefixOp input (i + 1) op _ r1' hop
    (by rw [hcr]; exact (startsExpr_facts c hc).2.1)
  have htr : trimmed input (i + 2) = sr ++ ')' :: rest := by
    rw [hcr] at r2 ⊢
    exact trimmed_of_rest input (i + 2) c _ r2 (startsExpr_facts c hc).1
  obtain ⟨k, hk, rk⟩ := parsesBack_complete r hr sr hsr input (i + 2) e (')' :: rest) f2 priorityPrefix htr
    (follows_of_clean _ _ (clean_cons _ _ (by decide))) (by omega) (Nat.le_refl _) (rparen_stop rest _ (by decide))
  obtain ⟨t2, r3⟩ := token_punct input (k + 1) ')' TypeRParen rest rk (by simp)
  refine ⟨by rw [t0]; simp, k + 1, f2 + 1 + 1, ?_, by omega, r3⟩
  rw [parseAt_group input i e _ pr (by rw [t0]),
    parseAt_operator input (i + 1) e _ _ _ t1 (prefixType_cases op), hk]
  simp only [Res.ok_bind]
  rw [loopAt_stop _ _ _ _ _ input k e (Or.inr (by rw [t2]; decide))]
  simp only [Res.ok_bind, parserAt_peek input k e TypeRParen (by rw [t2]), if_true]

theorem infix_inv (l : Expr) (op : Str) (r : Expr) (s : Str)
    (hs : Expr.String (.InfixExpr l op r) = .ok s) :
    ∃ sl sr, Expr.String l = .ok sl ∧ Expr.String r = .ok sr ∧
      s = '(' :: (sl ++ ' ' :: (op ++ ' ' :: (sr ++ [')']))) := by
  cases hl : Expr.String l with
  | ok sl =>
    cases hr : Expr.String r with
    | ok sr =>
      simp only [Expr.String, hl, hr, Res.ok_bind, Res.pure_eq, Res.ok.injEq] at hs
      exact ⟨sl, sr, rfl, rfl, by rw [← hs]; simp⟩
    | panic => simp [Expr.String, hl, hr] at hs
    | outOfFuel => simp [Expr.String, hl, hr] at hs
  | panic => simp [Expr.String, hl] at hs
  | outOfFuel => simp [Expr.String, hl] at hs

theorem parsesBack_infixOp (l : Expr) (op : Str) (r : Expr) (hop : op ∈ binaryOperators)
    (hl : ParsesBack l) (hr : ParsesBack r) : ParsesBack (.InfixExpr l op r) := by
  intro s hs
  obtain ⟨sl, sr, hsl, hsr, hseq⟩ := infix_inv l op r s hs
  subst hseq
  obtain ⟨⟨c, cr, hcr, hc⟩, hlenl, hl2⟩ := hl sl hsl
  obtain ⟨⟨d, dr, hdr, hd⟩, hlenr, _⟩ := hr sr hsr
  obtain ⟨hi, hpri⟩ := operator_facts op hop
  have hlow := (binary_facts _ hi).2
  have hpre := precedence_le op
  refine ⟨⟨_, _, rfl, Or.inr (Or.inr (Or.inl rfl))⟩, ?_, ?_⟩
  · simp only [Expr.nodes, List.length_cons, List.length_append, List.length_nil]
    omega
  intro input i e rest f pr htrim hclean hf hpr
  simp only [Expr.nodes] at hf
  obtain ⟨f2, rfl⟩ : ∃ f2, f = f2 + 1 + 1 := ⟨f - 2, by omega⟩
  obtain ⟨t0, r1⟩ := tokenT_punct input i '(' TypeLParen _ htrim (by simp)
  have htl : trimmed input (i + 1) = sl ++ ' ' :: (op ++ ' ' :: (sr ++ ')' :: rest)) := by
    have r1' : restAfter input (i + 1) = c :: (cr ++ ' ' :: (op ++ ' ' :: (sr ++ ')' :: rest))) := by
      rw [r1, hcr]; simp
    rw [hcr]
    exact trimmed_of_rest input (i + 1) c _ r1' (startsExpr_facts c hc).1
  obtain ⟨kL, mL, hpL, hmL, rL⟩ := (hl2 input (i + 1) e _ (f2 + 1) priorityLowest htl
    (follows_of_clean _ _ (clean_cons _ _ (by decide))) (by omega) (by decide)).2
  obtain ⟨t1, r2⟩ := token_blank_operator input (kL + 1) op _ rL hop
  have htr : trimmed input (kL + 2) = sr ++ ')' :: rest := by
    rw [hdr] at r2 ⊢
    exact trimmed_of_blank input (kL + 2) d _ r2 (startsExpr_facts d hd).1
  obtain ⟨kR, hkR, rR⟩ := parsesBack_complete r hr sr hsr input (kL + 2) e (')' :: rest) f2
    (priorities (operatorType op)) htr (follows_of_clean _ _ (clean_cons _ _ (by decide))) (by omega)
    (by rw [hpri]; exact Nat.le_of_lt hpre) (rparen_stop rest _ (Nat.le_of_lt hlow))
  obtain ⟨t2, r3⟩ := token_punct input (kR + 1) ')' TypeRParen rest rR (by simp)
  obtain ⟨mL', rfl⟩ : ∃ mL', mL = mL' + 1 := ⟨mL - 1, by omega⟩
  refine ⟨by rw [t0]; simp, kR + 1, f2 + 1 + 1, ?_, by omega, r3⟩
  rw [parseAt_group input i e _ pr (by rw [t0]), hpL,
    loopAt_binary _ _ _ _ _ input kL e _ t1 hi hlow, hkR]
  simp only [Res.ok_bind]
  rw [loopAt_stop _ _ _ _ _ input kR e (Or.inr (by rw [t2]; decide))]
  simp only [Res.ok_bind, parserAt_peek input kR e TypeRParen (by rw [t2]), if_true]

theorem index_inv (l i : Expr) (s : Str) (hs : Expr.String (.Index l i) = .ok s) :
    ∃ sl si, Expr.String l = .ok sl ∧ Expr.String i = .ok si ∧
      s = '(' :: (sl ++ '[' :: (si ++ [']', ')'])) := by
  cases hl : Expr.String l with
  | ok sl =>
    cases hr : Expr.String i with
    | ok sr =>
      simp only [Expr.String, hl, hr, Res.ok_bind, Res.pure_eq, Res.ok.injEq] at hs
      exact ⟨sl, sr, rfl, rfl, by rw [← hs]; simp⟩
    | panic => simp [Expr.String, hl, hr] at hs
    | outOfFuel => simp [Expr.String, hl, hr] at hs
  | panic => simp [Expr.String, hl] at hs
  | outOfFuel => simp [Expr.String, hl] at hs

theorem rbrakt_stop (rest : Str) (pr : priority) (hpr : priorityLowest ≤ pr) :
    (lexSpec (']' :: rest)).1.typ = TypeSemicolon ∨
      priorities (lexSpec (']' :: rest)).1.typ ≤ pr := by
  rw [lexSpec_punct ']' TypeRBrakt rest (by simp)]
  exact Or.inr hpr

theorem parsesBack_index (l x : Expr) (hl : ParsesBack l) (hx : ParsesBack x) :
    ParsesBack (.Index l x) := by
  intro s hs
  obtain ⟨sl, sx, hsl, hsx, hseq⟩ := index_inv l x s hs
  subst hseq
  obtain ⟨⟨c, cr, hcr, hc⟩, hlenl, hl2⟩ := hl sl hsl
  obtain ⟨⟨d, dr, hdr, hd⟩, hlenr, _⟩ := hx sx hsx
  refine ⟨⟨_, _, rfl, Or.inr (Or.inr (Or.inl rfl))⟩, ?_, ?_⟩
  · simp only [Expr.nodes, List.length_cons, List.length_append, List.length_nil]
    omega
  intro input i e rest f pr htrim hclean hf hpr
  simp only [Expr.nodes] at hf
  obtain ⟨f2, rfl⟩ : ∃ f2, f = f2 + 1 + 1 := ⟨f - 2, by omega⟩
  obtain ⟨t0, r1⟩ := tokenT_punct input i '(' TypeLParen _ htrim (by simp)
  have htl : trimmed input (i + 1) = sl ++ '[' :: (sx ++ ']' :: ')' :: rest) := by
    have r1' : restAfter input (i + 1) = c :: (cr ++ '[' :: (sx ++ ']' :: ')' :: rest)) := by
      rw [r1, hcr]; simp
    rw [hcr]
    exact trimmed_of_rest input (i + 1) c _ r1' (startsExpr_facts c hc).1
  obtain ⟨kL, mL, hpL, hmL, rL⟩ := (hl2 input (i + 1) e _ (f2 + 1) priorityLowest htl
    (follows_of_clean _ _ (clean_cons _ _ (by decide))) (by omega) (by decide)).2
  obtain ⟨t1, r2⟩ := token_punct input (kL + 1) '[' TypeLBrakt _ rL (by simp)
  have htr : trimmed input (kL + 2) = sx ++ ']' :: ')' :: rest := by
    rw [hdr] at r2 ⊢
    exact trimmed_of_rest input (kL + 2) d _ r2 (startsExpr_facts d hd).1
  obtain ⟨kR, hkR, rR⟩ := parsesBack_complete x hx sx hsx input (kL + 2) e (']' :: ')' :: rest) f2
    priorityLowest htr (follows_of_clean _ _ (clean_cons _ _ (by decide))) (by omega) (by decide)
    (rbrakt_stop _ _ (Nat.le_refl _))
  obtain ⟨t2, r3⟩ := token_punct input (kR + 1) ']' TypeRBrakt _ rR (by simp)
  obtain ⟨t3, r4⟩ := token_punct input (kR + 2) ')' TypeRParen rest r3 (by simp)
  obtain ⟨mL', rfl⟩ : ∃ mL', mL = mL' + 1 := ⟨mL - 1, by omega⟩
  refine ⟨by rw [t0]; simp, kR + 2, f2 + 1 + 1, ?_, by omega, r4⟩
  rw [parseAt_group input i e _ pr (by rw [t0]), hpL,
    loopAt_index _ _ _ _ _ input kL e (by rw [t1]) (by decide), hkR]
  simp only [Res.ok_bind, parserAt_peek input kR e TypeRBrakt (by rw [t2]), if_true]
  rw [loopAt_stop _ _ _ _ _ input (kR + 1) e (Or.inr (by rw [t3]; decide))]
  simp only [Res.ok_bind, parserAt_peek input (kR + 1) e TypeRParen (by rw [t3]), if_true]

theorem strings_cons_inv (a : Expr) (as : List Expr) (sa : List Str)
    (hs : Expr.Strings (a :: as) = .ok sa) :
    ∃ s ss, Expr.String a = .ok s ∧ Expr.Strings as = .ok ss ∧ sa = s :: ss := by
  cases ha : Expr.String a with
  | ok s =>
    cases hr : Expr.Strings as with
    | ok ss =>
      simp only [Expr.Strings, ha, hr, Res.ok_bind, Res.pure_eq, Res.ok.injEq] at hs
      exact ⟨s, ss, rfl, rfl, hs.symm⟩
    | panic => simp [Expr.Strings, ha, hr] at hs
    | outOfFuel => simp [Expr.Strings, ha, hr] at hs
  | panic => simp [Expr.Strings, ha] at hs
  | outOfFuel => simp [Expr.Strings, ha] at hs

theorem strings_nil_inv (sa : List Str) (hs : Expr.Strings [] = .ok sa) : sa = [] := by
  simp only [Expr.Strings, Res.ok.injEq] at hs
  exact hs.symm

theorem call_inv (fn : Expr) (args : List Expr) (s : Str)
    (hs : Expr.String (.CallExpr fn args) = .ok s) :
    ∃ sf sa, Expr.String fn = .ok sf ∧ Expr.Strings args = .ok sa ∧
      s = sf ++ '(' :: (join sa ", ".toList ++ [')']) := by
  cases ha : Expr.Strings args with
  | ok sa =>
    cases hf : Expr.String fn with
    | ok sf =>
      simp only [Expr.String, ha, hf, Res.ok_bind, Res.pure_eq, Res.ok.injEq] at hs
      exact ⟨sf, sa, rfl, rfl, by rw [← hs]; simp⟩
    | panic => simp [Expr.String, ha, hf] at hs
    | outOfFuel => simp [Expr.String, ha, hf] at hs
  | panic => simp [Expr.String, ha] at hs
  | outOfFuel => simp [Expr.String, ha] at hs

theorem slice_inv (vals : List Expr) (s : Str) (hs : Expr.String (.Slice vals) = .ok s) :
    ∃ sv, Expr.Strings vals = .ok sv ∧ s = '[' :: (join sv ", ".toList ++ [']']) := by
  cases ha : Expr.Strings vals with
  | ok sa =>
    simp only [Expr.String, ha, Res.ok_bind, Res.pure_eq, Res.ok.injEq] at hs
    exact ⟨sa, rfl, by rw [← hs]; simp⟩
  | panic => simp [Expr.String, ha] at hs
  | outOfFuel => simp [Expr.String, ha] at hs

theorem close_facts (close : Char) (end_ : TokenType)
    (hclose : (close, end_) ∈ [(')', TypeRParen), (']', TypeRBrakt)]) :
    (isLetter close = false ∧ isDigit close = false) ∧ end_ ≠ TypeComma ∧
      priorities end_ ≤ priorityLowest ∧
      (close, end_) ∈ [('(', TypeLParen), (')', TypeRParen), ('[', TypeLBrakt),
        (']', TypeRBrakt), (',', TypeComma), (';', TypeSemicolon)] := by
  simp only [List.mem_cons, Prod.mk.injEq, List.mem_singleton, List.not_mem_nil, or_false] at hclose
  rcases hclose with ⟨rfl, rfl⟩ | ⟨rfl, rfl⟩
  · exact ⟨⟨by decide, by decide⟩, by decide, by decide, by simp⟩
  · exact ⟨⟨by decide, by decide⟩, by decide, by decide, by simp⟩

theorem listTail_stop (close : Char) (end_ : TokenType) (rest : Str) (ss : List Str)
    (hclose : (close, end_) ∈ [(')', TypeRParen), (']', TypeRBrakt)]) :
    priorities (lexSpec (listTail close rest ss)).1.typ ≤ priorityLowest := by
  obtain ⟨_, _, hp, hm⟩ := close_facts close end_ hclose
  cases ss with
  | nil =>
    simp only [listTail]
    rw [lexSpec_punct close end_ rest hm]
    exact hp
  | cons l ls =>
    simp only [listTail]
    rw [lexSpec_punct ',' TypeComma _ (by simp)]
    decide

theorem parseList_loop (input : Str) (e : List ParseError) (f1 : Nat) (close : Char)
    (end_ : TokenType) (rest : Str)
    (hclose : (close, end_) ∈ [(')', TypeRParen), (']', TypeRBrakt)]) :
    ∀ (as : List Expr) (sa : List Str) (i : Nat) (vals : List Expr) (n : Nat),
      Expr.Strings as = .ok sa → as.length ≤ n →
      restAfter input (i + 1) = listTail close rest sa →
      (∀ a ∈ as, ParsesBack a ∧ 2 * a.nodes ≤ f1) →
      ∃ k, parseExprSliceLoop (parseExpression (f1 + 1)) n vals (parserAt input i e) =
          .ok (vals ++ as, parserAt input k e) ∧
        restAfter input (k + 1) = close :: rest := by
  obtain ⟨hcl, hne, hp, hm⟩ := close_facts close end_ hclose
  intro as
  induction as with
  | nil =>
    intro sa i vals n hS _ hr _
    rw [strings_nil_inv sa hS] at hr
    simp only [listTail] at hr
    have ht := (token_punct input (i + 1) close end_ rest hr hm).1
    have hc : ¬ (parserAt input i e).ntok.Type = TypeComma := by
      show ¬ (tokenAt input (i + 1)).typ = TypeComma
      rw [ht]
      exact hne
    refine ⟨i, ?_, hr⟩
    cases n <;> simp [parseExprSliceLoop, hc]
  | cons a as ih =>
    intro sa i vals n hS hn hr hall
    obtain ⟨s, ss, hsa, hss, rfl⟩ := strings_cons_inv a as sa hS
    obtain ⟨hPa, hfa⟩ := hall a (List.mem_cons_self _ _)
    obtain ⟨⟨c, cr, hcr, hc⟩, _, _⟩ := hPa s hsa
    simp only [listTail] at hr
    obtain ⟨t1, r2⟩ := token_punct input (i + 1) ',' TypeComma _ hr (by simp)
    have htr : trimmed input (i + 2) = s ++ listTail close rest ss := by
      rw [hcr] at r2 ⊢
      exact trimmed_of_blank input (i + 2) c _ r2 (startsExpr_facts c hc).1
    obtain ⟨k1, hk1, rk1⟩ := parsesBack_complete a hPa s hsa input (i + 2) e _ f1 priorityLowest
      htr (follows_of_clean _ _ (listTail_clean close rest ss hcl)) hfa (by decide)
      (Or.inr (listTail_stop close end_ rest ss hclose))
    have hcm : (parserAt input i e).ntok.Type = TypeComma := by
      show (tokenAt input (i + 1)).typ = TypeComma
      rw [t1]
    cases n with
    | zero => simp at hn
    | succ m =>
      have hm2 : as.length ≤ m := by
        simp only [List.length_cons] at hn
        omega
      obtain ⟨k, hk, rk⟩ := ih ss k1 (vals ++ [a]) m hss hm2 rk1
        (fun b hb => hall b (List.mem_cons_of_mem _ hb))
      refine ⟨k, ?_, rk⟩
      simp only [parseExprSliceLoop, hcm, if_true, parserAt_nextToken, Res.ok_bind, hk1, hk,
        List.append_assoc, List.singleton_append]

theorem parseList_nonempty (input : Str) (e : List ParseError) (f1 : Nat) (close : Char)
    (end_ : TokenType) (rest : Str)
    (hclose : (close, end_) ∈ [(')', TypeRParen), (']', TypeRBrakt)])
    (a : Expr) (as : List Expr) (sa : List Str) (j n : Nat)
    (hS : Expr.Strings (a :: as) = .ok sa) (hn : as.length ≤ n)
    (hr : restAfter input (j + 1) = join sa ", ".toList ++ close :: rest)
    (hall : ∀ b ∈ a :: as, ParsesBack b ∧ 2 * b.nodes ≤ f1) :
    ∃ k, parseExprSlice (parseExpression (f1 + 1)) n end_ (parserAt input j e) =
        .ok (a :: as, parserAt input k e) ∧
      restAfter input (k + 1) = rest := by
  obtain ⟨hcl, hne, hp, hm⟩ := close_facts close end_ hclose
  obtain ⟨s, ss, hsa, hss, rfl⟩ := strings_cons_inv a as sa hS
  obtain ⟨hPa, hfa⟩ := hall a (List.mem_cons_self _ _)
  obtain ⟨⟨c, cr, hcr, hc⟩, _, hPa2⟩ := hPa s hsa
  rw [join_cons_tail] at hr
  have htr : trimmed input (j + 1) = s ++ listTail close rest ss := by
    rw [hcr] at hr ⊢
    exact trimmed_of_rest input (j + 1) c _ hr (startsExpr_facts c hc).1
  have htyp := (hPa2 input (j + 1) e _ f1 priorityLowest htr (follows_of_clean _ _ (listTail_clean close rest ss hcl))
    hfa (by decide)).1
  obtain ⟨k1, hk1, rk1⟩ := parsesBack_complete a hPa s hsa input (j + 1) e _ f1 priorityLowest
    htr (follows_of_clean _ _ (listTail_clean close rest ss hcl)) hfa (by decide)
    (Or.inr (listTail_stop close end_ rest ss hclose))
  obtain ⟨k, hk, rk⟩ := parseList_loop input e f1 close end_ rest hclose as ss k1 [a] n hss hn rk1
    (fun b hb => hall b (List.mem_cons_of_mem _ hb))
  obtain ⟨t2, r3⟩ := token_punct input (k + 1) close end_ rest rk hm
  have hn0 : (tokenAt input (j + 1)).typ ≠ TypeRParen := by
    intro h
    rw [h] at htyp
    exact absurd htyp (by decide)
  have hn1 : (parserAt input j e).ntok.Type ≠ TypeRParen := hn0
  refine ⟨k + 1, ?_, r3⟩
  simp only [parseExprSlice, hn1, if_false, parserAt_nextToken, Res.ok_bind, hk1, hk,
    parserAt_peek input k e end_ (by rw [t2]), Bool.not_true, Bool.false_eq_true, Res.pure_eq,
    List.singleton_append]

theorem parseList_empty (pe : priority → Parser → Res (Expr × Parser)) (n : Nat) (input : Str)
    (e : List ParseError) (rest : Str) (j : Nat)
    (hr : restAfter input (j + 1) = ')' :: rest) :
    parseExprSlice pe n TypeRParen (parserAt input j e) = .ok ([], parserAt input (j + 1) e) ∧
      restAfter input (j + 2) = rest := by
  obtain ⟨t1, r2⟩ := token_punct input (j + 1) ')' TypeRParen rest hr (by simp)
  have hn1 : (parserAt input j e).ntok.Type = TypeRParen := by
    show (tokenAt input (j + 1)).typ = TypeRParen
    rw [t1]
  refine ⟨?_, r2⟩
  simp only [parseExprSlice, hn1, if_true, parserAt_nextToken, Res.ok_bind, Res.pure_eq]

theorem nodesAll_le (as : List Expr) :
    ∀ sa, Expr.Strings as = .ok sa → (∀ a ∈ as, ParsesBack a) →
      Expr.nodesAll as ≤ (join sa ", ".toList).length + 1 := by
  induction as with
  | nil =>
    intro sa _ _
    simp [Expr.nodesAll]
  | cons a as ih =>
    intro sa hS hall
    obtain ⟨s, ss, hsa, hss, rfl⟩ := strings_cons_inv a as sa hS
    have hlen := (hall a (List.mem_cons_self _ _) s hsa).2.1
    have hrec := ih ss hss (fun b hb => hall b (List.mem_cons_of_mem _ hb))
    cases ss with
    | nil =>
      cases as with
      | nil =>
        simp only [Expr.nodesAll, join, List.intercalate, List.intersperse, List.flatten_cons,
          List.flatten_nil, List.append_nil]
        omega
      | cons b bs =>
        obtain ⟨_, _, _, _, h⟩ := strings_cons_inv b bs [] hss
        simp at h
    | cons s2 ss2 =>
      have hj : (join (s :: s2 :: ss2) ", ".toList).length =
          s.length + 2 + (join (s2 :: ss2) ", ".toList).length := by
        simp [join, List.intercalate]
        omega
      simp only [Expr.nodesAll] at hrec ⊢
      rw [hj]
      omega

theorem parsesBack_call (fn : Expr) (args : List Expr) (hfn : ParsesBack fn)
    (ha : ∀ a ∈ args, ParsesBack a) : ParsesBack (.CallExpr fn args) := by
  intro s hs
  obtain ⟨sf, sa, hsf, hsa, hseq⟩ := call_inv fn args s hs
  subst hseq
  obtain ⟨⟨c, cr, hcr, hc⟩, hlenf, hfn2⟩ := hfn sf hsf
  have hna := nodesAll_le args sa hsa ha
  refine ⟨⟨c, cr ++ '(' :: (join sa ", ".toList ++ [')']), by rw [hcr]; simp, hc⟩, ?_, ?_⟩
  · simp only [Expr.nodes, List.length_cons, List.length_append, List.length_nil]
    omega
  intro input i e rest f pr htrim hclean hf hpr
  simp only [Expr.nodes] at hf
  have htrim2 : trimmed input i = sf ++ '(' :: (join sa ", ".toList ++ ')' :: rest) := by
    rw [htrim]; simp
  obtain ⟨htyp, kF, mF, hpF, hmF, rF⟩ := hfn2 input i e _ f pr htrim2
    (follows_of_clean _ _ (clean_cons _ _ (by decide))) (by omega) hpr
  obtain ⟨t1, r2⟩ := token_punct input (kF + 1) '(' TypeLParen _ rF (by simp)
  obtain ⟨mF', rfl⟩ : ∃ mF', mF = mF' + 1 := ⟨mF - 1, by omega⟩
  obtain ⟨f1, rfl⟩ : ∃ f1, f = f1 + 1 := ⟨f - 1, by omega⟩
  have hcall : pr < priorityCall := Nat.lt_of_le_of_lt hpr (by decide)
  refine ⟨htyp, ?_⟩
  cases args with
  | nil =>
    rw [strings_nil_inv sa hsa] at r2
    have r2' : restAfter input (kF + 1 + 1) = ')' :: rest := by
      rw [r2]; simp [join, List.intercalate]
    obtain ⟨hl, r3⟩ := parseList_empty (parseExpression (f1 + 1)) (f1 + 1) input e rest (kF + 1)
      r2'
    refine ⟨kF + 1 + 1, mF', ?_, by simp only [Expr.nodes, Expr.nodesAll]; omega, r3⟩
    rw [hpF, loopAt_call _ _ _ _ _ input kF e (by rw [t1]) hcall, hl]
    simp only [Res.ok_bind]
  | cons a as =>
    have hlen : as.length ≤ f1 + 1 := by
      have := nodesAll_length (a :: as)
      simp only [List.length_cons] at this
      omega
    obtain ⟨k, hk, rk⟩ := parseList_nonempty input e f1 ')' TypeRParen rest (by simp) a as sa
      (kF + 1) (f1 + 1) hsa hlen r2
      (fun b hb => ⟨ha b hb, by have := nodes_mem b _ hb; omega⟩)
    refine ⟨k, mF', ?_, by simp only [Expr.nodes]; omega, rk⟩
    rw [hpF, loopAt_call _ _ _ _ _ input kF e (by rw [t1]) hcall, hk]
    simp only [Res.ok_bind]

theorem parsesBack_slice (a : Expr) (as : List Expr) (ha : ∀ b ∈ a :: as, ParsesBack b) :
    ParsesBack (.Slice (a :: as)) := by
  intro s hs
  obtain ⟨sv, hsv, hseq⟩ := slice_inv (a :: as) s hs
  subst hseq
  have hna := nodesAll_le (a :: as) sv hsv ha
  refine ⟨⟨_, _, rfl, Or.inr (Or.inr (Or.inr rfl))⟩, ?_, ?_⟩
  · simp only [Expr.nodes, List.length_cons, List.length_append, List.length_nil]
    omega
  intro input i e rest f pr htrim hclean hf hpr
  simp only [Expr.nodes] at hf
  obtain ⟨t0, r1⟩ := tokenT_punct input i '[' TypeLBrakt _ htrim (by simp)
  have r1' : restAfter input (i + 1) = join sv ", ".toList ++ ']' :: rest := by
    rw [r1]; simp
  obtain ⟨f1, rfl⟩ : ∃ f1, f = f1 + 1 := ⟨f - 1, by omega⟩
  have hlen : as.length ≤ f1 + 1 := by
    have := nodesAll_length (a :: as)
    simp only [List.length_cons] at this
    omega
  obtain ⟨k, hk, rk⟩ := parseList_nonempty input e f1 ']' TypeRBrakt rest (by simp) a as sv
    i (f1 + 1) hsv hlen r1'
    (fun b hb => ⟨ha b hb, by have := nodes_mem b _ hb; omega⟩)
  refine ⟨by rw [t0]; simp, k, f1 + 1, ?_, by omega, rk⟩
  rw [parseAt_slice input i e _ pr (by rw [t0]), hk]
  simp only [Res.ok_bind]

theorem contains_mem (op : Str) (l : List Str) (h : l.contains op = true) : op ∈ l := by
  simpa using h

theorem plain_parsesBack : ∀ (n : Nat) (t : Expr), t.nodes ≤ n → t.plain = true →
    ParsesBack t := by
  intro n
  induction n with
  | zero =>
    intro t hn _
    have := nodes_pos t
    omega
  | succ n ih =>
    intro t hn hp
    cases t with
    | nil => simp [Expr.plain] at hp
    | Ident x => exact parsesBack_ident x hp
    | Integer v =>
      simp only [Expr.plain, decide_eq_true_eq] at hp
      exact parsesBack_integer v hp.1 hp.2
    | BoolLit b => exact parsesBack_bool b
    | IfExpr c q a => simp [Expr.plain] at hp
    | Function ps b => simp [Expr.plain] at hp
    | StringLit v => simp [Expr.plain] at hp
    | PrefixExpr op r =>
      simp only [Expr.plain, Bool.and_eq_true] at hp
      simp only [Expr.nodes] at hn
      exact parsesBack_prefixOp op r (contains_mem _ _ hp.1) (ih r (by omega) hp.2)
    | InfixExpr l op r =>
      simp only [Expr.plain, Bool.and_eq_true] at hp
      simp only [Expr.nodes] at hn
      exact parsesBack_infixOp l op r (contains_mem _ _ hp.1.1) (ih l (by omega) hp.1.2)
        (ih r (by omega) hp.2)
    | Index l x =>
      simp only [Expr.plain, Bool.and_eq_true] at hp
      simp only [Expr.nodes] at hn
      exact parsesBack_index l x (ih l (by omega) hp.1) (ih x (by omega) hp.2)
    | CallExpr fn args =>
      simp only [Expr.plain, Bool.and_eq_true] at hp
      simp only [Expr.nodes] at hn
      exact parsesBack_call fn args (ih fn (by omega) hp.1)
        (fun a hm => ih a (by have := nodes_mem a args hm; omega) (plain_mem a args hm hp.2))
    | Slice vals =>
      simp only [Expr.plain, Bool.and_eq_true, Bool.not_eq_true', List.isEmpty_eq_false] at hp
      simp only [Expr.nodes] at hn
      cases vals with
      | nil => exact absurd rfl hp.1
      | cons a as =>
        exact parsesBack_slice a as
          (fun b hm => ih b (by have := nodes_mem b _ hm; omega) (plain_mem b _ hm hp.2))

/-- The rendering of a plain expression parses to that expression. -/
theorem reparse_plain (t : Expr) (hp : t.plain = true) (s : Str) (hs : Expr.String t = .ok s) :
    parseSource s = .ok (⟨[.ExprStmt t]⟩, []) ∧ parseToString s = .ok (s, []) := by
  have hP := plain_parsesBack t.nodes t (Nat.le_refl _) hp
  obtain ⟨⟨c, cr, hcr, hc⟩, hlen, hP2⟩ := hP s hs
  have htr : trimmed s 0 = s ++ [] := by
    rw [List.append_nil]
    have h0 : restAfter s 0 = c :: cr := by rw [restAfter_zero, hcr]
    rw [hcr]
    exact trimmed_of_rest _ 0 c cr (by rw [← hcr]; exact h0.trans (by rw [hcr]))
      (startsExpr_facts c hc).1
  have htyp := (hP2 s 0 [] [] (2 * s.length + 3) priorityLowest htr (follows_nil _) (by omega)
    (by decide)).1
  obtain ⟨k, hk, rk⟩ := parsesBack_complete t hP s hs s 0 [] [] (2 * s.length + 3)
    priorityLowest htr (follows_nil _) (by omega) (by decide)
    (Or.inr (by rw [lexSpec_nil]; decide))
  obtain ⟨t1, _⟩ := token_end s (k + 1) rk
  refine parseToString_single s t k s ?_ ?_ ?_ hk (by rw [t1]) hs
  · intro h
    rw [h] at htyp
    exact absurd htyp (by decide)
  · intro h
    rw [h] at htyp
    exact absurd htyp (by decide)
  · intro h
    rw [h] at htyp
    exact absurd htyp (by decide)

/-! ## Frames of calls -/

theorem Set_other_frame (child parent : Env) (h1 : Heap) (name : Str) (val : E)
    (r : E × Heap) (hnot : child.store ∉ parent.addrs)
    (hset : child.Set h1 name val = .ok r) (m : Str) : parent.Get r.2 m = parent.Get h1 m := by
  simp only [Env.Set] at hset
  by_cases hlt : child.store < h1.length
  · simp only [hlt, if_true, Res.ok.injEq] at hset
    subst hset
    apply Env.Get_congr
    intro a ha
    have hne : a ≠ child.store := fun hh => hnot (hh ▸ ha)
    exact Heap.store_set_other _ _ _ _ hne
  · simp [hlt] at hset

theorem bindParams_short (env : Env) :
    ∀ (ps : List Str) (args : List E) (i : Nat) (h : Heap), env.store < h.length →
      i ≤ args.length → args.length < i + ps.length → bindParams env ps args i h = .panic := by
  intro ps
  induction ps with
  | nil =>
    intro args i h _ h1 h2
    simp at h2
    omega
  | cons p ps ih =>
    intro args i h hlt h1 h2
    simp only [bindParams]
    cases ha : args[i]? with
    | none => rfl
    | some a =>
      have hi : i < args.length := by
        by_contra hc
        have : args[i]? = none := List.getElem?_eq_none (by omega)
        rw [this] at ha
        cases ha
      simp only [Env.Set, hlt, if_true, Res.ok_bind]
      apply ih
      · simpa using hlt
      · omega
      · simp only [List.length_cons] at h2
        omega

theorem bindParams_enough (env : Env) :
    ∀ (ps : List Str) (args : List E) (i : Nat) (h : Heap), env.store < h.length →
      i + ps.length ≤ args.length → ∃ h2, bindParams env ps args i h = .ok h2 := by
  intro ps
  induction ps with
  | nil =>
    intro args i h _ _
    exact ⟨h, rfl⟩
  | cons p ps ih =>
    intro args i h hlt h1
    simp only [List.length_cons] at h1
    have hi : i < args.length := by omega
    simp only [bindParams, List.getElem?_eq_getElem hi, Env.Set, hlt, if_true, Res.ok_bind]
    apply ih
    · simpa using hlt
    · omega

/-! ## String literals and illegal bytes -/

theorem lexSpec_string (rest : Str) :
    lexSpec ('"' :: rest) =
      (⟨TypeString, rest.takeWhile inString⟩, (rest.takeWhile inString).length + 2) := by
  simp [lexSpec, scanToken, List.dropWhile, List.takeWhile, isWhitespace, token.New, NUL]

theorem takeWhile_until (p : Char → Bool) (s rest : Str) (hs : ∀ c ∈ s, p c = true)
    (hr : ∀ c r, rest = c :: r → p c = false) : (s ++ rest).takeWhile p = s := by
  induction s with
  | nil =>
    cases rest with
    | nil => rfl
    | cons c r => simp [List.takeWhile, hr c r rfl]
  | cons x xs ih =>
    have hx : p x = true := hs x (by simp)
    have h := ih (fun c hc => hs c (by simp [hc]))
    simp [List.takeWhile, hx, h]

theorem inString_of_not_mem (s : Str) (h1 : '"' ∉ s) (h2 : NUL ∉ s) :
    ∀ c ∈ s, inString c = true := by
  intro c hc
  have n1 : c ≠ '"' := fun h => h1 (h ▸ hc)
  have n2 : c ≠ NUL := fun h => h2 (h ▸ hc)
  simp [inString, n1, n2]

theorem drop_of_drop_append {input s rest : Str} {pos : Nat} (h : input.drop pos = s ++ rest) :
    input.drop (pos + s.length) = rest := by
  rw [← List.drop_drop, h, List.drop_left]

theorem NextToken_string_at (input : Str) (pos : Nat) (hq : (lexAt input pos).ch = '"') :
    (lexAt input pos).NextToken =
      .ok (⟨TypeString, (input.drop (pos + 1)).takeWhile inString⟩,
        lexAt input (pos + ((input.drop (pos + 1)).takeWhile inString).length + 2)) := by
  obtain ⟨rest, hr⟩ := headD_of_ch input pos _ hq (by decide)
  have hd : input.drop (pos + 1) = rest := drop_succ_of_drop_cons hr
  rw [NextToken_lexAt, hr, lexSpec_string, hd]
  rfl

theorem lexSpec_illegal (c : Char) (rest : Str) (hw : isWhitespace c = false) (h0 : c ≠ NUL)
    (hl : isLetter c = false) (hd : isDigit c = false)
    (hp : c ∉ "=!+-*/<>;,()\x7b\x7d[]\"".toList) :
    lexSpec (c :: rest) = (⟨TypeIllegal, byteString c⟩, 1) := by
  simp only [String.toList, List.mem_cons, List.not_mem_nil, or_false, not_or] at hp
  obtain ⟨p1, p2, p3, p4, p5, p6, p7, p8, p9, p10, p11, p12, p13, p14, p15, p16, p17⟩ := hp
  have hdw : (c :: rest).dropWhile isWhitespace = c :: rest := by
    simp [List.dropWhile, hw]
  have htw : (c :: rest).takeWhile isWhitespace = [] := by
    simp [List.takeWhile, hw]
  simp only [lexSpec, hdw, htw, scanToken, List.headD_cons, p1, p2, p3, p4, p5, p6, p7, p8, p9,
    p10, p11, p12, p13, p14, p15, p16, p17, h0, hl, hd, if_false, List.length_nil, Nat.zero_add,
    Bool.false_eq_true, token.New]
  simp

/-! ## The whole token sequence of an input -/

theorem lexN_lexAt (input : Str) :
    ∀ (n pos : Nat), lexN n (lexAt input pos) = .ok (specTokens n (input.drop pos)) := by
  intro n
  induction n with
  | zero => intro pos; rfl
  | succ n ih =>
    intro pos
    simp only [lexN, NextToken_lexAt, Res.ok_bind, ih, Res.pure_eq, specTokens, List.drop_drop]

theorem specTokens_nil : ∀ m, specTokens m [] = List.replicate m ⟨TypeEOF, []⟩ := by
  intro m
  induction m with
  | zero => rfl
  | succ m ih =>
    simp only [specTokens, lexSpec_nil, List.drop_nil, ih]
    rfl

theorem lexSpec_trim (r : Str) :
    lexSpec r = ((lexSpec (r.dropWhile isWhitespace)).1,
      (r.takeWhile isWhitespace).length + (lexSpec (r.dropWhile isWhitespace)).2) := by
  have hd := dropWhile_dropWhile isWhitespace r
  simp only [lexSpec, hd.1, hd.2, List.length_nil, Nat.zero_add]

theorem dropWhile_cons_facts (p : Char → Bool) (c : Char) (t : Str) :
    ∀ r : Str, r.dropWhile p = c :: t →
      p c = false ∧ r = r.takeWhile p ++ c :: t ∧ t.length < r.length := by
  intro r
  induction r with
  | nil => intro h; cases h
  | cons x xs ih =>
    intro h
    by_cases hx : p x = true
    · simp only [List.dropWhile, hx] at h
      obtain ⟨h1, h2, h3⟩ := ih h
      refine ⟨h1, ?_, ?_⟩
      · simp only [List.takeWhile, hx, List.cons_append]
        rw [← h2]
      · simp only [List.length_cons]
        omega
    · simp only [List.dropWhile, hx] at h
      have hx2 : p x = false := by simpa using hx
      obtain ⟨rfl, rfl⟩ := List.cons.inj h
      refine ⟨hx2, ?_, ?_⟩
      · simp [List.takeWhile, hx2]
      · simp

theorem dropWhile_nil_all (p : Char → Bool) :
    ∀ r : Str, r.dropWhile p = [] → r.takeWhile p = r ∧ ∀ c ∈ r, p c = true := by
  intro r
  induction r with
  | nil => intro _; simp
  | cons x xs ih =>
    intro h
    by_cases hx : p x = true
    · simp only [List.dropWhile, hx] at h
      obtain ⟨h1, h2⟩ := ih h
      refine ⟨by simp [List.takeWhile, hx, h1], ?_⟩
      intro c hc
      rcases List.mem_cons.mp hc with rfl | hc
      · exact hx
      · exact h2 c hc
    · simp [List.dropWhile, hx] at h

theorem New_Lookup_facts (w : Str) :
    (token.New TypeLookup w).lit = w ∧ (token.New TypeLookup w).typ ≠ TypeEOF := by
  simp only [token.New, if_true]
  split_ifs <;> simp_all

theorem takeWhile_head (p : Char → Bool) (c : Char) (t : Str) (h : p c = true) :
    1 ≤ ((c :: t).takeWhile p).length := by
  simp [List.takeWhile, h]

theorem New_of_ne (t : TokenType) (w : Str) (h : t ≠ TypeLookup) : token.New t w = ⟨t, w⟩ := by
  simp [token.New, h]

theorem lexSpec_other (c : Char) (t : Str) (hw : isWhitespace c = false) (h0 : c ≠ NUL)
    (hl : isLetter c = false) (hd : isDigit c = false) :
    (lexSpec (c :: t)).1.typ ≠ TypeEOF ∧ 1 ≤ (lexSpec (c :: t)).2 ∧
    (c.toNat < 128 → c ≠ '"' →
      (lexSpec (c :: t)).1.lit ++ (c :: t).drop (lexSpec (c :: t)).2 = c :: t ∧
      ∀ d ∈ (lexSpec (c :: t)).1.lit, isWhitespace d = false) := by
  by_cases hmem : c ∈ "=!+-*/<>;,()\x7b\x7d[]\"".toList
  · simp only [String.toList, List.mem_cons, List.not_mem_nil, or_false] at hmem
    rcases hmem with rfl | rfl | h
    · rw [lexSpec_equals]
      cases t with
      | nil => simp [isWhitespace, NUL]
      | cons x xs =>
        by_cases hx : x = '='
        · subst hx
          simp [isWhitespace]
        · simp [hx, isWhitespace]
    · rw [lexSpec_bang]
      cases t with
      | nil => simp [isWhitespace, NUL]
      | cons x xs =>
        by_cases hx : x = '='
        · subst hx
          simp [isWhitespace]
        · simp [hx, isWhitespace]
    · rcases h with rfl | rfl | rfl | rfl | rfl | rfl | rfl | rfl | rfl | rfl | rfl | rfl | rfl |
        rfl | rfl <;>
      simp [lexSpec, scanToken, List.dropWhile, List.takeWhile, isWhitespace, token.New,
        byteString, NUL]
  · rw [lexSpec_illegal c t hw h0 hl hd hmem]
    refine ⟨by simp, by simp, ?_⟩
    intro ha _
    have hb : byteString c = [c] := by simp [byteString, ha]
    simp [hb, hw]

theorem lexSpec_progress (c : Char) (t : Str) (hw : isWhitespace c = false) (h0 : c ≠ NUL) :
    (lexSpec (c :: t)).1.typ ≠ TypeEOF ∧ 1 ≤ (lexSpec (c :: t)).2 := by
  by_cases hl : isLetter c = true
  · rw [lexSpec_letter (c :: t) hl]
    exact ⟨(New_Lookup_facts _).2, takeWhile_head _ _ _ hl⟩
  by_cases hd : isDigit c = true
  · rw [lexSpec_digit (c :: t) hd, New_of_ne _ _ (by decide)]
    exact ⟨by simp, takeWhile_head _ _ _ hd⟩
  have h := lexSpec_other c t hw h0 (by simpa using hl) (by simpa using hd)
  exact ⟨h.1, h.2.1⟩

theorem lexSpec_literal (c : Char) (t : Str) (hw : isWhitespace c = false) (h0 : c ≠ NUL)
    (ha : c.toNat < 128) (hq : c ≠ '"') :
    (lexSpec (c :: t)).1.lit ++ (c :: t).drop (lexSpec (c :: t)).2 = c :: t ∧
    ∀ d ∈ (lexSpec (c :: t)).1.lit, isWhitespace d = false := by
  by_cases hl : isLetter c = true
  · rw [lexSpec_letter (c :: t) hl]
    simp only [(New_Lookup_facts _).1, take_length_drop, List.takeWhile_append_dropWhile, true_and]
    intro d hd
    exact (letter_facts d (List.mem_takeWhile_imp hd)).1
  by_cases hd : isDigit c = true
  · rw [lexSpec_digit (c :: t) hd, New_of_ne _ _ (by decide)]
    simp only [take_length_drop, List.takeWhile_append_dropWhile, true_and]
    intro d hd
    exact (digit_facts d (List.mem_takeWhile_imp hd)).1
  exact (lexSpec_other c t hw h0 (by simpa using hl) (by simpa using hd)).2.2 ha hq

theorem take_append_replicate (e : Token) :
    ∀ (ts : List Token) (m j : Nat), m ≤ j →
      (ts ++ List.replicate j e).take m = (ts ++ List.replicate m e).take m := by
  intro ts
  induction ts with
  | nil =>
    intro m j h
    simp [List.take_replicate, Nat.min_eq_left h]
  | cons a ts ih =>
    intro m j h
    cases m with
    | zero => simp
    | succ m =>
      simp only [List.cons_append, List.take_succ_cons]
      rw [ih m j (by omega), ih m (m + 1) (by omega)]

theorem specTokens_shape :
    ∀ (n : Nat) (r : Str), r.length ≤ n → NUL ∉ r →
      ∃ ts : List Token, ts.length ≤ r.length ∧ (∀ t ∈ ts, t.typ ≠ TypeEOF) ∧
        (∀ m, specTokens m r = (ts ++ List.replicate m (Token.mk TypeEOF [])).take m) ∧
        ((∀ c ∈ r, c.toNat < 128 ∧ c ≠ '"') →
          (ts.map Token.Literal).flatten = r.filter (fun c => !isWhitespace c)) := by
  intro n
  induction n with
  | zero =>
    intro r hr _
    have : r = [] := List.length_eq_zero.mp (by omega)
    subst this
    refine ⟨[], by simp, by simp, ?_, by simp⟩
    intro m
    simp [specTokens_nil]
  | succ n ih =>
    intro r hr hnul
    cases hx : r.dropWhile isWhitespace with
    | nil =>
      obtain ⟨h1, h2⟩ := dropWhile_nil_all isWhitespace r hx
      have hl : lexSpec r = (⟨TypeEOF, []⟩, r.length + 1) := by
        rw [lexSpec_trim, hx, lexSpec_nil, h1]
      refine ⟨[], by simp, by simp, ?_, ?_⟩
      · intro m
        cases m with
        | zero => rfl
        | succ m =>
          simp only [specTokens, hl]
          rw [List.drop_eq_nil_of_le (by omega), specTokens_nil]
          simp [List.replicate_succ]
      · intro _
        simp only [List.map_nil, List.flatten_nil]
        symm
        rw [List.filter_eq_nil_iff]
        intro c hc
        simp [h2 c hc]
    | cons c t =>
      obtain ⟨hw, hsplit, hlen⟩ := dropWhile_cons_facts isWhitespace c t r hx
      have hcr : ∀ d ∈ c :: t, d ∈ r := by
        intro d hd
        rw [hsplit]
        exact List.mem_append_right _ hd
      have h0 : c ≠ NUL := fun h => hnul (h ▸ hcr c (by simp))
      obtain ⟨htyp, hk⟩ := lexSpec_progress c t hw h0
      have hl : lexSpec r = ((lexSpec (c :: t)).1,
          (r.takeWhile isWhitespace).length + (lexSpec (c :: t)).2) := by
        rw [lexSpec_trim, hx]
      have hdrop : r.drop ((r.takeWhile isWhitespace).length + (lexSpec (c :: t)).2) =
          (c :: t).drop (lexSpec (c :: t)).2 := by
        rw [← List.drop_drop, take_length_drop, hx]
      have hsub : ∀ d ∈ (c :: t).drop (lexSpec (c :: t)).2, d ∈ r :=
        fun d hd => hcr d (List.mem_of_mem_drop hd)
      have hlen2 : ((c :: t).drop (lexSpec (c :: t)).2).length ≤ t.length := by
        simp only [List.length_drop, List.length_cons]
        omega
      obtain ⟨ts, hts1, hts2, hts3, hts4⟩ := ih ((c :: t).drop (lexSpec (c :: t)).2) (by omega)
        (fun h => hnul (hsub _ h))
      refine ⟨(lexSpec (c :: t)).1 :: ts, ?_, ?_, ?_, ?_⟩
      · simp only [List.length_cons]
        omega
      · intro x hx2
        rcases List.mem_cons.mp hx2 with rfl | hx2
        · exact htyp
        · exact hts2 x hx2
      · intro m
        cases m with
        | zero => rfl
        | succ m =>
          simp only [specTokens, hl, hdrop, hts3, List.cons_append, List.take_succ_cons]
          rw [take_append_replicate _ ts m (m + 1) (by omega)]
      · intro hall
        obtain ⟨ha, hq⟩ := hall c (hcr c (by simp))
        obtain ⟨hlit, hnows⟩ := lexSpec_literal c t hw h0 ha hq
        have hrest := hts4 (fun d hd => hall d (hsub d hd))
        simp only [List.map_cons, List.flatten_cons, hrest]
        have hf1 : (r.takeWhile isWhitespace).filter (fun c => !isWhitespace c) = [] := by
          rw [List.filter_eq_nil_iff]
          intro d hd
          simp [List.mem_takeWhile_imp hd]
        have hf2 : ((lexSpec (c :: t)).1.lit).filter (fun c => !isWhitespace c) =
            (lexSpec (c :: t)).1.lit := by
          rw [List.filter_eq_self]
          intro d hd
          simp [hnows d hd]
        conv_rhs => rw [hsplit, List.filter_append, hf1, ← hlit, List.filter_append, hf2]
        rfl

/-! ## The parser reads every token sequence to its end -/

theorem reads_ok {α : Type} {Q : α → Prop} (P : Nat → List ParseError → Parser) (x : α)
    (i j : Nat) (e : List ParseError) (hij : i ≤ j) (hq : Q x) :
    Reads P Q i e (.ok (x, P j e)) :=
  ⟨x, j, [], by simp, hij, fun _ => hq⟩

theorem reads_err {α : Type} {Q : α → Prop} (P : Nat → List ParseError → Parser) (x : α)
    (i j : Nat) (e es : List ParseError) (hij : i ≤ j) (hes : es ≠ []) :
    Reads P Q i e (.ok (x, P j (e ++ es))) :=
  ⟨x, j, es, rfl, hij, fun h => absurd h hes⟩

theorem reads_bind {α β : Type} {Q : α → Prop} {Q2 : β → Prop}
    {P : Nat → List ParseError → Parser} {i : Nat} {e : List ParseError}
    {r : Res (α × Parser)} {g : α × Parser → Res (β × Parser)} (h : Reads P Q i e r)
    (hg : ∀ x j e1, i ≤ j → Reads P (fun y => Q x → Q2 y) j e1 (g (x, P j e1))) :
    Reads P Q2 i e (r >>= g) := by
  obtain ⟨x, j, es, hr, hij, hq⟩ := h
  obtain ⟨y, j2, es2, hr2, hjj, hq2⟩ := hg x j (e ++ es) hij
  refine ⟨y, j2, es ++ es2, ?_, by omega, ?_⟩
  · rw [hr, Res.ok_bind, hr2, List.append_assoc]
  · intro hnil
    obtain ⟨h1, h2⟩ := List.append_eq_nil.mp hnil
    exact hq2 h2 (hq h1)

theorem reads_bind_le {α β : Type} {Q : α → Prop} {Q2 : β → Prop}
    {P : Nat → List ParseError → Parser} {i i2 : Nat} {e : List ParseError}
    {r : Res (α × Parser)} {g : α × Parser → Res (β × Parser)} (hi : i ≤ i2)
    (h : Reads P Q i2 e r)
    (hg : ∀ x j e1, i2 ≤ j → Reads P (fun y => Q x → Q2 y) j e1 (g (x, P j e1))) :
    Reads P Q2 i e (r >>= g) := by
  obtain ⟨y, j, es, hr, hij, hq⟩ := reads_bind h hg
  exact ⟨y, j, es, hr, by omega, hq⟩

theorem reads_mono {α : Type} {Q Q2 : α → Prop} {P : Nat → List ParseError → Parser} {i : Nat}
    {e : List ParseError} {r : Res (α × Parser)} (h : Reads P Q i e r)
    (hqq : ∀ x, Q x → Q2 x) : Reads P Q2 i e r := by
  obtain ⟨x, j, es, hr, hij, hq⟩ := h
  exact ⟨x, j, es, hr, hij, fun h => hqq x (hq h)⟩

theorem reads_le {α : Type} {Q : α → Prop} {P : Nat → List ParseError → Parser} {i i2 : Nat}
    {e : List ParseError} {r : Res (α × Parser)} (h : Reads P Q i e r) (hi : i2 ≤ i) :
    Reads P Q i2 e r := by
  obtain ⟨x, j, es, hr, hij, hq⟩ := h
  exact ⟨x, j, es, hr, by omega, hq⟩

theorem peek_reads {P : Nat → List ParseError → Parser} {len : Nat} (H : IsCursor P len)
    (j : Nat) (e : List ParseError) (t : TokenType) :
    Reads P (fun b => b = true) j e ((P j e).peek t) := by
  by_cases h : (P j e).ntok.Type = t
  · simp only [Parser.peek, h, ne_eq, not_true_eq_false, if_false, H.next, Res.ok_bind,
      Res.pure_eq]
    exact reads_ok P true j (j + 1) e (by omega) rfl
  · simp only [Parser.peek, ne_eq, h, not_false_eq_true, if_true, H.errs, H.set]
    exact reads_err P false j j e _ (Nat.le_refl _) (by simp)

theorem skip_reads {P : Nat → List ParseError → Parser} {len : Nat} (H : IsCursor P len)
    (j : Nat) (e : List ParseError) :
    ∃ j2, j ≤ j2 ∧ (P j e).skipSemicolon = .ok (P j2 e) := by
  by_cases h : (P j e).ntok.Type = TypeSemicolon
  · exact ⟨j + 1, by omega, by simp only [Parser.skipSemicolon, h, if_true, H.next]⟩
  · exact ⟨j, Nat.le_refl _, by simp only [Parser.skipSemicolon, h, if_false]⟩

theorem parseStatement_reads {P : Nat → List ParseError → Parser} {len : Nat}
    (H : IsCursor P len) (pe : priority → Parser → Res (Expr × Parser)) (i0 : Nat)
    (hpe : ReadsExpr P i0 pe) (i : Nat) (e : List ParseError) (hi : i0 ≤ i) :
    Reads P (fun s => ∀ st, s = some st → Statement.present st = true) i e
      (parseStatement pe (P i e)) := by
  unfold parseStatement
  split
  · refine reads_bind (peek_reads H i e TypeIdent) (fun x j e1 hij => ?_)
    cases x
    · exact reads_ok P _ j j e1 (Nat.le_refl _) (by simp)
    · simp only [Bool.not_true, Bool.false_eq_true, if_false]
      refine reads_bind (peek_reads H j e1 TypeAssign) (fun x j2 e2 hij2 => ?_)
      cases x
      · exact reads_ok P _ j2 j2 e2 (Nat.le_refl _) (by simp)
      · simp only [Bool.not_true, Bool.false_eq_true, if_false, H.next, Res.ok_bind]
        refine reads_bind_le (Nat.le_succ _) (hpe (j2 + 1) (by omega) _ e2)
          (fun x j3 e3 hij3 => ?_)
        obtain ⟨j4, hj4, hs⟩ := skip_reads H j3 e3
        simp only [hs, Res.ok_bind, Res.pure_eq]
        exact reads_ok P _ j3 j4 e3 hj4 (by
          intro hx _ _ st hst
          cases hst
          exact hx)
  · simp only [H.next, Res.ok_bind]
    refine reads_bind_le (Nat.le_succ _) (hpe (i + 1) (by omega) _ e) (fun x j3 e3 hij3 => ?_)
    obtain ⟨j4, hj4, hs⟩ := skip_reads H j3 e3
    simp only [hs, Res.ok_bind, Res.pure_eq]
    exact reads_ok P _ j3 j4 e3 hj4 (by
      intro hx st hst
      cases hst
      exact hx)
  · refine reads_bind (hpe i hi _ e) (fun x j3 e3 hij3 => ?_)
    obtain ⟨j4, hj4, hs⟩ := skip_reads H j3 e3
    simp only [hs, Res.ok_bind, Res.pure_eq]
    exact reads_ok P _ j3 j4 e3 hj4 (by
      intro hx st hst
      cases hst
      exact hx)

theorem cursor_ntok_eof {P : Nat → List ParseError → Parser} {len : Nat} (H : IsCursor P len)
    (j : Nat) (e : List ParseError) (h : len ≤ j + 1) : (P j e).ntok.Type = TypeEOF := by
  rw [H.ntok]
  exact H.eof _ _ h

theorem String_ok (t : TokenType) (h : t ≠ TypeLookup) : ∃ s, t.String = .ok s := by
  cases t <;> simp_all [TokenType.String]

theorem presentAll_append (ss : List Statement) (st : Statement) :
    Statement.presentAll (ss ++ [st]) = (Statement.presentAll ss && st.present) := by
  induction ss with
  | nil => simp [Statement.presentAll]
  | cons s ss ih => simp [Statement.presentAll, ih, Bool.and_assoc]

theorem presentAll_snoc (es : List Expr) (x : Expr) :
    Expr.presentAll (es ++ [x]) = (Expr.presentAll es && x.present) := by
  induction es with
  | nil => simp [Expr.presentAll]
  | cons s ss ih => simp [Expr.presentAll, ih, Bool.and_assoc]

theorem parseBlockLoop_reads {P : Nat → List ParseError → Parser} {len : Nat}
    (H : IsCursor P len) (pe : priority → Parser → Res (Expr × Parser)) (i0 : Nat)
    (hpe : ReadsExpr P i0 pe) :
    ∀ (n j : Nat) (ss : List Statement) (e : List ParseError), i0 ≤ j → len ≤ n + j →
      Reads P (fun r => Statement.presentAll ss = true → Statement.presentAll r = true) j e
        (parseBlockLoop pe n ss (P j e)) := by
  intro n
  induction n with
  | zero =>
    intro j ss e _ hlen
    have heof := H.eof j e (by omega)
    simp only [parseBlockLoop, heof, ne_eq, not_true_eq_false, and_false, if_false]
    exact reads_ok P ss j j e (Nat.le_refl _) id
  | succ n ih =>
    intro j ss e hj hlen
    simp only [parseBlockLoop]
    split_ifs with hc
    · refine reads_bind (parseStatement_reads H pe i0 hpe j e hj) (fun s j1 e1 hj1 => ?_)
      simp only [H.next, Res.ok_bind]
      cases s with
      | none =>
        exact reads_le (reads_mono (ih (j1 + 1) ss e1 (by omega) (by omega))
          (fun r hr _ hss => hr hss)) (Nat.le_succ _)
      | some st =>
        exact reads_le (reads_mono (ih (j1 + 1) (ss ++ [st]) e1 (by omega) (by omega))
          (fun r hr hst hss => hr (by rw [presentAll_append, hss, hst st rfl]; rfl)))
          (Nat.le_succ _)
    · exact reads_ok P ss j j e (Nat.le_refl _) id

theorem parseBlock_reads {P : Nat → List ParseError → Parser} {len : Nat}
    (H : IsCursor P len) (pe : priority → Parser → Res (Expr × Parser)) (i0 : Nat)
    (hpe : ReadsExpr P i0 pe) (n j : Nat) (e : List ParseError) (hj : i0 ≤ j + 1)
    (hlen : len ≤ n + j + 1) :
    Reads P (fun b => BlockStmt.present b = true) j e (parseBlock pe n (P j e)) := by
  simp only [parseBlock, H.next, Res.ok_bind]
  refine reads_bind_le (Nat.le_succ _) (parseBlockLoop_reads H pe i0 hpe n (j + 1) [] e hj
    (by omega)) (fun ss j1 e1 _ => ?_)
  exact reads_ok P _ j1 j1 e1 (Nat.le_refl _) (by
    intro h
    simpa [NewBlockStmt, BlockStmt.present] using h (by simp [Statement.presentAll]))

theorem parseFnParamsLoop_reads {P : Nat → List ParseError → Parser} {len : Nat}
    (H : IsCursor P len) :
    ∀ (n j : Nat) (idents : List Str) (e : List ParseError), len ≤ n + j + 1 →
      Reads P (fun _ => True) j e (parseFnParamsLoop n idents (P j e)) := by
  intro n
  induction n with
  | zero =>
    intro j idents e hlen
    have heof := cursor_ntok_eof H j e (by omega)
    simp only [parseFnParamsLoop, heof]
    exact reads_ok P idents j j e (Nat.le_refl _) trivial
  | succ n ih =>
    intro j idents e hlen
    simp only [parseFnParamsLoop]
    split_ifs with hc
    · simp only [H.next, Res.ok_bind]
      exact reads_le (ih (j + 1 + 1) _ e (by omega)) (by omega)
    · exact reads_ok P idents j j e (Nat.le_refl _) trivial

theorem parseFnParams_reads {P : Nat → List ParseError → Parser} {len : Nat}
    (H : IsCursor P len) (n j : Nat) (e : List ParseError) (hlen : len ≤ n + j + 1) :
    Reads P (fun _ => True) j e (parseFnParams n (P j e)) := by
  simp only [parseFnParams]
  split_ifs with hc
  · simp only [H.next, Res.ok_bind, Res.pure_eq]
    exact reads_ok P _ j (j + 1) e (Nat.le_succ _) trivial
  · simp only [H.next, Res.ok_bind]
    refine reads_bind_le (Nat.le_succ _) (parseFnParamsLoop_reads H n (j + 1) _ e (by omega))
      (fun ids j1 e1 _ => ?_)
    refine reads_bind (peek_reads H j1 e1 TypeRParen) (fun x j2 e2 _ => ?_)
    cases x
    · exact reads_ok P _ j2 j2 e2 (Nat.le_refl _) (fun _ _ => trivial)
    · exact reads_ok P _ j2 j2 e2 (Nat.le_refl _) (fun _ _ => trivial)

theorem parseExprSliceLoop_reads {P : Nat → List ParseError → Parser} {len : Nat}
    (H : IsCursor P len) (pe : priority → Parser → Res (Expr × Parser)) (i0 : Nat)
    (hpe : ReadsExpr P i0 pe) :
    ∀ (n j : Nat) (vals : List Expr) (e : List ParseError), i0 ≤ j + 2 → len ≤ n + j + 1 →
      Reads P (fun r => Expr.presentAll vals = true → Expr.presentAll r = true) j e
        (parseExprSliceLoop pe n vals (P j e)) := by
  intro n
  induction n with
  | zero =>
    intro j vals e _ hlen
    have heof := cursor_ntok_eof H j e (by omega)
    simp only [parseExprSliceLoop, heof]
    exact reads_ok P vals j j e (Nat.le_refl _) id
  | succ n ih =>
    intro j vals e hj hlen
    simp only [parseExprSliceLoop]
    split_ifs with hc
    · simp only [H.next, Res.ok_bind]
      refine reads_bind_le (by omega) (hpe (j + 1 + 1) (by omega) _ e) (fun x j1 e1 hj1 => ?_)
      exact reads_mono (ih j1 (vals ++ [x]) e1 (by omega) (by omega))
        (fun r hr hx hv => hr (by rw [presentAll_snoc, hv, hx]; rfl))
    · exact reads_ok P vals j j e (Nat.le_refl _) id

theorem parseExprSlice_reads {P : Nat → List ParseError → Parser} {len : Nat}
    (H : IsCursor P len) (pe : priority → Parser → Res (Expr × Parser)) (i0 : Nat)
    (hpe : ReadsExpr P i0 pe) (n j : Nat) (t : TokenType) (e : List ParseError)
    (hj : i0 ≤ j + 1) (hlen : len ≤ n + j + 1) :
    Reads P (fun r => Expr.presentAll r = true) j e (parseExprSlice pe n t (P j e)) := by
  simp only [parseExprSlice]
  split_ifs with hc
  · simp only [H.next, Res.ok_bind, Res.pure_eq]
    exact reads_ok P _ j (j + 1) e (Nat.le_succ _) (by simp [Expr.presentAll])
  · simp only [H.next, Res.ok_bind]
    refine reads_bind_le (Nat.le_succ _) (hpe (j + 1) hj _ e) (fun x j1 e1 hj1 => ?_)
    refine reads_bind (parseExprSliceLoop_reads H pe i0 hpe n j1 [x] e1 (by omega) (by omega))
      (fun vals j2 e2 _ => ?_)
    refine reads_bind (peek_reads H j2 e2 t) (fun b j3 e3 _ => ?_)
    cases b
    · exact reads_ok P _ j3 j3 e3 (Nat.le_refl _) (by intro h; cases h)
    · exact reads_ok P _ j3 j3 e3 (Nat.le_refl _) (by
        intro _ hv hx
        exact hv (by simp [Expr.presentAll, hx]))

theorem runPrefix_reads {P : Nat → List ParseError → Parser} {len : Nat}
    (H : IsCursor P len) (pe : priority → Parser → Res (Expr × Parser)) (i : Nat)
    (hpe : ReadsExpr P (i + 1) pe) (n : Nat) (f : prefixParseFunc) (e : List ParseError)
    (hlen : len ≤ n + i + 1) :
    Reads P (fun x => Expr.present x = true) i e (runPrefix pe n f (P i e)) := by
  cases f with
  | ident => exact reads_ok P _ i i e (Nat.le_refl _) rfl
  | integer =>
    simp only [runPrefix]
    split
    · obtain ⟨s, hs⟩ := String_ok _ (H.typ i e)
      simp only [hs, Res.ok_bind, Res.pure_eq, H.errs, H.set]
      exact reads_err P _ i i e _ (Nat.le_refl _) (by simp)
    · exact reads_ok P _ i i e (Nat.le_refl _) rfl
  | operator =>
    simp only [runPrefix, H.next, Res.ok_bind]
    refine reads_bind_le (Nat.le_succ _) (hpe (i + 1) (Nat.le_refl _) _ e)
      (fun x j1 e1 _ => ?_)
    exact reads_ok P _ j1 j1 e1 (Nat.le_refl _) (fun hx => by simpa [Expr.present] using hx)
  | boolean => exact reads_ok P _ i i e (Nat.le_refl _) rfl
  | group =>
    simp only [runPrefix, H.next, Res.ok_bind]
    refine reads_bind_le (Nat.le_succ _) (hpe (i + 1) (Nat.le_refl _) _ e)
      (fun x j1 e1 _ => ?_)
    refine reads_bind (peek_reads H j1 e1 TypeRParen) (fun b j2 e2 _ => ?_)
    cases b
    · exact reads_ok P _ j2 j2 e2 (Nat.le_refl _) (by intro h; cases h)
    · exact reads_ok P _ j2 j2 e2 (Nat.le_refl _) (fun _ hx => hx)
  | ifExpr =>
    simp only [runPrefix]
    refine reads_bind (peek_reads H i e TypeLParen) (fun b j1 e1 hj1 => ?_)
    cases b
    · exact reads_ok P _ j1 j1 e1 (Nat.le_refl _) (by intro h; cases h)
    simp only [Bool.not_true, Bool.false_eq_true, if_false, H.next, Res.ok_bind]
    refine reads_bind_le (Nat.le_succ _) (hpe (j1 + 1) (by omega) _ e1)
      (fun cond j2 e2 hj2 => ?_)
    refine reads_bind (peek_reads H j2 e2 TypeRParen) (fun b j3 e3 hj3 => ?_)
    cases b
    · exact reads_ok P _ j3 j3 e3 (Nat.le_refl _) (by intro h; cases h)
    simp only [Bool.not_true, Bool.false_eq_true, if_false]
    refine reads_bind (peek_reads H j3 e3 TypeLBrace) (fun b j4 e4 hj4 => ?_)
    cases b
    · exact reads_ok P _ j4 j4 e4 (Nat.le_refl _) (by intro h; cases h)
    simp only [Bool.not_true, Bool.false_eq_true, if_false]
    refine reads_bind (parseBlock_reads H pe (i + 1) hpe n j4 e4 (by omega) (by omega))
      (fun consq j5 e5 hj5 => ?_)
    simp only []
    split_ifs with hel
    · simp only [H.next, Res.ok_bind]
      refine reads_bind_le (Nat.le_succ _) (peek_reads H (j5 + 1) e5 TypeLBrace)
        (fun b j6 e6 hj6 => ?_)
      cases b
      · exact reads_ok P _ j6 j6 e6 (Nat.le_refl _) (by intro h; cases h)
      simp only [Bool.not_true, Bool.false_eq_true, if_false]
      refine reads_bind (parseBlock_reads H pe (i + 1) hpe n j6 e6 (by omega) (by omega))
        (fun blk j7 e7 _ => ?_)
      exact reads_ok P _ j7 j7 e7 (Nat.le_refl _) (by
        intro hb _ hq _ _ hc _
        simp [NewIfExpr, Expr.present, hb, hq, hc])
    · exact reads_ok P _ j5 j5 e5 (Nat.le_refl _) (by
        intro hq _ _ hc _
        simp [NewIfExpr, Expr.present, hq, hc, BlockStmt.zero, BlockStmt.present,
          Statement.presentAll])
  | function =>
    simp only [runPrefix]
    refine reads_bind (peek_reads H i e TypeLParen) (fun b j1 e1 hj1 => ?_)
    cases b
    · exact reads_ok P _ j1 j1 e1 (Nat.le_refl _) (by intro h; cases h)
    simp only [Bool.not_true, Bool.false_eq_true, if_false]
    refine reads_bind (parseFnParams_reads H n j1 e1 (by omega)) (fun ps j2 e2 hj2 => ?_)
    refine reads_bind (peek_reads H j2 e2 TypeLBrace) (fun b j3 e3 hj3 => ?_)
    cases b
    · exact reads_ok P _ j3 j3 e3 (Nat.le_refl _) (by intro h; cases h)
    simp only [Bool.not_true, Bool.false_eq_true, if_false]
    refine reads_bind (parseBlock_reads H pe (i + 1) hpe n j3 e3 (by omega) (by omega))
      (fun body j4 e4 _ => ?_)
    exact reads_ok P _ j4 j4 e4 (Nat.le_refl _) (by
      intro hb _ _ _
      simpa [Expr.present] using hb)
  | string => exact reads_ok P _ i i e (Nat.le_refl _) rfl
  | slice =>
    simp only [runPrefix]
    refine reads_bind (parseExprSlice_reads H pe (i + 1) hpe n i TypeRBrakt e (Nat.le_refl _)
      hlen) (fun vals j1 e1 _ => ?_)
    exact reads_ok P _ j1 j1 e1 (Nat.le_refl _) (fun hv => by simpa [Expr.present] using hv)

theorem runInfix_reads {P : Nat → List ParseError → Parser} {len : Nat}
    (H : IsCursor P len) (pe : priority → Parser → Res (Expr × Parser)) (i : Nat)
    (hpe : ReadsExpr P (i + 1) pe) (n : Nat) (f : infixParseFunc) (left : Expr)
    (e : List ParseError) (hlen : len ≤ n + i + 1) :
    Reads P (fun x => Expr.present left = true → Expr.present x = true) i e
      (runInfix pe n f left (P i e)) := by
  cases f with
  | binary =>
    simp only [runInfix, H.next, Res.ok_bind]
    refine reads_bind_le (Nat.le_succ _) (hpe (i + 1) (Nat.le_refl _) _ e)
      (fun x j1 e1 _ => ?_)
    exact reads_ok P _ j1 j1 e1 (Nat.le_refl _) (by
      intro hx hl
      simp [Expr.present, hx, hl])
  | call =>
    simp only [runInfix]
    refine reads_bind (parseExprSlice_reads H pe (i + 1) hpe n i TypeRParen e (Nat.le_refl _)
      hlen) (fun vals j1 e1 _ => ?_)
    exact reads_ok P _ j1 j1 e1 (Nat.le_refl _) (by
      intro hv hl
      simp [Expr.present, hv, hl])
  | index =>
    simp only [runInfix, H.next, Res.ok_bind]
    refine reads_bind_le (Nat.le_succ _) (hpe (i + 1) (Nat.le_refl _) _ e)
      (fun x j1 e1 _ => ?_)
    refine reads_bind (peek_reads H j1 e1 TypeRBrakt) (fun b j2 e2 _ => ?_)
    cases b
    · exact reads_ok P _ j2 j2 e2 (Nat.le_refl _) (by intro h; cases h)
    · exact reads_ok P _ j2 j2 e2 (Nat.le_refl _) (by
        intro _ hx hl
        simp [Expr.present, hx, hl])

theorem parseInfixLoop_reads {P : Nat → List ParseError → Parser} {len : Nat}
    (H : IsCursor P len) (pe : priority → Parser → Res (Expr × Parser)) (i0 : Nat)
    (hpe : ReadsExpr P i0 pe) (n : Nat) (pr : priority) :
    ∀ (k j : Nat) (left : Expr) (e : List ParseError), i0 ≤ j + 2 → len ≤ k + j + 1 →
      len ≤ n + j + 1 →
      Reads P (fun x => Expr.present left = true → Expr.present x = true) j e
        (parseInfixLoop pe n pr k left (P j e)) := by
  intro k
  induction k with
  | zero =>
    intro j left e _ hlen _
    have heof := cursor_ntok_eof H j e (by omega)
    simp only [parseInfixLoop, heof, infixes]
    split_ifs <;> exact reads_ok P left j j e (Nat.le_refl _) id
  | succ k ih =>
    intro j left e hj hlen hn
    simp only [parseInfixLoop]
    split_ifs with hc
    · split
      · exact reads_ok P left j j e (Nat.le_refl _) id
      · simp only [H.next, Res.ok_bind]
        refine reads_bind_le (Nat.le_succ _) (runInfix_reads H pe (j + 1)
          (fun i hi => hpe i (by omega)) n _ left e (by omega)) (fun x j1 e1 hj1 => ?_)
        exact reads_mono (ih j1 x e1 (by omega) (by omega) (by omega))
          (fun r hr hx hl => hr (hx hl))
    · exact reads_ok P left j j e (Nat.le_refl _) id

theorem parseExpression_reads {P : Nat → List ParseError → Parser} {len : Nat}
    (H : IsCursor P len) :
    ∀ (f i : Nat), 1 ≤ f → len + 1 ≤ f + i → ∀ (pr : priority) (e : List ParseError),
      Reads P (fun x => Expr.present x = true) i e (parseExpression f pr (P i e)) := by
  intro f
  induction f with
  | zero => intro i h; omega
  | succ f ih =>
    intro i _ hlen pr e
    simp only [parseExpression]
    split
    · obtain ⟨s, hs⟩ := String_ok _ (H.typ i e)
      simp only [hs, Res.ok_bind, Res.pure_eq, H.errs, H.set]
      exact reads_err P _ i i e _ (Nat.le_refl _) (by simp)
    · rename_i fn hfn
      have hne : (P i e).ctok.Type ≠ TypeEOF := by
        intro h
        rw [h] at hfn
        cases hfn
      have hi : i < len := by
        by_contra hc
        exact hne (H.eof i e (by omega))
      have hpe : ReadsExpr P (i + 1) (parseExpression f) :=
        fun i2 hi2 pr2 e2 => ih i2 (by omega) (by omega) pr2 e2
      refine reads_bind (runPrefix_reads H _ i hpe f fn e (by omega)) (fun x j1 e1 hj1 => ?_)
      exact reads_mono (parseInfixLoop_reads H _ (i + 1) hpe f pr f j1 x e1 (by omega)
        (by omega) (by omega)) (fun r hr hx => hr hx)

theorem parseLoop_reads {P : Nat → List ParseError → Parser} {len : Nat}
    (H : IsCursor P len) (pe : priority → Parser → Res (Expr × Parser))
    (hpe : ReadsExpr P 0 pe) :
    ∀ (n j : Nat) (ss : List Statement) (e : List ParseError), len ≤ n + j →
      Reads P (fun r => Statement.presentAll ss = true → Statement.presentAll r = true) j e
        (parseLoop pe n ss (P j e)) := by
  intro n
  induction n with
  | zero =>
    intro j ss e hlen
    have heof := H.eof j e (by omega)
    simp only [parseLoop, heof, ne_eq, not_true_eq_false, if_false]
    exact reads_ok P ss j j e (Nat.le_refl _) id
  | succ n ih =>
    intro j ss e hlen
    simp only [parseLoop]
    split_ifs with hc
    · refine reads_bind (parseStatement_reads H pe 0 hpe j e (Nat.zero_le _))
        (fun s j1 e1 hj1 => ?_)
      simp only [H.next, Res.ok_bind]
      cases s with
      | none =>
        exact reads_le (reads_mono (ih (j1 + 1) ss e1 (by omega))
          (fun r hr _ hss => hr hss)) (Nat.le_succ _)
      | some st =>
        exact reads_le (reads_mono (ih (j1 + 1) (ss ++ [st]) e1 (by omega))
          (fun r hr hst hss => hr (by rw [presentAll_append, hss, hst st rfl]; rfl)))
          (Nat.le_succ _)
    · exact reads_ok P ss j j e (Nat.le_refl _) id

theorem Parse_reads {P : Nat → List ParseError → Parser} {len : Nat}
    (H : IsCursor P len) (fuel j : Nat) (e : List ParseError) (hf : len + 1 ≤ fuel) :
    Reads P (fun prog : Program => Statement.presentAll prog.Statements = true) j e
      (Parser.Parse fuel (P j e)) := by
  simp only [Parser.Parse]
  have hpe : ReadsExpr P 0 (parseExpression fuel) :=
    fun i _ pr e2 => parseExpression_reads H fuel i (by omega) (by omega) pr e2
  refine reads_bind (parseLoop_reads H _ hpe fuel j [] e (by omega)) (fun ss j1 e1 _ => ?_)
  exact reads_ok P _ j1 j1 e1 (Nat.le_refl _) (fun h => h rfl)

/-! ## The token sequence of an input as a cursor -/

theorem lexSpec_NUL (t : Str) : lexSpec (NUL :: t) = (⟨TypeEOF, []⟩, 1) := by
  simp [lexSpec, scanToken, List.dropWhile, List.takeWhile, isWhitespace, token.New, NUL]

theorem lexSpec_other_typ (c : Char) (t : Str) (hw : isWhitespace c = false) (h0 : c ≠ NUL)
    (hl : isLetter c = false) (hd : isDigit c = false) :
    (lexSpec (c :: t)).1.typ ≠ TypeLookup := by
  by_cases hmem : c ∈ "=!+-*/<>;,()\x7b\x7d[]\"".toList
  · simp only [String.toList, List.mem_cons, List.not_mem_nil, or_false] at hmem
    rcases hmem with rfl | rfl | h
    · rw [lexSpec_equals]
      split_ifs <;> simp
    · rw [lexSpec_bang]
      split_ifs <;> simp
    · rcases h with rfl | rfl | rfl | rfl | rfl | rfl | rfl | rfl | rfl | rfl | rfl | rfl | rfl |
        rfl | rfl <;>
      simp [lexSpec, scanToken, List.dropWhile, List.takeWhile, isWhitespace, token.New,
        byteString, NUL]
  · rw [lexSpec_illegal c t hw h0 hl hd hmem]
    simp

theorem New_Lookup_typ (w : Str) : (token.New TypeLookup w).typ ≠ TypeLookup := by
  simp only [token.New, if_true]
  split_ifs <;> simp

theorem lexSpec_facts (r : Str) : 1 ≤ (lexSpec r).2 ∧ (lexSpec r).1.typ ≠ TypeLookup := by
  rw [lexSpec_trim]
  cases hx : r.dropWhile isWhitespace with
  | nil =>
    rw [lexSpec_nil]
    exact ⟨by simp, by simp⟩
  | cons c t =>
    obtain ⟨hw, _, _⟩ := dropWhile_cons_facts isWhitespace c t r hx
    by_cases h0 : c = NUL
    · rw [h0, lexSpec_NUL]
      exact ⟨by simp, by simp⟩
    have hp := lexSpec_progress c t hw h0
    refine ⟨by simp only []; omega, ?_⟩
    by_cases hl : isLetter c = true
    · rw [lexSpec_letter (c :: t) hl]
      exact New_Lookup_typ _
    by_cases hd : isDigit c = true
    · rw [lexSpec_digit (c :: t) hd, New_of_ne _ _ (by decide)]
      simp
    exact lexSpec_other_typ c t hw h0 (by simpa using hl) (by simpa using hd)

theorem tokenPos_ge (input : Str) : ∀ i, i ≤ tokenPos input i := by
  intro i
  induction i with
  | zero => exact Nat.zero_le _
  | succ i ih =>
    have := (lexSpec_facts (input.drop (tokenPos input i))).1
    simp only [tokenPos]
    omega

theorem tokenAt_eof (input : Str) (j : Nat) (h : input.length ≤ j) :
    tokenAt input j = ⟨TypeEOF, []⟩ := by
  have hp := tokenPos_ge input j
  exact (token_end input j (List.drop_eq_nil_of_le (by omega))).1

theorem parserAt_ctok (input : Str) (j : Nat) (e : List ParseError) :
    (parserAt input j e).ctok = tokenAt input j := rfl

theorem parserAt_errs (input : Str) (j : Nat) (e : List ParseError) :
    (parserAt input j e).errs = e := rfl

theorem parserAt_set (input : Str) (j : Nat) (e e2 : List ParseError) :
    { parserAt input j e with errs := e2 } = parserAt input j e2 := by
  simp only [parserAt]

theorem parserAt_ntok (input : Str) (j : Nat) (e : List ParseError) :
    (parserAt input j e).ntok = (parserAt input (j + 1) e).ctok := rfl

theorem parserAt_cursor (input : Str) : IsCursor (parserAt input) input.length where
  next := parserAt_nextToken input
  errs := parserAt_errs input
  set := parserAt_set input
  ntok := parserAt_ntok input
  eof := fun j e h => by
    rw [parserAt_ctok, tokenAt_eof input j h]
    rfl
  typ := fun j e => by
    have h : (tokenAt input j).typ ≠ TypeLookup := (lexSpec_facts (restAfter input j)).2
    rw [parserAt_ctok]
    exact h

theorem parseInput_reads (input : Str) :
    ∃ prog j es, parseInput input = .ok (prog, parserAt input j es) ∧
      (es = [] → Statement.presentAll prog.Statements = true) := by
  obtain ⟨prog, j, es, hr, _, hq⟩ := Parse_reads (parserAt_cursor input) (parseFuel input) 0 []
    (by simp only [parseFuel]; omega)
  refine ⟨prog, j, es, ?_, hq⟩
  simp only [parseInput, New_parserAt, Res.ok_bind, hr, List.nil_append]

theorem parseStatement_illegal {P : Nat → List ParseError → Parser} {len : Nat}
    (H : IsCursor P len) (f i : Nat) (e : List ParseError)
    (hct : (P i e).ctok.Type = TypeIllegal) :
    ∃ j, i ≤ j ∧ parseStatement (parseExpression (f + 1)) (P i e) =
      .ok (some (.ExprStmt .nil),
        P j (e ++ [ParseError.msg "no prefix parse function for Illegal found".toList])) := by
  obtain ⟨j, hj, hs⟩ := skip_reads H i
    (e ++ [ParseError.msg "no prefix parse function for Illegal found".toList])
  refine ⟨j, hj, ?_⟩
  have hm : "no prefix parse function for ".toList ++ "Illegal".toList ++ " found".toList =
      "no prefix parse function for Illegal found".toList := by decide
  simp only [parseStatement, hct, parseExpression, prefixes, TokenType.String, Res.ok_bind,
    Res.pure_eq, H.errs, H.set, hm, hs]

theorem parseLoop_illegal {P : Nat → List ParseError → Parser} {len : Nat}
    (H : IsCursor P len) (fuel n i : Nat) (ss : List Statement) (e : List ParseError)
    (hf : len + 1 ≤ fuel) (hn : len ≤ n + i) (hct : (P i e).ctok.Type = TypeIllegal) :
    ∃ prog j es, parseLoop (parseExpression fuel) n ss (P i e) =
      .ok (prog,
        P j (e ++ ParseError.msg "no prefix parse function for Illegal found".toList :: es)) := by
  have hne : (P i e).ctok.Type ≠ TypeEOF := by rw [hct]; decide
  have hi : i < len := by
    by_contra hc
    exact hne (H.eof i e (by omega))
  cases n with
  | zero => omega
  | succ n =>
    cases fuel with
    | zero => omega
    | succ fuel =>
      obtain ⟨j, hj, hs⟩ := parseStatement_illegal H fuel i e hct
      have hpe : ReadsExpr P 0 (parseExpression (fuel + 1)) :=
        fun i2 _ pr e2 => parseExpression_reads H (fuel + 1) i2 (by omega) (by omega) pr e2
      obtain ⟨prog, j2, es, hr, _, _⟩ := parseLoop_reads H _ hpe n (j + 1) (ss ++ [.ExprStmt .nil])
        (e ++ [ParseError.msg "no prefix parse function for Illegal found".toList]) (by omega)
      refine ⟨prog, j2, es, ?_⟩
      simp only [parseLoop, hne, ne_eq, not_false_eq_true, if_true, hs, Res.ok_bind, H.next, hr,
        List.append_assoc, List.singleton_append]

theorem nextToken_ctok (p p1 : Parser) (h : p.nextToken = .ok p1) : p1.ctok = p.ntok := by
  simp only [Parser.nextToken] at h
  cases hl : p.l.NextToken with
  | ok r =>
    rw [hl] at h
    simp only [Res.ok_bind, Res.pure_eq, Res.ok.injEq] at h
    rw [← h]
  | panic => rw [hl] at h; cases h
  | outOfFuel => rw [hl] at h; cases h

/-! ## `Sprintf` without operands -/

theorem Sprintf_plain (s : Str) (h : '%' ∉ s) : fmt.Sprintf s = .ok s := by
  have hd : s.dropWhile (fun c => c != '%') = [] := by
    rw [List.dropWhile_eq_nil_iff]
    intro c hc
    have : c ≠ '%' := fun hh => h (hh ▸ hc)
    simpa using this
  simp only [fmt.Sprintf, fmt.doPrintf, hd]

theorem parsenum_length : ∀ (s : Str) (n : Nat) (b : Bool),
    (fmt.parsenum s n b).2.length ≤ s.length := by
  intro s
  induction s with
  | nil => intro n b; simp [fmt.parsenum]
  | cons c cs ih =>
    intro n b
    simp only [fmt.parsenum]
    split_ifs
    · simp
    · exact Nat.le_succ_of_le (ih _ _)
    · simp

theorem argNumber_length (st : fmt.VerbState) :
    (fmt.argNumber st).rest.length ≤ st.rest.length := by
  simp only [fmt.argNumber]
  split
  · simp only [List.length_drop]
    omega
  · exact Nat.le_refl _

theorem readWidth_length (st : fmt.VerbState) :
    (fmt.readWidth st).rest.length ≤ st.rest.length := by
  simp only [fmt.readWidth]
  split
  · next r heq => rw [heq]; simp
  · exact parsenum_length _ _ _

theorem readPrecision_length (st : fmt.VerbState) :
    (fmt.readPrecision st).rest.length ≤ st.rest.length := by
  simp only [fmt.readPrecision]
  split
  · next r heq =>
    rw [heq]
    have h1 := argNumber_length
      { st with rest := r, goodArgNum := st.goodArgNum && !st.afterIndex }
    simp only at h1
    split
    · next r2 heq2 =>
      rw [heq2] at h1
      simp only [List.length_cons] at h1 ⊢
      omega
    · have h2 := parsenum_length (fmt.argNumber
        { st with rest := r, goodArgNum := st.goodArgNum && !st.afterIndex }).rest 0 false
      simp only [List.length_cons]
      omega
  · exact Nat.le_refl _

theorem doVerb_length (r0 r : Str) (h : (fmt.doVerb r0).2 = some r) : r.length ≤ r0.length := by
  have h0 : (fmt.argNumber ⟨[], r0.dropWhile fmt.isFlag, false, true⟩).rest.length ≤ r0.length :=
    Nat.le_trans (argNumber_length _) (List.dropWhile_sublist _).length_le
  have h1 := Nat.le_trans (readPrecision_length _) (Nat.le_trans (readWidth_length _) h0)
  have h2 : (if (fmt.readPrecision (fmt.readWidth (fmt.argNumber
        ⟨[], r0.dropWhile fmt.isFlag, false, true⟩))).afterIndex then
      fmt.readPrecision (fmt.readWidth (fmt.argNumber ⟨[], r0.dropWhile fmt.isFlag, false, true⟩))
      else fmt.argNumber (fmt.readPrecision (fmt.readWidth (fmt.argNumber
        ⟨[], r0.dropWhile fmt.isFlag, false, true⟩)))).rest.length ≤ r0.length := by
    split_ifs
    · exact h1
    · exact Nat.le_trans (argNumber_length _) h1
  simp only [fmt.doVerb] at h
  generalize (if (fmt.readPrecision (fmt.readWidth (fmt.argNumber
        ⟨[], r0.dropWhile fmt.isFlag, false, true⟩))).afterIndex then
      fmt.readPrecision (fmt.readWidth (fmt.argNumber ⟨[], r0.dropWhile fmt.isFlag, false, true⟩))
      else fmt.argNumber (fmt.readPrecision (fmt.readWidth (fmt.argNumber
        ⟨[], r0.dropWhile fmt.isFlag, false, true⟩)))) = st2 at h h2
  cases hr : st2.rest with
  | nil => simp [hr] at h
  | cons c t =>
    rw [hr] at h h2
    simp only [List.length_cons] at h2
    by_cases hc : c = '%'
    · simp only [hc, if_true, Option.some.injEq] at h
      subst h
      omega
    · simp only [hc, if_false, Option.some.injEq] at h
      subst h
      simp only [List.length_drop, List.length_cons]
      omega

theorem doPrintf_ok : ∀ (fuel : Nat) (format : Str), format.length < fuel →
    ∃ s, fmt.doPrintf fuel format = .ok s := by
  intro fuel
  induction fuel with
  | zero => intro format h; omega
  | succ fuel ih =>
    intro format h
    cases hd : format.dropWhile (fun c => c != '%') with
    | nil => exact ⟨format, by simp only [fmt.doPrintf, hd]⟩
    | cons c r0 =>
      have hl : (c :: r0).length ≤ format.length := by
        rw [← hd]
        exact (List.dropWhile_sublist _).length_le
      simp only [List.length_cons] at hl
      cases hv : (fmt.doVerb r0).2 with
      | none =>
        exact ⟨format.takeWhile (fun c => c != '%') ++ (fmt.doVerb r0).1,
          by simp only [fmt.doPrintf, hd, hv]⟩
      | some r =>
        have hr := doVerb_length r0 r hv
        obtain ⟨s, hs⟩ := ih r (by omega)
        exact ⟨format.takeWhile (fun c => c != '%') ++ (fmt.doVerb r0).1 ++ s,
          by simp only [fmt.doPrintf, hd, hv, hs, Res.ok_bind, Res.pure_eq]⟩

theorem Sprintf_ok (format : Str) : ∃ s, fmt.Sprintf format = .ok s :=
  doPrintf_ok _ format (Nat.lt_succ_self _)

theorem lexSpec_other_ident (c : Char) (t : Str) (hw : isWhitespace c = false) (h0 : c ≠ NUL)
    (hl : isLetter c = false) (hd : isDigit c = false) :
    (lexSpec (c :: t)).1.typ ≠ TypeIdent := by
  by_cases hmem : c ∈ "=!+-*/<>;,()\x7b\x7d[]\"".toList
  · simp only [String.toList, List.mem_cons, List.not_mem_nil, or_false] at hmem
    rcases hmem with rfl | rfl | h
    · rw [lexSpec_equals]
      split_ifs <;> simp
    · rw [lexSpec_bang]
      split_ifs <;> simp
    · rcases h with rfl | rfl | rfl | rfl | rfl | rfl | rfl | rfl | rfl | rfl | rfl | rfl | rfl |
        rfl | rfl <;>
      simp [lexSpec, scanToken, List.dropWhile, List.takeWhile, isWhitespace, token.New,
        byteString, NUL]
  · rw [lexSpec_illegal c t hw h0 hl hd hmem]
    simp

theorem lexSpec_ident_letters (r : Str) (h : (lexSpec r).1.typ = TypeIdent) :
    (lexSpec r).1.lit.all isLetter = true := by
  rw [lexSpec_trim] at h ⊢
  cases hx : r.dropWhile isWhitespace with
  | nil =>
    rw [hx, lexSpec_nil] at h
    simp at h
  | cons c t =>
    rw [hx] at h
    obtain ⟨hw, _, _⟩ := dropWhile_cons_facts isWhitespace c t r hx
    by_cases h0 : c = NUL
    · rw [h0, lexSpec_NUL] at h
      simp at h
    by_cases hl : isLetter c = true
    · rw [lexSpec_letter (c :: t) hl]
      simp only [(New_Lookup_facts _).1, List.all_eq_true]
      intro d hd
      exact List.mem_takeWhile_imp hd
    by_cases hd : isDigit c = true
    · rw [lexSpec_digit (c :: t) hd, New_of_ne _ _ (by decide)] at h
      simp at h
    exact absurd h (lexSpec_other_ident c t hw h0 (by simpa using hl) (by simpa using hd))

theorem letters_no_percent (a : Str) (h : a.all isLetter = true) : '%' ∉ a := by
  intro hin
  have := List.all_eq_true.mp h _ hin
  exact absurd this (by decide)

/-! ## The positions of the lexer below the wrap-around of `uint` -/

theorem ulexer_readChar_eq (bits : Nat) (l : Lexer) (h : l.nPos + 1 < 2 ^ bits) :
    ulexer.readChar bits l = l.readChar := by
  simp only [ulexer.readChar, Lexer.readChar, Nat.mod_eq_of_lt h]

theorem readWhile_nPos (cond : Char → Bool) :
    ∀ (n : Nat) (l l1 : Lexer), Lexer.readWhile cond n l = .ok l1 → l.nPos ≤ l1.nPos := by
  intro n
  induction n with
  | zero =>
    intro l l1 h
    simp only [Lexer.readWhile] at h
    split_ifs at h
    cases h
    exact Nat.le_refl _
  | succ n ih =>
    intro l l1 h
    simp only [Lexer.readWhile] at h
    split_ifs at h
    · have := ih _ _ h
      simp only [Lexer.readChar] at this
      omega
    · cases h
      exact Nat.le_refl _

theorem ulexer_readWhile_eq (bits : Nat) (cond : Char → Bool) :
    ∀ (n : Nat) (l l1 : Lexer), Lexer.readWhile cond n l = .ok l1 → l1.nPos < 2 ^ bits →
      ulexer.readWhile bits cond n l = .ok l1 := by
  intro n
  induction n with
  | zero =>
    intro l l1 h _
    simp only [Lexer.readWhile] at h
    simp only [ulexer.readWhile]
    exact h
  | succ n ih =>
    intro l l1 h hb
    simp only [Lexer.readWhile] at h
    simp only [ulexer.readWhile]
    split_ifs at h ⊢
    · have hle := readWhile_nPos cond _ _ _ h
      simp only [Lexer.readChar] at hle
      rw [ulexer_readChar_eq bits l (by omega)]
      exact ih _ _ h hb
    · exact h

theorem readWhile_input (cond : Char → Bool) :
    ∀ (n : Nat) (l l1 : Lexer), Lexer.readWhile cond n l = .ok l1 → l1.input = l.input := by
  intro n
  induction n with
  | zero =>
    intro l l1 h
    simp only [Lexer.readWhile] at h
    split_ifs at h
    cases h
    rfl
  | succ n ih =>
    intro l l1 h
    simp only [Lexer.readWhile] at h
    split_ifs at h
    · exact (ih _ _ h).trans rfl
    · cases h
      rfl

theorem bind_ok_inv {α β : Type} (x : Res α) (f : α → Res β) (b : β)
    (h : (x >>= f) = .ok b) : ∃ a, x = .ok a ∧ f a = .ok b := by
  cases x with
  | ok a => exact ⟨a, rfl, h⟩
  | panic => cases h
  | outOfFuel => cases h

theorem ulexer_readIdentifier_eq (bits : Nat) (l : Lexer) (s : Str) (l1 : Lexer)
    (h : l.readIdentifier = .ok (s, l1)) (hb : l1.nPos < 2 ^ bits) :
    ulexer.readIdentifier bits l = .ok (s, l1) ∧ l.nPos ≤ l1.nPos := by
  simp only [Lexer.readIdentifier] at h
  obtain ⟨l2, h1, h2⟩ := bind_ok_inv _ _ _ h
  obtain ⟨s2, h3, h4⟩ := bind_ok_inv _ _ _ h2
  cases h4
  refine ⟨?_, readWhile_nPos _ _ _ _ h1⟩
  simp only [ulexer.readIdentifier, ulexer_readWhile_eq bits _ _ _ _ h1 hb, Res.ok_bind, h3]
  rfl

theorem ulexer_readNumber_eq (bits : Nat) (l : Lexer) (s : Str) (l1 : Lexer)
    (h : l.readNumber = .ok (s, l1)) (hb : l1.nPos < 2 ^ bits) :
    ulexer.readNumber bits l = .ok (s, l1) ∧ l.nPos ≤ l1.nPos := by
  simp only [Lexer.readNumber] at h
  obtain ⟨l2, h1, h2⟩ := bind_ok_inv _ _ _ h
  obtain ⟨s2, h3, h4⟩ := bind_ok_inv _ _ _ h2
  cases h4
  refine ⟨?_, readWhile_nPos _ _ _ _ h1⟩
  simp only [ulexer.readNumber, ulexer_readWhile_eq bits _ _ _ _ h1 hb, Res.ok_bind, h3]
  rfl

theorem ulexer_readString_eq (bits : Nat) (l : Lexer) (s : Str) (l1 : Lexer)
    (h : l.readString = .ok (s, l1)) (hb : l1.nPos < 2 ^ bits) :
    ulexer.readString bits l = .ok (s, l1) ∧ l.nPos ≤ l1.nPos := by
  simp only [Lexer.readString] at h
  obtain ⟨l2, h1, h2⟩ := bind_ok_inv _ _ _ h
  obtain ⟨s2, h3, h4⟩ := bind_ok_inv _ _ _ h2
  cases h4
  have hle := readWhile_nPos _ _ _ _ h1
  have hn : l.readChar.nPos = l.nPos + 1 := rfl
  have hr : ulexer.readChar bits l = l.readChar := ulexer_readChar_eq bits l (by omega)
  refine ⟨?_, by omega⟩
  simp only [ulexer.readString, hr, ulexer_readWhile_eq bits _ _ _ _ h1 hb, Res.ok_bind, h3]
  rfl


theorem ulexer_NextToken_eq (bits : Nat) (l : Lexer) (tok : Token) (l1 : Lexer)
    (h : l.NextToken = .ok (tok, l1)) (hb : l1.nPos < 2 ^ bits) :
    ulexer.NextToken bits l = .ok (tok, l1) := by
  simp only [Lexer.NextToken] at h
  obtain ⟨l0, hw, h⟩ := bind_ok_inv _ _ _ h
  have hmono := readWhile_nPos _ _ _ _ hw
  have hws : ∀ (hb0 : l0.nPos < 2 ^ bits), ulexer.eatWhitespace bits l = .ok l0 :=
    fun hb0 => ulexer_readWhile_eq bits _ _ _ _ hw hb0
  have hn1 : l0.readChar.nPos = l0.nPos + 1 := rfl
  have hn2 : l0.readChar.readChar.nPos = l0.nPos + 2 := rfl
  have one : ∀ t, (t, l0.readChar) = (tok, l1) →
      l0.nPos < 2 ^ bits ∧ (t, ulexer.readChar bits l0) = (tok, l1) := by
    intro t ht
    cases ht
    exact ⟨by omega, by rw [ulexer_readChar_eq bits l0 (by omega)]⟩
  have two : ∀ t, (t, l0.readChar.readChar) = (tok, l1) →
      l0.nPos < 2 ^ bits ∧ (t, ulexer.readChar bits (ulexer.readChar bits l0)) = (tok, l1) := by
    intro t ht
    cases ht
    refine ⟨by omega, ?_⟩
    rw [ulexer_readChar_eq bits l0 (by omega), ulexer_readChar_eq bits _ (by omega)]
  simp only [ulexer.NextToken]
  generalize hc : l0.ch = c at h
  by_cases hpun : c = '+' ∨ c = '-' ∨ c = '*' ∨ c = '/' ∨ c = '<' ∨ c = '>' ∨ c = ';' ∨
      c = '(' ∨ c = ')' ∨ c = ',' ∨ c = '{' ∨ c = '}' ∨ c = '[' ∨ c = ']' ∨ c = NUL
  · rcases hpun with h1 | h1 | h1 | h1 | h1 | h1 | h1 | h1 | h1 | h1 | h1 | h1 | h1 | h1 | h1 <;>
      subst h1 <;> simp [NUL, Res.pure_eq] at h <;>
      obtain ⟨hb0, hr⟩ := one _ (by rw [← h.1, ← h.2]) <;>
      simp [hws hb0, hc, NUL, Res.pure_eq, Res.ok_bind] <;> exact ⟨h.1, (Prod.mk.inj hr).2⟩
  simp only [not_or] at hpun
  obtain ⟨n1, n2, n3, n4, n5, n6, n7, n8, n9, n10, n11, n12, n13, n14, n15⟩ := hpun
  by_cases h1 : c = '='
  · subst h1
    simp only [if_true] at h
    obtain ⟨d, hp, h⟩ := bind_ok_inv _ _ _ h
    by_cases hd : d = '='
    · simp only [hd, if_true, Res.pure_eq, Res.ok.injEq] at h
      obtain ⟨hb0, hr⟩ := two _ h
      simp only [hws hb0, Res.ok_bind, hc, if_true, hp, hd, Res.pure_eq, hr]
    · simp only [hd, if_false, Res.pure_eq, Res.ok.injEq] at h
      obtain ⟨hb0, hr⟩ := one _ h
      simp only [hws hb0, Res.ok_bind, hc, if_true, hp, hd, if_false, Res.pure_eq, hr]
  by_cases h2 : c = '!'
  · subst h2
    simp only [if_true, n1, n2, n3, n4, if_false, h1] at h
    obtain ⟨d, hp, h⟩ := bind_ok_inv _ _ _ h
    by_cases hd : d = '='
    · simp only [hd, if_true, Res.pure_eq, Res.ok.injEq] at h
      obtain ⟨hb0, hr⟩ := two _ h
      simp only [hws hb0, Res.ok_bind, hc, if_true, hp, hd, Res.pure_eq, hr, n1, n2, n3, n4,
        if_false, h1]
    · simp only [hd, if_false, Res.pure_eq, Res.ok.injEq] at h
      obtain ⟨hb0, hr⟩ := one _ h
      simp only [hws hb0, Res.ok_bind, hc, if_true, hp, hd, if_false, Res.pure_eq, hr, n1, n2,
        n3, n4, h1]
  simp only [h1, h2, n1, n2, n3, n4, n5, n6, n7, n8, n9, n10, n11, n12, n13, n14, n15,
    if_false] at h
  by_cases h3 : c = '"'
  · subst h3
    simp only [if_true] at h
    obtain ⟨⟨s, l2⟩, hrs, h⟩ := bind_ok_inv _ _ _ h
    simp only [Res.pure_eq, Res.ok.injEq] at h
    have hl2 : l2.readChar.nPos = l2.nPos + 1 := rfl
    have hb2 : l2.nPos + 1 < 2 ^ bits := by
      have := congrArg (fun p => p.2.nPos) h
      simp only [hl2] at this
      omega
    obtain ⟨hrsu, hle⟩ := ulexer_readString_eq bits l0 s l2 hrs (by omega)
    simp only [hws (by omega), Res.ok_bind, hc, h1, h2, n1, n2, n3, n4, n5, n6, n7, n8, n9, n10,
      n11, n12, n13, n14, n15, if_false, if_true, hrsu, Res.pure_eq,
      ulexer_readChar_eq bits l2 hb2, h]
  simp only [h3, if_false] at h
  by_cases h4 : isLetter c = true
  · simp only [h4, if_true] at h
    obtain ⟨⟨s, l2⟩, hrs, h⟩ := bind_ok_inv _ _ _ h
    simp only [Res.pure_eq, Res.ok.injEq] at h
    have hl : l2 = l1 := congrArg Prod.snd h
    subst hl
    obtain ⟨hrsu, hle⟩ := ulexer_readIdentifier_eq bits l0 s l2 hrs hb
    simp only [hws (by omega), Res.ok_bind, hc, h1, h2, h3, n1, n2, n3, n4, n5, n6, n7, n8, n9,
      n10, n11, n12, n13, n14, n15, if_false, h4, if_true, hrsu, Res.pure_eq, h]
  have h4 : isLetter c = false := by simpa using h4
  simp only [h4, Bool.false_eq_true, if_false] at h
  by_cases h5 : isDigit c = true
  · simp only [h5, if_true] at h
    obtain ⟨⟨s, l2⟩, hrs, h⟩ := bind_ok_inv _ _ _ h
    simp only [Res.pure_eq, Res.ok.injEq] at h
    have hl : l2 = l1 := congrArg Prod.snd h
    subst hl
    obtain ⟨hrsu, hle⟩ := ulexer_readNumber_eq bits l0 s l2 hrs hb
    simp only [hws (by omega), Res.ok_bind, hc, h1, h2, h3, n1, n2, n3, n4, n5, n6, n7, n8, n9,
      n10, n11, n12, n13, n14, n15, if_false, h4, Bool.false_eq_true, h5, if_true, hrsu,
      Res.pure_eq, h]
  have h5 : isDigit c = false := by simpa using h5
  simp only [h5, Bool.false_eq_true, if_false, Res.pure_eq, Res.ok.injEq] at h
  obtain ⟨hb0, hr⟩ := one _ h
  simp only [hws hb0, Res.ok_bind, hc, h1, h2, h3, n1, n2, n3, n4, n5, n6, n7, n8, n9,
    n10, n11, n12, n13, n14, n15, if_false, h4, h5, Bool.false_eq_true, Res.pure_eq, hr]


theorem lexSpec_le_cons (c : Char) (t : Str) (hw : isWhitespace c = false) :
    (lexSpec (c :: t)).2 ≤ t.length + 2 := by
  by_cases h0 : c = NUL
  · rw [h0, lexSpec_NUL]
    simp
  by_cases hl : isLetter c = true
  · rw [lexSpec_letter (c :: t) hl]
    have := (List.takeWhile_sublist isLetter (l := c :: t)).length_le
    simp only [List.length_cons] at this ⊢
    omega
  by_cases hd : isDigit c = true
  · rw [lexSpec_digit (c :: t) hd]
    have := (List.takeWhile_sublist isDigit (l := c :: t)).length_le
    simp only [List.length_cons] at this ⊢
    omega
  by_cases hmem : c ∈ "=!+-*/<>;,()\x7b\x7d[]\"".toList
  · simp only [String.toList, List.mem_cons, List.not_mem_nil, or_false] at hmem
    rcases hmem with rfl | rfl | h
    · rw [lexSpec_equals]
      split_ifs <;> simp
    · rw [lexSpec_bang]
      split_ifs <;> simp
    · rcases h with rfl | rfl | rfl | rfl | rfl | rfl | rfl | rfl | rfl | rfl | rfl | rfl | rfl |
        rfl | rfl
      all_goals first
        | (rw [lexSpec_string]
           have := (List.takeWhile_sublist inString (l := t)).length_le
           simp only []
           omega)
        | simp [lexSpec, scanToken, List.dropWhile, List.takeWhile, isWhitespace, token.New,
            byteString, NUL]
  · rw [lexSpec_illegal c t hw h0 (by simpa using hl) (by simpa using hd) hmem]
    simp

theorem lexSpec_le (r : Str) : (lexSpec r).2 ≤ r.length + 1 := by
  rw [lexSpec_trim]
  have hlen : r.length = (r.takeWhile isWhitespace).length + (r.dropWhile isWhitespace).length := by
    rw [← List.length_append, List.takeWhile_append_dropWhile]
  cases hx : r.dropWhile isWhitespace with
  | nil =>
    rw [hx] at hlen
    rw [lexSpec_nil]
    simp only [List.length_nil] at hlen ⊢
    omega
  | cons c t =>
    rw [hx] at hlen
    obtain ⟨hw, _, _⟩ := dropWhile_cons_facts isWhitespace c t r hx
    have := lexSpec_le_cons c t hw
    simp only [List.length_cons] at hlen ⊢
    omega

theorem ulexer_lexN_eq (bits : Nat) (input : Str) :
    ∀ (m pos : Nat), max input.length pos + m + 1 < 2 ^ bits →
      ∃ l2, ulexer.lexN bits m (lexAt input pos) = .ok (specTokens m (input.drop pos), l2) := by
  intro m
  induction m with
  | zero => intro pos _; exact ⟨_, rfl⟩
  | succ m ih =>
    intro pos hb
    have hle := lexSpec_le (input.drop pos)
    simp only [List.length_drop] at hle
    have hstep := ulexer_NextToken_eq bits _ _ _ (NextToken_lexAt input pos)
      (by
        show pos + (lexSpec (input.drop pos)).2 + 1 < 2 ^ bits
        omega)
    obtain ⟨l2, h2⟩ := ih (pos + (lexSpec (input.drop pos)).2) (by omega)
    refine ⟨l2, ?_⟩
    simp only [ulexer.lexN, hstep, Res.ok_bind, h2, Res.pure_eq, specTokens, List.drop_drop]

theorem ulexer_New_eq (bits : Nat) (input : Str) (hb : 1 < 2 ^ bits) :
    ulexer.New bits input = lexAt input 0 := by
  rw [← New_eq_lexAt]
  exact ulexer_readChar_eq bits _ hb

theorem ulexer_NextToken_nul (bits : Nat) (l : Lexer) (h : l.ch = NUL) :
    ulexer.NextToken bits l = .ok (⟨TypeEOF, []⟩, ulexer.readChar bits l) := by
  have hw : ulexer.eatWhitespace bits l = .ok l := by
    simp [ulexer.eatWhitespace, Lexer.loopFuel, ulexer.readWhile, h, isWhitespace, NUL]
  simp only [ulexer.NextToken, hw, Res.ok_bind, h]
  simp [NUL, token.New]

theorem ulexer_lexN_append (bits : Nat) :
    ∀ (n m : Nat) (l l1 l2 : Lexer) (ts us : List Token),
      ulexer.lexN bits n l = .ok (ts, l1) → ulexer.lexN bits m l1 = .ok (us, l2) →
      ulexer.lexN bits (n + m) l = .ok (ts ++ us, l2) := by
  intro n
  induction n with
  | zero =>
    intro m l l1 l2 ts us h1 h2
    cases h1
    simpa using h2
  | succ n ih =>
    intro m l l1 l2 ts us h1 h2
    simp only [ulexer.lexN] at h1
    obtain ⟨⟨t, la⟩, ha, h1⟩ := bind_ok_inv _ _ _ h1
    obtain ⟨⟨ts1, lb⟩, hb, h1⟩ := bind_ok_inv _ _ _ h1
    cases h1
    have := ih m la lb l2 ts1 us hb h2
    rw [show n + 1 + m = (n + m) + 1 by omega]
    simp only [ulexer.lexN, ha, Res.ok_bind, this, Res.pure_eq, List.cons_append]

theorem ulexer_eof_run (bits : Nat) (input : Str) :
    ∀ (k p : Nat), input.length ≤ p → p + k + 1 < 2 ^ bits →
      ulexer.lexN bits k (lexAt input p) =
        .ok (List.replicate k (Token.mk TypeEOF []), lexAt input (p + k)) := by
  intro k
  induction k with
  | zero => intro p _ _; rfl
  | succ k ih =>
    intro p hp hb
    have hstep := ulexer_NextToken_eq bits _ _ _ (NextToken_end input p hp)
      (by
        show p + 1 + 1 < 2 ^ bits
        omega)
    have := ih (p + 1) (by omega) (by omega)
    simp only [ulexer.lexN, hstep, Res.ok_bind, this, Res.pure_eq, List.replicate_succ]
    congr 3
    omega

theorem ulexer_wrap (bits : Nat) (input : Str) (hb : input.length + 2 ≤ 2 ^ bits) :
    ulexer.lexN bits 2 (lexAt input (2 ^ bits - 2)) =
      .ok ([Token.mk TypeEOF [], Token.mk TypeEOF []], lexAt input 0) := by
  have h1 : (lexAt input (2 ^ bits - 2)).ch = NUL := by
    simp only [lexAt]
    rw [List.drop_eq_nil_of_le (by omega)]
    rfl
  have h2 : ulexer.readChar bits (lexAt input (2 ^ bits - 2)) =
      { input := input, cPos := 2 ^ bits - 1, nPos := 0, ch := NUL } := by
    have hn : ¬ (2 ^ bits - 2 + 1 < input.length) := by omega
    have hm : (2 ^ bits - 2 + 1 + 1) % 2 ^ bits = 0 := by
      rw [show 2 ^ bits - 2 + 1 + 1 = 2 ^ bits by omega]
      exact Nat.mod_self _
    simp only [ulexer.readChar, lexAt, hn, if_false, hm]
    congr 1
    omega
  have h3 : ulexer.readChar bits { input := input, cPos := 2 ^ bits - 1, nPos := 0, ch := NUL } =
      lexAt input 0 := by
    have hm : (0 + 1) % 2 ^ bits = 1 := Nat.mod_eq_of_lt (by omega)
    simp only [ulexer.readChar, lexAt, hm, List.drop_zero]
    cases input <;> simp
  simp only [ulexer.lexN, ulexer_NextToken_nul bits _ h1, Res.ok_bind, h2,
    ulexer_NextToken_nul bits { input := input, cPos := 2 ^ bits - 1, nPos := 0, ch := NUL } rfl,
    h3, Res.pure_eq]

theorem ulexer_wrap_tokens (bits : Nat) (hb : 2 ≤ bits) :
    ulexer.lexTokens bits "a".toList (2 ^ bits + 1) =
      .ok (Token.mk TypeIdent "a".toList ::
        (List.replicate (2 ^ bits - 1) (Token.mk TypeEOF []) ++
          [Token.mk TypeIdent "a".toList])) := by
  have h4 : 4 ≤ 2 ^ bits := by
    calc 4 = 2 ^ 2 := rfl
      _ ≤ 2 ^ bits := Nat.pow_le_pow_right (by decide) hb
  have hfirst : ulexer.lexN bits 1 (lexAt "a".toList 0) =
      .ok ([Token.mk TypeIdent "a".toList], lexAt "a".toList 1) := by
    have h0 : (lexAt "a".toList 0).NextToken =
        .ok (Token.mk TypeIdent "a".toList, lexAt "a".toList 1) := by decide!
    have := ulexer_NextToken_eq bits _ _ _ h0
      (by
        show 1 + 1 < 2 ^ bits
        omega)
    simp only [ulexer.lexN, this, Res.ok_bind, Res.pure_eq]
  have hrun := ulexer_eof_run bits "a".toList (2 ^ bits - 3) 1 (by decide)
    (by
      omega)
  rw [show 1 + (2 ^ bits - 3) = 2 ^ bits - 2 by omega] at hrun
  have hwrap := ulexer_wrap bits "a".toList
    (by
      show 1 + 2 ≤ 2 ^ bits
      omega)
  have a1 := ulexer_lexN_append bits _ _ _ _ _ _ _ hfirst hrun
  have a2 := ulexer_lexN_append bits _ _ _ _ _ _ _ a1 hwrap
  have a3 := ulexer_lexN_append bits _ _ _ _ _ _ _ a2 hfirst
  rw [show 1 + (2 ^ bits - 3) + 2 + 1 = 2 ^ bits + 1 by omega] at a3
  simp only [ulexer.lexTokens, ulexer_New_eq bits _ (by omega : 1 < 2 ^ bits), a3, Res.ok_bind,
    Res.pure_eq]
  congr 1
  simp only [List.cons_append, List.nil_append, List.append_assoc, List.cons.injEq, true_and]
  have : 2 ^ bits - 1 = (2 ^ bits - 3) + 2 := by omega
  rw [this, List.replicate_add, List.append_assoc]
  rfl

/-! ## Steps of the parser on a token sequence -/

section CursorSteps

variable {P : Nat → List ParseError → Parser} {len : Nat}

theorem cur_peek (H : IsCursor P len) (j : Nat) (e : List ParseError) (t : TokenType)
    (h : (P (j + 1) e).ctok.typ = t) : (P j e).peek t = .ok (true, P (j + 1) e) := by
  have hn : (P j e).ntok.Type = t := by rw [H.ntok]; exact h
  simp only [Parser.peek, hn, ne_eq, not_true_eq_false, if_false, H.next, Res.ok_bind, Res.pure_eq]

theorem cur_skip (H : IsCursor P len) (j : Nat) (e : List ParseError)
    (h : (P (j + 1) e).ctok.typ = TypeSemicolon) :
    (P j e).skipSemicolon = .ok (P (j + 1) e) := by
  have hn : (P j e).ntok.Type = TypeSemicolon := by rw [H.ntok]; exact h
  simp only [Parser.skipSemicolon, hn, if_true, H.next]

theorem cur_noskip (H : IsCursor P len) (j : Nat) (e : List ParseError)
    (h : (P (j + 1) e).ctok.typ ≠ TypeSemicolon) : (P j e).skipSemicolon = .ok (P j e) := by
  have hn : (P j e).ntok.Type ≠ TypeSemicolon := by rw [H.ntok]; exact h
  simp only [Parser.skipSemicolon, hn, if_false]

theorem cur_stop (H : IsCursor P len) (pe : priority → Parser → Res (Expr × Parser))
    (m : Nat) (pr : priority) (f : Nat) (left : Expr) (j : Nat) (e : List ParseError)
    (h : (P (j + 1) e).ctok.typ = TypeSemicolon ∨ priorities (P (j + 1) e).ctok.typ ≤ pr) :
    parseInfixLoop pe m pr f left (P j e) = .ok (left, P j e) := by
  apply parseInfixLoop_stop
  rw [H.ntok]
  intro hcon
  rcases h with h | h
  · exact hcon.1 h
  · exact absurd hcon.2 (Nat.not_lt.mpr h)

theorem cur_ident (f : Nat) (pr : priority) (j : Nat) (e : List ParseError) (x : Str)
    (h : (P j e).ctok = ⟨TypeIdent, x⟩) :
    parseExpression (f + 1) pr (P j e) =
      parseInfixLoop (parseExpression f) f pr f (.Ident x) (P j e) := by
  simp [parseExpression, prefixes, runPrefix, Token.Type, Token.Literal, h]

theorem cur_integer (f : Nat) (pr : priority) (j : Nat) (e : List ParseError) (x : Str) (v : Int)
    (h : (P j e).ctok = ⟨TypeInt, x⟩) (hv : ParseInt x = some v) :
    parseExpression (f + 1) pr (P j e) =
      parseInfixLoop (parseExpression f) f pr f (.Integer v) (P j e) := by
  simp [parseExpression, prefixes, runPrefix, Token.Type, Token.Literal, h, hv]

theorem cur_binary (H : IsCursor P len) (pe : priority → Parser → Res (Expr × Parser))
    (m : Nat) (pr : priority) (k : Nat) (left right : Expr) (j j2 : Nat) (e : List ParseError)
    (t : TokenType) (op : Str) (ht : (P (j + 1) e).ctok = ⟨t, op⟩)
    (hb : infixes t = some .binary) (hpr : pr < priorities t)
    (hpe : pe (priorities t) (P (j + 2) e) = .ok (right, P j2 e)) :
    parseInfixLoop pe m pr (k + 1) left (P j e) =
      parseInfixLoop pe m pr k (.InfixExpr left op right) (P j2 e) := by
  have hs := (binary_facts _ hb).1
  have hn : (P j e).ntok = ⟨t, op⟩ := by rw [H.ntok]; exact ht
  simp only [parseInfixLoop, hn, Token.Type, ne_eq, hs, not_false_eq_true, hpr, and_self, if_true,
    hb, H.next, Res.ok_bind, runInfix, ht, Token.Literal, hpe, Res.pure_eq]

theorem sliceLoop_stop (H : IsCursor P len) (pe : priority → Parser → Res (Expr × Parser))
    (n : Nat) (vals : List Expr) (j : Nat) (e : List ParseError)
    (h : (P (j + 1) e).ctok.typ ≠ TypeComma) :
    parseExprSliceLoop pe n vals (P j e) = .ok (vals, P j e) := by
  have hn : (P j e).ntok.Type ≠ TypeComma := by rw [H.ntok]; exact h
  cases n <;> simp only [parseExprSliceLoop, hn, if_false]

theorem paramsLoop_stop (H : IsCursor P len) (n : Nat) (ids : List Str) (j : Nat)
    (e : List ParseError) (h : (P (j + 1) e).ctok.typ ≠ TypeComma) :
    parseFnParamsLoop n ids (P j e) = .ok (ids, P j e) := by
  have hn : (P j e).ntok.Type ≠ TypeComma := by rw [H.ntok]; exact h
  cases n <;> simp only [parseFnParamsLoop, hn, if_false]

/-- A call with one argument. -/
theorem cur_call1 (H : IsCursor P len) (pe : priority → Parser → Res (Expr × Parser))
    (m : Nat) (pr : priority) (k : Nat) (fn arg : Expr) (j j2 : Nat) (e : List ParseError)
    (h1 : (P (j + 1) e).ctok.typ = TypeLParen) (hpr : pr < priorityCall)
    (hn2 : (P (j + 2) e).ctok.typ ≠ TypeRParen)
    (hpe : pe priorityLowest (P (j + 2) e) = .ok (arg, P j2 e))
    (h3 : (P (j2 + 1) e).ctok.typ = TypeRParen) :
    parseInfixLoop pe m pr (k + 1) fn (P j e) =
      parseInfixLoop pe m pr k (.CallExpr fn [arg]) (P (j2 + 1) e) := by
  have hn : (P j e).ntok.Type = TypeLParen := by rw [H.ntok]; exact h1
  have hn1 : (P (j + 1) e).ntok.Type ≠ TypeRParen := by rw [H.ntok]; exact hn2
  have hp : pr < priorities TypeLParen := hpr
  have hc : (P (j2 + 1) e).ctok.typ ≠ TypeComma := by rw [h3]; decide
  simp only [parseInfixLoop, hn, ne_eq, reduceCtorEq, not_false_eq_true, hp, and_self, if_true,
    infixes, H.next, Res.ok_bind, runInfix, parseExprSlice, hn1, if_false, hpe,
    sliceLoop_stop H pe m [arg] j2 e hc, cur_peek H j2 e TypeRParen h3, Res.pure_eq,
    Bool.not_true, Bool.false_eq_true]

/-- A block with one statement. -/
theorem cur_block1 (H : IsCursor P len) (pe : priority → Parser → Res (Expr × Parser))
    (n : Nat) (s : Statement) (j j2 : Nat) (e : List ParseError)
    (h1 : (P (j + 1) e).ctok.typ ≠ TypeRBrace ∧ (P (j + 1) e).ctok.typ ≠ TypeEOF)
    (hs : parseStatement pe (P (j + 1) e) = .ok (some s, P j2 e))
    (h2 : (P (j2 + 1) e).ctok.typ = TypeRBrace) :
    parseBlock pe (n + 1) (P j e) = .ok (.mk [s] true, P (j2 + 1) e) := by
  have hc2 : ¬ ((P (j2 + 1) e).ctok.typ ≠ TypeRBrace ∧ (P (j2 + 1) e).ctok.typ ≠ TypeEOF) := by
    intro hcon
    exact hcon.1 h2
  have hend : parseBlockLoop pe n [s] (P (j2 + 1) e) = .ok ([s], P (j2 + 1) e) := by
    cases n <;> simp only [parseBlockLoop, Token.Type, hc2, if_false]
  simp only [parseBlock, H.next, Res.ok_bind, parseBlockLoop, Token.Type, if_pos h1,
    hs, List.nil_append, hend, Res.pure_eq, NewBlockStmt]

/-- A function literal with one parameter. -/
theorem cur_fn1 (H : IsCursor P len) (f : Nat) (pr : priority) (body : BlockStmt) (j j2 : Nat)
    (e : List ParseError) (lit x : Str)
    (h0 : (P j e).ctok = ⟨TypeFn, lit⟩) (h1 : (P (j + 1) e).ctok.typ = TypeLParen)
    (h2 : (P (j + 2) e).ctok = ⟨TypeIdent, x⟩) (h3 : (P (j + 3) e).ctok.typ = TypeRParen)
    (h4 : (P (j + 4) e).ctok.typ = TypeLBrace)
    (hb : parseBlock (parseExpression f) f (P (j + 4) e) = .ok (body, P j2 e)) :
    parseExpression (f + 1) pr (P j e) =
      parseInfixLoop (parseExpression f) f pr f (.Function [x] body) (P j2 e) := by
  have hn1 : (P (j + 1) e).ntok.typ ≠ TypeRParen := by rw [H.ntok, h2]; simp
  have hc : (P (j + 2 + 1) e).ctok.typ ≠ TypeComma := by
    show (P (j + 3) e).ctok.typ ≠ TypeComma
    rw [h3]; decide
  have hp3 : (P (j + 2) e).peek TypeRParen = .ok (true, P (j + 3) e) := cur_peek H (j + 2) e _ h3
  have hp4 : (P (j + 3) e).peek TypeLBrace = .ok (true, P (j + 4) e) := cur_peek H (j + 3) e _ h4
  have hn2 : (P (j + 1) e).nextToken = .ok (P (j + 2) e) := H.next (j + 1) e
  simp only [parseExpression, h0, Token.Type, prefixes, runPrefix, cur_peek H j e _ h1,
    Res.ok_bind, Bool.not_true, Bool.false_eq_true, if_false, parseFnParams, hn1, hn2,
    paramsLoop_stop H f [x] (j + 2) e hc, h2, Token.Literal, hp3, hp4, hb, Res.pure_eq]

/-- A `let` statement that ends with a semicolon. -/
theorem cur_let (H : IsCursor P len) (pe : priority → Parser → Res (Expr × Parser))
    (v : Expr) (j j2 : Nat) (e : List ParseError) (lit name : Str)
    (h0 : (P j e).ctok = ⟨TypeLet, lit⟩) (h1 : (P (j + 1) e).ctok = ⟨TypeIdent, name⟩)
    (h2 : (P (j + 2) e).ctok.typ = TypeAssign)
    (hv : pe priorityLowest (P (j + 3) e) = .ok (v, P j2 e))
    (h3 : (P (j2 + 1) e).ctok.typ = TypeSemicolon) :
    parseStatement pe (P j e) = .ok (some (.LetStmt name v), P (j2 + 1) e) := by
  have hp1 : (P j e).peek TypeIdent = .ok (true, P (j + 1) e) :=
    cur_peek H j e _ (by rw [h1])
  have hp2 : (P (j + 1) e).peek TypeAssign = .ok (true, P (j + 2) e) := cur_peek H (j + 1) e _ h2
  have hn : (P (j + 2) e).nextToken = .ok (P (j + 3) e) := H.next (j + 2) e
  simp only [parseStatement, h0, Token.Type, hp1, Res.ok_bind, Bool.not_true, Bool.false_eq_true,
    if_false, hp2, hn, hv, cur_skip H j2 e h3, h1, Token.Literal, Res.pure_eq]

/-- A `return` statement that ends with a semicolon. -/
theorem cur_return (H : IsCursor P len) (pe : priority → Parser → Res (Expr × Parser))
    (v : Expr) (j j2 : Nat) (e : List ParseError) (lit : Str)
    (h0 : (P j e).ctok = ⟨TypeReturn, lit⟩)
    (hv : pe priorityLowest (P (j + 1) e) = .ok (v, P j2 e))
    (h3 : (P (j2 + 1) e).ctok.typ = TypeSemicolon) :
    parseStatement pe (P j e) = .ok (some (.RetStmt v), P (j2 + 1) e) := by
  simp only [parseStatement, h0, Token.Type, H.next, Res.ok_bind, hv, cur_skip H j2 e h3,
    Res.pure_eq]

/-- An expression statement, with the semicolon after it if there is one. -/
theorem cur_exprStmt (H : IsCursor P len) (pe : priority → Parser → Res (Expr × Parser))
    (v : Expr) (j j2 : Nat) (e : List ParseError)
    (h0 : (P j e).ctok.typ ≠ TypeLet ∧ (P j e).ctok.typ ≠ TypeReturn)
    (hv : pe priorityLowest (P j e) = .ok (v, P j2 e)) :
    ((P (j2 + 1) e).ctok.typ = TypeSemicolon →
      parseStatement pe (P j e) = .ok (some (.ExprStmt v), P (j2 + 1) e)) ∧
    ((P (j2 + 1) e).ctok.typ ≠ TypeSemicolon →
      parseStatement pe (P j e) = .ok (some (.ExprStmt v), P j2 e)) := by
  have hm : parseStatement pe (P j e) = (do
      let (expr, p1) ← pe priorityLowest (P j e)
      let p2 ← p1.skipSemicolon
      pure (some (.ExprStmt expr), p2)) := by
    simp only [parseStatement, Token.Type]
    split
    · next hx => exact absurd hx h0.1
    · next hx => exact absurd hx h0.2
    · rfl
  constructor
  · intro h3
    simp only [hm, hv, Res.ok_bind, cur_skip H j2 e h3, Res.pure_eq]
  · intro h3
    simp only [hm, hv, Res.ok_bind, cur_noskip H j2 e h3, Res.pure_eq]

theorem cur_loop_step (H : IsCursor P len) (pe : priority → Parser → Res (Expr × Parser))
    (n : Nat) (ss : List Statement) (s : Statement) (j j2 : Nat) (e : List ParseError)
    (h0 : (P j e).ctok.typ ≠ TypeEOF)
    (hs : parseStatement pe (P j e) = .ok (some s, P j2 e)) :
    parseLoop pe (n + 1) ss (P j e) = parseLoop pe n (ss ++ [s]) (P (j2 + 1) e) := by
  have hc : (P j e).ctok.Type ≠ TypeEOF := h0
  simp only [parseLoop, hc, ne_eq, not_false_eq_true, if_true, hs, Res.ok_bind, H.next]

theorem cur_loop_end (pe : priority → Parser → Res (Expr × Parser))
    (n : Nat) (ss : List Statement) (j : Nat) (e : List ParseError)
    (h0 : (P j e).ctok.typ = TypeEOF) :
    parseLoop pe n ss (P j e) = .ok (ss, P j e) := by
  have hc : ¬ (P j e).ctok.Type ≠ TypeEOF := fun h => h h0
  cases n <;> simp only [parseLoop, hc, if_false]

end CursorSteps

/-! ## The tokens of an input do not depend on the bytes behind them -/

theorem takeWhile_append_of_lt (p : Char → Bool) (r : Str) :
    ∀ s : Str, (s.takeWhile p).length < s.length → (s ++ r).takeWhile p = s.takeWhile p := by
  intro s
  induction s with
  | nil => intro h; simp at h
  | cons c cs ih =>
    intro h
    by_cases hc : p c = true
    · simp only [List.takeWhile, hc, List.length_cons, Nat.add_lt_add_iff_right] at h
      have := ih h
      simp [List.takeWhile, hc, this]
    · simp [List.takeWhile, hc]

theorem lexSpec_sym (c : Char) (t : TokenType) (rest : Str)
    (h : (c, t) ∈ [('+', TypePlus), ('-', TypeMinus), ('*', TypeStar), ('/', TypeSlash),
      ('<', TypeLT), ('>', TypeGT), ('{', TypeLBrace), ('}', TypeRBrace), ('(', TypeLParen),
      (')', TypeRParen), ('[', TypeLBrakt), (']', TypeRBrakt), (',', TypeComma),
      (';', TypeSemicolon)]) :
    lexSpec (c :: rest) = (⟨t, [c]⟩, 1) := by
  simp only [List.mem_cons, Prod.mk.injEq, List.mem_singleton, List.not_mem_nil, or_false] at h
  rcases h with ⟨rfl, rfl⟩ | ⟨rfl, rfl⟩ | ⟨rfl, rfl⟩ | ⟨rfl, rfl⟩ | ⟨rfl, rfl⟩ | ⟨rfl, rfl⟩ |
    ⟨rfl, rfl⟩ | ⟨rfl, rfl⟩ | ⟨rfl, rfl⟩ | ⟨rfl, rfl⟩ | ⟨rfl, rfl⟩ | ⟨rfl, rfl⟩ | ⟨rfl, rfl⟩ |
    ⟨rfl, rfl⟩ <;>
    simp [lexSpec, scanToken, List.dropWhile, List.takeWhile, isWhitespace, token.New,
      byteString]

theorem lexSpec_append_cons (c : Char) (t r : Str) (hw : isWhitespace c = false)
    (h : (lexSpec (c :: t)).2 < t.length + 1) : lexSpec (c :: (t ++ r)) = lexSpec (c :: t) := by
  by_cases h0 : c = NUL
  · rw [h0, lexSpec_NUL, lexSpec_NUL]
  by_cases hl : isLetter c = true
  · rw [lexSpec_letter (c :: t) hl] at h
    rw [lexSpec_letter (c :: (t ++ r)) hl, lexSpec_letter (c :: t) hl]
    have := takeWhile_append_of_lt isLetter r (c :: t) h
    rw [List.cons_append] at this
    rw [this]
  by_cases hd : isDigit c = true
  · rw [lexSpec_digit (c :: t) hd] at h
    rw [lexSpec_digit (c :: (t ++ r)) hd, lexSpec_digit (c :: t) hd]
    have := takeWhile_append_of_lt isDigit r (c :: t) h
    rw [List.cons_append] at this
    rw [this]
  have hl2 : isLetter c = false := by simpa using hl
  have hd2 : isDigit c = false := by simpa using hd
  have hhead : (if t.headD NUL = '=' then (2 : Nat) else 1) < t.length + 1 →
      (t ++ r).headD NUL = t.headD NUL := by
    intro hx
    cases t with
    | nil => simp [NUL] at hx
    | cons y ys => rfl
  by_cases hmem : c ∈ "=!+-*/<>;,()\x7b\x7d[]\"".toList
  · simp only [String.toList, List.mem_cons, List.not_mem_nil, or_false] at hmem
    rcases hmem with rfl | rfl | hm
    · rw [lexSpec_equals] at h
      have hh := hhead (by split_ifs at h ⊢ <;> exact h)
      rw [lexSpec_equals, lexSpec_equals, hh]
    · rw [lexSpec_bang] at h
      have hh := hhead (by split_ifs at h ⊢ <;> exact h)
      rw [lexSpec_bang, lexSpec_bang, hh]
    · rcases hm with rfl | rfl | rfl | rfl | rfl | rfl | rfl | rfl | rfl | rfl | rfl | rfl | rfl |
        rfl | rfl
      all_goals first
        | (rw [lexSpec_string] at h
           rw [lexSpec_string, lexSpec_string,
             takeWhile_append_of_lt inString r t (by simp only [] at h; omega)])
        | simp [lexSpec, scanToken, List.dropWhile, List.takeWhile, isWhitespace, token.New,
            byteString, NUL]
  · rw [lexSpec_illegal c _ hw h0 hl2 hd2 hmem, lexSpec_illegal c _ hw h0 hl2 hd2 hmem]

theorem lexSpec_append (x r : Str) (h : (lexSpec x).2 < x.length) :
    lexSpec (x ++ r) = lexSpec x := by
  have hlen : x.length = (x.takeWhile isWhitespace).length + (x.dropWhile isWhitespace).length := by
    rw [← List.length_append, List.takeWhile_append_dropWhile]
  rw [lexSpec_trim] at h
  cases hx : x.dropWhile isWhitespace with
  | nil =>
    rw [hx, lexSpec_nil] at h
    rw [hx] at hlen
    simp only [List.length_nil] at hlen h
    omega
  | cons c t =>
    obtain ⟨hw, hsplit, _⟩ := dropWhile_cons_facts isWhitespace c t x hx
    rw [hx] at h hlen
    simp only [List.length_cons] at hlen
    have hall : ∀ d ∈ x.takeWhile isWhitespace, isWhitespace d = true :=
      fun d hd => List.mem_takeWhile_imp hd
    have hxr : x ++ r = x.takeWhile isWhitespace ++ (c :: (t ++ r)) := by
      have := congrArg (fun y => y ++ r) hsplit
      simpa [List.append_assoc] using this
    have hd1 : (x ++ r).dropWhile isWhitespace = c :: (t ++ r) := by
      rw [hxr, List.dropWhile_append_of_pos hall]
      simp [List.dropWhile, hw]
    have ht1 : (x ++ r).takeWhile isWhitespace = x.takeWhile isWhitespace := by
      rw [hxr]
      exact takeWhile_until isWhitespace _ _ hall (by
        intro c2 r2 h2
        rw [← (List.cons.inj h2).1]
        exact hw)
    rw [lexSpec_trim (x ++ r), lexSpec_trim x, hd1, ht1, hx,
      lexSpec_append_cons c t r hw (by simp only [] at h; omega)]

theorem tokenPos_stable (x r : Str) :
    ∀ k, tokenPos x k < x.length →
      tokenPos (x ++ r) k = tokenPos x k ∧ ∀ j, j < k → tokenAt (x ++ r) j = tokenAt x j := by
  intro k
  induction k with
  | zero => intro _; exact ⟨rfl, fun j hj => absurd hj (Nat.not_lt_zero _)⟩
  | succ k ih =>
    intro h
    have hstep : tokenPos x (k + 1) = tokenPos x k + (lexSpec (x.drop (tokenPos x k))).2 := rfl
    have hk : tokenPos x k < x.length := by
      have := (lexSpec_facts (x.drop (tokenPos x k))).1
      omega
    obtain ⟨hp, ht⟩ := ih hk
    have hdrop : (x ++ r).drop (tokenPos x k) = x.drop (tokenPos x k) ++ r :=
      List.drop_append_of_le_length (Nat.le_of_lt hk)
    have hl : lexSpec (x.drop (tokenPos x k) ++ r) = lexSpec (x.drop (tokenPos x k)) := by
      apply lexSpec_append
      rw [List.length_drop]
      omega
    have hk1 : tokenAt (x ++ r) k = tokenAt x k := by
      simp only [tokenAt, restAfter, hp, hdrop, hl]
    constructor
    · show tokenPos (x ++ r) k + (lexSpec ((x ++ r).drop (tokenPos (x ++ r) k))).2 = _
      rw [hp, hdrop, hl, hstep]
    · intro j hj
      by_cases hjk : j < k
      · exact ht j hjk
      · have : j = k := by omega
        rw [this]
        exact hk1

theorem restAfter_stable (x r : Str) (k : Nat) (h : tokenPos x k < x.length) :
    restAfter (x ++ r) k = restAfter x k ++ r := by
  simp only [restAfter, (tokenPos_stable x r k h).1]
  exact List.drop_append_of_le_length (Nat.le_of_lt h)

theorem restAfter_shift (input s : Str) (i : Nat) (hs : restAfter input i = s) :
    ∀ j, restAfter input (i + j) = restAfter s j ∧ tokenAt input (i + j) = tokenAt s j := by
  have hr : ∀ j, restAfter input (i + j) = restAfter s j := by
    intro j
    induction j with
    | zero => exact hs
    | succ j ih =>
      rw [show i + (j + 1) = (i + j) + 1 from rfl, restAfter_succ, restAfter_succ, ih]
  intro j
  exact ⟨hr j, by simp only [tokenAt, hr j]⟩

theorem head_not (p : Char → Bool) (c0 : Char) (x : Str) (hc : p c0 = false) :
    ∀ c r, c0 :: x = c :: r → p c = false := by
  intro c r h
  rw [← (List.cons.inj h).1]
  exact hc

theorem trimmed_of_digits (input : Str) (i : Nat) (d rest : Str)
    (hs : restAfter input i = d ++ rest) (hd : isDigitRun d = true) :
    trimmed input i = d ++ rest := by
  simp only [isDigitRun, Bool.and_eq_true, Bool.not_eq_true', List.isEmpty_eq_false,
    List.all_eq_true] at hd
  obtain ⟨hne, hall⟩ := hd
  cases d with
  | nil => exact absurd rfl hne
  | cons c cs =>
    have hc : isDigit c = true := hall c (by simp)
    exact trimmed_of_rest input i c (cs ++ rest) hs (digit_facts c hc).1

/-! ## The parser reads the rendering of a statement list back -/

theorem lexSpec_word (w rest : Str) (hw : (!w.isEmpty && w.all isLetter) = true)
    (hr : ∀ c r, rest = c :: r → isLetter c = false) :
    lexSpec (w ++ rest) = (token.New TypeLookup w, w.length) := by
  simp only [Bool.and_eq_true, Bool.not_eq_true', List.isEmpty_eq_false, List.all_eq_true] at hw
  obtain ⟨hne, hall⟩ := hw
  have hhead : isLetter ((w ++ rest).headD NUL) = true := by
    cases w with
    | nil => exact absurd rfl hne
    | cons c cs => exact hall c (by simp)
  rw [lexSpec_letter _ hhead, takeWhile_until isLetter w rest hall hr]

theorem tokenT_word (input : Str) (i : Nat) (w : Str) (tok : Token) (rest : Str)
    (hs : trimmed input i = w ++ rest) (hw : (!w.isEmpty && w.all isLetter) = true)
    (htok : token.New TypeLookup w = tok) (hr : ∀ c r, rest = c :: r → isLetter c = false) :
    tokenAt input i = tok ∧ restAfter input (i + 1) = rest := by
  have h := token_trim input i _ _ _ hs (lexSpec_word w rest hw hr)
  rw [List.drop_left, htok] at h
  exact h

theorem tokenT_assign (input : Str) (i : Nat) (rest : Str)
    (hs : trimmed input i = '=' :: rest) (hr : rest.headD NUL ≠ '=') :
    tokenAt input i = ⟨TypeAssign, "=".toList⟩ ∧ restAfter input (i + 1) = rest := by
  have h := token_trim input i _ _ _ hs (by rw [lexSpec_equals, if_neg hr])
  simpa using h

theorem let_inv (name : Str) (v : Expr) (a : Str) (hv : v.plain = true)
    (h : Statement.String (.LetStmt name v) = .ok a) :
    ∃ sv, Expr.String v = .ok sv ∧
      a = "let".toList ++ (' ' :: (name ++ (' ' :: '=' :: ' ' :: (sv ++ [';'])))) := by
  cases hs : Expr.String v with
  | ok sv =>
    refine ⟨sv, rfl, ?_⟩
    cases v with
    | nil => simp [Expr.plain] at hv
    | _ =>
      simp only [Statement.String, hs, Res.ok_bind, Res.pure_eq, Res.ok.injEq] at h
      rw [← h]
      simp
  | panic =>
    cases v with
    | nil => simp [Expr.plain] at hv
    | _ => simp [Statement.String, hs] at h
  | outOfFuel =>
    cases v with
    | nil => simp [Expr.plain] at hv
    | _ => simp [Statement.String, hs] at h

theorem return_inv (v : Expr) (a : Str) (hv : v.plain = true)
    (h : Statement.String (.RetStmt v) = .ok a) :
    ∃ sv, Expr.String v = .ok sv ∧ a = "return".toList ++ (' ' :: (sv ++ [';'])) := by
  cases hs : Expr.String v with
  | ok sv =>
    refine ⟨sv, rfl, ?_⟩
    cases v with
    | nil => simp [Expr.plain] at hv
    | _ =>
      simp only [Statement.String, hs, Res.ok_bind, Res.pure_eq, Res.ok.injEq] at h
      rw [← h]
      simp
  | panic =>
    cases v with
    | nil => simp [Expr.plain] at hv
    | _ => simp [Statement.String, hs] at h
  | outOfFuel =>
    cases v with
    | nil => simp [Expr.plain] at hv
    | _ => simp [Statement.String, hs] at h

theorem exprStmt_inv (v : Expr) (a : Str) (hv : v.plain = true)
    (h : Statement.String (.ExprStmt v) = .ok a) : Expr.String v = .ok a := by
  cases v with
  | nil => simp [Expr.plain] at hv
  | _ => simpa [Statement.String] using h

theorem stmts_cons_inv (s : Statement) (ss : List Statement) (R : Str)
    (h : Statement.Strings (s :: ss) = .ok R) :
    ∃ a b, Statement.String s = .ok a ∧ Statement.Strings ss = .ok b ∧ R = a ++ b := by
  simp only [Statement.Strings] at h
  cases ha : Statement.String s with
  | ok a =>
    cases hb : Statement.Strings ss with
    | ok b =>
      simp only [ha, hb, Res.ok_bind, Res.pure_eq, Res.ok.injEq] at h
      exact ⟨a, b, rfl, rfl, h.symm⟩
    | panic => simp [ha, hb] at h
    | outOfFuel => simp [ha, hb] at h
  | panic => simp [ha] at h
  | outOfFuel => simp [ha] at h

/-- A `let` statement in its rendering. -/
theorem let_back (name : Str) (v : Expr) (sv : Str) (hname : isIdentifier name = true)
    (hv : ParsesBack v) (hsv : Expr.String v = .ok sv) (input : Str) (i : Nat)
    (e : List ParseError) (R : Str) (f : Nat)
    (hr : restAfter input i =
      "let".toList ++ (' ' :: (name ++ (' ' :: '=' :: ' ' :: (sv ++ (';' :: R))))))
    (hf : 2 * v.nodes ≤ f) :
    (tokenAt input i).typ = TypeLet ∧
    ∃ k, parseStatement (parseExpression (f + 1)) (parserAt input i e) =
        .ok (some (.LetStmt name v), parserAt input k e) ∧
      restAfter input (k + 1) = R := by
  have htr0 : trimmed input i =
      "let".toList ++ (' ' :: (name ++ (' ' :: '=' :: ' ' :: (sv ++ (';' :: R))))) :=
    trimmed_of_rest input i 'l' _ hr (by decide)
  obtain ⟨t0, r1⟩ := tokenT_word input i "let".toList ⟨TypeLet, "let".toList⟩ _ htr0
    (by decide) (by decide) (head_not isLetter ' ' _ (by decide))
  obtain ⟨c, cr, hcr, hc⟩ := identifier_start name hname
  have htr1 : trimmed input (i + 1) = name ++ (' ' :: '=' :: ' ' :: (sv ++ (';' :: R))) := by
    rw [hcr] at r1 ⊢
    exact trimmed_of_blank input (i + 1) c _ r1 (startsExpr_facts c hc).1
  obtain ⟨t1, r2⟩ := tokenT_ident input (i + 1) name _ htr1 hname
    (head_not isLetter ' ' _ (by decide))
  have htr2 : trimmed input (i + 2) = '=' :: ' ' :: (sv ++ (';' :: R)) :=
    trimmed_of_blank input (i + 2) '=' _ r2 (by decide)
  obtain ⟨t2, r3⟩ := tokenT_assign input (i + 2) _ htr2 (by simp)
  obtain ⟨⟨d, dr, hdr, hd⟩, _, _⟩ := hv sv hsv
  have htr3 : trimmed input (i + 3) = sv ++ (';' :: R) := by
    rw [hdr] at r3 ⊢
    exact trimmed_of_blank input (i + 3) d _ r3 (startsExpr_facts d hd).1
  obtain ⟨k, hk, rk⟩ := parsesBack_complete v hv sv hsv input (i + 3) e (';' :: R) f
    priorityLowest htr3 (follows_of_clean _ _ (clean_cons _ _ (by decide))) hf (by decide)
    (Or.inl (by rw [lexSpec_punct ';' TypeSemicolon R (by simp)]))
  obtain ⟨t3, r4⟩ := token_punct input (k + 1) ';' TypeSemicolon R rk (by simp)
  have c0 : (parserAt input i e).ctok = ⟨TypeLet, "let".toList⟩ :=
    (parserAt_ctok input i e).trans t0
  have c1 : (parserAt input (i + 1) e).ctok = ⟨TypeIdent, name⟩ :=
    (parserAt_ctok input (i + 1) e).trans t1
  have c2 : (parserAt input (i + 2) e).ctok.typ = TypeAssign := by rw [parserAt_ctok, t2]
  have c3 : (parserAt input (k + 1) e).ctok.typ = TypeSemicolon := by rw [parserAt_ctok, t3]
  exact ⟨by rw [t0], k + 1, cur_let (parserAt_cursor input) (parseExpression (f + 1)) v i k e
    "let".toList name c0 c1 c2 hk c3, r4⟩

/-- A `return` statement in its rendering. -/
theorem return_back (v : Expr) (sv : Str) (hv : ParsesBack v) (hsv : Expr.String v = .ok sv)
    (input : Str) (i : Nat) (e : List ParseError) (R : Str) (f : Nat)
    (hr : restAfter input i = "return".toList ++ (' ' :: (sv ++ (';' :: R))))
    (hf : 2 * v.nodes ≤ f) :
    (tokenAt input i).typ = TokenType.TypeReturn ∧
    ∃ k, parseStatement (parseExpression (f + 1)) (parserAt input i e) =
        .ok (some (.RetStmt v), parserAt input k e) ∧
      restAfter input (k + 1) = R := by
  have htr0 : trimmed input i = "return".toList ++ (' ' :: (sv ++ (';' :: R))) :=
    trimmed_of_rest input i 'r' _ hr (by decide)
  obtain ⟨t0, r1⟩ := tokenT_word input i "return".toList ⟨TokenType.TypeReturn, "return".toList⟩ _ htr0
    (by decide) (by decide) (head_not isLetter ' ' _ (by decide))
  obtain ⟨⟨d, dr, hdr, hd⟩, _, _⟩ := hv sv hsv
  have htr1 : trimmed input (i + 1) = sv ++ (';' :: R) := by
    rw [hdr] at r1 ⊢
    exact trimmed_of_blank input (i + 1) d _ r1 (startsExpr_facts d hd).1
  obtain ⟨k, hk, rk⟩ := parsesBack_complete v hv sv hsv input (i + 1) e (';' :: R) f
    priorityLowest htr1 (follows_of_clean _ _ (clean_cons _ _ (by decide))) hf (by decide)
    (Or.inl (by rw [lexSpec_punct ';' TypeSemicolon R (by simp)]))
  obtain ⟨t3, r4⟩ := token_punct input (k + 1) ';' TypeSemicolon R rk (by simp)
  have c0 : (parserAt input i e).ctok = ⟨TokenType.TypeReturn, "return".toList⟩ :=
    (parserAt_ctok input i e).trans t0
  have c3 : (parserAt input (k + 1) e).ctok.typ = TypeSemicolon := by rw [parserAt_ctok, t3]
  exact ⟨by rw [t0], k + 1, cur_return (parserAt_cursor input) (parseExpression (f + 1)) v i k e
    "return".toList c0 hk c3, r4⟩

theorem word_type (w : Str) :
    (token.New TypeLookup w).typ ≠ TypeSemicolon ∧
      priorities (token.New TypeLookup w).typ ≤ priorityLowest := by
  simp only [token.New, if_true]
  split_ifs <;> simp [priorities, priorityLowest]

/-- What `separate` gives: the follower does not run into the rendering, and
the token it starts with neither is a semicolon nor continues an expression. -/
theorem separate_facts (a b : Str) (h : separate a b = true) :
    Follows a b ∧ (lexSpec b).1.typ ≠ TypeSemicolon ∧
      priorities (lexSpec b).1.typ ≤ priorityLowest := by
  cases b with
  | nil =>
    refine ⟨follows_nil a, ?_, ?_⟩ <;> rw [lexSpec_nil] <;> decide
  | cons c x =>
    simp only [separate, Bool.or_eq_true, Bool.and_eq_true, Bool.not_eq_true'] at h
    rcases h with ⟨hc, ha⟩ | ⟨hc, ha⟩
    · refine ⟨?_, ?_⟩
      · intro d r hd
        rw [← (List.cons.inj hd).1]
        refine ⟨fun hl => ?_, fun _ => ?_⟩
        · rw [ha] at hl
          cases hl
        · cases hdg : isDigit c with
          | false => rfl
          | true =>
            have := (digit_facts c hdg).2.2.2.2.2.2.2.2.2.2.2.2.2.2.2.2.2.2.2
            rw [hc] at this
            cases this
      · rw [lexSpec_letter (c :: x) hc]
        exact word_type _
    · refine ⟨?_, ?_⟩
      · intro d r hd
        rw [← (List.cons.inj hd).1]
        refine ⟨fun _ => (digit_facts c hc).2.2.2.2.2.2.2.2.2.2.2.2.2.2.2.2.2.2.2, fun hl => ?_⟩
        rw [ha] at hl
        cases hl
      · rw [lexSpec_digit (c :: x) hc, New_of_ne _ _ (by decide)]
        simp [priorities, priorityLowest]

/-- An expression statement in its rendering, with the statements that follow
right behind it. -/
theorem exprStmt_back (v : Expr) (sv : Str) (hv : ParsesBack v) (hsv : Expr.String v = .ok sv)
    (input : Str) (i : Nat) (e : List ParseError) (R : Str) (f : Nat)
    (hr : restAfter input i = sv ++ R) (hsep : separate sv R = true) (hf : 2 * v.nodes ≤ f) :
    (tokenAt input i).typ ≠ TypeEOF ∧
    ∃ k, parseStatement (parseExpression (f + 1)) (parserAt input i e) =
        .ok (some (.ExprStmt v), parserAt input k e) ∧
      restAfter input (k + 1) = R := by
  obtain ⟨hfol, hsemi, hprio⟩ := separate_facts sv R hsep
  obtain ⟨⟨d, dr, hdr, hd⟩, _, hv2⟩ := hv sv hsv
  have htr : trimmed input i = sv ++ R := by
    rw [hdr] at hr ⊢
    exact trimmed_of_rest input i d _ hr (startsExpr_facts d hd).1
  have htyp := (hv2 input i e R f priorityLowest htr hfol hf (by decide)).1
  obtain ⟨k, hk, rk⟩ := parsesBack_complete v hv sv hsv input i e R f priorityLowest htr hfol hf
    (by decide) (Or.inr hprio)
  have hne : ∀ t, t ∉ [TypeIdent, TokenType.TypeInt, TokenType.TypeBool, TypeLParen, TypeLBrakt] →
      (tokenAt input i).typ ≠ t := by
    intro t ht heq
    rw [heq] at htyp
    exact ht htyp
  have c0 : (parserAt input i e).ctok.typ ≠ TypeLet ∧ (parserAt input i e).ctok.typ ≠ TokenType.TypeReturn := by
    rw [parserAt_ctok]
    exact ⟨hne _ (by decide), hne _ (by decide)⟩
  have c1 : (parserAt input (k + 1) e).ctok.typ ≠ TypeSemicolon := by
    rw [parserAt_ctok, tokenAt_of_rest input (k + 1) R rk]
    exact hsemi
  exact ⟨hne _ (by decide), k, (cur_exprStmt (parserAt_cursor input) (parseExpression (f + 1)) v i k e
    c0 hk).2 c1, rk⟩

theorem readable_cons (s : Statement) (ss : List Statement) (h : readable (s :: ss) = true) :
    s.plain = true ∧ readable ss = true := by
  simp only [readable, Bool.and_eq_true] at h
  exact h.1

theorem readable_sep (v : Expr) (ss : List Statement) (a b : Str)
    (h : readable (.ExprStmt v :: ss) = true) (ha : Expr.String v = .ok a)
    (hb : Statement.Strings ss = .ok b) : separate a b = true := by
  simp only [readable, Bool.and_eq_true, ha, hb] at h
  exact h.2

/-- A statement of a readable list in its rendering, with the rendering of the
statements after it right behind. -/
theorem stmt_back (s : Statement) (ss : List Statement) (hread : readable (s :: ss) = true)
    (a b : Str) (ha : Statement.String s = .ok a) (hb : Statement.Strings ss = .ok b)
    (input : Str) (i : Nat) (e : List ParseError) (f : Nat)
    (hr : restAfter input i = a ++ b) (hf : 2 * a.length ≤ f) :
    0 < a.length ∧ (tokenAt input i).typ ≠ TypeEOF ∧
    ∃ k, parseStatement (parseExpression (f + 1)) (parserAt input i e) =
        .ok (some s, parserAt input k e) ∧
      restAfter input (k + 1) = b := by
  have hplain := (readable_cons s ss hread).1
  cases s with
  | LetStmt name v =>
    simp only [Statement.plain, Bool.and_eq_true] at hplain
    obtain ⟨sv, hsv, hav⟩ := let_inv name v a hplain.2 ha
    have hv := plain_parsesBack v.nodes v (Nat.le_refl _) hplain.2
    have hn := (hv sv hsv).2.1
    have hlen : a.length = 3 + (1 + (name.length + (3 + (sv.length + 1)))) := by
      rw [hav]
      simp
      omega
    have hr2 : restAfter input i =
        "let".toList ++ (' ' :: (name ++ (' ' :: '=' :: ' ' :: (sv ++ (';' :: b))))) := by
      rw [hr, hav]
      simp
    obtain ⟨h0, k, hk, rk⟩ := let_back name v sv hplain.1 hv hsv input i e b f hr2 (by omega)
    refine ⟨by omega, ?_, k, hk, rk⟩
    rw [h0]
    decide
  | RetStmt v =>
    simp only [Statement.plain] at hplain
    obtain ⟨sv, hsv, hav⟩ := return_inv v a hplain ha
    have hv := plain_parsesBack v.nodes v (Nat.le_refl _) hplain
    have hn := (hv sv hsv).2.1
    have hlen : a.length = 6 + (1 + (sv.length + 1)) := by
      rw [hav]
      simp
      omega
    have hr2 : restAfter input i = "return".toList ++ (' ' :: (sv ++ (';' :: b))) := by
      rw [hr, hav]
      simp
    obtain ⟨h0, k, hk, rk⟩ := return_back v sv hv hsv input i e b f hr2 (by omega)
    refine ⟨by omega, ?_, k, hk, rk⟩
    rw [h0]
    decide
  | ExprStmt v =>
    simp only [Statement.plain] at hplain
    have hsv := exprStmt_inv v a hplain ha
    have hv := plain_parsesBack v.nodes v (Nat.le_refl _) hplain
    have hn := (hv a hsv).2.1
    have hpos := nodes_pos v
    obtain ⟨h0, k, hk, rk⟩ := exprStmt_back v a hv hsv input i e b f hr
      (readable_sep v ss a b hread hsv hb) (by omega)
    exact ⟨by omega, h0, k, hk, rk⟩
  | Block blk => simp [Statement.plain] at hplain

/-- The loop of `Parse` on the rendering of a readable list of statements. -/
theorem loop_back (input : Str) (e : List ParseError) (F : Nat) :
    ∀ (ss : List Statement) (R : Str), readable ss = true → Statement.Strings ss = .ok R →
    ∀ (j n : Nat) (acc : List Statement), restAfter input j = R → R.length ≤ n →
      2 * R.length ≤ F →
      ∃ k, parseLoop (parseExpression (F + 1)) n acc (parserAt input j e) =
        .ok (acc ++ ss, parserAt input k e) := by
  intro ss
  induction ss with
  | nil =>
    intro R _ hR j n acc hr _ _
    simp only [Statement.Strings, Res.ok.injEq] at hR
    subst hR
    have h0 : (parserAt input j e).ctok.typ = TypeEOF := by
      rw [parserAt_ctok, (token_end input j hr).1]
    exact ⟨j, by rw [cur_loop_end _ n acc j e h0, List.append_nil]⟩
  | cons s ss ih =>
    intro R hread hR j n acc hr hn hF
    obtain ⟨a, b, ha, hb, hab⟩ := stmts_cons_inv s ss R hR
    subst hab
    rw [List.length_append] at hn hF
    obtain ⟨hpos, h0, k, hk, rk⟩ := stmt_back s ss hread a b ha hb input j e F hr (by omega)
    obtain ⟨n1, rfl⟩ : ∃ n1, n = n1 + 1 := ⟨n - 1, by omega⟩
    have c0 : (parserAt input j e).ctok.typ ≠ TypeEOF := by
      rw [parserAt_ctok]
      exact h0
    obtain ⟨k2, hk2⟩ := ih b (readable_cons s ss hread).2 hb (k + 1) n1 (acc ++ [s]) rk
      (by omega) (by omega)
    refine ⟨k2, ?_⟩
    rw [cur_loop_step (parserAt_cursor input) _ n1 acc s j k e c0 hk, hk2, List.append_assoc]
    rfl

theorem parseSource_of_loop (input : Str) (ss : List Statement) (p : Parser) (hp : p.errs = [])
    (h : parseLoop (parseExpression (parseFuel input)) (parseFuel input) []
      (parserAt input 0 []) = .ok (ss, p)) :
    parseSource input = .ok (⟨ss⟩, []) := by
  simp only [parseSource, parseInput, New_parserAt, Res.ok_bind, Parser.Parse, h, Res.pure_eq,
    Parser.Errors, hp, errorStrings]

/-- The rendering of a readable list of statements parses to that list, with
no parser error. -/
theorem reparse_readable (ss : List Statement) (hread : readable ss = true) (s : Str)
    (hs : Statement.Strings ss = .ok s) :
    parseSource s = .ok (⟨ss⟩, []) ∧ parseToString s = .ok (s, []) := by
  obtain ⟨k, hk⟩ := loop_back s [] (2 * s.length + 3) ss s hread hs 0 (2 * s.length + 4) []
    (restAfter_zero s) (by omega) (by omega)
  have hsrc : parseSource s = .ok (⟨ss⟩, []) :=
    parseSource_of_loop s ss (parserAt s k []) (parserAt_errs s k []) hk
  refine ⟨hsrc, ?_⟩
  have hstr : Program.String ⟨ss⟩ = .ok s := hs
  simp only [parseToString, hsrc, Res.ok_bind, hstr, Res.pure_eq]

/-! ## The adder program: from the source text to its value -/

theorem parse_adder {P : Nat → List ParseError → Parser} {len : Nat} (H : IsCursor P len)
    (A B : Expr) (ja jb : Nat) (g : Nat)
    (t0 : (P 0 []).ctok = ⟨TypeLet, "let".toList⟩)
    (t1 : (P 1 []).ctok = ⟨TypeIdent, "newAdder".toList⟩)
    (t2 : (P 2 []).ctok = ⟨TypeAssign, "=".toList⟩)
    (t3 : (P 3 []).ctok = ⟨TypeFn, "fn".toList⟩)
    (t4 : (P 4 []).ctok = ⟨TypeLParen, "(".toList⟩)
    (t5 : (P 5 []).ctok = ⟨TypeIdent, "x".toList⟩)
    (t6 : (P 6 []).ctok = ⟨TypeRParen, ")".toList⟩)
    (t7 : (P 7 []).ctok = ⟨TypeLBrace, "\x7b".toList⟩)
    (t8 : (P 8 []).ctok = ⟨TypeReturn, "return".toList⟩)
    (t9 : (P 9 []).ctok = ⟨TypeFn, "fn".toList⟩)
    (t10 : (P 10 []).ctok = ⟨TypeLParen, "(".toList⟩)
    (t11 : (P 11 []).ctok = ⟨TypeIdent, "y".toList⟩)
    (t12 : (P 12 []).ctok = ⟨TypeRParen, ")".toList⟩)
    (t13 : (P 13 []).ctok = ⟨TypeLBrace, "\x7b".toList⟩)
    (t14 : (P 14 []).ctok = ⟨TypeReturn, "return".toList⟩)
    (t15 : (P 15 []).ctok = ⟨TypeIdent, "x".toList⟩)
    (t16 : (P 16 []).ctok = ⟨TypePlus, "+".toList⟩)
    (t17 : (P 17 []).ctok = ⟨TypeIdent, "y".toList⟩)
    (t18 : (P 18 []).ctok = ⟨TypeSemicolon, ";".toList⟩)
    (t19 : (P 19 []).ctok = ⟨TypeRBrace, "\x7d".toList⟩)
    (t20 : (P 20 []).ctok = ⟨TypeSemicolon, ";".toList⟩)
    (t21 : (P 21 []).ctok = ⟨TypeRBrace, "\x7d".toList⟩)
    (t22 : (P 22 []).ctok = ⟨TypeSemicolon, ";".toList⟩)
    (t23 : (P 23 []).ctok = ⟨TypeLet, "let".toList⟩)
    (t24 : (P 24 []).ctok = ⟨TypeIdent, "add".toList⟩)
    (t25 : (P 25 []).ctok = ⟨TypeAssign, "=".toList⟩)
    (t26 : (P 26 []).ctok = ⟨TypeIdent, "newAdder".toList⟩)
    (t27 : (P 27 []).ctok = ⟨TypeLParen, "(".toList⟩)
    (n28 : (P 28 []).ctok.typ ≠ TypeRParen)
    (eA : parseExpression (g + 7) priorityLowest (P 28 []) = .ok (A, P ja []))
    (a1 : (P (ja + 1) []).ctok.typ = TypeRParen)
    (a2 : (P (ja + 2) []).ctok.typ = TypeSemicolon)
    (a3 : (P (ja + 3) []).ctok = ⟨TypeIdent, "add".toList⟩)
    (a4 : (P (ja + 4) []).ctok.typ = TypeLParen)
    (n5 : (P (ja + 5) []).ctok.typ ≠ TypeRParen)
    (eB : parseExpression (g + 7) priorityLowest (P (ja + 5) []) = .ok (B, P jb []))
    (b1 : (P (jb + 1) []).ctok.typ = TypeRParen)
    (b2 : (P (jb + 2) []).ctok.typ = TypeSemicolon)
    (b3 : (P (jb + 3) []).ctok.typ = TypeEOF)
    : Parser.Parse (g + 8) (P 0 []) = .ok (adderTree A B, P (jb + 3) []) := by
  have ty : ∀ {j : Nat} {t : TokenType} {l : Str}, (P j []).ctok = ⟨t, l⟩ → (P j []).ctok.typ = t :=
    fun h => by rw [h]
  -- `x + y`
  have e17 : parseExpression (g + 5) prioritySum (P 17 []) = .ok (.Ident "y".toList, P 17 []) := by
    rw [cur_ident _ _ _ _ _ t17]
    exact cur_stop H _ _ _ _ _ _ _ (Or.inl (ty t18))
  have e15 : parseExpression (g + 6) priorityLowest (P 15 []) =
      .ok (.InfixExpr (.Ident "x".toList) "+".toList (.Ident "y".toList), P 17 []) := by
    rw [cur_ident _ _ _ _ _ t15,
      cur_binary H _ _ _ (g + 4) _ (.Ident "y".toList) 15 17 [] TypePlus "+".toList t16 rfl
        (by decide) e17]
    exact cur_stop H _ _ _ _ _ _ _ (Or.inl (ty t18))
  -- `return x + y;` and the block around it
  have s14 : parseStatement (parseExpression (g + 6)) (P 14 []) =
      .ok (some (.RetStmt (.InfixExpr (.Ident "x".toList) "+".toList (.Ident "y".toList))),
        P 18 []) :=
    cur_return H _ _ 14 17 [] _ t14 e15 (ty t18)
  have b13 : parseBlock (parseExpression (g + 6)) (g + 6) (P 13 []) =
      .ok (.mk [.RetStmt (.InfixExpr (.Ident "x".toList) "+".toList (.Ident "y".toList))] true,
        P 19 []) :=
    cur_block1 H _ (g + 5) _ 13 18 [] ⟨by rw [ty t14]; decide, by rw [ty t14]; decide⟩ s14
      (ty t19)
  -- `fn(y) { return x + y; }`
  have e9 : parseExpression (g + 7) priorityLowest (P 9 []) =
      .ok (.Function ["y".toList]
        (.mk [.RetStmt (.InfixExpr (.Ident "x".toList) "+".toList (.Ident "y".toList))] true),
        P 19 []) := by
    rw [cur_fn1 H (g + 6) _ _ 9 19 [] _ _ t9 (ty t10) t11 (ty t12) (ty t13) b13]
    exact cur_stop H _ _ _ _ _ _ _ (Or.inl (ty t20))
  have s8 : parseStatement (parseExpression (g + 7)) (P 8 []) =
      .ok (some (.RetStmt (.Function ["y".toList]
        (.mk [.RetStmt (.InfixExpr (.Ident "x".toList) "+".toList (.Ident "y".toList))] true))),
        P 20 []) :=
    cur_return H _ _ 8 19 [] _ t8 e9 (ty t20)
  have b7 : parseBlock (parseExpression (g + 7)) (g + 7) (P 7 []) =
      .ok (.mk [.RetStmt (.Function ["y".toList]
        (.mk [.RetStmt (.InfixExpr (.Ident "x".toList) "+".toList (.Ident "y".toList))] true))]
        true, P 21 []) :=
    cur_block1 H _ (g + 6) _ 7 20 [] ⟨by rw [ty t8]; decide, by rw [ty t8]; decide⟩ s8 (ty t21)
  -- `fn(x) { ... }` and the first statement
  have e3 : parseExpression (g + 8) priorityLowest (P 3 []) =
      .ok (.Function ["x".toList] (.mk [.RetStmt (.Function ["y".toList]
        (.mk [.RetStmt (.InfixExpr (.Ident "x".toList) "+".toList (.Ident "y".toList))] true))]
        true), P 21 []) := by
    rw [cur_fn1 H (g + 7) _ _ 3 21 [] _ _ t3 (ty t4) t5 (ty t6) (ty t7) b7]
    exact cur_stop H _ _ _ _ _ _ _ (Or.inl (ty t22))
  have s0 := cur_let H (parseExpression (g + 8)) _ 0 21 [] _ _ t0 t1 (ty t2) e3 (ty t22)
  -- `let add = newAdder(A);`
  have e26 : parseExpression (g + 8) priorityLowest (P 26 []) =
      .ok (.CallExpr (.Ident "newAdder".toList) [A], P (ja + 1) []) := by
    rw [cur_ident _ _ _ _ _ t26,
      cur_call1 H _ _ _ (g + 6) _ A 26 ja [] (ty t27) (by decide) n28 eA a1]
    exact cur_stop H _ _ _ _ _ _ _ (Or.inl a2)
  have s23 := cur_let H (parseExpression (g + 8)) _ 23 (ja + 1) [] _ _ t23 t24 (ty t25) e26 a2
  -- `add(B);`
  have e31 : parseExpression (g + 8) priorityLowest (P (ja + 3) []) =
      .ok (.CallExpr (.Ident "add".toList) [B], P (jb + 1) []) := by
    rw [cur_ident _ _ _ _ _ a3,
      cur_call1 H _ _ _ (g + 6) _ B (ja + 3) jb [] a4 (by decide) n5 eB b1]
    exact cur_stop H _ _ _ _ _ _ _ (Or.inl b2)
  have s31 := (cur_exprStmt H (parseExpression (g + 8)) _ (ja + 3) (jb + 1) []
    ⟨by rw [a3]; decide, by rw [a3]; decide⟩ e31).1 b2
  -- the loop of `Parse`
  have l0 : parseLoop (parseExpression (g + 8)) (g + 8) [] (P 0 []) =
      parseLoop (parseExpression (g + 8)) (g + 7) [(.LetStmt "newAdder".toList (.Function ["x".toList] (.mk [.RetStmt (.Function ["y".toList]
        (.mk [.RetStmt (.InfixExpr (.Ident "x".toList) "+".toList (.Ident "y".toList))] true))]
        true)))] (P 23 []) :=
    cur_loop_step H (parseExpression (g + 8)) (g + 7) [] _ 0 22 [] (by rw [ty t0]; decide) s0
  have l23 : parseLoop (parseExpression (g + 8)) (g + 7) [(.LetStmt "newAdder".toList (.Function ["x".toList] (.mk [.RetStmt (.Function ["y".toList]
        (.mk [.RetStmt (.InfixExpr (.Ident "x".toList) "+".toList (.Ident "y".toList))] true))]
        true)))] (P 23 []) =
      parseLoop (parseExpression (g + 8)) (g + 6) [(.LetStmt "newAdder".toList (.Function ["x".toList] (.mk [.RetStmt (.Function ["y".toList]
        (.mk [.RetStmt (.InfixExpr (.Ident "x".toList) "+".toList (.Ident "y".toList))] true))]
        true))),
        (.LetStmt "add".toList (.CallExpr (.Ident "newAdder".toList) [A]))] (P (ja + 3) []) :=
    cur_loop_step H (parseExpression (g + 8)) (g + 6) _ _ 23 (ja + 2) [] (by rw [ty t23]; decide)
      s23
  have l31 : parseLoop (parseExpression (g + 8)) (g + 6) [(.LetStmt "newAdder".toList (.Function ["x".toList] (.mk [.RetStmt (.Function ["y".toList]
        (.mk [.RetStmt (.InfixExpr (.Ident "x".toList) "+".toList (.Ident "y".toList))] true))]
        true))),
        (.LetStmt "add".toList (.CallExpr (.Ident "newAdder".toList) [A]))] (P (ja + 3) []) =
      parseLoop (parseExpression (g + 8)) (g + 5) [(.LetStmt "newAdder".toList (.Function ["x".toList] (.mk [.RetStmt (.Function ["y".toList]
        (.mk [.RetStmt (.InfixExpr (.Ident "x".toList) "+".toList (.Ident "y".toList))] true))]
        true))),
        (.LetStmt "add".toList (.CallExpr (.Ident "newAdder".toList) [A])),
        (.ExprStmt (.CallExpr (.Ident "add".toList) [B]))] (P (jb + 3) []) :=
    cur_loop_step H (parseExpression (g + 8)) (g + 5) _ _ (ja + 3) (jb + 2) []
      (by rw [a3]; decide) s31
  simp only [Parser.Parse, l0, l23, l31,
    cur_loop_end (P := P) (parseExpression (g + 8)) (g + 5) _ (jb + 3) [] b3, Res.ok_bind,
    Res.pure_eq, adderTree]

theorem itoa_neg (a : Int) (h : a < 0) : itoa a = '-' :: itoa (-a) := by
  have h2 : ¬ (-a < 0) := by omega
  have h3 : (-a).toNat = a.natAbs := by omega
  simp only [itoa, h, if_true, h2, if_false, h3]

/-- The decimal text of an integer of the `int64` range other than the least
one, standing before a closing parenthesis, is read as the argument `intArg`. -/
theorem intArg_tokens (input : Str) (j : Nat) (a : Int) (rest : Str) (ha0 : -2 ^ 63 < a)
    (ha1 : a < 2 ^ 63) (hr : restAfter input j = itoa a ++ (')' :: rest)) :
    ∃ ja, (tokenAt input j).typ ≠ TypeRParen ∧ restAfter input (ja + 1) = ')' :: rest ∧
      ∀ g, parseExpression (g + 2) priorityLowest (parserAt input j []) =
        .ok (intArg a, parserAt input ja []) := by
  by_cases hneg : a < 0
  · obtain ⟨hp, hd⟩ := ParseInt_itoa (-a) (by omega) (by omega)
    rw [itoa_neg a hneg] at hr
    have k0 := token_step input j _ _ _ hr
      (lexSpec_sym '-' TypeMinus (itoa (-a) ++ (')' :: rest)) (by decide))
    have r1 : restAfter input (j + 1) = itoa (-a) ++ (')' :: rest) := k0.2
    have k1 := tokenT_int input (j + 1) _ _ (trimmed_of_digits input (j + 1) _ _ r1 hd) hd
      (head_not isDigit ')' _ (by decide))
    have k2 := token_step input (j + 1 + 1) _ _ _ k1.2 (lexSpec_sym ')' TypeRParen rest (by decide))
    refine ⟨j + 1, by rw [k0.1]; simp, k1.2, fun g => ?_⟩
    have hin : parseExpression (g + 1) priorityPrefix (parserAt input (j + 1) []) =
        .ok (.Integer (-a), parserAt input (j + 1) []) :=
      parseAt_integer_stop input (j + 1) [] g priorityPrefix _ _ k1.1 hp
        (Or.inr (by rw [k2.1]; decide))
    rw [parseAt_operator input j [] (g + 1) priorityLowest _ k0.1 (Or.inr rfl), hin]
    simp only [Res.ok_bind, intArg, hneg, if_true]
    exact loopAt_stop _ _ _ _ _ _ _ _ (Or.inr (by rw [k2.1]; decide))
  · obtain ⟨hp, hd⟩ := ParseInt_itoa a (by omega) ha1
    have k1 := tokenT_int input j _ _ (trimmed_of_digits input j _ _ hr hd) hd
      (head_not isDigit ')' _ (by decide))
    have k2 := token_step input (j + 1) _ _ _ k1.2 (lexSpec_sym ')' TypeRParen rest (by decide))
    refine ⟨j, by rw [k1.1]; simp, k1.2, fun g => ?_⟩
    simp only [intArg, hneg, if_false]
    exact parseAt_integer_stop input j [] (g + 1) priorityLowest _ _ k1.1 hp
      (Or.inr (by rw [k2.1]; decide))

theorem parseInput_adderSource (a b : Int) (ha0 : -2 ^ 63 < a) (ha1 : a < 2 ^ 63)
    (hb0 : -2 ^ 63 < b) (hb1 : b < 2 ^ 63) :
    ∃ K, parseInput (adderSource a b) =
      .ok (adderTree (intArg a) (intArg b), parserAt (adderSource a b) K []) := by
  have hlen : 2 ≤ (adderSource a b).length := by
    rw [adderSource, List.length_append]
    exact Nat.le_add_right_of_le (by decide)
  have hsrc : adderSource a b = "let newAdder = fn(x) \x7b return fn(y) \x7b return x + y; \x7d; \x7d; let add = newAdder(".toList ++
      (itoa a ++ ("); add(".toList ++ (itoa b ++ ");".toList))) := rfl
  generalize hTB : itoa b ++ ");".toList = TB at hsrc
  generalize hTA : itoa a ++ ("); add(".toList ++ TB) = TA at hsrc
  have hin := hsrc
  clear hsrc
  generalize adderSource a b = input at hin hlen ⊢
  -- the tokens of the text before the first literal
  have h1 := (tokenPos_stable "let newAdder = fn(x) \x7b return fn(y) \x7b return x + y; \x7d; \x7d; let add = newAdder(".toList TA 27 (by decide!)).2
  rw [← hin] at h1
  have r27 : restAfter input 27 = '(' :: TA := by
    rw [hin]
    exact (restAfter_stable "let newAdder = fn(x) \x7b return fn(y) \x7b return x + y; \x7d; \x7d; let add = newAdder(".toList TA 27 (by decide!)).trans
      (congrArg (fun y => y ++ TA) (by decide! : restAfter "let newAdder = fn(x) \x7b return fn(y) \x7b return x + y; \x7d; \x7d; let add = newAdder(".toList 27 = ['(']))
  have k27 := token_step input 27 _ _ _ r27 (lexSpec_sym '(' TypeLParen TA (by decide))
  -- the first argument
  have r28 : restAfter input 28 = itoa a ++ (')' :: ("; add(".toList ++ TB)) := by
    rw [k27.2, ← hTA]
    rfl
  obtain ⟨ja, n28, rA, eA⟩ := intArg_tokens input 28 a _ ha0 ha1 r28
  -- the tokens between the arguments
  have sh := restAfter_shift input _ (ja + 1) rA
  have h2 := (tokenPos_stable "); add(".toList TB 3 (by decide!)).2
  have r32 : restAfter input (ja + 4) = '(' :: TB :=
    ((sh 3).1.trans (restAfter_stable "); add(".toList TB 3 (by decide!))).trans
      (congrArg (fun y => y ++ TB) (by decide! : restAfter "); add(".toList 3 = ['(']))
  have k32 := token_step input (ja + 4) _ _ _ r32 (lexSpec_sym '(' TypeLParen TB (by decide))
  -- the second argument and the end
  have r33 : restAfter input (ja + 5) = itoa b ++ (')' :: ";".toList) := by
    rw [k32.2, ← hTB]
    rfl
  obtain ⟨jb, n5, rB, eB⟩ := intArg_tokens input (ja + 5) b _ hb0 hb1 r33
  have sh2 := restAfter_shift input _ (jb + 1) rB

  have t0 : tokenAt input 0 = ⟨TypeLet, "let".toList⟩ :=
    (h1 0 (by decide)).trans (by decide!)
  have t1 : tokenAt input 1 = ⟨TypeIdent, "newAdder".toList⟩ :=
    (h1 1 (by decide)).trans (by decide!)
  have t2 : tokenAt input 2 = ⟨TypeAssign, "=".toList⟩ :=
    (h1 2 (by decide)).trans (by decide!)
  have t3 : tokenAt input 3 = ⟨TypeFn, "fn".toList⟩ :=
    (h1 3 (by decide)).trans (by decide!)
  have t4 : tokenAt input 4 = ⟨TypeLParen, "(".toList⟩ :=
    (h1 4 (by decide)).trans (by decide!)
  have t5 : tokenAt input 5 = ⟨TypeIdent, "x".toList⟩ :=
    (h1 5 (by decide)).trans (by decide!)
  have t6 : tokenAt input 6 = ⟨TypeRParen, ")".toList⟩ :=
    (h1 6 (by decide)).trans (by decide!)
  have t7 : tokenAt input 7 = ⟨TypeLBrace, "\x7b".toList⟩ :=
    (h1 7 (by decide)).trans (by decide!)
  have t8 : tokenAt input 8 = ⟨TypeReturn, "return".toList⟩ :=
    (h1 8 (by decide)).trans (by decide!)
  have t9 : tokenAt input 9 = ⟨TypeFn, "fn".toList⟩ :=
    (h1 9 (by decide)).trans (by decide!)
  have t10 : tokenAt input 10 = ⟨TypeLParen, "(".toList⟩ :=
    (h1 10 (by decide)).trans (by decide!)
  have t11 : tokenAt input 11 = ⟨TypeIdent, "y".toList⟩ :=
    (h1 11 (by decide)).trans (by decide!)
  have t12 : tokenAt input 12 = ⟨TypeRParen, ")".toList⟩ :=
    (h1 12 (by decide)).trans (by decide!)
  have t13 : tokenAt input 13 = ⟨TypeLBrace, "\x7b".toList⟩ :=
    (h1 13 (by decide)).trans (by decide!)
  have t14 : tokenAt input 14 = ⟨TypeReturn, "return".toList⟩ :=
    (h1 14 (by decide)).trans (by decide!)
  have t15 : tokenAt input 15 = ⟨TypeIdent, "x".toList⟩ :=
    (h1 15 (by decide)).trans (by decide!)
  have t16 : tokenAt input 16 = ⟨TypePlus, "+".toList⟩ :=
    (h1 16 (by decide)).trans (by decide!)
  have t17 : tokenAt input 17 = ⟨TypeIdent, "y".toList⟩ :=
    (h1 17 (by decide)).trans (by decide!)
  have t18 : tokenAt input 18 = ⟨TypeSemicolon, ";".toList⟩ :=
    (h1 18 (by decide)).trans (by decide!)
  have t19 : tokenAt input 19 = ⟨TypeRBrace, "\x7d".toList⟩ :=
    (h1 19 (by decide)).trans (by decide!)
  have t20 : tokenAt input 20 = ⟨TypeSemicolon, ";".toList⟩ :=
    (h1 20 (by decide)).trans (by decide!)
  have t21 : tokenAt input 21 = ⟨TypeRBrace, "\x7d".toList⟩ :=
    (h1 21 (by decide)).trans (by decide!)
  have t22 : tokenAt input 22 = ⟨TypeSemicolon, ";".toList⟩ :=
    (h1 22 (by decide)).trans (by decide!)
  have t23 : tokenAt input 23 = ⟨TypeLet, "let".toList⟩ :=
    (h1 23 (by decide)).trans (by decide!)
  have t24 : tokenAt input 24 = ⟨TypeIdent, "add".toList⟩ :=
    (h1 24 (by decide)).trans (by decide!)
  have t25 : tokenAt input 25 = ⟨TypeAssign, "=".toList⟩ :=
    (h1 25 (by decide)).trans (by decide!)
  have t26 : tokenAt input 26 = ⟨TypeIdent, "newAdder".toList⟩ :=
    (h1 26 (by decide)).trans (by decide!)
  have t27 : tokenAt input 27 = ⟨TypeLParen, "(".toList⟩ :=
    k27.1
  have a1 : tokenAt input (ja + 1) = ⟨TypeRParen, ")".toList⟩ :=
    ((sh 0).2.trans (h2 0 (by decide))).trans (by decide!)
  have a2 : tokenAt input (ja + 2) = ⟨TypeSemicolon, ";".toList⟩ :=
    ((sh 1).2.trans (h2 1 (by decide))).trans (by decide!)
  have a3 : tokenAt input (ja + 3) = ⟨TypeIdent, "add".toList⟩ :=
    ((sh 2).2.trans (h2 2 (by decide))).trans (by decide!)
  have a4 : tokenAt input (ja + 4) = ⟨TypeLParen, "(".toList⟩ :=
    k32.1
  have b1 : tokenAt input (jb + 1) = ⟨TypeRParen, ")".toList⟩ :=
    (sh2 0).2.trans (by decide!)
  have b2 : tokenAt input (jb + 2) = ⟨TypeSemicolon, ";".toList⟩ :=
    (sh2 1).2.trans (by decide!)
  have b3 : tokenAt input (jb + 3) = ⟨TypeEOF, []⟩ :=
    (sh2 2).2.trans (by decide!)
  have ty : ∀ {j : Nat} {t : TokenType} {l : Str}, tokenAt input j = ⟨t, l⟩ →
      (parserAt input j []).ctok.typ = t := fun h => by rw [parserAt_ctok, h]
  have key := parse_adder (parserAt_cursor input) (intArg a) (intArg b) ja jb
    (2 * input.length + 4 - 8)
    ((parserAt_ctok input 0 []).trans t0) ((parserAt_ctok input 1 []).trans t1)
    ((parserAt_ctok input 2 []).trans t2) ((parserAt_ctok input 3 []).trans t3)
    ((parserAt_ctok input 4 []).trans t4) ((parserAt_ctok input 5 []).trans t5)
    ((parserAt_ctok input 6 []).trans t6) ((parserAt_ctok input 7 []).trans t7)
    ((parserAt_ctok input 8 []).trans t8) ((parserAt_ctok input 9 []).trans t9)
    ((parserAt_ctok input 10 []).trans t10) ((parserAt_ctok input 11 []).trans t11)
    ((parserAt_ctok input 12 []).trans t12) ((parserAt_ctok input 13 []).trans t13)
    ((parserAt_ctok input 14 []).trans t14) ((parserAt_ctok input 15 []).trans t15)
    ((parserAt_ctok input 16 []).trans t16) ((parserAt_ctok input 17 []).trans t17)
    ((parserAt_ctok input 18 []).trans t18) ((parserAt_ctok input 19 []).trans t19)
    ((parserAt_ctok input 20 []).trans t20) ((parserAt_ctok input 21 []).trans t21)
    ((parserAt_ctok input 22 []).trans t22) ((parserAt_ctok input 23 []).trans t23)
    ((parserAt_ctok input 24 []).trans t24) ((parserAt_ctok input 25 []).trans t25)
    ((parserAt_ctok input 26 []).trans t26) ((parserAt_ctok input 27 []).trans t27)
    (by rw [parserAt_ctok]; exact n28) (eA (2 * input.length + 4 - 8 + 5))
    (ty a1) (ty a2) ((parserAt_ctok input (ja + 3) []).trans a3) (ty a4)
    (by rw [parserAt_ctok]; exact n5) (eB (2 * input.length + 4 - 8 + 5))
    (ty b1) (ty b2) (ty b3)
  rw [show 2 * input.length + 4 - 8 + 8 = parseFuel input by rw [parseFuel]; omega] at key
  refine ⟨jb + 3, ?_⟩
  simp only [parseInput, New_parserAt, Res.ok_bind]
  exact key

theorem intArg_eval (a : Int) (ha0 : -2 ^ 63 < a) (ha1 : a < 2 ^ 63) (n : Nat) (env : Env)
    (h : Heap) : Eval (n + 2) (.Expr (intArg a)) env h = .ok (E.Int a, h) := by
  by_cases hna : a < 0
  · have wa : wrap64 a = a := wrap64_of_range a (by omega) ha1
    simp [intArg, hna, Eval_PrefixExpr, Eval_Integer, evalPrefix, TypeOf, isErr, wa]
  · simp [intArg, hna, Eval_Integer]

/-- The adder program evaluates to the wrapped sum of the values of its two
argument expressions. -/
theorem adderTree_run (A B : Expr) (va vb : Int)
    (hA : ∀ (n : Nat) (env : Env) (h : Heap), Eval (n + 2) (.Expr A) env h = .ok (E.Int va, h))
    (hB : ∀ (n : Nat) (env : Env) (h : Heap), Eval (n + 2) (.Expr B) env h = .ok (E.Int vb, h))
    (k : Nat) :
    runProgram (k + 9) (adderTree A B) = .ok (E.Int (wrap64 (va + vb))) := by
  simp [runProgram, adderTree, Eval_Program, Eval_ExprStmt, Eval_Block, Eval_RetStmt,
    Eval_LetStmt, Eval_Function, Eval_InfixExpr, Eval_Ident, Eval_CallExpr, evalProgram,
    evalBlock, evalBlockLoop, evalFn, evalExpressions, bindParams, NewEnv, NewEnvWith, Env.Set,
    Env.Get, Store.get, Heap.store, isErr, singleErr, builtins, evalInfix, evalIntInfix, TypeOf,
    valueOf, BlockStmt.stmts, Env.store, hA, hB]

/-! ## Main results -/

/-- C1: for non-keyword identifiers `a`, `b`, `c` and binary operators `op1`,
`op2` among `== != < > + - * /`, parsing the source `a op1 b op2 c` records no
error and yields exactly one expression statement, whose tree and whose
`String()` are `((a op1 b) op2 c)` when the precedence of `op1` is at least
that of `op2` and `(a op1 (b op2 c))` otherwise; operators of equal
precedence therefore associate to the left. -/
theorem parse_binary_precedence (a op1 b op2 c : Str)
    (ha : isIdentifier a = true) (hb : isIdentifier b = true) (hc : isIdentifier c = true)
    (h1 : op1 ∈ binaryOperators) (h2 : op2 ∈ binaryOperators) :
    parseSource (binarySource a op1 b op2 c) =
      .ok (⟨[.ExprStmt (if precedence op2 ≤ precedence op1
              then .InfixExpr (.InfixExpr (.Ident a) op1 (.Ident b)) op2 (.Ident c)
              else .InfixExpr (.Ident a) op1 (.InfixExpr (.Ident b) op2 (.Ident c)))]⟩, []) ∧
    parseToString (binarySource a op1 b op2 c) =
      .ok (if precedence op2 ≤ precedence op1
        then "((".toList ++ a ++ " ".toList ++ op1 ++ " ".toList ++ b ++ ") ".toList ++ op2 ++
          " ".toList ++ c ++ ")".toList
        else "(".toList ++ a ++ " ".toList ++ op1 ++ " (".toList ++ b ++ " ".toList ++ op2 ++
          " ".toList ++ c ++ "))".toList, []) := by
  obtain ⟨p, hp, hparse⟩ := parseInput_binarySource a op1 b op2 c ha hb hc h1 h2
  have hsrc : parseSource (binarySource a op1 b op2 c) =
      .ok (⟨[.ExprStmt (if precedence op1 < precedence op2
              then .InfixExpr (.Ident a) op1 (.InfixExpr (.Ident b) op2 (.Ident c))
              else .InfixExpr (.InfixExpr (.Ident a) op1 (.Ident b)) op2 (.Ident c))]⟩, []) := by
    simp [parseSource, hparse, Parser.Errors, hp, errorStrings]
  refine ⟨?_, ?_⟩
  · rw [hsrc]
    by_cases h : precedence op1 < precedence op2
    · simp [h, Nat.not_le.mpr h]
    · simp [h, Nat.not_lt.mp h]
  · simp only [parseToString, hsrc, Res.ok_bind, binary_String]
    rfl

/-- Witness of C1 on `a + b * c`, `a * b + c` and `a - b - c`. -/
theorem parse_binary_precedence_witness :
    parseToString "a + b * c".toList = .ok ("(a + (b * c))".toList, []) ∧
    parseToString "a * b + c".toList = .ok ("((a * b) + c)".toList, []) ∧
    parseToString "a - b - c".toList = .ok ("((a - b) - c)".toList, []) :=
  ⟨(parse_binary_precedence "a".toList "+".toList "b".toList "*".toList "c".toList
      (by decide) (by decide) (by decide) (by decide) (by decide)).2,
   (parse_binary_precedence "a".toList "*".toList "b".toList "+".toList "c".toList
      (by decide) (by decide) (by decide) (by decide) (by decide)).2,
   (parse_binary_precedence "a".toList "-".toList "b".toList "-".toList "c".toList
      (by decide) (by decide) (by decide) (by decide) (by decide)).2⟩

/-- C2: `evalProgram` runs the statements in order.  When the statements
before `s` give neither a `Return` nor an `Error` and `s` gives `Return v`,
the program gives `v`; when `s` gives an `Error`, the program gives that
`Error`; in both cases the heap is the one left by `s`, whatever statements
follow, so none of them is evaluated.  When no statement gives a `Return` or
an `Error` the program gives the result of the last statement.  So
`9;return 10;9;` gives 10 and `5 + true; 5;` the type-mismatch error. -/
theorem evalProgram_first_sentinel (k : Nat) (env : Env) (h h1 : Heap)
    (pre : List Statement) (rs : List E)
    (hpre : evalAll (Eval k) pre env h = .ok (rs, h1))
    (hclean : ∀ r ∈ rs, isSentinel r = false) :
    (∀ s post v h2, Eval k (.Stmt s) env h1 = .ok (E.Return v, h2) →
        Eval (k + 1) (.Program ⟨pre ++ s :: post⟩) env h = .ok (v, h2)) ∧
    (∀ s post m h2, Eval k (.Stmt s) env h1 = .ok (E.Error m, h2) →
        Eval (k + 1) (.Program ⟨pre ++ s :: post⟩) env h = .ok (E.Error m, h2)) ∧
    Eval (k + 1) (.Program ⟨pre⟩) env h = .ok (rs.getLast?.getD E.nil, h1) ∧
    (∀ n, run (n + 10) "9;return 10;9;".toList = .ok (E.Int 10, [])) ∧
    (∀ n, run (n + 10) "5 + true; 5;".toList =
      .ok (E.Error "type mismatch: Int + Bool".toList, [])) := by
  refine ⟨?_, ?_, ?_, fun n => run_fuel 10 n _ _ (by decide!),
    fun n => run_fuel 10 n _ _ (by decide!)⟩
  · intro s post v h2 hs
    simp only [Eval]
    rw [evalProgram_append (Eval k) env (s :: post) pre E.nil h h1 rs hpre hclean]
    simp [evalProgram, hs]
  · intro s post m h2 hs
    simp only [Eval]
    rw [evalProgram_append (Eval k) env (s :: post) pre E.nil h h1 rs hpre hclean]
    simp [evalProgram, hs]
  · simp only [Eval]
    have := evalProgram_append (Eval k) env [] pre E.nil h h1 rs hpre hclean
    simp only [List.append_nil] at this
    rw [this]
    simp [evalProgram]

/-- Witness of C2 on the tree of `9;return 10;9;`, whose last statement is
replaced by one that would panic if it were evaluated. -/
theorem evalProgram_first_sentinel_witness :
    Eval 4 (.Program ⟨[.ExprStmt (.Integer 9), .RetStmt (.Integer 10),
        .ExprStmt (.InfixExpr (.Integer 1) "/".toList (.Integer 0))]⟩)
      (NewEnv []).1 (NewEnv []).2 = .ok (E.Int 10, [[]]) :=
  (evalProgram_first_sentinel 3 (NewEnv []).1 (NewEnv []).2 [[]] [.ExprStmt (.Integer 9)]
    [E.Int 9] (by decide!) (by decide!)).1 (.RetStmt (.Integer 10))
    [.ExprStmt (.InfixExpr (.Integer 1) "/".toList (.Integer 0))] (E.Int 10) [[]] (by decide!)

/-- C3: `evalBlock` runs the statements in order and returns the first result
that is a `Return` or an `Error` unchanged (a `Return` stays wrapped), with
the heap left by that statement, whatever statements follow; without such a
result it returns the result of the last statement.  So the nested `return`
of `if (10 > 1) { if (10 > 1) { return 10; } return 1; }` ends both blocks and
the program gives 10. -/
theorem evalBlock_first_sentinel (k : Nat) (env : Env) (h h1 : Heap)
    (pre : List Statement) (rs : List E)
    (hpre : evalAll (Eval k) pre env h = .ok (rs, h1))
    (hclean : ∀ r ∈ rs, isSentinel r = false) :
    (∀ s post valid r h2, Eval k (.Stmt s) env h1 = .ok (r, h2) → isSentinel r = true →
        Eval (k + 1) (.Stmt (.Block (.mk (pre ++ s :: post) valid))) env h = .ok (r, h2)) ∧
    (∀ valid, Eval (k + 1) (.Stmt (.Block (.mk pre valid))) env h =
        .ok (rs.getLast?.getD E.nil, h1)) ∧
    (∀ n, run (n + 10) "if (10 > 1) { if (10 > 1) { return 10; } return 1; }".toList =
      .ok (E.Int 10, [])) := by
  refine ⟨?_, ?_, fun n => run_fuel 10 n _ _ (by decide!)⟩
  · intro s post valid r h2 hs hr
    simp only [Eval, evalBlock, BlockStmt.stmts]
    rw [evalBlockLoop_append (Eval k) env (s :: post) pre E.nil h h1 rs hpre hclean]
    cases r <;> simp [isSentinel] at hr <;> simp [evalBlockLoop, hs]
  · intro valid
    simp only [Eval, evalBlock, BlockStmt.stmts]
    have := evalBlockLoop_append (Eval k) env [] pre E.nil h h1 rs hpre hclean
    simp only [List.append_nil] at this
    rw [this]
    simp [evalBlockLoop]

/-- Witness of C3 on the block `{ 9; return 10; 1 / 0 }`: the result is the
wrapped `Return 10` and the division is not evaluated. -/
theorem evalBlock_first_sentinel_witness :
    Eval 4 (.Stmt (.Block (.mk [.ExprStmt (.Integer 9), .RetStmt (.Integer 10),
        .ExprStmt (.InfixExpr (.Integer 1) "/".toList (.Integer 0))] true)))
      (NewEnv []).1 (NewEnv []).2 = .ok (E.Return (E.Int 10), [[]]) :=
  (evalBlock_first_sentinel 3 (NewEnv []).1 (NewEnv []).2 [[]] [.ExprStmt (.Integer 9)]
    [E.Int 9] (by decide!) (by decide!)).1 (.RetStmt (.Integer 10))
    [.ExprStmt (.InfixExpr (.Integer 1) "/".toList (.Integer 0))] true (E.Return (E.Int 10))
    [[]] (by decide!) (by decide!)

/-- C5: when the body of a called `Fn` evaluates to `Return(v)` the call
evaluates to `v`, unwrapped exactly once (`v` is returned as it is, also when
it is itself a `Return`), so a `return` ends the call and not the calling
program: `let f = fn() { return 1; }; f(); 2` evaluates to `Int 2`, and
`let id = fn(x) { return x; }; id(n);` to `Int n` for every integer `n`. -/
theorem call_unwraps_return_once :
    (∀ (ev : Evaluator) (ps : List Str) (body : BlockStmt) (fenv : Env) (args : List E)
        (h h2 h3 : Heap) (v : E),
        bindParams (NewEnvWith fenv h).1 ps args 0 (NewEnvWith fenv h).2 = .ok h2 →
        ev (.Stmt (.Block body)) (NewEnvWith fenv h).1 h2 = .ok (E.Return v, h3) →
        evalFn ev (E.Fn ps body fenv) args h = .ok (v, h3)) ∧
    (∀ (n : Int) (k : Nat), runProgram (k + 7) (idProgram n) = .ok (E.Int n)) ∧
    parseSource "let id = fn(x) { return x; }; id(5);".toList = .ok (idProgram 5, []) ∧
    (∀ k, run (k + 10) "let f = fn() { return 1; }; f(); 2".toList = .ok (E.Int 2, [])) := by
  refine ⟨?_, ?_, by decide!, fun k => run_fuel 10 k _ _ (by decide!)⟩
  · intro ev ps body fenv args h h2 h3 v hbind hev
    simp only [evalFn, hbind, Res.ok_bind, hev]
    rfl
  · intro n k
    simp [runProgram, idProgram, Eval_Program, Eval_ExprStmt, Eval_Block, Eval_RetStmt,
      Eval_LetStmt, Eval_Integer, Eval_Function, Eval_Ident, Eval_CallExpr,
      evalProgram, evalBlock, evalBlockLoop, evalFn, evalExpressions, bindParams, NewEnv,
      NewEnvWith, Env.Set, Env.Get, Store.get, Heap.store, isErr, singleErr, builtins,
      valueOf, BlockStmt.stmts, Env.store]

/-- Witness of C5: a body that evaluates to `Return (Return 1)` makes the call
evaluate to `Return 1`, one wrapper removed. -/
theorem call_unwraps_return_once_witness :
    evalFn (fun _ _ h => .ok (E.Return (E.Return (E.Int 1)), h))
      (E.Fn [] (.mk [] true) (NewEnv []).1) [] (NewEnv []).2 =
        .ok (E.Return (E.Int 1), [[], []]) :=
  call_unwraps_return_once.1 (fun _ _ h => .ok (E.Return (E.Return (E.Int 1)), h)) []
    (.mk [] true) (NewEnv []).1 [] (NewEnv []).2 [[], []] [[], []] (E.Return (E.Int 1))
    (by decide!) rfl

/-- C6: a `Fn` shares the frame it was defined in.  A binding written into
that frame after the function literal was evaluated is found from the frame
of every later call; so `let f = fn() { x }; let x = n; f()` evaluates to
`Int n` for every integer `n`, and a function bound by `let` can call itself
by name. -/
theorem closure_shares_frame :
    (∀ (fenv : Env) (h : Heap) (name : Str) (v : E), fenv.store < h.length →
        ∃ h1, fenv.Set h name v = .ok (v, h1) ∧
          (NewEnvWith fenv h1).1.Get (NewEnvWith fenv h1).2 name = (v, true)) ∧
    (∀ (n : Int) (k : Nat), runProgram (k + 7) (lateLetProgram n) = .ok (E.Int n)) ∧
    parseSource "let f = fn() { x }; let x = 5; f()".toList = .ok (lateLetProgram 5, []) ∧
    (∀ k, run (k + 30)
      "let f = fn(n) { if (n < 1) { 0 } else { f(n - 1) } }; f(3)".toList =
        .ok (E.Int 0, [])) := by
  refine ⟨?_, ?_, by decide!, fun k => run_fuel 30 k _ _ (by decide!)⟩
  · intro fenv h name v hlt
    refine ⟨h.set fenv.store ((name, v) :: h.store fenv.store), ?_, ?_⟩
    · simp [Env.Set, hlt]
    · have hlen : fenv.store < (h.set fenv.store ((name, v) :: h.store fenv.store)).length := by
        simpa using hlt
      simp only [NewEnvWith]
      rw [Env.Get_of_parent _ fenv _ name E.nil (by rw [Heap.store_append_new]; rfl)]
      apply Env.Get_of_own
      rw [Heap.store_append_left _ _ _ hlen, Heap.store_set_self _ _ _ hlt]
      simp [Store.get]
  · intro n k
    simp [runProgram, lateLetProgram, Eval_Program, Eval_ExprStmt, Eval_Block,
      Eval_LetStmt, Eval_Integer, Eval_Function, Eval_Ident, Eval_CallExpr,
      evalProgram, evalBlock, evalBlockLoop, evalFn, evalExpressions, bindParams, NewEnv,
      NewEnvWith, Env.Set, Env.Get, Store.get, Heap.store, isErr, singleErr, builtins,
      valueOf, BlockStmt.stmts, Env.store]

/-- Witness of C6: after `x` is set to 7 in the frame at address 0, the frame
of a call of a function defined there finds `x`. -/
theorem closure_shares_frame_witness :
    ∃ h1, (NewEnv []).1.Set (NewEnv []).2 "x".toList (E.Int 7) = .ok (E.Int 7, h1) ∧
      (NewEnvWith (NewEnv []).1 h1).1.Get (NewEnvWith (NewEnv []).1 h1).2 "x".toList =
        (E.Int 7, true) :=
  closure_shares_frame.1 (NewEnv []).1 (NewEnv []).2 "x".toList (E.Int 7) (by decide)

/-- C7: `e.Get(n)` returns the binding of `n` in the own store of `e` when
there is one, whatever the parents hold; otherwise `parent.Get(n)` when `e`
has a parent; otherwise `(nil, false)`.  After `e.Set(n, v)` on an
environment whose map is allocated, `e.Get(n)` is `(v, true)`, whether or not
`n` was bound before. -/
theorem Env_Get_Set (h : Heap) (e : Env) (n : Str) (v : E) :
    (∀ x, Store.get (h.store e.store) n = (x, true) → e.Get h n = (x, true)) ∧
    (∀ x p, Store.get (h.store e.store) n = (x, false) → e.parent = some p →
        e.Get h n = p.Get h n) ∧
    (∀ x, Store.get (h.store e.store) n = (x, false) → e.parent = none →
        e.Get h n = (E.nil, false)) ∧
    (e.store < h.length → ∃ h1, e.Set h n v = .ok (v, h1) ∧ e.Get h1 n = (v, true)) := by
  refine ⟨fun x hx => Env.Get_of_own h e n x hx, ?_, ?_, ?_⟩
  · intro x p hx hp
    cases e with
    | mk parent store =>
      simp only [Env.parent] at hp
      subst hp
      simp only [Env.store] at hx
      simp [Env.Get, hx]
  · intro x hx hp
    cases e with
    | mk parent store =>
      simp only [Env.parent] at hp
      subst hp
      simp only [Env.store] at hx
      have hnil := Store.get_false _ _ _ hx
      subst hnil
      simp [Env.Get, hx]
  · intro hlt
    refine ⟨h.set e.store ((n, v) :: h.store e.store), ?_, ?_⟩
    · simp [Env.Set, hlt]
    · apply Env.Get_of_own
      rw [Heap.store_set_self _ _ _ hlt]
      simp [Store.get]

/-- Witness of C7: in a child frame that binds `x` to 2 over a parent that
binds it to 1, `Get` finds 2, and after `Set` of 3 it finds 3. -/
theorem Env_Get_Set_witness :
    (Env.mk (some (Env.mk none 0)) 1).Get [[("x".toList, E.Int 1)], [("x".toList, E.Int 2)]]
      "x".toList = (E.Int 2, true) ∧
    ∃ h1, (Env.mk (some (Env.mk none 0)) 1).Set
        [[("x".toList, E.Int 1)], [("x".toList, E.Int 2)]] "x".toList (E.Int 3) =
          .ok (E.Int 3, h1) ∧
      (Env.mk (some (Env.mk none 0)) 1).Get h1 "x".toList = (E.Int 3, true) :=
  ⟨(Env_Get_Set [[("x".toList, E.Int 1)], [("x".toList, E.Int 2)]]
      (Env.mk (some (Env.mk none 0)) 1) "x".toList (E.Int 3)).1 (E.Int 2) (by decide!),
   (Env_Get_Set [[("x".toList, E.Int 1)], [("x".toList, E.Int 2)]]
      (Env.mk (some (Env.mk none 0)) 1) "x".toList (E.Int 3)).2.2.2 (by decide)⟩

/-- C8: when the value expression of `let x = e` evaluates to an `Error`, the
statement returns that `Error` and the heap is the one left by `e`: nothing is
bound.  When it evaluates to anything else, the statement writes the binding
of `x` to that value into the store of the current frame, so that `Get` finds
it afterwards.  In particular `let a=5; let b=a; let c=a+b+5; c;` evaluates to
`Int 15`. -/
theorem let_binds_unless_error (k : Nat) (env : Env) (h h1 : Heap) (name : Str) (e : Expr)
    (val : E) (hev : Eval k (.Expr e) env h = .ok (val, h1)) :
    (isErr val = true →
        Eval (k + 1) (.Stmt (.LetStmt name e)) env h = .ok (val, h1)) ∧
    (isErr val = false → env.store < h1.length →
        ∃ h2, Eval (k + 1) (.Stmt (.LetStmt name e)) env h = .ok (E.nil, h2) ∧
          h2 = h1.set env.store ((name, val) :: h1.store env.store) ∧
          env.Get h2 name = (val, true)) ∧
    (∀ n, run (n + 10) "let a=5; let b=a; let c=a+b+5; c;".toList = .ok (E.Int 15, [])) := by
  refine ⟨?_, ?_, fun n => run_fuel 10 n _ _ (by decide!)⟩
  · intro he
    simp [Eval, hev, he]
  · intro he hlt
    refine ⟨_, ?_, rfl, ?_⟩
    · simp [Eval, hev, he, Env.Set, hlt]
    · apply Env.Get_of_own
      rw [Heap.store_set_self _ _ _ hlt]
      simp [Store.get]

/-- Witness of C8: `let x = 5` in a fresh environment binds `x` to `Int 5`,
and `let x = y` with `y` unbound returns the error and leaves the heap as it
was. -/
theorem let_binds_unless_error_witness :
    (∃ h2, Eval 2 (.Stmt (.LetStmt "x".toList (.Integer 5))) (NewEnv []).1 (NewEnv []).2 =
        .ok (E.nil, h2) ∧ h2 = [[("x".toList, E.Int 5)]] ∧
        (NewEnv []).1.Get h2 "x".toList = (E.Int 5, true)) ∧
    Eval 2 (.Stmt (.LetStmt "x".toList (.Ident "y".toList))) (NewEnv []).1 (NewEnv []).2 =
      .ok (E.Error "identifier not found: y".toList, [[]]) :=
  ⟨(let_binds_unless_error 1 (NewEnv []).1 (NewEnv []).2 [[]] "x".toList (.Integer 5)
      (E.Int 5) (by decide!)).2.1 (by decide) (by decide),
   (let_binds_unless_error 1 (NewEnv []).1 (NewEnv []).2 [[]] "x".toList (.Ident "y".toList)
      (E.Error "identifier not found: y".toList) (by decide!)).1 (by decide)⟩

/-- C10: for two entities whose types differ and every operator string `op`,
`evalInfix` returns the error `type mismatch: <type of l> <op> <type of r>`;
the operator is not looked at, so the type check comes first, as in
`5 + true`. -/
theorem evalInfix_type_mismatch (l r : E) (op : Str) (tl tr : EntityType)
    (hl : TypeOf l = .ok tl) (hr : TypeOf r = .ok tr) (hne : tl ≠ tr) :
    evalInfix l op r = .ok (E.Error ("type mismatch: ".toList ++ tl.String ++ " ".toList ++
      op ++ " ".toList ++ tr.String)) ∧
    (∀ n, run (n + 10) "5 + true".toList =
      .ok (E.Error "type mismatch: Int + Bool".toList, [])) := by
  refine ⟨?_, fun n => run_fuel 10 n _ _ (by decide!)⟩
  simp [evalInfix, hl, hr, hne, newErr]

/-- Witness of C10: `Int 5`, an operator that no type supports, and
`Bool true`. -/
theorem evalInfix_type_mismatch_witness :
    evalInfix (E.Int 5) "%".toList (E.Bool true) =
      .ok (E.Error "type mismatch: Int % Bool".toList) :=
  (evalInfix_type_mismatch (E.Int 5) (E.Bool true) "%".toList EntityType.TypeInt
    EntityType.TypeBool rfl rfl (by decide)).1

/-- C11: on two `Int` values the operators `+`, `-` and `*` return the `Int`
of the exact sum, difference or product reduced modulo `2 ^ 64` into the
signed 64-bit range: the result is in the range, it differs from the exact
result by a multiple of `2 ^ 64`, and it is the exact result when that is in
range.  `9223372036854775807 + 1` is `-9223372036854775808`. -/
theorem evalInfix_int_arith (l r : Int) :
    evalInfix (E.Int l) "+".toList (E.Int r) = .ok (E.Int (wrap64 (l + r))) ∧
    evalInfix (E.Int l) "-".toList (E.Int r) = .ok (E.Int (wrap64 (l - r))) ∧
    evalInfix (E.Int l) "*".toList (E.Int r) = .ok (E.Int (wrap64 (l * r))) ∧
    (∀ x : Int, -2 ^ 63 ≤ wrap64 x ∧ wrap64 x < 2 ^ 63 ∧ (wrap64 x - x) % 2 ^ 64 = 0 ∧
      (-2 ^ 63 ≤ x → x < 2 ^ 63 → wrap64 x = x)) ∧
    (∀ n, run (n + 10) "9223372036854775807 + 1".toList =
      .ok (E.Int (-9223372036854775808), [])) := by
  refine ⟨?_, ?_, ?_, fun x => ⟨(wrap64_range x).1, (wrap64_range x).2, wrap64_congr x,
    wrap64_of_range x⟩, fun n => run_fuel 10 n _ _ (by decide!)⟩
  · simp [evalInfix, evalIntInfix, TypeOf]
  · simp [evalInfix, evalIntInfix, TypeOf]
  · simp [evalInfix, evalIntInfix, TypeOf]

/-- Witness of C11: `9223372036854775807 + 1`, and the value `5`, which is in
range. -/
theorem evalInfix_int_arith_witness :
    evalInfix (E.Int 9223372036854775807) "+".toList (E.Int 1) =
      .ok (E.Int (wrap64 (9223372036854775807 + 1))) ∧ wrap64 5 = 5 :=
  ⟨(evalInfix_int_arith 9223372036854775807 1).1,
   ((evalInfix_int_arith 0 0).2.2.2.1 5).2.2.2 (by decide) (by decide)⟩

/-- C12: on two `Int` values with a divisor other than zero, `/` returns the
`Int` of the quotient truncated toward zero (its magnitude is the floor of the
quotient of the magnitudes, its sign that of the exact quotient); for 64-bit
operands this is exact except for `-2 ^ 63 / -1`, which wraps to `-2 ^ 63`.
`-7 / 2` and `7 / -2` are `-3`, and `5 * (5 + 5) - 55 / 5` is `39`. -/
theorem evalInfix_int_div (l r : Int) (hr : r ≠ 0) :
    evalInfix (E.Int l) "/".toList (E.Int r) = .ok (E.Int (wrap64 (Int.tdiv l r))) ∧
    (Int.tdiv l r).natAbs = l.natAbs / r.natAbs ∧
    (0 ≤ l → 0 < r → 0 ≤ Int.tdiv l r) ∧ (l ≤ 0 → r < 0 → 0 ≤ Int.tdiv l r) ∧
    (0 ≤ l → r < 0 → Int.tdiv l r ≤ 0) ∧ (l ≤ 0 → 0 < r → Int.tdiv l r ≤ 0) ∧
    (-2 ^ 63 ≤ l → l < 2 ^ 63 → ¬ (l = -2 ^ 63 ∧ r = -1) →
      wrap64 (Int.tdiv l r) = Int.tdiv l r) ∧
    evalInfix (E.Int (-2 ^ 63)) "/".toList (E.Int (-1)) = .ok (E.Int (-2 ^ 63)) ∧
    evalInfix (E.Int (-7)) "/".toList (E.Int 2) = .ok (E.Int (-3)) ∧
    evalInfix (E.Int 7) "/".toList (E.Int (-2)) = .ok (E.Int (-3)) ∧
    (∀ n, run (n + 10) "5 * (5 + 5) - 55 / 5".toList = .ok (E.Int 39, [])) ∧
    (∀ n, run (n + 10) "(0 - 9223372036854775807 - 1) / -1".toList =
      .ok (E.Int (-9223372036854775808), [])) := by
  refine ⟨?_, Int.natAbs_tdiv l r, ?_, ?_, ?_, ?_, ?_, by decide!, by decide!, by decide!,
    fun n => run_fuel 10 n _ _ (by decide!), fun n => run_fuel 10 n _ _ (by decide!)⟩
  · simp [evalInfix, evalIntInfix, TypeOf, hr]
  · intro h1 h2
    exact Int.tdiv_nonneg h1 (le_of_lt h2)
  · intro h1 h2
    have := @Int.tdiv_nonneg (-l) (-r) (by omega) (by omega)
    simpa using this
  · intro h1 h2
    have := @Int.tdiv_nonneg l (-r) h1 (by omega)
    simp only [Int.tdiv_neg] at this
    omega
  · intro h1 h2
    have := @Int.tdiv_nonneg (-l) r (by omega) (by omega)
    simp only [Int.neg_tdiv] at this
    omega
  · intro h1 h2 h3
    have := tdiv_range l r h1 h2 hr h3
    exact wrap64_of_range _ this.1 this.2

/-- Witness of C12: `-7 / 2`. -/
theorem evalInfix_int_div_witness :
    evalInfix (E.Int (-7)) "/".toList (E.Int 2) = .ok (E.Int (wrap64 (Int.tdiv (-7) 2))) :=
  (evalInfix_int_div (-7) 2 (by decide)).1

/-- C13: on two `String` values `+` returns the `String` of the bytes of the
left operand followed by those of the right one; so it is associative and the
empty string is an identity on both sides. -/
theorem evalInfix_string_concat (s t u : Str) :
    evalInfix (E.String s) "+".toList (E.String t) = .ok (E.String (s ++ t)) ∧
    evalInfix (E.String (s ++ t)) "+".toList (E.String u) =
      evalInfix (E.String s) "+".toList (E.String (t ++ u)) ∧
    evalInfix (E.String []) "+".toList (E.String s) = .ok (E.String s) ∧
    evalInfix (E.String s) "+".toList (E.String []) = .ok (E.String s) ∧
    (∀ n, run (n + 10) "\"Hey\" + \" \" + \"Young Wurld!\"".toList =
      .ok (E.String "Hey Young Wurld!".toList, [])) := by
  have key : ∀ a b : Str, evalInfix (E.String a) "+".toList (E.String b) =
      .ok (E.String (a ++ b)) := by
    intro a b
    simp [evalInfix, TypeOf]
  refine ⟨key s t, ?_, ?_, ?_, fun n => run_fuel 10 n _ _ (by decide!)⟩
  · rw [key, key, List.append_assoc]
  · rw [key, List.nil_append]
  · rw [key, List.append_nil]

/-- C14: for two values of the same type `T`, `evalInfix` returns the error
`unknown operator: T <op> T` in these cases and returns no error in any other:
`T` is `String` and the operator is not `+`; `T` is `Int` and the operator is
none of `+ - * / < > == !=`; `T` is another type and the operator is neither
`==` nor `!=`.  `true + true` gives `unknown operator: Bool + Bool`. -/
theorem evalInfix_unknown_operator (l r : E) (op : Str) (T : EntityType)
    (hl : TypeOf l = .ok T) (hr : TypeOf r = .ok T) :
    (((T = EntityType.TypeString ∧ op ≠ "+".toList) ∨
      (T = EntityType.TypeInt ∧ op ∉ intOperators) ∨
      (T ≠ EntityType.TypeString ∧ T ≠ EntityType.TypeInt ∧ op ≠ "==".toList ∧
        op ≠ "!=".toList)) →
      evalInfix l op r = .ok (E.Error ("unknown operator: ".toList ++ T.String ++
        " ".toList ++ op ++ " ".toList ++ T.String))) ∧
    (¬ ((T = EntityType.TypeString ∧ op ≠ "+".toList) ∨
      (T = EntityType.TypeInt ∧ op ∉ intOperators) ∨
      (T ≠ EntityType.TypeString ∧ T ≠ EntityType.TypeInt ∧ op ≠ "==".toList ∧
        op ≠ "!=".toList)) →
      ∀ m, evalInfix l op r ≠ .ok (E.Error m)) ∧
    (∀ n, run (n + 10) "true + true".toList =
      .ok (E.Error "unknown operator: Bool + Bool".toList, [])) ∧
    (∀ n, run (n + 10) "\"a\" - \"b\"".toList =
      .ok (E.Error "unknown operator: String - String".toList, [])) := by
  refine ⟨?_, ?_, fun n => run_fuel 10 n _ _ (by decide!),
    fun n => run_fuel 10 n _ _ (by decide!)⟩
  · rintro (⟨hT, hop⟩ | ⟨hT, hop⟩ | ⟨hS, hI, h1, h2⟩)
    · subst hT
      obtain ⟨a, rfl⟩ := TypeOf_String l hl
      obtain ⟨b, rfl⟩ := TypeOf_String r hr
      rw [evalInfix_same_String, if_pos hop]
      simp [EntityType.String]
    · subst hT
      obtain ⟨a, rfl⟩ := TypeOf_Int l hl
      obtain ⟨b, rfl⟩ := TypeOf_Int r hr
      rw [evalInfix_same_Int _ _ _ hl hr, evalIntInfix_unknown a b op hop]
      simp [EntityType.String]
    · rw [evalInfix_same_other l r op T hl hr hI hS, if_neg h1, if_neg h2]
  · intro hn m
    simp only [not_or, not_and, not_not] at hn
    obtain ⟨hS, hI, hO⟩ := hn
    by_cases hTI : T = EntityType.TypeInt
    · subst hTI
      obtain ⟨a, rfl⟩ := TypeOf_Int l hl
      obtain ⟨b, rfl⟩ := TypeOf_Int r hr
      rw [evalInfix_same_Int _ _ _ hl hr]
      exact evalIntInfix_known a b op (hI rfl) m
    · by_cases hTS : T = EntityType.TypeString
      · subst hTS
        obtain ⟨a, rfl⟩ := TypeOf_String l hl
        obtain ⟨b, rfl⟩ := TypeOf_String r hr
        rw [evalInfix_same_String, if_neg (not_not.mpr (hS rfl))]
        simp
      · rw [evalInfix_same_other l r op T hl hr hTI hTS]
        by_cases h1 : op = "==".toList
        · rw [if_pos h1]
          cases ifaceEq l r <;> simp [staticBool]
        · rw [if_neg h1, if_pos (hO hTS hTI h1)]
          cases ifaceEq l r <;> simp [staticBool]

/-- Witness of C14: `Bool true + Bool true`, and `Int 1 + Int 2`, where the
operator is known. -/
theorem evalInfix_unknown_operator_witness :
    evalInfix (E.Bool true) "+".toList (E.Bool true) =
      .ok (E.Error ("unknown operator: ".toList ++ EntityType.TypeBool.String ++
        " ".toList ++ "+".toList ++ " ".toList ++ EntityType.TypeBool.String)) ∧
    (∀ m, evalInfix (E.Int 1) "+".toList (E.Int 2) ≠ .ok (E.Error m)) :=
  ⟨(evalInfix_unknown_operator (E.Bool true) (E.Bool true) "+".toList EntityType.TypeBool
      rfl rfl).1 (by decide),
   (evalInfix_unknown_operator (E.Int 1) (E.Int 2) "+".toList EntityType.TypeInt
      rfl rfl).2.1 (by decide)⟩

/-- C15: `==` on two `Bool` values or on two `Null` values returns the `Bool`
that says whether they are the same value, and `!=` its negation.  On two
`Slice` values, two `Fn` values or two `Builtin` values the comparison of the
two interface values panics (their dynamic type is not comparable), so no
`Bool` is returned: evaluating `[1] == [1]` panics. -/
theorem evalInfix_equality_uncomparable :
    (∀ a b : Bool,
      evalInfix (E.Bool a) "==".toList (E.Bool b) = .ok (E.Bool (decide (a = b))) ∧
      evalInfix (E.Bool a) "!=".toList (E.Bool b) = .ok (E.Bool (!decide (a = b)))) ∧
    evalInfix E.Null "==".toList E.Null = .ok (E.Bool true) ∧
    evalInfix E.Null "!=".toList E.Null = .ok (E.Bool false) ∧
    (∀ xs ys : List E,
      evalInfix (E.Slice xs) "==".toList (E.Slice ys) = .panic ∧
      evalInfix (E.Slice xs) "!=".toList (E.Slice ys) = .panic) ∧
    (∀ p q b c e f,
      evalInfix (E.Fn p b e) "==".toList (E.Fn q c f) = .panic ∧
      evalInfix (E.Fn p b e) "!=".toList (E.Fn q c f) = .panic) ∧
    (∀ f g : BuiltinFn,
      evalInfix (E.Builtin f) "==".toList (E.Builtin g) = .panic ∧
      evalInfix (E.Builtin f) "!=".toList (E.Builtin g) = .panic) ∧
    (∀ n, run (n + 10) "[1] == [1]".toList = .panic) ∧
    (∀ n, run (n + 10) "len == len".toList = .panic) ∧
    (∀ n, run (n + 10) "true == true".toList = .ok (E.Bool true, [])) ∧
    (∀ n, run (n + 10) "false == false".toList = .ok (E.Bool true, [])) ∧
    (∀ n, run (n + 10) "true == false".toList = .ok (E.Bool false, [])) := by
  refine ⟨?_, ?_, ?_, ?_, ?_, ?_, fun n => run_fuel_panic 10 n _ (by decide!),
    fun n => run_fuel_panic 10 n _ (by decide!), fun n => run_fuel 10 n _ _ (by decide!),
    fun n => run_fuel 10 n _ _ (by decide!), fun n => run_fuel 10 n _ _ (by decide!)⟩
  · intro a b
    constructor <;> simp [evalInfix, TypeOf, ifaceEq, staticBool]
  · simp [evalInfix, TypeOf, ifaceEq, staticBool]
  · simp [evalInfix, TypeOf, ifaceEq, staticBool]
  · intro xs ys
    constructor <;> simp [evalInfix, TypeOf, ifaceEq]
  · intro p q b c e f
    constructor <;> simp [evalInfix, TypeOf, ifaceEq]
  · intro f g
    constructor <;> simp [evalInfix, TypeOf, ifaceEq]

/-- C16: for every value `v`, `evalPrefix` with `!` returns the `Bool` of
`not isTruthy v`, where exactly `Null` and `false` are not truthy; so applying
`!` twice gives the `Bool` of `isTruthy v`, and applying it twice more changes
nothing.  An expression with a value `v` that is not an error makes `!!e`
evaluate to the `Bool` of `isTruthy v`. -/
theorem evalPrefix_bang (v : E) :
    evalPrefix "!".toList v = .ok (E.Bool (!isTruthy v)) ∧
    (isTruthy v = false ↔ v = E.Null ∨ v = E.Bool false) ∧
    (evalPrefix "!".toList v >>= evalPrefix "!".toList) = .ok (E.Bool (isTruthy v)) ∧
    (evalPrefix "!".toList v >>= evalPrefix "!".toList >>= evalPrefix "!".toList >>=
      evalPrefix "!".toList) = (evalPrefix "!".toList v >>= evalPrefix "!".toList) ∧
    (∀ k e env h h1, Eval k (.Expr e) env h = .ok (v, h1) → isErr v = false →
      Eval (k + 2) (.Expr (.PrefixExpr "!".toList (.PrefixExpr "!".toList e))) env h =
        .ok (E.Bool (isTruthy v), h1)) ∧
    (∀ n, run (n + 10) "!0".toList = .ok (E.Bool false, [])) ∧
    (∀ n, run (n + 10) "!\"\"".toList = .ok (E.Bool false, [])) ∧
    (∀ n, run (n + 10) "!!5".toList = .ok (E.Bool true, [])) := by
  have key : ∀ w : E, evalPrefix "!".toList w = .ok (E.Bool (!isTruthy w)) := by
    intro w
    cases w with
    | Bool b => cases b <;> simp [evalPrefix, isTruthy]
    | _ => simp [evalPrefix, isTruthy]
  refine ⟨key v, ?_, ?_, ?_, ?_, fun n => run_fuel 10 n _ _ (by decide!),
    fun n => run_fuel 10 n _ _ (by decide!), fun n => run_fuel 10 n _ _ (by decide!)⟩
  · cases v with
    | Bool b => cases b <;> simp [isTruthy]
    | _ => simp [isTruthy]
  · rw [key, Res.ok_bind, key]
    cases isTruthy v <;> simp [isTruthy]
  · rw [key, Res.ok_bind, key, Res.ok_bind, key, Res.ok_bind, key]
    cases isTruthy v <;> simp [isTruthy]
  · intro k e env h h1 he hv
    rw [Eval_PrefixExpr (k + 1), Eval_PrefixExpr k, he]
    simp only [Res.ok_bind, hv, Bool.false_eq_true, if_false, key]
    cases isTruthy v <;> simp [isTruthy, isErr]

/-- Witness of C16: the expression `5`, whose value `Int 5` is truthy. -/
theorem evalPrefix_bang_witness :
    Eval 3 (.Expr (.PrefixExpr "!".toList (.PrefixExpr "!".toList (.Integer 5))))
      (Env.mk none 0) [[]] = .ok (E.Bool (isTruthy (E.Int 5)), [[]]) :=
  (evalPrefix_bang (E.Int 5)).2.2.2.2.1 1 (.Integer 5) (Env.mk none 0) [[]] [[]]
    (by decide!) (by decide)

/-- C17: for a value `v` of type `t`, `evalPrefix` with `-` returns the `Int`
of `-n` wrapped to 64 bits when `v` is `Int n` (exact except for `-2 ^ 63`,
which is its own negation), and the error `unknown operator: -<t>` when `v` is
not an `Int`; `-true` gives `unknown operator: -Bool`. -/
theorem evalPrefix_minus (v : E) (t : EntityType) (hv : TypeOf v = .ok t) :
    (∀ n, v = E.Int n → evalPrefix "-".toList v = .ok (E.Int (wrap64 (-n)))) ∧
    ((∀ n, v ≠ E.Int n) →
      evalPrefix "-".toList v = .ok (E.Error ("unknown operator: -".toList ++ t.String))) ∧
    (∀ n : Int, -2 ^ 63 < n → n < 2 ^ 63 → wrap64 (-n) = -n) ∧
    wrap64 (-(-2 ^ 63)) = -2 ^ 63 ∧
    (∀ n, run (n + 10) "-true".toList = .ok (E.Error "unknown operator: -Bool".toList, [])) ∧
    (∀ n, run (n + 10) "-5".toList = .ok (E.Int (-5), [])) := by
  refine ⟨?_, ?_, ?_, by decide, fun n => run_fuel 10 n _ _ (by decide!),
    fun n => run_fuel 10 n _ _ (by decide!)⟩
  · rintro n rfl
    simp [evalPrefix, TypeOf]
  · intro hn
    have ht : t ≠ EntityType.TypeInt := by
      rintro rfl
      obtain ⟨a, rfl⟩ := TypeOf_Int v hv
      exact hn a rfl
    simp [evalPrefix, hv, ht, newErr]
  · intro n h1 h2
    exact wrap64_of_range _ (by omega) (by omega)

/-- Witness of C17: `Int 5` and `Bool true`. -/
theorem evalPrefix_minus_witness :
    evalPrefix "-".toList (E.Int 5) = .ok (E.Int (wrap64 (-5))) ∧
    evalPrefix "-".toList (E.Bool true) =
      .ok (E.Error ("unknown operator: -".toList ++ EntityType.TypeBool.String)) :=
  ⟨(evalPrefix_minus (E.Int 5) EntityType.TypeInt rfl).1 5 rfl,
   (evalPrefix_minus (E.Bool true) EntityType.TypeBool rfl).2.1 (by simp)⟩

/-- C18: when the condition of an if-expression evaluates to a value `c` that
is not an error, the if-expression evaluates as its consequence block when `c`
is truthy, else as its alternative block when there is one, else to `Null`;
exactly `Null` and `false` are not truthy.  When `c` is an error, that error is
the result, whatever the blocks are. -/
theorem evalIf_semantics (k : Nat) (cond : Expr) (consq alt : BlockStmt) (env : Env)
    (h h1 : Heap) (c : E) (hc : Eval k (.Expr cond) env h = .ok (c, h1)) :
    (isErr c = true →
      Eval (k + 1) (.Expr (.IfExpr cond consq alt)) env h = .ok (c, h1)) ∧
    (isErr c = false → isTruthy c = true →
      Eval (k + 1) (.Expr (.IfExpr cond consq alt)) env h =
        Eval k (.Stmt (.Block consq)) env h1) ∧
    (isErr c = false → isTruthy c = false → alt.OK = true →
      Eval (k + 1) (.Expr (.IfExpr cond consq alt)) env h =
        Eval k (.Stmt (.Block alt)) env h1) ∧
    (isErr c = false → isTruthy c = false → alt.OK = false →
      Eval (k + 1) (.Expr (.IfExpr cond consq alt)) env h = .ok (E.Null, h1)) ∧
    (isTruthy c = false ↔ c = E.Null ∨ c = E.Bool false) ∧
    (∀ n, run (n + 10) "if (0) { 10 }".toList = .ok (E.Int 10, [])) ∧
    (∀ n, run (n + 10) "if (\"\") { 10 } else { 20 }".toList = .ok (E.Int 10, [])) ∧
    (∀ n, run (n + 10) "if (1 > 2) { 10 } else { 20 }".toList = .ok (E.Int 20, [])) ∧
    (∀ n, run (n + 10) "if (false) { 10 }".toList = .ok (E.Null, [])) ∧
    (∀ n, run (n + 10) "if (foo) { 1 / 0 } else { 1 / 0 }".toList =
      .ok (E.Error "identifier not found: foo".toList, [])) := by
  refine ⟨?_, ?_, ?_, ?_, ?_, fun n => run_fuel 10 n _ _ (by decide!),
    fun n => run_fuel 10 n _ _ (by decide!), fun n => run_fuel 10 n _ _ (by decide!),
    fun n => run_fuel 10 n _ _ (by decide!), fun n => run_fuel 10 n _ _ (by decide!)⟩
  · intro he
    simp [Eval_IfExpr, evalIf, hc, he]
  · intro he ht
    simp [Eval_IfExpr, evalIf, hc, he, ht]
  · intro he ht ha
    simp [Eval_IfExpr, evalIf, hc, he, ht, ha]
  · intro he ht ha
    simp [Eval_IfExpr, evalIf, hc, he, ht, ha]
  · cases c with
    | Bool b => cases b <;> simp [isTruthy]
    | _ => simp [isTruthy]

/-- Witness of C18: the condition `false` with an alternative block, and the
condition `0`, which is truthy. -/
theorem evalIf_semantics_witness :
    Eval 2 (.Expr (.IfExpr (.BoolLit false) (NewBlockStmt []) (NewBlockStmt []))) (Env.mk none 0)
        [[]] = Eval 1 (.Stmt (.Block (NewBlockStmt []))) (Env.mk none 0) [[]] ∧
    Eval 2 (.Expr (.IfExpr (.Integer 0) (NewBlockStmt []) BlockStmt.zero)) (Env.mk none 0)
        [[]] = Eval 1 (.Stmt (.Block (NewBlockStmt []))) (Env.mk none 0) [[]] :=
  ⟨(evalIf_semantics 1 (.BoolLit false) (NewBlockStmt []) (NewBlockStmt []) (Env.mk none 0)
      [[]] [[]] (E.Bool false) (by decide!)).2.2.1 (by decide) (by decide) (by decide),
   (evalIf_semantics 1 (.Integer 0) (NewBlockStmt []) BlockStmt.zero (Env.mk none 0)
      [[]] [[]] (E.Int 0) (by decide!)).2.1 (by decide) (by decide)⟩

/-- C19: the argument list of a call and the element list of a slice literal
are evaluated from left to right.  When no expression gives an error, the
values in source order (as many as there are expressions) are the elements of
the slice, and the arguments that `evalFn` receives.  When the expressions
before `e` give no error and `e` gives an error, the slice literal and the call
evaluate to that error, with the heap as `e` left it, whatever expressions
follow `e`: in `[1, foo, 1 / 0]` the division is not evaluated. -/
theorem evalExpressions_left_to_right (k : Nat) (env : Env) (h : Heap) :
    (∀ es vs h1, evalEach (Eval k) es env h = .ok (vs, h1) → (∀ v ∈ vs, isErr v = false) →
      vs.length = es.length ∧
      evalExpressions (Eval k) es [] env h = .ok (vs, h1) ∧
      Eval (k + 1) (.Expr (.Slice es)) env h = .ok (E.Slice vs, h1) ∧
      (∀ fn f h0, Eval k (.Expr fn) env h0 = .ok (f, h) → isErr f = false →
        Eval (k + 1) (.Expr (.CallExpr fn es)) env h0 = evalFn (Eval k) f vs h1)) ∧
    (∀ pre e post vs h1 m h2, evalEach (Eval k) pre env h = .ok (vs, h1) →
      (∀ v ∈ vs, isErr v = false) → Eval k (.Expr e) env h1 = .ok (E.Error m, h2) →
      evalExpressions (Eval k) (pre ++ e :: post) [] env h = .ok ([E.Error m], h2) ∧
      Eval (k + 1) (.Expr (.Slice (pre ++ e :: post))) env h = .ok (E.Error m, h2) ∧
      (∀ fn f h0, Eval k (.Expr fn) env h0 = .ok (f, h) → isErr f = false →
        Eval (k + 1) (.Expr (.CallExpr fn (pre ++ e :: post))) env h0 =
          .ok (E.Error m, h2))) ∧
    (∀ n, run (n + 10) "[1, 2 * 2, 3 + 3]".toList =
      .ok (E.Slice [E.Int 1, E.Int 4, E.Int 6], [])) ∧
    (∀ n, run (n + 10) "[1, foo, 1 / 0]".toList =
      .ok (E.Error "identifier not found: foo".toList, [])) ∧
    (∀ n, run (n + 10) "len(foo, bar, 1 / 0)".toList =
      .ok (E.Error "identifier not found: foo".toList, [])) ∧
    (∀ n, run (n + 10) "[1 / 0, foo]".toList = .panic) := by
  refine ⟨?_, ?_, fun n => run_fuel 10 n _ _ (by decide!),
    fun n => run_fuel 10 n _ _ (by decide!), fun n => run_fuel 10 n _ _ (by decide!),
    fun n => run_fuel_panic 10 n _ (by decide!)⟩
  · intro es vs h1 he hv
    have hx := evalExpressions_all (Eval k) env es h vs h1 [] he hv
    rw [List.nil_append] at hx
    refine ⟨evalEach_length (Eval k) env es h vs h1 he, hx, ?_, ?_⟩
    · rw [Eval_Slice, hx]
      simp only [Res.ok_bind, singleErr_of_clean vs hv]
    · intro fn f h0 hf hfe
      rw [Eval_CallExpr, hf]
      simp only [Res.ok_bind, hfe, Bool.false_eq_true, if_false, hx, singleErr_of_clean vs hv]
  · intro pre e post vs h1 m h2 he hv hm
    have hx := evalExpressions_first_error (Eval k) env e post m h2 pre h vs h1 [] he hv hm
    refine ⟨hx, ?_, ?_⟩
    · rw [Eval_Slice, hx]
      simp [singleErr, isErr]
    · intro fn f h0 hf hfe
      rw [Eval_CallExpr, hf]
      simp only [Res.ok_bind, hfe, Bool.false_eq_true, if_false, hx]
      simp [singleErr, isErr]

/-- Witness of C19: the list `1, 2` evaluates to `Int 1, Int 2`, and in
`1, foo, 2` the identifier `foo` is not found. -/
theorem evalExpressions_left_to_right_witness :
    Eval 2 (.Expr (.Slice [.Integer 1, .Integer 2])) (Env.mk none 0) [[]] =
      .ok (E.Slice [E.Int 1, E.Int 2], [[]]) ∧
    Eval 2 (.Expr (.Slice ([.Integer 1] ++ .Ident "foo".toList :: [.Integer 2])))
      (Env.mk none 0) [[]] = .ok (E.Error "identifier not found: foo".toList, [[]]) :=
  ⟨((evalExpressions_left_to_right 1 (Env.mk none 0) [[]]).1 [.Integer 1, .Integer 2]
      [E.Int 1, E.Int 2] [[]] (by decide!) (by decide)).2.2.1,
   ((evalExpressions_left_to_right 1 (Env.mk none 0) [[]]).2.1 [.Integer 1]
      (.Ident "foo".toList) [.Integer 2] [E.Int 1] [[]] "identifier not found: foo".toList
      [[]] (by decide!) (by decide) (by decide!)).2.1⟩

/-- C20: indexing a slice of `n` elements with `Int i` gives the element at
`i` when `0 ≤ i < n` and `Null` when `i < 0` or `n ≤ i` (so always `Null` on
the empty slice); indexing it with a value that is not an `Int` gives `Null`;
indexing a value of type `t` that is not a slice, a `String` included, gives
the error `index operator not supported for <t>`. -/
theorem evalIndex_semantics (vs : List E) :
    (∀ (n : Nat) (hn : n < vs.length),
      evalIndex (E.Slice vs) (E.Int n) = .ok (vs.get ⟨n, hn⟩)) ∧
    (∀ i : Int, i < 0 ∨ (vs.length : Int) ≤ i →
      evalIndex (E.Slice vs) (E.Int i) = .ok E.Null) ∧
    (∀ i : Int, evalIndex (E.Slice []) (E.Int i) = .ok E.Null) ∧
    (∀ idx ti, TypeOf idx = .ok ti → (∀ i, idx ≠ E.Int i) →
      evalIndex (E.Slice vs) idx = .ok E.Null) ∧
    (∀ left idx tl, TypeOf left = .ok tl → (∀ ws, left ≠ E.Slice ws) →
      evalIndex left idx =
        .ok (E.Error ("index operator not supported for ".toList ++ tl.String))) ∧
    (∀ n, run (n + 10) "[1, 2, 3][1 + 0]".toList = .ok (E.Int 2, [])) ∧
    (∀ n, run (n + 10) "[1, 2, 3][3]".toList = .ok (E.Null, [])) ∧
    (∀ n, run (n + 10) "[1, 2, 3][-1]".toList = .ok (E.Null, [])) ∧
    (∀ n, run (n + 10) "[1, 2, 3][true]".toList = .ok (E.Null, [])) ∧
    (∀ n, run (n + 10) "\"abc\"[0]".toList =
      .ok (E.Error "index operator not supported for String".toList, [])) := by
  refine ⟨?_, ?_, ?_, ?_, ?_, fun n => run_fuel 10 n _ _ (by decide!),
    fun n => run_fuel 10 n _ _ (by decide!), fun n => run_fuel 10 n _ _ (by decide!),
    fun n => run_fuel 10 n _ _ (by decide!), fun n => run_fuel 10 n _ _ (by decide!)⟩
  · intro n hn
    have h1 : ¬ ((n : Int) < 0 ∨ (n : Int) > (vs.length : Int) - 1) := by omega
    simp only [evalIndex, TypeOf, Res.ok_bind, if_neg h1, Int.toNat_ofNat,
      List.getElem?_eq_getElem hn, Res.pure_eq]
    rfl
  · intro i hi
    have h1 : i < 0 ∨ i > (vs.length : Int) - 1 := by omega
    simp only [evalIndex, TypeOf, Res.ok_bind, if_pos h1, Res.pure_eq]
  · intro i
    have h1 : i < 0 ∨ i > (([] : List E).length : Int) - 1 := by
      simp only [List.length_nil]
      omega
    simp only [evalIndex, TypeOf, Res.ok_bind, if_pos h1, Res.pure_eq]
  · intro idx ti hi hn
    cases idx with
    | Int i => exact absurd rfl (hn i)
    | nil => simp [TypeOf] at hi
    | _ => simp [evalIndex, TypeOf]
  · intro left idx tl hl hn
    cases left with
    | Slice ws => exact absurd rfl (hn ws)
    | nil => simp [TypeOf] at hl
    | _ =>
      simp only [TypeOf, Res.ok.injEq] at hl
      subst hl
      simp [evalIndex, TypeOf, newErr]

/-- Witness of C20: the slice `[10, 20]` at `1`, at `2` and at `true`, and the
string `abc` at `0`. -/
theorem evalIndex_semantics_witness :
    evalIndex (E.Slice [E.Int 10, E.Int 20]) (E.Int (1 : Nat)) = .ok (E.Int 20) ∧
    evalIndex (E.Slice [E.Int 10, E.Int 20]) (E.Int 2) = .ok E.Null ∧
    evalIndex (E.Slice [E.Int 10, E.Int 20]) (E.Bool true) = .ok E.Null ∧
    evalIndex (E.String "abc".toList) (E.Int 0) =
      .ok (E.Error ("index operator not supported for ".toList ++
        EntityType.TypeString.String)) :=
  ⟨(evalIndex_semantics [E.Int 10, E.Int 20]).1 1 (by decide),
   (evalIndex_semantics [E.Int 10, E.Int 20]).2.1 2 (by decide),
   (evalIndex_semantics [E.Int 10, E.Int 20]).2.2.2.1 (E.Bool true) EntityType.TypeBool rfl
      (by simp),
   (evalIndex_semantics []).2.2.2.2.1 (E.String "abc".toList) (E.Int 0)
      EntityType.TypeString rfl (by simp)⟩

/-- C21: the builtin `len` returns the error `len only accepts one argument.`
whenever the number of arguments is not one, whatever they are; for one
`String` its number of bytes; for one `Slice` its number of elements; for one
argument of another type `t` the error that names `t`. -/
theorem builtinLen_semantics (args : List E) :
    (args.length ≠ 1 →
      callBuiltin .len args = .ok (E.Error "len only accepts one argument.".toList)) ∧
    (∀ s : Str, callBuiltin .len [E.String s] = .ok (E.Int s.length)) ∧
    callBuiltin .len [E.String []] = .ok (E.Int 0) ∧
    (∀ vs : List E, callBuiltin .len [E.Slice vs] = .ok (E.Int vs.length)) ∧
    (∀ v t, TypeOf v = .ok t → t ≠ EntityType.TypeString → t ≠ EntityType.TypeSlice →
      callBuiltin .len [v] =
        .ok (E.Error ("argument to `len` not supported, got ".toList ++ t.String))) ∧
    (∀ n, run (n + 10) "len(\"Hey Yung Wurld!\")".toList = .ok (E.Int 15, [])) ∧
    (∀ n, run (n + 10) "len(\"\")".toList = .ok (E.Int 0, [])) ∧
    (∀ n, run (n + 10) "len([1, 2, 3])".toList = .ok (E.Int 3, [])) ∧
    (∀ n, run (n + 10) "len(1)".toList =
      .ok (E.Error "argument to `len` not supported, got Int".toList, [])) ∧
    (∀ n, run (n + 10) "len(\"Hey\", \" Yung Wurld!\")".toList =
      .ok (E.Error "len only accepts one argument.".toList, [])) ∧
    (∀ n, run (n + 10) "len(1, 2)".toList =
      .ok (E.Error "len only accepts one argument.".toList, [])) ∧
    (∀ n, run (n + 10) "len()".toList =
      .ok (E.Error "len only accepts one argument.".toList, [])) := by
  refine ⟨?_, fun s => rfl, rfl, fun vs => rfl, ?_, fun n => run_fuel 10 n _ _ (by decide!),
    fun n => run_fuel 10 n _ _ (by decide!), fun n => run_fuel 10 n _ _ (by decide!),
    fun n => run_fuel 10 n _ _ (by decide!), fun n => run_fuel 10 n _ _ (by decide!),
    fun n => run_fuel 10 n _ _ (by decide!), fun n => run_fuel 10 n _ _ (by decide!)⟩
  · intro hn
    match args, hn with
    | [], _ => rfl
    | [v], hn => exact absurd rfl hn
    | _ :: _ :: _, _ => rfl
  · intro v t hv h1 h2
    cases v with
    | nil => simp [TypeOf] at hv
    | String s =>
      simp only [TypeOf, Res.ok.injEq] at hv
      exact absurd hv.symm h1
    | Slice vs =>
      simp only [TypeOf, Res.ok.injEq] at hv
      exact absurd hv.symm h2
    | _ =>
      simp only [TypeOf, Res.ok.injEq] at hv
      subst hv
      simp [callBuiltin, builtinLen, typeName, TypeOf, newErr]

/-- Witness of C21: no argument, and the one argument `Int 1`. -/
theorem builtinLen_semantics_witness :
    callBuiltin .len [] = .ok (E.Error "len only accepts one argument.".toList) ∧
    callBuiltin .len [E.Int 1] =
      .ok (E.Error ("argument to `len` not supported, got ".toList ++
        EntityType.TypeInt.String)) :=
  ⟨(builtinLen_semantics []).1 (by decide),
   (builtinLen_semantics []).2.2.2.2.1 (E.Int 1) EntityType.TypeInt rfl (by decide)
      (by decide)⟩

/-- C28: `token.New` with `TypeLookup` gives the kinds `Let`, `Fn`, `Return`,
`If`, `Else` to the words `let`, `fn`, `return`, `if`, `else`, the kind `Bool`
to `true` and `false`, and the kind `Ident` to every other string, also to one
that starts with a keyword; the literal of the token is always the word. -/
theorem New_lookup (w : Str) :
    token.New TypeLookup "let".toList = ⟨TypeLet, "let".toList⟩ ∧
    token.New TypeLookup "fn".toList = ⟨TypeFn, "fn".toList⟩ ∧
    token.New TypeLookup "return".toList = ⟨TypeReturn, "return".toList⟩ ∧
    token.New TypeLookup "if".toList = ⟨TypeIf, "if".toList⟩ ∧
    token.New TypeLookup "else".toList = ⟨TypeElse, "else".toList⟩ ∧
    token.New TypeLookup "true".toList = ⟨TypeBool, "true".toList⟩ ∧
    token.New TypeLookup "false".toList = ⟨TypeBool, "false".toList⟩ ∧
    (w ∉ keywords → token.New TypeLookup w = ⟨TypeIdent, w⟩) ∧
    (token.New TypeLookup w).Literal = w ∧
    token.New TypeLookup "letter".toList = ⟨TypeIdent, "letter".toList⟩ ∧
    token.New TypeLookup [] = ⟨TypeIdent, []⟩ := by
  refine ⟨by decide, by decide, by decide, by decide, by decide, by decide, by decide, ?_, ?_,
    by decide, by decide⟩
  · intro hw
    simp only [keywords, List.mem_cons, List.mem_singleton, List.not_mem_nil, or_false,
      not_or] at hw
    obtain ⟨h1, h2, h3, h4, h5, h6, h7⟩ := hw
    simp only [token.New, if_true]
    rw [if_neg h1, if_neg h2, if_neg h3, if_neg h4, if_neg h5, if_neg h6, if_neg h7]
  · simp only [token.New, if_true, Token.Literal]
    split_ifs with h1 h2 h3 h4 h5 h6 h7 <;> simp_all

/-- Witness of C28: the word `letter`. -/
theorem New_lookup_witness :
    token.New TypeLookup "letter".toList = ⟨TypeIdent, "letter".toList⟩ :=
  (New_lookup "letter".toList).2.2.2.2.2.2.2.1 (by decide)

/-- C29: at the byte `=` the lexer returns `EQ` with the literal `==` and moves
two bytes on when the next byte is `=`, and otherwise `Assign` with the literal
`=` and moves one byte on; at `!` it returns `NotEQ` with `!=` or `Bang` with
`!` in the same way.  So `===` is `EQ`, `Assign` and `!==` is `NotEQ`,
`Assign`, and a last `=` or `!` of the input is `Assign` or `Bang`, followed by
`EOF`: looking at the next byte does not panic there. -/
theorem NextToken_equals_bang (input : Str) (pos : Nat) :
    ((lexAt input pos).ch = '=' → (lexAt input (pos + 1)).ch = '=' →
      (lexAt input pos).NextToken = .ok (⟨TypeEQ, "==".toList⟩, lexAt input (pos + 2))) ∧
    ((lexAt input pos).ch = '=' → (lexAt input (pos + 1)).ch ≠ '=' →
      (lexAt input pos).NextToken = .ok (⟨TypeAssign, "=".toList⟩, lexAt input (pos + 1))) ∧
    ((lexAt input pos).ch = '!' → (lexAt input (pos + 1)).ch = '=' →
      (lexAt input pos).NextToken = .ok (⟨TypeNotEQ, "!=".toList⟩, lexAt input (pos + 2))) ∧
    ((lexAt input pos).ch = '!' → (lexAt input (pos + 1)).ch ≠ '=' →
      (lexAt input pos).NextToken = .ok (⟨TypeBang, "!".toList⟩, lexAt input (pos + 1))) ∧
    lexer.New input = lexAt input 0 ∧
    lexTokens "===".toList 3 =
      .ok [⟨TypeEQ, "==".toList⟩, ⟨TypeAssign, "=".toList⟩, ⟨TypeEOF, []⟩] ∧
    lexTokens "!==".toList 3 =
      .ok [⟨TypeNotEQ, "!=".toList⟩, ⟨TypeAssign, "=".toList⟩, ⟨TypeEOF, []⟩] ∧
    lexTokens "a =".toList 3 =
      .ok [⟨TypeIdent, "a".toList⟩, ⟨TypeAssign, "=".toList⟩, ⟨TypeEOF, []⟩] ∧
    lexTokens "a !".toList 3 =
      .ok [⟨TypeIdent, "a".toList⟩, ⟨TypeBang, "!".toList⟩, ⟨TypeEOF, []⟩] := by
  refine ⟨?_, ?_, ?_, ?_, New_eq_lexAt input, by decide!, by decide!, by decide!, by decide!⟩
  · intro h1 h2
    obtain ⟨rest, hr⟩ := headD_of_ch input pos _ h1 (by decide)
    rw [ch_succ input pos _ rest hr] at h2
    rw [NextToken_lexAt, hr, lexSpec_equals, if_pos h2]
  · intro h1 h2
    obtain ⟨rest, hr⟩ := headD_of_ch input pos _ h1 (by decide)
    rw [ch_succ input pos _ rest hr] at h2
    rw [NextToken_lexAt, hr, lexSpec_equals, if_neg h2]
  · intro h1 h2
    obtain ⟨rest, hr⟩ := headD_of_ch input pos _ h1 (by decide)
    rw [ch_succ input pos _ rest hr] at h2
    rw [NextToken_lexAt, hr, lexSpec_bang, if_pos h2]
  · intro h1 h2
    obtain ⟨rest, hr⟩ := headD_of_ch input pos _ h1 (by decide)
    rw [ch_succ input pos _ rest hr] at h2
    rw [NextToken_lexAt, hr, lexSpec_bang, if_neg h2]

/-- Witness of C29: the input `===` at its first byte and at its third. -/
theorem NextToken_equals_bang_witness :
    (lexAt "===".toList 0).NextToken = .ok (⟨TypeEQ, "==".toList⟩, lexAt "===".toList 2) ∧
    (lexAt "===".toList 2).NextToken =
      .ok (⟨TypeAssign, "=".toList⟩, lexAt "===".toList 3) :=
  ⟨(NextToken_equals_bang "===".toList 0).1 (by decide) (by decide),
   (NextToken_equals_bang "===".toList 2).2.1 (by decide) (by decide)⟩

/-- C30: at an ASCII letter or `_` the lexer returns the keyword-resolved token
of the longest run of letters and underscores that starts there, and at a digit
the `Int` token of the longest run of digits; the lexer is then at the byte
right after the run, which is not a byte of the run's kind.  Digits are not
letters, so `a1` is `Ident a`, `Int 1`, and `5;` is `Int 5`, `Semicolon`. -/
theorem NextToken_word_number (input : Str) (pos : Nat) :
    (isLetter (lexAt input pos).ch = true →
      (lexAt input pos).NextToken =
        .ok (token.New TypeLookup ((input.drop pos).takeWhile isLetter),
          lexAt input (pos + ((input.drop pos).takeWhile isLetter).length))) ∧
    (isDigit (lexAt input pos).ch = true →
      (lexAt input pos).NextToken =
        .ok (⟨TypeInt, (input.drop pos).takeWhile isDigit⟩,
          lexAt input (pos + ((input.drop pos).takeWhile isDigit).length))) ∧
    (∀ cond : Char → Bool,
      input.drop pos = (input.drop pos).takeWhile cond ++ (input.drop pos).dropWhile cond ∧
      (∀ c ∈ (input.drop pos).takeWhile cond, cond c = true)) ∧
    isLetter (lexAt input (pos + ((input.drop pos).takeWhile isLetter).length)).ch = false ∧
    isDigit (lexAt input (pos + ((input.drop pos).takeWhile isDigit).length)).ch = false ∧
    (∀ c, isDigit c = true → isLetter c = false) ∧
    (∀ c, isLetter c = true ↔ ('a' ≤ c ∧ c ≤ 'z') ∨ ('A' ≤ c ∧ c ≤ 'Z') ∨ c = '_') ∧
    lexTokens "a1".toList 3 =
      .ok [⟨TypeIdent, "a".toList⟩, ⟨TypeInt, "1".toList⟩, ⟨TypeEOF, []⟩] ∧
    lexTokens "5;".toList 3 =
      .ok [⟨TypeInt, "5".toList⟩, ⟨TypeSemicolon, ";".toList⟩, ⟨TypeEOF, []⟩] ∧
    lexTokens "let_x letter".toList 3 =
      .ok [⟨TypeIdent, "let_x".toList⟩, ⟨TypeIdent, "letter".toList⟩, ⟨TypeEOF, []⟩] := by
  refine ⟨?_, ?_, ?_, takeWhile_maximal isLetter (by decide) input pos,
    takeWhile_maximal isDigit (by decide) input pos, fun c hc => (digit_facts c hc).2.2.2.2.2.2.2.2.2.2.2.2.2.2.2.2.2.2.2, ?_,
    by decide!, by decide!, by decide!⟩
  · intro h
    rw [NextToken_lexAt, lexSpec_letter _ h]
  · intro h
    rw [NextToken_lexAt, lexSpec_digit _ h]
    rfl
  · intro cond
    exact ⟨(List.takeWhile_append_dropWhile cond _).symm, fun c hc => List.mem_takeWhile_imp hc⟩
  · intro c
    simp [isLetter, or_assoc]

/-- Witness of C30: the input `a1` at the letter and at the digit. -/
theorem NextToken_word_number_witness :
    (lexAt "a1".toList 0).NextToken = .ok (⟨TypeIdent, "a".toList⟩, lexAt "a1".toList 1) ∧
    (lexAt "a1".toList 1).NextToken = .ok (⟨TypeInt, "1".toList⟩, lexAt "a1".toList 2) :=
  ⟨(NextToken_word_number "a1".toList 0).1 (by decide),
   (NextToken_word_number "a1".toList 1).2.1 (by decide)⟩

/-- Counterexample to C22: the literal `010` is a run of decimal digits that
denotes 10 in base 10, and the handler of `Int` tokens yields the `Integer`
node of value 8; on the literal `08`, which denotes 8, it yields no node and
records an error.  The states are those of the parser at the start of the
sources `010` and `08`. -/
theorem integer_leading_zero_counterexample :
    isDigitRun "010".toList = true ∧ digitsValue 10 "010".toList = 10 ∧
    parser.New (lexer.New "010".toList) =
      .ok ⟨lexAt "010".toList 4, ⟨TypeInt, "010".toList⟩, ⟨TypeEOF, []⟩, []⟩ ∧
    runPrefix (parseExpression 0) 0 .integer
        ⟨lexAt "010".toList 4, ⟨TypeInt, "010".toList⟩, ⟨TypeEOF, []⟩, []⟩ =
      .ok (.Integer 8, ⟨lexAt "010".toList 4, ⟨TypeInt, "010".toList⟩, ⟨TypeEOF, []⟩, []⟩) ∧
    Expr.Integer 8 ≠ Expr.Integer (digitsValue 10 "010".toList) ∧
    isDigitRun "08".toList = true ∧ digitsValue 10 "08".toList = 8 ∧
    runPrefix (parseExpression 0) 0 .integer
        ⟨lexAt "08".toList 3, ⟨TypeInt, "08".toList⟩, ⟨TypeEOF, []⟩, []⟩ =
      .ok (.nil, ⟨lexAt "08".toList 3, ⟨TypeInt, "08".toList⟩, ⟨TypeEOF, []⟩,
        [ParseError.msg "could not parse Int as integer".toList]⟩) := by
  refine ⟨by decide, by decide, by decide!, by decide!, by decide!, by decide, by decide,
    by decide!⟩

/-- C22, amended: for an `Int` token whose literal is a non-empty run of
decimal digits that does not start with `0` and denotes `n ≤ 2 ^ 63 - 1` in
base 10, and for the literal `0`, the handler of `Int` tokens records no error
and yields the `Integer` node of value `n`.  A literal that starts with `0` is
read in base 8 after that `0`: with digits below 8 only and a value
`≤ 2 ^ 63 - 1` it yields that value, so `010` is 8. -/
theorem integer_literal_value (pe : priority → Parser → Res (Expr × Parser)) (n : Nat)
    (p : Parser) (s : Str) (hs : p.ctok = ⟨TypeInt, s⟩) (hd : isDigitRun s = true) :
    (s.head? ≠ some '0' → digitsValue 10 s ≤ 2 ^ 63 - 1 →
      runPrefix pe n .integer p = .ok (.Integer (digitsValue 10 s), p)) ∧
    (s = "0".toList → runPrefix pe n .integer p = .ok (.Integer 0, p)) ∧
    (∀ r, s = '0' :: r → r.all isOctalDigit = true → digitsValue 8 r ≤ 2 ^ 63 - 1 →
      runPrefix pe n .integer p = .ok (.Integer (digitsValue 8 r), p)) ∧
    parseSource "5;".toList = .ok (⟨[.ExprStmt (.Integer 5)]⟩, []) ∧
    parseSource "9223372036854775807".toList =
      .ok (⟨[.ExprStmt (.Integer 9223372036854775807)]⟩, []) ∧
    parseSource "010".toList = .ok (⟨[.ExprStmt (.Integer 8)]⟩, []) := by
  refine ⟨?_, ?_, ?_, by decide!, by decide!, by decide!⟩
  · intro hz hv
    have hlt : digitsValue 10 s < 2 ^ 63 := by omega
    simp only [runPrefix, hs, Token.Literal, ParseInt_decimal s hd hz, if_pos hlt]
  · intro h0
    subst h0
    simp only [runPrefix, hs, Token.Literal]
    rfl
  · intro r hr ho hv
    have hlt : digitsValue 8 r < 2 ^ 63 := by omega
    subst hr
    simp only [runPrefix, hs, Token.Literal, ParseInt_octal r ho, if_pos hlt]

/-- Witness of C22: the literals `42` and `010`. -/
theorem integer_literal_value_witness :
    runPrefix (parseExpression 0) 0 .integer
        ⟨lexAt "42".toList 3, ⟨TypeInt, "42".toList⟩, ⟨TypeEOF, []⟩, []⟩ =
      .ok (.Integer (digitsValue 10 "42".toList),
        ⟨lexAt "42".toList 3, ⟨TypeInt, "42".toList⟩, ⟨TypeEOF, []⟩, []⟩) ∧
    runPrefix (parseExpression 0) 0 .integer
        ⟨lexAt "010".toList 4, ⟨TypeInt, "010".toList⟩, ⟨TypeEOF, []⟩, []⟩ =
      .ok (.Integer (digitsValue 8 "10".toList),
        ⟨lexAt "010".toList 4, ⟨TypeInt, "010".toList⟩, ⟨TypeEOF, []⟩, []⟩) :=
  ⟨(integer_literal_value (parseExpression 0) 0
      ⟨lexAt "42".toList 3, ⟨TypeInt, "42".toList⟩, ⟨TypeEOF, []⟩, []⟩ "42".toList rfl
      (by decide)).1 (by decide) (by decide),
   (integer_literal_value (parseExpression 0) 0
      ⟨lexAt "010".toList 4, ⟨TypeInt, "010".toList⟩, ⟨TypeEOF, []⟩, []⟩ "010".toList rfl
      (by decide)).2.2.1 "10".toList rfl (by decide) (by decide)⟩

/-- Counterexample to C23: the digit run `010000000000000000000` denotes
`10 ^ 19`, which is greater than `2 ^ 63 - 1`, and the handler of `Int` tokens
yields the `Integer` node of value `2 ^ 57` and records no error. -/
theorem integer_overflow_counterexample :
    isDigitRun "010000000000000000000".toList = true ∧
    digitsValue 10 "010000000000000000000".toList = 10 ^ 19 ∧
    2 ^ 63 - 1 < 10 ^ 19 ∧
    runPrefix (parseExpression 0) 0 .integer
        ⟨lexAt "010000000000000000000".toList 22, ⟨TypeInt, "010000000000000000000".toList⟩,
          ⟨TypeEOF, []⟩, []⟩ =
      .ok (.Integer (2 ^ 57),
        ⟨lexAt "010000000000000000000".toList 22, ⟨TypeInt, "010000000000000000000".toList⟩,
          ⟨TypeEOF, []⟩, []⟩) ∧
    parseSource "010000000000000000000".toList =
      .ok (⟨[.ExprStmt (.Integer (2 ^ 57))]⟩, []) := by
  refine ⟨by decide, by decide, by decide, by decide!, by decide!⟩

/-- C23, amended: for an `Int` token whose literal is a non-empty run of
decimal digits that does not start with `0` and denotes a number greater than
`2 ^ 63 - 1` in base 10, the handler of `Int` tokens yields the absent
expression and appends exactly the error `could not parse Int as integer`.
For a literal that starts with `0` the same happens when a digit after that
`0` is 8 or 9, or when the digits after it denote a number greater than
`2 ^ 63 - 1` in base 8. -/
theorem integer_literal_overflow (pe : priority → Parser → Res (Expr × Parser)) (n : Nat)
    (p : Parser) (s : Str) (hs : p.ctok = ⟨TypeInt, s⟩) (hd : isDigitRun s = true) :
    (s.head? ≠ some '0' → 2 ^ 63 - 1 < digitsValue 10 s →
      runPrefix pe n .integer p = .ok (.nil, { p with errs := p.errs ++
        [ParseError.msg "could not parse Int as integer".toList] })) ∧
    (∀ r, s = '0' :: r → r.all isOctalDigit = false ∨ 2 ^ 63 - 1 < digitsValue 8 r →
      runPrefix pe n .integer p = .ok (.nil, { p with errs := p.errs ++
        [ParseError.msg "could not parse Int as integer".toList] })) ∧
    (ParseError.msg "could not parse Int as integer".toList).Error =
      .ok "could not parse Int as integer".toList ∧
    parseSource "9223372036854775808".toList =
      .ok (⟨[.ExprStmt .nil]⟩, ["could not parse Int as integer".toList]) ∧
    parseSource "let x = 99999999999999999999;".toList =
      .ok (⟨[.LetStmt "x".toList .nil]⟩, ["could not parse Int as integer".toList]) := by
  refine ⟨?_, ?_, rfl, by decide!, by decide!⟩
  · intro hz hv
    have hlt : ¬ digitsValue 10 s < 2 ^ 63 := by omega
    simp only [runPrefix, hs, Token.Literal, ParseInt_decimal s hd hz, if_neg hlt, Token.Type,
      TokenType.String, Res.ok_bind, Res.pure_eq]
    rfl
  · intro r hr hbad
    subst hr
    have hdr : r.all isDigit = true := by
      simp only [isDigitRun, Bool.and_eq_true, List.all_cons] at hd
      exact hd.2.2
    have hnone : ParseInt ('0' :: r) = none := by
      by_cases ho : r.all isOctalDigit = true
      · rcases hbad with h1 | h2
        · rw [ho] at h1
          exact Bool.noConfusion h1
        · have hlt : ¬ digitsValue 8 r < 2 ^ 63 := by omega
          rw [ParseInt_octal r ho, if_neg hlt]
      · exact ParseInt_not_octal r hdr (by simpa using ho)
    simp only [runPrefix, hs, Token.Literal, hnone, Token.Type, TokenType.String, Res.ok_bind,
      Res.pure_eq]
    rfl

/-- Witness of C23: the literal `9223372036854775808`, and the literal `08`. -/
theorem integer_literal_overflow_witness :
    runPrefix (parseExpression 0) 0 .integer
        ⟨lexAt "9223372036854775808".toList 20, ⟨TypeInt, "9223372036854775808".toList⟩,
          ⟨TypeEOF, []⟩, []⟩ =
      .ok (.nil, ⟨lexAt "9223372036854775808".toList 20,
        ⟨TypeInt, "9223372036854775808".toList⟩, ⟨TypeEOF, []⟩,
        [] ++ [ParseError.msg "could not parse Int as integer".toList]⟩) ∧
    runPrefix (parseExpression 0) 0 .integer
        ⟨lexAt "08".toList 3, ⟨TypeInt, "08".toList⟩, ⟨TypeEOF, []⟩, []⟩ =
      .ok (.nil, ⟨lexAt "08".toList 3, ⟨TypeInt, "08".toList⟩, ⟨TypeEOF, []⟩,
        [] ++ [ParseError.msg "could not parse Int as integer".toList]⟩) :=
  ⟨(integer_literal_overflow (parseExpression 0) 0
      ⟨lexAt "9223372036854775808".toList 20, ⟨TypeInt, "9223372036854775808".toList⟩,
        ⟨TypeEOF, []⟩, []⟩ "9223372036854775808".toList rfl (by decide)).1 (by decide)
      (by decide),
   (integer_literal_overflow (parseExpression 0) 0
      ⟨lexAt "08".toList 3, ⟨TypeInt, "08".toList⟩, ⟨TypeEOF, []⟩, []⟩ "08".toList rfl
      (by decide)).2.1 "8".toList rfl (Or.inl (by decide))⟩

/-- C27: `String()` of a node whose parts have renderings is built from them:
an infix expression is `(L op R)`, a prefix expression `(opR)`, a call the
callee followed by the arguments joined by `, ` in parentheses, a slice the
elements joined by `, ` in brackets, an index `(L[I])`, a let statement
`let NAME = VALUE;`, a return statement `return VALUE;`, and a block or a
program the renderings of its statements one after the other. -/
theorem String_structural :
    (∀ l op r sl sr, Expr.String l = .ok sl → Expr.String r = .ok sr →
      Expr.String (.InfixExpr l op r) =
        .ok ("(".toList ++ sl ++ " ".toList ++ op ++ " ".toList ++ sr ++ ")".toList)) ∧
    (∀ op r sr, Expr.String r = .ok sr →
      Expr.String (.PrefixExpr op r) = .ok ("(".toList ++ op ++ sr ++ ")".toList)) ∧
    (∀ f args sf sa, Expr.String f = .ok sf → Expr.Strings args = .ok sa →
      Expr.String (.CallExpr f args) =
        .ok (sf ++ "(".toList ++ join sa ", ".toList ++ ")".toList)) ∧
    (∀ vals sv, Expr.Strings vals = .ok sv →
      Expr.String (.Slice vals) = .ok ("[".toList ++ join sv ", ".toList ++ "]".toList)) ∧
    (∀ l i sl si, Expr.String l = .ok sl → Expr.String i = .ok si →
      Expr.String (.Index l i) = .ok ("(".toList ++ sl ++ "[".toList ++ si ++ "])".toList)) ∧
    (∀ name v sv, Expr.String v = .ok sv →
      Statement.String (.LetStmt name v) =
        .ok ("let ".toList ++ name ++ " = ".toList ++ sv ++ ";".toList)) ∧
    (∀ v sv, Expr.String v = .ok sv →
      Statement.String (.RetStmt v) = .ok ("return ".toList ++ sv ++ ";".toList)) ∧
    (∀ v sv, Expr.String v = .ok sv → Statement.String (.ExprStmt v) = .ok sv) ∧
    (∀ ss valid, BlockStmt.String (.mk ss valid) = Statement.Strings ss) ∧
    (∀ ss, Program.String ⟨ss⟩ = Statement.Strings ss) ∧
    Statement.Strings [] = .ok [] ∧
    (∀ s ss a b, Statement.String s = .ok a → Statement.Strings ss = .ok b →
      Statement.Strings (s :: ss) = .ok (a ++ b)) ∧
    Expr.Strings [] = .ok [] ∧
    (∀ e es a b, Expr.String e = .ok a → Expr.Strings es = .ok b →
      Expr.Strings (e :: es) = .ok (a :: b)) ∧
    (∀ sep : Str, join [] sep = []) ∧
    (∀ (a sep : Str), join [a] sep = a) ∧
    (∀ (a b : Str) (rest : List Str) (sep : Str),
      join (a :: b :: rest) sep = a ++ sep ++ join (b :: rest) sep) ∧
    parseToString "let x = add(a, [1, 2][0]); return -x * 2;".toList =
      .ok ("let x = add(a, ([1, 2][0]));return ((-x) * 2);".toList, []) := by
  refine ⟨?_, ?_, ?_, ?_, ?_, ?_, ?_, ?_, ?_, ?_, ?_, ?_, ?_, ?_, ?_, ?_, ?_, by decide!⟩
  · intro l op r sl sr hl hr
    simp [Expr.String, hl, hr]
  · intro op r sr hr
    simp [Expr.String, hr]
  · intro f args sf sa hf ha
    simp [Expr.String, hf, ha]
  · intro vals sv hv
    simp [Expr.String, hv]
  · intro l i sl si hl hi
    simp [Expr.String, hl, hi]
  · intro name v sv hv
    cases v with
    | nil => simp [Expr.String] at hv
    | _ => simp [Statement.String, hv]
  · intro v sv hv
    cases v with
    | nil => simp [Expr.String] at hv
    | _ => simp [Statement.String, hv]
  · intro v sv hv
    cases v with
    | nil => simp [Expr.String] at hv
    | _ => simp [Statement.String, hv]
  · intro ss valid
    simp [BlockStmt.String]
  · intro ss
    rfl
  · simp [Statement.Strings]
  · intro s ss a b ha hb
    simp [Statement.Strings, ha, hb]
  · simp [Expr.Strings]
  · intro e es a b ha hb
    simp [Expr.Strings, ha, hb]
  · intro sep
    simp [join, List.intercalate]
  · intro a sep
    simp [join, List.intercalate]
  · intro a b rest sep
    simp [join, List.intercalate]

/-- Witness of C27: the infix expression `a + 1` and the let statement
`let x = a;`. -/
theorem String_structural_witness :
    Expr.String (.InfixExpr (.Ident "a".toList) "+".toList (.Integer 1)) =
      .ok ("(".toList ++ "a".toList ++ " ".toList ++ "+".toList ++ " ".toList ++ "1".toList ++
        ")".toList) ∧
    Statement.String (.LetStmt "x".toList (.Ident "a".toList)) =
      .ok ("let ".toList ++ "x".toList ++ " = ".toList ++ "a".toList ++ ";".toList) :=
  ⟨String_structural.1 (.Ident "a".toList) "+".toList (.Integer 1) "a".toList "1".toList
      (by decide!) (by decide!),
   String_structural.2.2.2.2.2.1 "x".toList (.Ident "a".toList) "a".toList (by decide!)⟩

/-- C25: a prefix operator `p` among `!`, `-` binds tighter than every binary
operator and looser than a call and an index.  For non-keyword identifiers
`a`, `b`, `c` and every binary operator `op`, the source `pa op b` parses to
`((pa) op b)`, two prefix operators `pqa` (as in `!-a`) to `(p(qa))`, `pa(b)`
to `(pa(b))`, `pa[b]` to `(p(a[b]))` and `a op b[c]` to `(a op (b[c]))`, each
as one expression statement and with no parser error. -/
theorem prefix_precedence (p q a op b c : Str) (hp : p ∈ prefixOperators)
    (hq : q ∈ prefixOperators) (ha : isIdentifier a = true) (hop : op ∈ binaryOperators)
    (hb : isIdentifier b = true) (hc : isIdentifier c = true) :
    (parseSource (p ++ (a ++ ' ' :: (op ++ ' ' :: b))) =
        .ok (⟨[.ExprStmt (.InfixExpr (.PrefixExpr p (.Ident a)) op (.Ident b))]⟩, []) ∧
      parseToString (p ++ (a ++ ' ' :: (op ++ ' ' :: b))) =
        .ok ("((".toList ++ p ++ a ++ ") ".toList ++ op ++ " ".toList ++ b ++ ")".toList, [])) ∧
    (parseSource (p ++ (q ++ a)) =
        .ok (⟨[.ExprStmt (.PrefixExpr p (.PrefixExpr q (.Ident a)))]⟩, []) ∧
      parseToString (p ++ (q ++ a)) =
        .ok ("(".toList ++ p ++ "(".toList ++ q ++ a ++ "))".toList, [])) ∧
    (parseSource (p ++ (a ++ '(' :: (b ++ [')']))) =
        .ok (⟨[.ExprStmt (.PrefixExpr p (.CallExpr (.Ident a) [.Ident b]))]⟩, []) ∧
      parseToString (p ++ (a ++ '(' :: (b ++ [')']))) =
        .ok ("(".toList ++ p ++ a ++ "(".toList ++ b ++ "))".toList, [])) ∧
    (parseSource (p ++ (a ++ '[' :: (b ++ [']']))) =
        .ok (⟨[.ExprStmt (.PrefixExpr p (.Index (.Ident a) (.Ident b)))]⟩, []) ∧
      parseToString (p ++ (a ++ '[' :: (b ++ [']']))) =
        .ok ("(".toList ++ p ++ "(".toList ++ a ++ "[".toList ++ b ++ "]))".toList, [])) ∧
    (parseSource (a ++ ' ' :: (op ++ ' ' :: (b ++ '[' :: (c ++ [']'])))) =
        .ok (⟨[.ExprStmt (.InfixExpr (.Ident a) op (.Index (.Ident b) (.Ident c)))]⟩, []) ∧
      parseToString (a ++ ' ' :: (op ++ ' ' :: (b ++ '[' :: (c ++ [']'])))) =
        .ok ("(".toList ++ a ++ " ".toList ++ op ++ " (".toList ++ b ++ "[".toList ++ c ++
          "]))".toList, [])) ∧
    parseToString "-a * b".toList = .ok ("((-a) * b)".toList, []) ∧
    parseToString "!-a".toList = .ok ("(!(-a))".toList, []) ∧
    parseToString "add(a, b[1], 1, 2, b[3 * 4], add(1 / [1, 2][1]))".toList =
      .ok ("add(a, (b[1]), 1, 2, (b[(3 * 4)]), add((1 / ([1, 2][1]))))".toList, []) :=
  ⟨prefix_binary p a op b hp ha hop hb, prefix_prefix p q a hp hq ha,
    prefix_call p a b hp ha hb, prefix_index p a b hp ha hb, binary_index a op b c ha hop hb hc,
    by decide!, by decide!, by decide!⟩

/-- Witness of C25 on `-a * b`, `!-a`, `-f(x)`, `!a[i]` and `a * b[c]`. -/
theorem prefix_precedence_witness :
    parseToString "-a * b".toList = .ok ("((-a) * b)".toList, []) ∧
    parseToString "!-a".toList = .ok ("(!(-a))".toList, []) ∧
    parseToString "-a(b)".toList = .ok ("(-a(b))".toList, []) ∧
    parseToString "-a[b]".toList = .ok ("(-(a[b]))".toList, []) ∧
    parseToString "a * b[c]".toList = .ok ("(a * (b[c]))".toList, []) :=
  ⟨(prefix_precedence "-".toList "-".toList "a".toList "*".toList "b".toList "c".toList
      (by decide) (by decide) (by decide) (by decide) (by decide) (by decide)).1.2,
   (prefix_precedence "!".toList "-".toList "a".toList "*".toList "b".toList "c".toList
      (by decide) (by decide) (by decide) (by decide) (by decide) (by decide)).2.1.2,
   (prefix_precedence "-".toList "-".toList "a".toList "*".toList "b".toList "c".toList
      (by decide) (by decide) (by decide) (by decide) (by decide) (by decide)).2.2.1.2,
   (prefix_precedence "-".toList "-".toList "a".toList "*".toList "b".toList "c".toList
      (by decide) (by decide) (by decide) (by decide) (by decide) (by decide)).2.2.2.1.2,
   (prefix_precedence "-".toList "-".toList "a".toList "*".toList "b".toList "c".toList
      (by decide) (by decide) (by decide) (by decide) (by decide) (by decide)).2.2.2.2.1.2⟩

/-- C26, as the code behaves: the slice literal `[e1, ..., en]` of one or
more integer literals parses with no parser error to one expression statement
holding the `Slice` node of the `n` values in source order.  The empty literal
`[]` does not: the parser records two errors for it, because the test for an
empty list looks for `)` whatever the closing token is; so `[)` is read as
the empty slice, and the empty argument list of `f()` is read without
error. -/
theorem slice_literal_elements :
    (∀ (x : Str × Int) (ls : List (Str × Int)),
      (∀ y ∈ x :: ls, isDigitRun y.1 = true ∧ ParseInt y.1 = some y.2) →
      parseSource (sliceSource ((x :: ls).map Prod.fst)) =
        .ok (⟨[.ExprStmt (.Slice ((x :: ls).map (fun y => Expr.Integer y.2)))]⟩, []) ∧
      ((x :: ls).map (fun y => Expr.Integer y.2)).length = (x :: ls).length) ∧
    sliceSource [] = "[]".toList ∧
    sliceSource ["1".toList, "2".toList, "3".toList] = "[1, 2, 3]".toList ∧
    parseSource "[]".toList =
      .ok (⟨[.ExprStmt (.Slice [])]⟩, ["no prefix parse function for RBrakt found".toList,
        "expected next token to be RBrakt, got EOF".toList]) ∧
    parseSource "[)".toList = .ok (⟨[.ExprStmt (.Slice [])]⟩, []) ∧
    parseSource "f()".toList = .ok (⟨[.ExprStmt (.CallExpr (.Ident "f".toList) [])]⟩, []) ∧
    parseSource "[1, 2 * 2, 3]".toList =
      .ok (⟨[.ExprStmt (.Slice [.Integer 1, .InfixExpr (.Integer 2) "*".toList (.Integer 2),
        .Integer 3])]⟩, []) := by
  refine ⟨fun x ls hx => ⟨parse_slice_ints x ls hx, by simp⟩, by decide, by decide, by decide!,
    by decide!, by decide!, by decide!⟩

/-- Witness of C26: the literal `[1, 20]`. -/
theorem slice_literal_elements_witness :
    parseSource (sliceSource ([("1".toList, (1 : Int)), ("20".toList, 20)].map Prod.fst)) =
      .ok (⟨[.ExprStmt (.Slice ([("1".toList, (1 : Int)), ("20".toList, 20)].map
        (fun y => Expr.Integer y.2)))]⟩, []) :=
  (slice_literal_elements.1 ("1".toList, 1) [("20".toList, 20)] (by decide)).1

/-- C34: a `Set` on the frame made by `NewEnvWith(parent)` leaves
`parent.Get` of every name as it was, in whatever state of the maps the `Set`
happens, and the frame itself then holds the binding; making the frame does not
change `parent.Get` either.  So `let x = 1; let f = fn(x) { let y = 2; x };
f(5); x` evaluates to `Int 1`, and `y` after the call is the error
`identifier not found: y`. -/
theorem child_Set_keeps_parent (parent : Env) (h : Heap)
    (hvalid : ∀ a ∈ parent.addrs, a < h.length) :
    (∀ (h1 : Heap) (name : Str) (val : E) (r : E × Heap),
        (NewEnvWith parent h).1.Set h1 name val = .ok r →
        ∀ m, parent.Get r.2 m = parent.Get h1 m) ∧
    (∀ (h1 : Heap) (name : Str) (val : E), h.length < h1.length →
        ∃ h2, (NewEnvWith parent h).1.Set h1 name val = .ok (val, h2) ∧
          (NewEnvWith parent h).1.Get h2 name = (val, true)) ∧
    (∀ m, parent.Get (NewEnvWith parent h).2 m = parent.Get h m) ∧
    (∀ n, run (n + 10) "let x = 1; let f = fn(x) { let y = 2; x }; f(5); x".toList =
      .ok (E.Int 1, [])) ∧
    (∀ n, run (n + 10) "let x = 1; let f = fn(x) { let y = 2; x }; f(5); y".toList =
      .ok (E.Error "identifier not found: y".toList, [])) := by
  have hnot : (NewEnvWith parent h).1.store ∉ parent.addrs := by
    intro hin
    exact Nat.lt_irrefl _ (hvalid _ hin)
  refine ⟨?_, ?_, ?_, fun n => run_fuel 10 n _ _ (by decide!),
    fun n => run_fuel 10 n _ _ (by decide!)⟩
  · intro h1 name val r hset m
    exact Set_other_frame _ parent h1 name val r hnot hset m
  · intro h1 name val hlt
    have hlt2 : (NewEnvWith parent h).1.store < h1.length := hlt
    refine ⟨h1.set h.length ((name, val) :: h1.store h.length), ?_, ?_⟩
    · simp only [Env.Set, hlt2, if_true]
      rfl
    · apply Env.Get_of_own
      simp only [NewEnvWith, Env.store]
      rw [Heap.store_set_self _ _ _ hlt]
      simp [Store.get]
  · intro m
    apply Env.Get_congr
    intro a ha
    exact Heap.store_append_left _ _ _ (hvalid a ha)

/-- Witness of C34: the frame of a call made over the fresh environment, in
which `x` is then bound. -/
theorem child_Set_keeps_parent_witness :
    (NewEnv []).1.Get [[], [("x".toList, E.Int 5)]] "x".toList =
      (NewEnv []).1.Get [[], []] "x".toList :=
  (child_Set_keeps_parent (NewEnv []).1 (NewEnv []).2 (by decide)).1 [[], []] "x".toList
    (E.Int 5) (E.Int 5, [[], [("x".toList, E.Int 5)]]) (by decide!) "x".toList

/-- C35, as the code behaves: `return` wraps the value of its expression in a
`Return` also when that value is a `Return` already, which the value of an
if-expression is when its block returned; `evalProgram` and `evalFn` take one
wrapper off.  So the program `return if (true) { return 1; }` evaluates to
`Return (Int 1)`, and the call of a function with that body hands a `Return` to
`len`. -/
theorem return_wrapped_twice :
    (∀ n, run (n + 10) "return if (true) { return 1; }".toList =
      .ok (E.Return (E.Int 1), [])) ∧
    (∀ n, run (n + 12) "len(fn() { return if (true) { return 1; } }())".toList =
      .ok (E.Error "argument to `len` not supported, got Return".toList, [])) ∧
    (∀ n, run (n + 10) "return 1; 2".toList = .ok (E.Int 1, [])) ∧
    (∀ (ev : Evaluator) (s : Statement) (ss : List Statement) (env : Env) (h h1 : Heap) (v : E),
      ev (.Stmt s) env h = .ok (E.Return v, h1) →
      evalProgram ev (s :: ss) E.nil env h = .ok (v, h1)) := by
  refine ⟨fun n => run_fuel 10 n _ _ (by decide!), fun n => run_fuel 12 n _ _ (by decide!),
    fun n => run_fuel 10 n _ _ (by decide!), ?_⟩
  intro ev s ss env h h1 v hev
  simp only [evalProgram, hev, Res.ok_bind]
  rfl

/-- Witness of C35: a statement that evaluates to `Return (Return 1)` makes the
program evaluate to `Return 1`. -/
theorem return_wrapped_twice_witness :
    evalProgram (fun _ _ h => .ok (E.Return (E.Return (E.Int 1)), h))
      [.ExprStmt (.Integer 0)] E.nil (NewEnv []).1 [[]] = .ok (E.Return (E.Int 1), [[]]) :=
  return_wrapped_twice.2.2.2 (fun _ _ h => .ok (E.Return (E.Return (E.Int 1)), h))
    (.ExprStmt (.Integer 0)) [] (NewEnv []).1 [[]] [[]] (E.Return (E.Int 1)) rfl

/-- C36, as the code behaves: the value of a block without statements is the
absent value, and so is the value of a block that ends in a `let`.  An
if-expression that selects such a block and a call of a function with such a
body evaluate to the absent value, and `-`, a binary operator or an index
applied to it dereference nil. -/
theorem empty_block_absent :
    (∀ (ev : Evaluator) (valid : Bool) (env : Env) (h : Heap),
      evalBlock ev (.mk [] valid) env h = .ok (E.nil, h)) ∧
    evalPrefix "-".toList E.nil = .panic ∧
    (∀ op r, evalInfix E.nil op r = .panic) ∧
    (∀ i, evalIndex E.nil i = .panic) ∧
    (∀ n, run (n + 10) "if (true) {}".toList = .ok (E.nil, [])) ∧
    (∀ n, run (n + 10) "fn() {}()".toList = .ok (E.nil, [])) ∧
    (∀ n, run (n + 10) "if (true) { let x = 1; }".toList = .ok (E.nil, [])) ∧
    (∀ n, run (n + 10) "-if (true) {}".toList = .panic) ∧
    (∀ n, run (n + 10) "-fn() {}()".toList = .panic) ∧
    (∀ n, run (n + 10) "if (true) {} + 1".toList = .panic) ∧
    (∀ n, run (n + 10) "fn() {}()[0]".toList = .panic) ∧
    (∀ n, run (n + 10) "if (false) { 1 }".toList = .ok (E.Null, [])) ∧
    parseToString "-if (true) {}".toList = .ok ("(-iftrue )".toList, []) ∧
    parseToString "if (true) {} + 1".toList = .ok ("(iftrue  + 1)".toList, []) := by
  refine ⟨fun _ _ _ _ => rfl, by decide!, fun _ _ => rfl, fun _ => rfl,
    fun n => run_fuel 10 n _ _ (by decide!), fun n => run_fuel 10 n _ _ (by decide!),
    fun n => run_fuel 10 n _ _ (by decide!), fun n => run_fuel_panic 10 n _ (by decide!),
    fun n => run_fuel_panic 10 n _ (by decide!), fun n => run_fuel_panic 10 n _ (by decide!),
    fun n => run_fuel_panic 10 n _ (by decide!), fun n => run_fuel 10 n _ _ (by decide!),
    by decide!, by decide!⟩

/-- C37, as the code behaves: `evalFn` reads `args[i]` for every parameter
index `i`.  With fewer arguments than parameters that read is out of range and
the call panics; with at least as many arguments as parameters every parameter
is bound and the arguments beyond are ignored. -/
theorem evalFn_arguments :
    (∀ (ev : Evaluator) (params : List Str) (body : BlockStmt) (fenv : Env) (args : List E)
        (h : Heap), args.length < params.length →
        evalFn ev (E.Fn params body fenv) args h = .panic) ∧
    (∀ (env : Env) (params : List Str) (args : List E) (h : Heap), env.store < h.length →
        params.length ≤ args.length → ∃ h2, bindParams env params args 0 h = .ok h2) ∧
    (∀ n, run (n + 10) "fn(x) { x }()".toList = .panic) ∧
    (∀ n, run (n + 10) "fn(x, y) { x }(1)".toList = .panic) ∧
    (∀ n, run (n + 10) "fn(x) { x }(1, 2)".toList = .ok (E.Int 1, [])) ∧
    (∀ n, run (n + 10) "fn(x, y) { y }(1, 2)".toList = .ok (E.Int 2, [])) ∧
    parseToString "fn(x) { x }()".toList = .ok ("fn(x) x()".toList, []) := by
  refine ⟨?_, ?_, fun n => run_fuel_panic 10 n _ (by decide!),
    fun n => run_fuel_panic 10 n _ (by decide!), fun n => run_fuel 10 n _ _ (by decide!),
    fun n => run_fuel 10 n _ _ (by decide!), by decide!⟩
  · intro ev params body fenv args h hlt
    have hb : bindParams (NewEnvWith fenv h).1 params args 0 (NewEnvWith fenv h).2 = .panic := by
      apply bindParams_short
      · simp [NewEnvWith, Env.store]
      · omega
      · omega
    simp only [evalFn, hb]
    rfl
  · intro env params args h hlt hle
    exact bindParams_enough env params args 0 h hlt (by omega)

/-- Witness of C37: a function of one parameter called without arguments. -/
theorem evalFn_arguments_witness :
    evalFn (fun _ _ h => .ok (E.Null, h)) (E.Fn ["x".toList] (.mk [] true) (NewEnv []).1) []
      (NewEnv []).2 = .panic :=
  evalFn_arguments.1 (fun _ _ h => .ok (E.Null, h)) ["x".toList] (.mk [] true) (NewEnv []).1 []
    (NewEnv []).2 (by decide)

/-- Counterexample to C31: in the input `"a\x00b" c`, with a zero byte between
`a` and `b`, the bytes between the first quote and the next one are `a`, the
zero byte and `b`; the token returned at the first quote has the literal `a`,
and the lexer goes on at `b`, not after the closing quote: the next tokens are
the identifier `b` and then a string that starts at the second quote. -/
theorem string_counterexample :
    (lexAt "\"a\x00b\" c".toList 0).ch = '"' ∧
    "\"a\x00b\" c".toList.drop 1 = "a\x00b".toList ++ '"' :: " c".toList ∧
    '"' ∉ "a\x00b".toList ∧
    (lexAt "\"a\x00b\" c".toList 0).NextToken =
      .ok (⟨TypeString, "a".toList⟩, lexAt "\"a\x00b\" c".toList 3) ∧
    lexTokens "\"a\x00b\" c".toList 4 =
      .ok [⟨TypeString, "a".toList⟩, ⟨TypeIdent, "b".toList⟩, ⟨TypeString, " c".toList⟩,
        ⟨TypeEOF, []⟩] := by
  refine ⟨by decide, by decide, by decide, by decide!, by decide!⟩

/-- C31, amended: at the byte `"` the lexer returns a `String` token whose
literal is the bytes after that quote up to the next `"` or zero byte, or up to
the end of the input when there is neither.  When the bytes `s` up to the next
`"` hold no zero byte the literal is `s` and the lexer goes on right after the
closing quote; when no `"` and no zero byte follows, the literal is the rest
of the input and the next token is `EOF`.  The bytes are taken as they are: a
backslash and the blanks stay in the literal. -/
theorem NextToken_string (input : Str) (pos : Nat) :
    ((lexAt input pos).ch = '"' →
      (lexAt input pos).NextToken =
        .ok (⟨TypeString, (input.drop (pos + 1)).takeWhile inString⟩,
          lexAt input (pos + ((input.drop (pos + 1)).takeWhile inString).length + 2))) ∧
    (∀ s rest, (lexAt input pos).ch = '"' → input.drop (pos + 1) = s ++ '"' :: rest →
      '"' ∉ s → NUL ∉ s →
      (lexAt input pos).NextToken = .ok (⟨TypeString, s⟩, lexAt input (pos + s.length + 2)) ∧
      input.drop (pos + s.length + 2) = rest) ∧
    ((lexAt input pos).ch = '"' → '"' ∉ input.drop (pos + 1) → NUL ∉ input.drop (pos + 1) →
      (lexAt input pos).NextToken =
        .ok (⟨TypeString, input.drop (pos + 1)⟩, lexAt input (input.length + 1)) ∧
      (lexAt input (input.length + 1)).NextToken =
        .ok (⟨TypeEOF, []⟩, lexAt input (input.length + 2))) ∧
    (∀ c, inString c = true ↔ c ≠ '"' ∧ c ≠ NUL) ∧
    lexTokens "\"a b\" \"c\\n\"".toList 3 =
      .ok [⟨TypeString, "a b".toList⟩, ⟨TypeString, "c\\n".toList⟩, ⟨TypeEOF, []⟩] ∧
    "c\\n".toList = ['c', '\\', 'n'] ∧
    lexTokens "\"\" \"ab".toList 3 =
      .ok [⟨TypeString, []⟩, ⟨TypeString, "ab".toList⟩, ⟨TypeEOF, []⟩] := by
  refine ⟨NextToken_string_at input pos, ?_, ?_, ?_, by decide!, by decide, by decide!⟩
  · intro s rest hq hd h1 h2
    have ht : (input.drop (pos + 1)).takeWhile inString = s := by
      rw [hd]
      exact takeWhile_until inString s _ (inString_of_not_mem s h1 h2)
        (by
          intro c r h
          rw [← (List.cons.inj h).1]
          rfl)
    refine ⟨by rw [NextToken_string_at input pos hq, ht], ?_⟩
    have h3 := drop_of_drop_append hd
    have h4 : input.drop (pos + 1 + s.length + 1) = rest := drop_succ_of_drop_cons h3
    rw [← h4]
    congr 1
    omega
  · intro hq h1 h2
    have ht : (input.drop (pos + 1)).takeWhile inString = input.drop (pos + 1) := by
      have := takeWhile_until inString (input.drop (pos + 1)) []
        (inString_of_not_mem _ h1 h2) (by intro c r h; cases h)
      simpa using this
    obtain ⟨rest, hr⟩ := headD_of_ch input pos _ hq (by decide)
    have hlt : pos < input.length := by
      by_contra hc
      have : input.drop pos = [] := List.drop_eq_nil_of_le (by omega)
      rw [this] at hr
      cases hr
    have hlen : pos + (input.drop (pos + 1)).length + 2 = input.length + 1 := by
      rw [List.length_drop]
      omega
    refine ⟨by rw [NextToken_string_at input pos hq, ht, hlen], ?_⟩
    exact NextToken_end input (input.length + 1) (by omega)
  · intro c
    simp [inString]

/-- Witness of C31: the input `"ab" c` at its first byte, and the unterminated
`"ab`. -/
theorem NextToken_string_witness :
    ((lexAt "\"ab\" c".toList 0).NextToken =
        .ok (⟨TypeString, "ab".toList⟩, lexAt "\"ab\" c".toList 4) ∧
      "\"ab\" c".toList.drop 4 = " c".toList) ∧
    ((lexAt "\"ab".toList 0).NextToken = .ok (⟨TypeString, "ab".toList⟩, lexAt "\"ab".toList 4) ∧
      (lexAt "\"ab".toList 4).NextToken = .ok (⟨TypeEOF, []⟩, lexAt "\"ab".toList 5)) :=
  ⟨(NextToken_string "\"ab\" c".toList 0).2.1 "ab".toList " c".toList (by decide) (by decide)
      (by decide) (by decide),
   (NextToken_string "\"ab".toList 0).2.2.1 (by decide) (by decide) (by decide)⟩

/-- C40: for an input `s` whose bytes are below `0x80`, not zero and not `"`,
the literals of the tokens that `NextToken` returns before the first `EOF`,
one after the other, are the bytes of `s` without the blanks, tabs, newlines
and carriage returns. -/
theorem NextToken_literals (s : Str) (h : ∀ c ∈ s, c.toNat < 128 ∧ c ≠ NUL ∧ c ≠ '"') :
    ∃ ts : List Token, (∀ t ∈ ts, t.Type ≠ TypeEOF) ∧
      lexTokens s (ts.length + 1) = .ok (ts ++ [⟨TypeEOF, []⟩]) ∧
      (ts.map Token.Literal).flatten = s.filter (fun c => !isWhitespace c) := by
  obtain ⟨ts, _, h2, h3, h4⟩ := specTokens_shape s.length s (Nat.le_refl _)
    (fun hn => (h _ hn).2.1 rfl)
  refine ⟨ts, h2, ?_, h4 (fun c hc => ⟨(h c hc).1, (h c hc).2.2⟩)⟩
  rw [lexTokens, New_eq_lexAt, lexN_lexAt, List.drop_zero, h3]
  simp [List.take_append]

/-- Witness of C40: the input `let x_1 = 5 ;` with a tab and a newline in it. -/
theorem NextToken_literals_witness :
    ∃ ts : List Token, (∀ t ∈ ts, t.Type ≠ TypeEOF) ∧
      lexTokens "let\tx_1 = 5\n;".toList (ts.length + 1) = .ok (ts ++ [⟨TypeEOF, []⟩]) ∧
      (ts.map Token.Literal).flatten =
        "let\tx_1 = 5\n;".toList.filter (fun c => !isWhitespace c) :=
  NextToken_literals "let\tx_1 = 5\n;".toList (by decide)

/-- C38: for every input `Parse` returns, and when it returns with no error
recorded the tree has no absent node: every statement of the program, of every
block and of every function body has its expression, and every operand,
condition, callee, argument, element and index in them is an expression other
than nil. -/
theorem Parse_no_absent_node (input : Str) :
    (∃ prog p, parseInput input = .ok (prog, p)) ∧
    (∀ prog p, parseInput input = .ok (prog, p) → p.errs = [] →
      Statement.presentAll prog.Statements = true) ∧
    (∀ x : Expr, x.present = true → x ≠ Expr.nil) := by
  obtain ⟨prog, j, es, hr, hq⟩ := parseInput_reads input
  refine ⟨⟨prog, _, hr⟩, ?_, ?_⟩
  · intro prog2 p2 h2 herr
    rw [hr] at h2
    simp only [Res.ok.injEq, Prod.mk.injEq] at h2
    obtain ⟨h3, h4⟩ := h2
    rw [← h3]
    apply hq
    rw [← h4] at herr
    exact herr
  · intro x hx hn
    rw [hn] at hx
    cases hx

/-- Witness of C38: the source `let x = [1, f(2)][0]; if (x) { -x } else {
fn(a) { a } }` parses without an error, so its tree has no absent node. -/
theorem Parse_no_absent_node_witness :
    Statement.presentAll
      [.LetStmt "x".toList (.Index (.Slice [.Integer 1, .CallExpr (.Ident "f".toList)
          [.Integer 2]]) (.Integer 0)),
        .ExprStmt (.IfExpr (.Ident "x".toList)
          (.mk [.ExprStmt (.PrefixExpr "-".toList (.Ident "x".toList))] true)
          (.mk [.ExprStmt (.Function ["a".toList] (.mk [.ExprStmt (.Ident "a".toList)] true))]
            true))] = true :=
  (Parse_no_absent_node
    "let x = [1, f(2)][0]; if (x) { -x } else { fn(a) { a } }".toList).2.1 _
    (parserAt "let x = [1, f(2)][0]; if (x) { -x } else { fn(a) { a } }".toList 33 [])
    (by decide!) rfl

/-- Counterexample to C33: the byte `0xE9` is none of the bytes the lexer has
a case for; at it the lexer returns an `Illegal` token whose literal is the two
bytes `0xC3 0xA9`, not the byte itself. -/
theorem illegal_counterexample :
    isWhitespace (Char.ofNat 233) = false ∧ Char.ofNat 233 ≠ NUL ∧
    isLetter (Char.ofNat 233) = false ∧ isDigit (Char.ofNat 233) = false ∧
    Char.ofNat 233 ∉ "=!+-*/<>;,()\x7b\x7d[]\"".toList ∧
    (lexAt [Char.ofNat 233] 0).NextToken =
      .ok (⟨TypeIllegal, [Char.ofNat 195, Char.ofNat 169]⟩, lexAt [Char.ofNat 233] 1) ∧
    [Char.ofNat 195, Char.ofNat 169] ≠ [Char.ofNat 233] := by
  refine ⟨by decide, by decide, by decide, by decide, by decide, by decide!, by decide⟩

/-- C33, amended: at a byte `c` that is no blank, not the zero byte, no letter,
digit or underscore and none of `= ! + - * / < > ; , ( ) { } [ ] "`, the lexer
returns an `Illegal` token and moves one byte on; the literal is the byte `c`
when `c` is below `0x80`, and otherwise the two bytes that encode the code
point `c` in UTF-8.  When the statement loop of `Parse` stands at an `Illegal`
token, the parse ends with the error `no prefix parse function for Illegal
found` recorded; so it does for a program that starts with such a byte.  A
statement that starts at an `Illegal` token, at the top level or in a block,
is read as an expression statement without expression and that error is
recorded. -/
theorem NextToken_illegal (c : Char) (hw : isWhitespace c = false) (h0 : c ≠ NUL)
    (hl : isLetter c = false) (hd : isDigit c = false)
    (hp : c ∉ "=!+-*/<>;,()\x7b\x7d[]\"".toList) :
    (∀ input pos, (lexAt input pos).ch = c →
      (lexAt input pos).NextToken =
        .ok (⟨TypeIllegal, byteString c⟩, lexAt input (pos + 1))) ∧
    (c.toNat < 128 → byteString c = [c]) ∧
    (128 ≤ c.toNat →
      byteString c = [Char.ofNat (192 + c.toNat / 64), Char.ofNat (128 + c.toNat % 64)]) ∧
    (∀ (input : Str) (i n : Nat) (ss : List Statement) (e : List ParseError),
      (tokenAt input i).Type = TypeIllegal → input.length ≤ n + i →
      ∃ prog j es, parseLoop (parseExpression (parseFuel input)) n ss (parserAt input i e) =
        .ok (prog, parserAt input j
          (e ++ ParseError.msg "no prefix parse function for Illegal found".toList :: es))) ∧
    (∀ rest, ∃ prog j es, parseInput (c :: rest) =
        .ok (prog, parserAt (c :: rest) j
          (ParseError.msg "no prefix parse function for Illegal found".toList :: es))) ∧
    (∀ (input : Str) (i f : Nat) (e : List ParseError), (tokenAt input i).Type = TypeIllegal →
      ∃ j, parseStatement (parseExpression (f + 1)) (parserAt input i e) =
        .ok (some (.ExprStmt .nil), parserAt input j
          (e ++ [ParseError.msg "no prefix parse function for Illegal found".toList]))) ∧
    parseToString "let x = 1; @ 2".toList =
      .ok ("let x = 1;2".toList, ["no prefix parse function for Illegal found".toList]) ∧
    parseToString "fn() \x7b # \x7d".toList =
      .ok ("fn() ".toList, ["no prefix parse function for Illegal found".toList]) := by
  refine ⟨?_, ?_, ?_, ?_, ?_, ?_, by decide!, by decide!⟩
  · intro input pos hc
    obtain ⟨rest, hr⟩ := headD_of_ch input pos c hc h0
    rw [NextToken_lexAt, hr, lexSpec_illegal c rest hw h0 hl hd hp]
  · intro ha
    simp [byteString, ha]
  · intro ha
    have : ¬ c.toNat < 128 := by omega
    simp [byteString, this]
  · intro input i n ss e ht hn
    exact parseLoop_illegal (parserAt_cursor input) (parseFuel input) n i ss e
      (by simp only [parseFuel]; omega) hn ht
  · intro rest
    have ht : (tokenAt (c :: rest) 0).Type = TypeIllegal := by
      have h := token_step (c :: rest) 0 _ _ _ rfl (lexSpec_illegal c rest hw h0 hl hd hp)
      rw [h.1]
      rfl
    obtain ⟨prog, j, es, hr⟩ := parseLoop_illegal (parserAt_cursor (c :: rest))
      (parseFuel (c :: rest)) (parseFuel (c :: rest)) 0 [] [] (by simp only [parseFuel]; omega)
      (by simp only [parseFuel]; omega) ht
    refine ⟨⟨prog⟩, j, es, ?_⟩
    simp only [parseInput, New_parserAt, Res.ok_bind, Parser.Parse, hr, Res.pure_eq,
      List.nil_append]
  · intro input i f e ht
    obtain ⟨j, _, hs⟩ := parseStatement_illegal (parserAt_cursor input) f i e ht
    exact ⟨j, hs⟩

/-- Witness of C33: the byte `@` at the start of the input `@ 2`. -/
theorem NextToken_illegal_witness :
    (lexAt "@ 2".toList 0).NextToken = .ok (⟨TypeIllegal, byteString '@'⟩, lexAt "@ 2".toList 1) :=
  (NextToken_illegal '@' (by decide) (by decide) (by decide) (by decide) (by decide)).1
    "@ 2".toList 0 (by decide)

/-- C39, as the code behaves: `parseFnParams` takes the literal of the token in
a parameter position as the name of the parameter, whatever the type of the
token is, and records no error: `fn(1) {}` and `fn(+) {}` parse without an
error to functions with the parameters `1` and `+`.  The `let` statement checks
the type of the token in its name position. -/
theorem parseFnParams_any_token :
    (∀ (n : Nat) (p p1 p2 : Parser), p.ntok.Type ≠ TypeRParen → p.nextToken = .ok p1 →
      p1.ntok.Type = TypeRParen → p1.nextToken = .ok p2 →
      parseFnParams n p = .ok ([p.ntok.Literal], p2)) ∧
    parseSource "fn(1) {}".toList =
      .ok (⟨[.ExprStmt (.Function ["1".toList] (.mk [] true))]⟩, []) ∧
    parseSource "fn(+) {}".toList =
      .ok (⟨[.ExprStmt (.Function ["+".toList] (.mk [] true))]⟩, []) ∧
    parseSource "fn(x, 1) { x }".toList =
      .ok (⟨[.ExprStmt (.Function ["x".toList, "1".toList]
        (.mk [.ExprStmt (.Ident "x".toList)] true))]⟩, []) ∧
    lexTokens "fn(1)".toList 3 =
      .ok [⟨TypeFn, "fn".toList⟩, ⟨TypeLParen, "(".toList⟩, ⟨TypeInt, "1".toList⟩] ∧
    parseToString "let 1 = 2".toList =
      .ok ("12".toList, ["expected next token to be Ident, got Int".toList,
        "no prefix parse function for Assign found".toList]) := by
  refine ⟨?_, by decide!, by decide!, by decide!, by decide!, by decide!⟩
  intro n p p1 p2 h1 h2 h3 h4
  have hc := nextToken_ctok p p1 h2
  have hl : parseFnParamsLoop n [p1.ctok.Literal] p1 = .ok ([p1.ctok.Literal], p1) := by
    cases n <;> simp [parseFnParamsLoop, h3]
  rw [hc] at hl
  simp only [parseFnParams, h1, if_false, h2, Res.ok_bind, hl, Parser.peek, h3, ne_eq,
    not_true_eq_false, h4, Res.pure_eq, Bool.not_true, Bool.false_eq_true, hc]

/-- Witness of C39: the parser of `fn(1) {}` at the token `(`, whose next
token is the integer `1`. -/
theorem parseFnParams_any_token_witness :
    parseFnParams 0 (parserAt "fn(1) {}".toList 1 []) =
      .ok ([(parserAt "fn(1) {}".toList 1 []).ntok.Literal], parserAt "fn(1) {}".toList 3 []) :=
  parseFnParams_any_token.1 0 (parserAt "fn(1) {}".toList 1 []) (parserAt "fn(1) {}".toList 2 [])
    (parserAt "fn(1) {}".toList 3 []) (by decide!) (by decide!) (by decide!) (by decide!)

/-- Counterexample to C9: the identifier node with the name `a%d`, which
`ast.NewIdent` builds, is bound nowhere; its evaluation gives the error
`identifier not found: a%!d(MISSING)` and not `identifier not found: a%d`,
because the name is part of the format of `fmt.Sprintf`. -/
theorem ident_percent_counterexample :
    (NewEnv []).1.Get (NewEnv []).2 "a%d".toList = (E.nil, false) ∧
    builtins "a%d".toList = none ∧
    Eval 1 (.Expr (.Ident "a%d".toList)) (NewEnv []).1 (NewEnv []).2 =
      .ok (E.Error "identifier not found: a%!d(MISSING)".toList, [[]]) ∧
    Eval 1 (.Expr (.Ident "a%d".toList)) (NewEnv []).1 (NewEnv []).2 ≠
      .ok (E.Error "identifier not found: a%d".toList, [[]]) := by
  refine ⟨by decide!, by decide!, by decide!, by decide!⟩

/-- C9, amended: evaluating the identifier `n` gives the binding that
`env.Get` finds on the frame chain when there is one; otherwise the builtin of
that name when there is one; otherwise an error, whose message is what
`fmt.Sprintf` makes of the format `identifier not found: n`.  For a name
without the byte `%` that message is `identifier not found: n`; every name
that the lexer reads is a run of letters and underscores and so is of that
kind.  A binding shadows a builtin (`let len = 5; len` is `Int 5`, while `len`
alone is the builtin), and `foo;` in a fresh environment is the error
`identifier not found: foo`. -/
theorem ident_lookup_order (k : Nat) (env : Env) (h : Heap) (n : Str) :
    (∀ v, env.Get h n = (v, true) → Eval (k + 1) (.Expr (.Ident n)) env h = .ok (v, h)) ∧
    (∀ x b, env.Get h n = (x, false) → builtins n = some b →
        Eval (k + 1) (.Expr (.Ident n)) env h = .ok (b, h)) ∧
    (∀ x, env.Get h n = (x, false) → builtins n = none →
        ∃ m, fmt.Sprintf ("identifier not found: ".toList ++ n) = .ok m ∧
          Eval (k + 1) (.Expr (.Ident n)) env h = .ok (E.Error m, h)) ∧
    (∀ x, env.Get h n = (x, false) → builtins n = none → '%' ∉ n →
        Eval (k + 1) (.Expr (.Ident n)) env h =
          .ok (E.Error ("identifier not found: ".toList ++ n), h)) ∧
    (n.all isLetter = true → '%' ∉ n) ∧
    (∀ (input : Str) (i : Nat), (tokenAt input i).Type = TypeIdent →
        '%' ∉ (tokenAt input i).Literal) ∧
    (∀ m, run (m + 10) "let len = 5; len".toList = .ok (E.Int 5, [])) ∧
    (∀ m, run (m + 10) "len".toList = .ok (E.Builtin .len, [])) ∧
    (∀ m, run (m + 10) "foo;".toList =
      .ok (E.Error "identifier not found: foo".toList, [])) := by
  refine ⟨?_, ?_, ?_, ?_, letters_no_percent n, ?_, fun m => run_fuel 10 m _ _ (by decide!),
    fun m => run_fuel 10 m _ _ (by decide!), fun m => run_fuel 10 m _ _ (by decide!)⟩
  · intro v hv
    simp [Eval, hv]
  · intro x b hx hb
    simp [Eval, hx, hb]
  · intro x hx hb
    obtain ⟨m, hm⟩ := Sprintf_ok ("identifier not found: ".toList ++ n)
    refine ⟨m, hm, ?_⟩
    simp only [Eval, hx, hb, hm, Res.ok_bind, newErr]
    rfl
  · intro x hx hb hn
    have hm : fmt.Sprintf ("identifier not found: ".toList ++ n) =
        .ok ("identifier not found: ".toList ++ n) := by
      apply Sprintf_plain
      intro hin
      rcases List.mem_append.mp hin with h1 | h1
      · revert h1
        decide
      · exact hn h1
    simp only [Eval, hx, hb, hm, Res.ok_bind, newErr]
    rfl
  · intro input i ht
    exact letters_no_percent _ (lexSpec_ident_letters _ ht)

/-- Witness of C9: with `len` bound to `Int 5` the identifier `len` evaluates
to `Int 5`, and in an empty frame `foo` is not found. -/
theorem ident_lookup_order_witness :
    Eval 1 (.Expr (.Ident "len".toList)) (Env.mk none 0) [[("len".toList, E.Int 5)]] =
      .ok (E.Int 5, [[("len".toList, E.Int 5)]]) ∧
    Eval 1 (.Expr (.Ident "foo".toList)) (Env.mk none 0) [[]] =
      .ok (E.Error "identifier not found: foo".toList, [[]]) :=
  ⟨(ident_lookup_order 0 (Env.mk none 0) [[("len".toList, E.Int 5)]] "len".toList).1
      (E.Int 5) (by decide!),
   (ident_lookup_order 0 (Env.mk none 0) [[]] "foo".toList).2.2.2.1 E.nil (by decide!)
      (by decide) (by decide)⟩

/-- Counterexample to C32: on the input `a`, which has no zero byte, the call
number `2 ^ 32 + 1` of `NextToken` returns the identifier `a` again when `uint`
has 32 bits, after `2 ^ 32 - 1` calls that returned `EOF`; with 64 bits it is
the call number `2 ^ 64 + 1`.  Every call adds one to `nPos`, also at the end
of the input, and after the wrap-around `readChar` reads the input from its
first byte again. -/
theorem eof_wrap_counterexample :
    NUL ∉ "a".toList ∧
    ulexer.lexTokens 32 "a".toList (2 ^ 32 + 1) =
      .ok (Token.mk TypeIdent "a".toList ::
        (List.replicate (2 ^ 32 - 1) (Token.mk TypeEOF []) ++
          [Token.mk TypeIdent "a".toList])) ∧
    ulexer.lexTokens 64 "a".toList (2 ^ 64 + 1) =
      .ok (Token.mk TypeIdent "a".toList ::
        (List.replicate (2 ^ 64 - 1) (Token.mk TypeEOF []) ++
          [Token.mk TypeIdent "a".toList])) :=
  ⟨by decide, ulexer_wrap_tokens 32 (by decide), ulexer_wrap_tokens 64 (by decide)⟩

/-- C32, amended: for an input `s` without a zero byte the tokens that
`NextToken` returns are at most `len(s)` tokens other than `EOF` followed by
the token `EOF` with the empty literal, as long as the position `nPos` has not
wrapped around: with `uint` of `bits` bits, the first `m` calls return the
first `m` tokens of that sequence for every `m` with
`len(s) + m + 1 < 2 ^ bits`, and none of these calls fails. -/
theorem NextToken_eof_forever (bits : Nat) (s : Str) (h : NUL ∉ s) :
    ∃ ts : List Token, ts.length ≤ s.length ∧ (∀ t ∈ ts, t.Type ≠ TypeEOF) ∧
      ∀ m, s.length + m + 1 < 2 ^ bits →
        ulexer.lexTokens bits s m =
          .ok ((ts ++ List.replicate m (Token.mk TypeEOF [])).take m) := by
  obtain ⟨ts, h1, h2, h3, _⟩ := specTokens_shape s.length s (Nat.le_refl _) h
  refine ⟨ts, h1, h2, ?_⟩
  intro m hm
  obtain ⟨l2, hl⟩ := ulexer_lexN_eq bits s m 0 (by
    rw [Nat.max_eq_left (Nat.zero_le _)]
    exact hm)
  rw [ulexer.lexTokens, ulexer_New_eq bits s (by omega), hl, List.drop_zero, h3]
  rfl

/-- Witness of C32: the input `a b` and `uint` of 64 bits. -/
theorem NextToken_eof_forever_witness :
    ∃ ts : List Token, ts.length ≤ "a b".toList.length ∧ (∀ t ∈ ts, t.Type ≠ TypeEOF) ∧
      ∀ m, "a b".toList.length + m + 1 < 2 ^ 64 →
        ulexer.lexTokens 64 "a b".toList m =
          .ok ((ts ++ List.replicate m (Token.mk TypeEOF [])).take m) :=
  NextToken_eof_forever 64 "a b".toList (by decide)

/-- Counterexample to C24: the source `if (x) { y }` parses without parser
errors and renders as `ifx y`; that text parses without parser errors and
renders as `ifxy`, which is another string.  The source `fn(x) { x }` renders
as `fn(x) x`, whose parse records an error; the string literal `"a b"` renders
as `a b`, which is read as two identifiers.  Statements are rendered with
nothing between them: `a; -b` renders as `a(-b)`, which is read as a call,
`a; [1]` as `a[1]`, which is read as an index, `0; 12` as `012`, which is read
as the number ten, and `a; let x = 1;` as `alet x = 1;`, whose parse records an
error. -/
theorem reparse_counterexample :
    parseToString "if (x) { y }".toList = .ok ("ifx y".toList, []) ∧
    parseToString "ifx y".toList = .ok ("ifxy".toList, []) ∧
    "ifxy".toList ≠ "ifx y".toList ∧
    parseToString "fn(x) { x }".toList = .ok ("fn(x) x".toList, []) ∧
    parseToString "fn(x) x".toList =
      .ok ("x".toList, ["expected next token to be LBrace, got Ident".toList]) ∧
    parseToString "\"a b\"".toList = .ok ("a b".toList, []) ∧
    parseToString "a b".toList = .ok ("ab".toList, []) ∧
    parseToString "a; -b".toList = .ok ("a(-b)".toList, []) ∧
    parseToString "a(-b)".toList = .ok ("a((-b))".toList, []) ∧
    parseToString "a; [1]".toList = .ok ("a[1]".toList, []) ∧
    parseToString "a[1]".toList = .ok ("(a[1])".toList, []) ∧
    parseToString "0; 12".toList = .ok ("012".toList, []) ∧
    parseToString "012".toList = .ok ("10".toList, []) ∧
    parseToString "a; let x = 1;".toList = .ok ("alet x = 1;".toList, []) ∧
    parseToString "alet x = 1;".toList =
      .ok ("aletx1".toList, ["no prefix parse function for Assign found".toList]) := by
  refine ⟨by decide!, by decide!, by decide, by decide!, by decide!, by decide!, by decide!,
    by decide!, by decide!, by decide!, by decide!, by decide!, by decide!, by decide!,
    by decide!⟩

/-- C24, amended: let a source `P` parse without parser errors and let `s` be
the text `Parse(P).String()`.  Call a program readable when it is made of `let`
statements whose name is an identifier and no keyword, `return` statements and
expression statements, over expressions built from identifiers that are no
keywords, integer literals, booleans, the prefix operators `!` and `-`, the
binary operators, calls, slice literals with at least one element and indexes,
and when every expression statement that is not the last one ends in no letter
before a statement that starts with a letter, or in no digit before a statement
that starts with a digit.  If the parsed program is readable, then parsing `s`
records no parser error and gives the same program again, so that the
`String()` of the re-parsed program is `s`.  More generally, if `s` is the
rendering of any readable program `Q`, then parsing `s` records no parser error
and gives `Q`, whose `String()` is `s`: so `1; 2`, which renders as `12`, and the
string literal `"abc"`, which renders as `abc`, keep their text too.  A single
expression statement over such an expression is always readable. -/
theorem reparse_canonical (P s : Str) (prog : Program)
    (hparse : parseSource P = .ok (prog, [])) (hstr : Program.String prog = .ok s) :
    parseToString P = .ok (s, []) ∧
    (readable prog.Statements = true →
      parseSource s = .ok (prog, []) ∧ parseToString s = .ok (s, [])) ∧
    (∀ Q : Program, readable Q.Statements = true → Program.String Q = .ok s →
      parseSource s = .ok (Q, []) ∧ parseToString s = .ok (s, [])) ∧
    (∀ (u : Expr) (r : Str), u.plain = true → Expr.String u = .ok r →
      readable [.ExprStmt u] = true ∧ Program.String ⟨[.ExprStmt u]⟩ = .ok r) ∧
    parseToString "5 * 3 + 2 > 1 == 1 < 2 * 3 + 5".toList =
      .ok ("((((5 * 3) + 2) > 1) == (1 < ((2 * 3) + 5)))".toList, []) ∧
    parseToString "((((5 * 3) + 2) > 1) == (1 < ((2 * 3) + 5)))".toList =
      .ok ("((((5 * 3) + 2) > 1) == (1 < ((2 * 3) + 5)))".toList, []) ∧
    parseToString "return 1; x; 2; return f(a, b)[0]".toList =
      .ok ("return 1;x2return (f(a, b)[0]);".toList, []) ∧
    parseToString "return 1;x2return (f(a, b)[0]);".toList =
      .ok ("return 1;x2return (f(a, b)[0]);".toList, []) := by
  have hall : ∀ Q : Program, readable Q.Statements = true → Program.String Q = .ok s →
      parseSource s = .ok (Q, []) ∧ parseToString s = .ok (s, []) := by
    intro Q hQ hs
    cases Q with
    | mk ss => exact reparse_readable ss hQ s hs
  refine ⟨?_, fun h => hall prog h hstr, hall, ?_, by decide!, by decide!, by decide!,
    by decide!⟩
  · simp only [parseToString, hparse, Res.ok_bind, hstr, Res.pure_eq]
  · intro u r hu hr
    have hprog : Program.String ⟨[.ExprStmt u]⟩ = .ok r := by
      cases u with
      | nil => simp [Expr.plain] at hu
      | _ => simp [Program.String, Statement.Strings, Statement.String, hr]
    refine ⟨?_, hprog⟩
    simp [readable, Statement.plain, hu, hr, Statement.Strings, separate]

/-- Witness of C24: the source `let x = 5; let y = x; y`, whose rendering
`let x = 5;let y = x;y` parses to the same three statements; and the source
`1; 2`, whose rendering `12` is the rendering of the one integer `12`. -/
theorem reparse_canonical_witness :
    (parseSource "let x = 5;let y = x;y".toList =
        .ok (⟨[.LetStmt "x".toList (.Integer 5), .LetStmt "y".toList (.Ident "x".toList),
          .ExprStmt (.Ident "y".toList)]⟩, []) ∧
      parseToString "let x = 5;let y = x;y".toList = .ok ("let x = 5;let y = x;y".toList, [])) ∧
    (parseSource "12".toList = .ok (⟨[.ExprStmt (.Integer 12)]⟩, []) ∧
      parseToString "12".toList = .ok ("12".toList, [])) :=
  ⟨(reparse_canonical "let x = 5; let y = x; y".toList "let x = 5;let y = x;y".toList
      ⟨[.LetStmt "x".toList (.Integer 5), .LetStmt "y".toList (.Ident "x".toList),
        .ExprStmt (.Ident "y".toList)]⟩ (by decide!) (by decide!)).2.1 (by decide!),
   (reparse_canonical "1; 2".toList "12".toList
      ⟨[.ExprStmt (.Integer 1), .ExprStmt (.Integer 2)]⟩ (by decide!) (by decide!)).2.2.1
      ⟨[.ExprStmt (.Integer 12)]⟩ (by decide!) (by decide!)⟩

/-- Counterexample to C4: with the literals `a = 9223372036854775807` and
`b = 1` the adder program evaluates to `Int -9223372036854775808`, not to
`Int 9223372036854775808`: the sum of two `int64` values wraps around.  An
integer outside the `int64` range cannot be written as an argument at all:
with `a = 9223372036854775808` and with `a = -9223372036854775808` the parser
records `could not parse Int as integer` and the evaluation of the program
panics. -/
theorem closure_sum_counterexample :
    run 10 ("let newAdder = fn(x) \x7b return fn(y) \x7b return x + y; \x7d; \x7d; " ++
      "let add = newAdder(9223372036854775807); add(1);").toList =
      .ok (E.Int (-9223372036854775808), []) ∧
    (9223372036854775807 : Int) + 1 ≠ -9223372036854775808 ∧
    parseSource ("let newAdder = fn(x) \x7b return fn(y) \x7b return x + y; \x7d; \x7d; " ++
      "let add = newAdder(9223372036854775808); add(1);").toList =
      .ok (adderTree .nil (.Integer 1), ["could not parse Int as integer".toList]) ∧
    run 12 ("let newAdder = fn(x) \x7b return fn(y) \x7b return x + y; \x7d; \x7d; " ++
      "let add = newAdder(9223372036854775808); add(1);").toList = .panic ∧
    parseSource ("let newAdder = fn(x) \x7b return fn(y) \x7b return x + y; \x7d; \x7d; " ++
      "let add = newAdder(-9223372036854775808); add(1);").toList =
      .ok (adderTree (.PrefixExpr "-".toList .nil) (.Integer 1),
        ["could not parse Int as integer".toList]) ∧
    run 12 ("let newAdder = fn(x) \x7b return fn(y) \x7b return x + y; \x7d; \x7d; " ++
      "let add = newAdder(-9223372036854775808); add(1);").toList = .panic := by
  refine ⟨by decide!, by decide, by decide!, by decide!, by decide!, by decide!⟩

/-- C4, amended: a called `Fn` evaluates its body in the frame made by
`NewEnvWith(&fn.Env)`: a fresh empty store whose parent is the environment
captured by the function literal; the caller's environment is not an argument
of `evalFn` at all.  A name that is not a parameter therefore resolves in the
definition environment.  Hence for all integers `a` and `b` with
`-2 ^ 63 < a, b < 2 ^ 63`, written in decimal, the source `let newAdder = fn(x)
{ return fn(y) { return x + y; }; }; let add = newAdder(a); add(b);` parses
without an error, a negative argument as the prefix operator `-` before a
literal, and evaluates to `Int` of the sum `a + b` reduced modulo `2 ^ 64` into
the `int64` range, which is `a + b` itself when `-2 ^ 63 ≤ a + b < 2 ^ 63`; the
syntax tree with the two integer nodes `a` and `b` does so for all integers; and
`let f = fn() { y }; let g = fn(y) { f() }; g(1)` evaluates to the error
`identifier not found: y`. -/
theorem closure_uses_definition_env :
    (∀ (ev : Evaluator) (ps : List Str) (body : BlockStmt) (fenv : Env) (args : List E)
        (h h2 h3 : Heap) (val : E),
        bindParams (NewEnvWith fenv h).1 ps args 0 (NewEnvWith fenv h).2 = .ok h2 →
        ev (.Stmt (.Block body)) (NewEnvWith fenv h).1 h2 = .ok (val, h3) →
        (∀ v, val ≠ E.Return v) →
        (NewEnvWith fenv h).1.parent = some fenv ∧
        (NewEnvWith fenv h).2.store (NewEnvWith fenv h).1.store = [] ∧
        evalFn ev (E.Fn ps body fenv) args h = .ok (val, h3)) ∧
    (∀ (fenv : Env) (ps : List Str) (args : List E) (h h2 : Heap) (name : Str),
        (∀ a ∈ fenv.addrs, a < h.length) → name ∉ ps →
        bindParams (NewEnvWith fenv h).1 ps args 0 (NewEnvWith fenv h).2 = .ok h2 →
        (NewEnvWith fenv h).1.Get h2 name = fenv.Get h name) ∧
    (∀ (a b : Int) (k : Nat),
        runProgram (k + 8) (adderProgram a b) = .ok (E.Int (wrap64 (a + b)))) ∧
    (∀ (a b : Int) (k : Nat), -2 ^ 63 ≤ a + b → a + b < 2 ^ 63 →
        runProgram (k + 8) (adderProgram a b) = .ok (E.Int (a + b))) ∧
    (∀ (a b : Int), -2 ^ 63 < a → a < 2 ^ 63 → -2 ^ 63 < b → b < 2 ^ 63 →
        parseSource (adderSource a b) = .ok (adderTree (intArg a) (intArg b), []) ∧
        (∀ k, run (k + 9) (adderSource a b) = .ok (E.Int (wrap64 (a + b)), [])) ∧
        (-2 ^ 63 ≤ a + b → a + b < 2 ^ 63 →
          ∀ k, run (k + 9) (adderSource a b) = .ok (E.Int (a + b), []))) ∧
    (∀ (a b : Int), 0 ≤ a → 0 ≤ b →
        adderTree (intArg a) (intArg b) = adderProgram a b) ∧
    adderSource 2 2 = ("let newAdder = fn(x) \x7b return fn(y) \x7b return x + y; \x7d; \x7d; " ++
      "let add = newAdder(2); add(2);").toList ∧
    adderSource (-2) (-3) = ("let newAdder = fn(x) \x7b return fn(y) \x7b return x + y; \x7d; \x7d; " ++
      "let add = newAdder(-2); add(-3);").toList ∧
    (∀ k, run (k + 10) "let f = fn() { y }; let g = fn(y) { f() }; g(1)".toList =
      .ok (E.Error "identifier not found: y".toList, [])) := by
  have hadd : ∀ (a b : Int) (k : Nat),
      runProgram (k + 8) (adderProgram a b) = .ok (E.Int (wrap64 (a + b))) := by
    intro a b k
    simp [runProgram, adderProgram, Eval_Program, Eval_ExprStmt, Eval_Block, Eval_RetStmt,
      Eval_LetStmt, Eval_Integer, Eval_Function, Eval_InfixExpr, Eval_Ident, Eval_CallExpr,
      evalProgram, evalBlock, evalBlockLoop, evalFn, evalExpressions, bindParams, NewEnv,
      NewEnvWith, Env.Set, Env.Get, Store.get, Heap.store, isErr, singleErr, builtins,
      evalInfix, evalIntInfix, TypeOf, valueOf, BlockStmt.stmts, Env.store]
  have hsrc : ∀ (a b : Int), -2 ^ 63 < a → a < 2 ^ 63 → -2 ^ 63 < b → b < 2 ^ 63 →
      parseSource (adderSource a b) = .ok (adderTree (intArg a) (intArg b), []) := by
    intro a b ha0 ha1 hb0 hb1
    obtain ⟨K, hK⟩ := parseInput_adderSource a b ha0 ha1 hb0 hb1
    simp only [parseSource, hK, Res.ok_bind, Parser.Errors, parserAt_errs, errorStrings,
      Res.pure_eq]
  have hrun : ∀ (a b : Int), -2 ^ 63 < a → a < 2 ^ 63 → -2 ^ 63 < b → b < 2 ^ 63 →
      ∀ k, run (k + 9) (adderSource a b) = .ok (E.Int (wrap64 (a + b)), []) := by
    intro a b ha0 ha1 hb0 hb1 k
    have h1 := adderTree_run (intArg a) (intArg b) a b
      (fun n env h => intArg_eval a ha0 ha1 n env h)
      (fun n env h => intArg_eval b hb0 hb1 n env h) k
    simp only [runProgram] at h1
    simp only [run, hsrc a b ha0 ha1 hb0 hb1, Res.ok_bind]
    cases hx : Eval (k + 9) (.Program (adderTree (intArg a) (intArg b))) (NewEnv []).1
        (NewEnv []).2 with
    | ok q =>
      rw [hx] at h1
      obtain ⟨v, hp⟩ := q
      simp only [valueOf, Res.ok.injEq] at h1
      simp only [Res.ok_bind, Res.pure_eq, h1]
    | panic => rw [hx] at h1; cases h1
    | outOfFuel => rw [hx] at h1; cases h1
  refine ⟨?_, ?_, hadd, ?_, ?_, ?_, by decide, by decide,
    fun k => run_fuel 10 k _ _ (by decide!)⟩
  · intro ev ps body fenv args h h2 h3 val hbind hev hval
    refine ⟨rfl, Heap.store_append_new h [], ?_⟩
    simp only [evalFn, hbind, Res.ok_bind, hev]
    cases val with
    | Return v => exact absurd rfl (hval v)
    | _ => rfl
  · intro fenv ps args h h2 name hvalid hfree hbind
    exact frame_free_variable fenv ps args h h2 name hvalid hfree hbind
  · intro a b k hlo hhi
    rw [hadd a b k, wrap64_of_range (a + b) hlo hhi]
  · intro a b ha0 ha1 hb0 hb1
    refine ⟨hsrc a b ha0 ha1 hb0 hb1, hrun a b ha0 ha1 hb0 hb1, ?_⟩
    intro hlo hhi k
    rw [hrun a b ha0 ha1 hb0 hb1 k, wrap64_of_range (a + b) hlo hhi]
  · intro a b ha hb
    have hna : ¬ a < 0 := by omega
    have hnb : ¬ b < 0 := by omega
    simp only [intArg, hna, hnb, if_false, adderTree, adderProgram]

/-- Witness of C4: with `a = 2` and `b = 2` the result is `Int 4`, for the
syntax tree and for the source, and with `a = -2` and `b = -3` the source
evaluates to `Int -5`. -/
theorem closure_uses_definition_env_witness :
    runProgram 8 (adderProgram 2 2) = .ok (E.Int 4) ∧
    run 9 (adderSource 2 2) = .ok (E.Int 4, []) ∧
    run 9 (adderSource (-2) (-3)) = .ok (E.Int (-5), []) :=
  ⟨closure_uses_definition_env.2.2.2.1 2 2 0 (by decide) (by decide),
   (closure_uses_definition_env.2.2.2.2.1 2 2 (by decide) (by decide) (by decide)
      (by decide)).2.2 (by decide) (by decide) 0,
   (closure_uses_definition_env.2.2.2.2.1 (-2) (-3) (by decide) (by decide) (by decide)
      (by decide)).2.2 (by decide) (by decide) 0⟩

end Mmm
